import Mathlib

/-!
# Suffix arrays, LCP arrays and LCP-LR search: a shallow embedding

The Go package `suffixarray` is embedded function by function.  The paged
containers of the external packages `go-bigarray` and `go-bigbitvector` are
modelled as lists: a fresh container holds zeros (Go's zero value), a read or
write outside `[0, Len)` fails with `Err.range`, and an iterator over `[i, j)`
hands out the indices of its range in order and then reports exhaustion.
Unsigned 64-bit arithmetic is arithmetic on `Nat`; the places where the source
can wrap around (`x - 1` at zero, the running bucket offset) reduce modulo
`2 ^ 64` explicitly.
-/

namespace suffixarray

/-! ## Containers -/

/-- Ways in which an operation can fail: an index outside a container
(`range`), a Go run-time panic (`bug`), or the loop budget of a recursive
model function running out (`fuel`). -/
inductive Err where
  | range
  | bug
  | fuel
  deriving DecidableEq, Repr

/-- The constant `placeholder = ^uint64(0)` of `sais.go`. -/
def placeholder : Nat := 2 ^ 64 - 1

/-- Wrap-around decrement of a `uint64`. -/
def dec64 (x : Nat) : Nat := (x + (2 ^ 64 - 1)) % 2 ^ 64

/-- Wrap-around addition of two `uint64`. -/
def add64 (x y : Nat) : Nat := (x + y) % 2 ^ 64

/-- A fresh big array as `makeBigArray` returns it: `n` zero cells. -/
def makeBigArray (n : Nat) : List Nat := List.replicate n 0

/-- The method `BigArray.ValueAt`: read one cell. -/
def ValueAt (ba : List Nat) (index : Nat) : Except Err Nat :=
  match ba[index]? with
  | some v => .ok v
  | none => .error .range

/-- The method `BigArray.SetValueAt`: overwrite one cell. -/
def SetValueAt (ba : List Nat) (index value : Nat) : Except Err (List Nat) :=
  if index < ba.length then .ok (ba.set index value) else .error .range

/-- A bigarray iterator over a suffix array: the indices not yet handed out
form the range `[lo, hi)`.  A forward iterator hands out `lo` next, a reverse
iterator `hi - 1`. -/
structure Iterator where
  lo : Nat
  hi : Nat
  deriving DecidableEq, Repr

/-! ## Text (`text.go`) -/

/-- The struct `Text`: alphabet size `ab` and the symbols `ba`. -/
structure Text where
  ab : Nat
  ba : List Nat
  deriving DecidableEq, Repr

/-- The method `Text.Len`. -/
def Text.Len (text : Text) : Nat := text.ba.length

/-- The method `Text.AlphabetSize`. -/
def Text.AlphabetSize (text : Text) : Nat := text.ab

/-- The method `Text.SymbolAt`. -/
def Text.SymbolAt (text : Text) (index : Nat) : Except Err Nat := ValueAt text.ba index

/-- The helper `NewTextFromString` of the tests: a byte text. -/
def NewTextFromString (str : List Nat) : Text := ⟨256, str⟩

/-! ## Type map (`typemap.go`) -/

/-- The constant `SType`. -/
def SType : Bool := false

/-- The constant `LType`. -/
def LType : Bool := true

/-- The struct `TypeMap`: one bit per text position and one for the end. -/
abbrev TypeMap := List Bool

/-- The method `TypeMap.TypeAt`. -/
def TypeMap.TypeAt (typeMap : TypeMap) (index : Nat) : Except Err Bool :=
  match typeMap[index]? with
  | some b => .ok b
  | none => .error .range

/-- The method `TypeMap.IsLMS`. -/
def TypeMap.IsLMS (typeMap : TypeMap) (index : Nat) : Except Err Bool :=
  if index < 1 then .ok false
  else
    match typeMap[index - 1]? with
    | none => .error .range
    | some a =>
      match typeMap[index]? with
      | none => .error .range
      | some b => .ok (b == SType && a == LType)

/-- The loop of `LMSSubstringsAreEqual`, one iteration per unit of budget,
`k` being the loop variable. -/
def lmsEqLoop (typeMap : TypeMap) (text : Text) (i j : Nat) : Nat → Nat → Except Err Bool
  | 0, _ => .error .fuel
  | fuel + 1, k =>
    match typeMap.IsLMS (i + k) with
    | .error e => .error e
    | .ok lmsI =>
      match typeMap.IsLMS (j + k) with
      | .error e => .error e
      | .ok lmsJ =>
        if k > 0 && lmsI && lmsJ then .ok true
        else if lmsI != lmsJ then .ok false
        else
          match text.SymbolAt (i + k) with
          | .error e => .error e
          | .ok symI =>
            match text.SymbolAt (j + k) with
            | .error e => .error e
            | .ok symJ =>
              if symI != symJ then .ok false
              else lmsEqLoop typeMap text i j fuel (k + 1)

/-- The method `TypeMap.LMSSubstringsAreEqual`.  Every iteration reads the
type bit at `i + k`, which fails beyond the end of the map, so a budget of
`2 + Len` iterations is never used up. -/
def TypeMap.LMSSubstringsAreEqual (typeMap : TypeMap) (text : Text) (i j : Nat) : Except Err Bool :=
  let n := text.Len
  if i ≥ n ∨ j ≥ n then .ok (i == j)
  else lmsEqLoop typeMap text i j (2 + n) 0

/-- The struct `TypeMapIterator`: `nxt` is the index the underlying bit-vector
iterator hands out next (its current index is `nxt - 1`), `stop` the end of
its range. -/
structure TypeMapIterator where
  bv : List Bool
  nxt : Nat
  stop : Nat
  last : Bool
  primed : Bool
  deriving DecidableEq, Repr

/-- The method `TypeMap.Iterate`. -/
def TypeMap.Iterate (typeMap : TypeMap) (i j : Nat) : TypeMapIterator :=
  ⟨typeMap, i, j, false, false⟩

/-- The method `Bit` of the underlying iterator: the bit at the current
index. -/
def TypeMapIterator.implBit (iter : TypeMapIterator) : Bool := iter.bv.getD (iter.nxt - 1) false

/-- The method `Skip` of the underlying iterator: advance by `n` items. -/
def TypeMapIterator.implSkip (iter : TypeMapIterator) (n : Nat) : Bool × TypeMapIterator :=
  if n = 0 then (true, iter)
  else if iter.nxt + n - 1 < iter.stop ∧ iter.nxt + n - 1 < iter.bv.length then
    (true, { iter with nxt := iter.nxt + n })
  else (false, { iter with nxt := iter.stop })

/-- The method `TypeMapIterator.Skip`. -/
def TypeMapIterator.Skip (iter : TypeMapIterator) (n : Nat) : Bool × TypeMapIterator :=
  if n = 1 ∧ iter.primed = true then
    ({ iter with last := iter.implBit }).implSkip 1
  else if n = 1 then
    ({ iter with last := SType, primed := true }).implSkip 1
  else if n > 1 then
    match iter.implSkip (n - 1) with
    | (false, it) => (false, it)
    | (true, it) => ({ it with last := it.implBit, primed := true }).implSkip 1
  else iter.implSkip n

/-- The method `TypeMapIterator.Next`. -/
def TypeMapIterator.Next (iter : TypeMapIterator) : Bool × TypeMapIterator := iter.Skip 1

/-- The method `TypeMapIterator.Index`. -/
def TypeMapIterator.Index (iter : TypeMapIterator) : Nat := iter.nxt - 1

/-- The method `TypeMapIterator.Type`. -/
def TypeMapIterator.Type (iter : TypeMapIterator) : Bool := iter.implBit

/-- The method `TypeMapIterator.IsLMS`. -/
def TypeMapIterator.IsLMS (iter : TypeMapIterator) : Bool :=
  iter.last == LType && iter.Type == SType

/-- One pass of the reverse scan of `BuildTypeMap` after its first: the state
is `(lastType, lastSymbol, bits written so far)`. -/
def typeStep (st : Bool × Nat × List Bool) (thisSymbol : Nat) : Bool × Nat × List Bool :=
  let bit :=
    if thisSymbol > st.2.1 then LType
    else if thisSymbol = st.2.1 then st.1
    else SType
  (bit, thisSymbol, bit :: st.2.2)

/-- The function `BuildTypeMap`: position `n` is S, position `n - 1` is L, and
the reverse scan over the text fills in the rest. -/
def BuildTypeMap (text : Text) : TypeMap :=
  match text.ba.reverse with
  | [] => [SType]
  | lastSymbol :: rest => (rest.foldl typeStep (LType, lastSymbol, [LType, SType])).2.2

/-! ## Buckets (`buckets.go`) -/

/-- The loop of `BuildBucketSizes`: `out[symbol]++` for every symbol; indexing
the slice beyond its length panics. -/
def bucketSizesLoop : List Nat → List Nat → Except Err (List Nat)
  | [], out => .ok out
  | symbol :: rest, out =>
    match out[symbol]? with
    | none => .error .bug
    | some c => bucketSizesLoop rest (out.set symbol (add64 c 1))

/-- The function `BuildBucketSizes`. -/
def BuildBucketSizes (text : Text) : Except Err (List Nat) :=
  bucketSizesLoop text.ba (List.replicate text.AlphabetSize 0)

/-- The loop of `BuildBucketHeads` with running `offset`. -/
def bucketHeadsLoop : Nat → List Nat → List Nat
  | _, [] => []
  | offset, count :: rest => offset :: bucketHeadsLoop (add64 offset count) rest

/-- The function `BuildBucketHeads`. -/
def BuildBucketHeads (bucketSizes : List Nat) : List Nat := bucketHeadsLoop 1 bucketSizes

/-- The loop of `BuildBucketTails` with running `offset`. -/
def bucketTailsLoop : Nat → List Nat → List Nat
  | _, [] => []
  | offset, count :: rest => dec64 (add64 offset count) :: bucketTailsLoop (add64 offset count) rest

/-- The function `BuildBucketTails`. -/
def BuildBucketTails (bucketSizes : List Nat) : List Nat := bucketTailsLoop 1 bucketSizes

/-- The loop shared by `BuildBucketHeadIterators` and
`BuildBucketTailIterators`: one iterator over `[offset, offset + count)` per
symbol. -/
def bucketItersLoop : Nat → List Nat → List Iterator
  | _, [] => []
  | offset, count :: rest => ⟨offset, add64 offset count⟩ :: bucketItersLoop (add64 offset count) rest

/-- The function `BuildBucketHeadIterators` (forward iterators). -/
def BuildBucketHeadIterators (bucketSizes : List Nat) : List Iterator := bucketItersLoop 1 bucketSizes

/-- The function `BuildBucketTailIterators` (reverse iterators). -/
def BuildBucketTailIterators (bucketSizes : List Nat) : List Iterator := bucketItersLoop 1 bucketSizes

/-! ## SA-IS (`sais.go`) -/

/-- The method `SuffixArray.Clear` on a fresh array of `n` cells: every cell
holds `placeholder`. -/
def clearedSA (n : Nat) : List Nat := List.replicate n placeholder

/-- The loop of `guessLMSSort`: `remaining` items are left in the text
iterator, `i` is the index it hands out next.  An LMS position is written at
the next free slot from the tail of the bucket of its symbol; an exhausted
bucket iterator leaves the loop. -/
def guessLoop (text : Text) :
    Nat → Nat → TypeMapIterator → List Iterator → List Nat → Except Err (List Nat)
  | 0, _, _, _, sa => .ok sa
  | remaining + 1, i, typeIter, bucketIters, sa =>
    match typeIter.Next with
    | (false, _) => .ok sa
    | (true, typeIter1) =>
      if typeIter1.IsLMS then
        match bucketIters[text.ba.getD i 0]? with
        | none => .error .bug
        | some tail =>
          if tail.lo < tail.hi then
            guessLoop text remaining (i + 1) typeIter1
              (bucketIters.set (text.ba.getD i 0) ⟨tail.lo, tail.hi - 1⟩)
              (sa.set (tail.hi - 1) i)
          else .ok sa
      else guessLoop text remaining (i + 1) typeIter1 bucketIters sa

/-- The function `guessLMSSort`. -/
def guessLMSSort (text : Text) (typeMap : TypeMap) (bucketSizes : List Nat) :
    Except Err (List Nat) :=
  match SetValueAt (clearedSA (text.Len + 1)) 0 text.Len with
  | .error e => .error e
  | .ok sa =>
    guessLoop text text.Len 0 (typeMap.Iterate 0 text.Len)
      (BuildBucketTailIterators bucketSizes) sa

/-- The loop of `induceSortL`: `remaining` items are left in the forward
iterator over the suffix array, `i` is the index it hands out next.  The
iterator reads the cell as it is when it reaches it, so it sees what the
bucket iterators have written earlier in the loop. -/
def induceLLoop (text : Text) (typeMap : TypeMap) :
    Nat → Nat → List Iterator → List Nat → Except Err (List Nat)
  | 0, _, _, sa => .ok sa
  | remaining + 1, i, bucketIters, sa =>
    if sa.getD i 0 = 0 ∨ sa.getD i 0 = placeholder then
      induceLLoop text typeMap remaining (i + 1) bucketIters sa
    else
      match typeMap.TypeAt (sa.getD i 0 - 1) with
      | .error e => .error e
      | .ok bit =>
        if bit = SType then induceLLoop text typeMap remaining (i + 1) bucketIters sa
        else
          match text.SymbolAt (sa.getD i 0 - 1) with
          | .error e => .error e
          | .ok symbol =>
            match bucketIters[symbol]? with
            | none => .error .bug
            | some iter =>
              if iter.lo < iter.hi then
                induceLLoop text typeMap remaining (i + 1)
                  (bucketIters.set symbol ⟨iter.lo + 1, iter.hi⟩)
                  (sa.set iter.lo (sa.getD i 0 - 1))
              else .ok sa

/-- The function `induceSortL`. -/
def induceSortL (text : Text) (typeMap : TypeMap) (bucketSizes : List Nat) (sa : List Nat) :
    Except Err (List Nat) :=
  induceLLoop text typeMap sa.length 0 (BuildBucketHeadIterators bucketSizes) sa

/-- The loop of `induceSortR`: the reverse iterator over the suffix array has
`remaining` items left and hands out index `remaining - 1` next; like the
forward one it reads the cell as it is when it reaches it. -/
def induceRLoop (text : Text) (typeMap : TypeMap) :
    Nat → List Iterator → List Nat → Except Err (List Nat)
  | 0, _, sa => .ok sa
  | i + 1, bucketIters, sa =>
    if sa.getD i 0 = 0 ∨ sa.getD i 0 = placeholder then
      induceRLoop text typeMap i bucketIters sa
    else
      match typeMap.TypeAt (sa.getD i 0 - 1) with
      | .error e => .error e
      | .ok bit =>
        if bit = LType then induceRLoop text typeMap i bucketIters sa
        else
          match text.SymbolAt (sa.getD i 0 - 1) with
          | .error e => .error e
          | .ok symbol =>
            match bucketIters[symbol]? with
            | none => .error .bug
            | some iter =>
              if iter.lo < iter.hi then
                induceRLoop text typeMap i
                  (bucketIters.set symbol ⟨iter.lo, iter.hi - 1⟩)
                  (sa.set (iter.hi - 1) (sa.getD i 0 - 1))
              else .ok sa

/-- The function `induceSortR`. -/
def induceSortR (text : Text) (typeMap : TypeMap) (bucketSizes : List Nat) (sa : List Nat) :
    Except Err (List Nat) :=
  induceRLoop text typeMap sa.length (BuildBucketTailIterators bucketSizes) sa

/-- The first loop of `summarize` (the callback of `sa.ForEach`): the state
is `(currentName, lastLMSSuffixOffset, lmsNames)`. -/
def nameLoop (text : Text) (typeMap : TypeMap) :
    List Nat → Nat → Nat × Nat × List Nat → Except Err (Nat × Nat × List Nat)
  | [], _, st => .ok st
  | pos :: rest, index, (currentName, lastOffset, lmsNames) =>
    if index = 0 then
      match SetValueAt lmsNames pos currentName with
      | .error e => .error e
      | .ok names => nameLoop text typeMap rest (index + 1) (currentName, pos, names)
    else
      match typeMap.IsLMS pos with
      | .error e => .error e
      | .ok false => nameLoop text typeMap rest (index + 1) (currentName, lastOffset, lmsNames)
      | .ok true =>
        match typeMap.LMSSubstringsAreEqual text lastOffset pos with
        | .error e => .error e
        | .ok eq =>
          match SetValueAt lmsNames pos (if eq then currentName else currentName + 1) with
          | .error e => .error e
          | .ok names =>
            nameLoop text typeMap rest (index + 1)
              (if eq then currentName else currentName + 1, pos, names)

/-- The second loop of `summarize` (the callback of `lmsNames.ForEach`): the
names that are not `placeholder`, with their indices, in index order. -/
def extractLoop : List Nat → Nat → List Nat × List Nat
  | [], _ => ([], [])
  | name :: rest, index =>
    if name = placeholder then extractLoop rest (index + 1)
    else (name :: (extractLoop rest (index + 1)).1, index :: (extractLoop rest (index + 1)).2)

/-- The function `summarize`: the summary text and the text offset of each of
its symbols. -/
def summarize (text : Text) (typeMap : TypeMap) (sa : List Nat) : Except Err (Text × List Nat) :=
  match nameLoop text typeMap sa 0 (0, 0, clearedSA (text.Len + 1)) with
  | .error e => .error e
  | .ok (currentName, _, lmsNames) =>
    .ok (⟨currentName + 1, (extractLoop lmsNames 0).1⟩, (extractLoop lmsNames 0).2)

/-- The callback of `summaryText.ForEach` in `buildSummarySuffixArray`:
`ssa[symbol + 1] = stringIndex`. -/
def directLoop : List Nat → Nat → List Nat → Except Err (List Nat)
  | [], _, ssa => .ok ssa
  | symbol :: rest, stringIndex, ssa =>
    match SetValueAt ssa (symbol + 1) stringIndex with
    | .error e => .error e
    | .ok ssa1 => directLoop rest (stringIndex + 1) ssa1

/-- The callback of `summarySuffixArray.ReverseForEach` in `exactLMSSort`:
index `index` holds `metapos`; the state is `(bucketTails, sa)`. -/
def exactLoop (text : Text) (summarySuffixArray summarySuffixOffsets : List Nat) :
    Nat → List Nat → List Nat → Except Err (List Nat)
  | 0, _, sa => .ok sa
  | index + 1, bucketTails, sa =>
    if index = 0 ∨ index = 1 then
      exactLoop text summarySuffixArray summarySuffixOffsets index bucketTails sa
    else
      match ValueAt summarySuffixOffsets (summarySuffixArray.getD index 0) with
      | .error e => .error e
      | .ok stringIndex =>
        match text.SymbolAt stringIndex with
        | .error e => .error e
        | .ok sym =>
          match bucketTails[sym]? with
          | none => .error .bug
          | some tail =>
            match SetValueAt sa tail stringIndex with
            | .error e => .error e
            | .ok sa1 =>
              exactLoop text summarySuffixArray summarySuffixOffsets index
                (bucketTails.set sym (dec64 tail)) sa1

/-- The function `exactLMSSort`. -/
def exactLMSSort (text : Text) (bucketSizes : List Nat)
    (summarySuffixArray summarySuffixOffsets : List Nat) : Except Err (List Nat) :=
  match SetValueAt (clearedSA (text.Len + 1)) 0 text.Len with
  | .error e => .error e
  | .ok sa =>
    exactLoop text summarySuffixArray summarySuffixOffsets summarySuffixArray.length
      (BuildBucketTails bucketSizes) sa

/-- The function `buildSummarySuffixArray`; `build` is `BuildSuffixArray`, to
which it recurs when some name occurs twice. -/
def buildSummarySuffixArray (build : Text → Except Err (List Nat)) (summaryText : Text) :
    Except Err (List Nat) :=
  if summaryText.Len = summaryText.AlphabetSize then
    match SetValueAt (makeBigArray (summaryText.Len + 1)) 0 summaryText.Len with
    | .error e => .error e
    | .ok ssa => directLoop summaryText.ba 0 ssa
  else build summaryText

/-- The function `BuildSuffixArray` with a budget for the depth of its
recursion through `buildSummarySuffixArray`. -/
def BuildSuffixArrayFuel : Nat → Text → Except Err (List Nat)
  | 0, _ => .error .fuel
  | fuel + 1, text =>
    if text.Len = 0 then .ok [0]
    else if text.Len = 1 then .ok [1, 0]
    else
      match BuildBucketSizes text with
      | .error e => .error e
      | .ok bucketSizes =>
      match guessLMSSort text (BuildTypeMap text) bucketSizes with
      | .error e => .error e
      | .ok guessed =>
      match induceSortL text (BuildTypeMap text) bucketSizes guessed with
      | .error e => .error e
      | .ok guessed1 =>
      match induceSortR text (BuildTypeMap text) bucketSizes guessed1 with
      | .error e => .error e
      | .ok guessed2 =>
      match summarize text (BuildTypeMap text) guessed2 with
      | .error e => .error e
      | .ok (summaryText, summarySuffixOffsets) =>
      match buildSummarySuffixArray (BuildSuffixArrayFuel fuel) summaryText with
      | .error e => .error e
      | .ok summarySuffixArray =>
      match exactLMSSort text bucketSizes summarySuffixArray summarySuffixOffsets with
      | .error e => .error e
      | .ok exact =>
      match induceSortL text (BuildTypeMap text) bucketSizes exact with
      | .error e => .error e
      | .ok exact1 => induceSortR text (BuildTypeMap text) bucketSizes exact1

/-- The function `BuildSuffixArray`.  The summary text is at most half as long
as the text, so a recursion budget of `1 + Len` is never used up. -/
def BuildSuffixArray (text : Text) : Except Err (List Nat) :=
  BuildSuffixArrayFuel (1 + text.Len) text

/-- Lexicographic "less than" on symbol sequences, a proper initial segment
being smaller: the order of Go's `sort.Strings`, and the order of suffixes
when the end of the text is smaller than every symbol. -/
def lexLt : List Nat → List Nat → Bool
  | [], [] => false
  | [], _ :: _ => true
  | _ :: _, [] => false
  | a :: as, b :: bs => a < b || (a == b && lexLt as bs)

/-- The function `NaiveBuildSuffixArray` of the tests: sort the `n + 1`
suffixes (the empty one included) and return the start offset of each. -/
def NaiveBuildSuffixArray (text : List Nat) : List Nat :=
  (((List.range (text.length + 1)).map (fun i => text.drop i)).insertionSort
    (fun a b => lexLt b a = false)).map (fun suffix => text.length - suffix.length)

/-! ## LCP array (`lcparray.go`) -/

/-- The callback of `sa.ForEach` in `BuildLCPArray`: `rankArray[pos] = index`. -/
def rankLoop : List Nat → Nat → List Nat → Except Err (List Nat)
  | [], _, rankArray => .ok rankArray
  | pos :: rest, index, rankArray =>
    match SetValueAt rankArray pos index with
    | .error e => .error e
    | .ok rankArray1 => rankLoop rest (index + 1) rankArray1

/-- The inner loop of `BuildLCPArray`: both text iterators have `remaining`
items left and stand at `indexI + h` and `indexJ + h`. -/
def extendLoop (text : Text) (indexI indexJ : Nat) : Nat → Nat → Nat
  | 0, h => h
  | remaining + 1, h =>
    if text.ba.getD (indexI + h) 0 = text.ba.getD (indexJ + h) 0 then
      extendLoop text indexI indexJ remaining (h + 1)
    else h

/-- The callback of `bigarray.ForEach(rankArray, ...)` in `BuildLCPArray`:
the state is `(h, lcp)`. -/
def kasaiLoop (text : Text) (sa : List Nat) :
    List Nat → Nat → Nat × List Nat → Except Err (Nat × List Nat)
  | [], _, st => .ok st
  | rank :: rest, indexI, (h, lcp) =>
    if rank ≤ 1 then kasaiLoop text sa rest (indexI + 1) (h, lcp)
    else
      match ValueAt sa (rank - 1) with
      | .error e => .error e
      | .ok indexJ =>
        match SetValueAt lcp rank
            (extendLoop text indexI indexJ
              (min (text.Len - indexI) (text.Len - indexJ) - h) h) with
        | .error e => .error e
        | .ok lcp1 =>
          kasaiLoop text sa rest (indexI + 1)
            (extendLoop text indexI indexJ
              (min (text.Len - indexI) (text.Len - indexJ) - h) h - 1, lcp1)

/-- The function `BuildLCPArray` (Kasai's algorithm). -/
def BuildLCPArray (text : Text) (sa : List Nat) : Except Err (List Nat) :=
  match rankLoop sa 0 (makeBigArray sa.length) with
  | .error e => .error e
  | .ok rankArray =>
    match kasaiLoop text sa rankArray 0 (0, makeBigArray sa.length) with
    | .error e => .error e
    | .ok (_, lcp) => .ok lcp

/-- The loop `for iter0.Next() && iter1.Next() && iter0.Symbol() == iter1.Symbol()`
of `NaiveBuildLCPArray` and `computeLCP` in the tests, on the two suffixes. -/
def naiveLCP : List Nat → List Nat → Nat
  | a :: as, b :: bs => if a = b then naiveLCP as bs + 1 else 0
  | _, _ => 0

/-- The function `NaiveBuildLCPArray` of the tests: `lcp[0]` is all ones and
`lcp[i]` is the common length of the suffixes at `sa[i-1]` and `sa[i]`. -/
def NaiveBuildLCPArray (text : Text) (sa : List Nat) : List Nat :=
  (List.range sa.length).map (fun i =>
    if i = 0 then placeholder
    else naiveLCP (text.ba.drop (sa.getD (i - 1) 0)) (text.ba.drop (sa.getD i 0)))

/-- Doubling loop for `ceilPow2`. -/
def ceilPow2Loop (len : Nat) : Nat → Nat → Nat
  | 0, m => m
  | fuel + 1, m => if len ≤ m then m else ceilPow2Loop len fuel (2 * m)

/-- The length `len` rounded up to a power of two (`0` for `len = 0`): what
the comment on the first statement of `BuildLCPLRArray` says it computes,
`Round lcp.Len() up to a power of 2`.  The statement itself is the `float64`
expression `uint64(math.Exp2(math.Ceil(math.Log2(float64(len)))))`, whose
value can fall short of this rounding: at `len = 2^49 + 1` it is `2^49`. -/
def ceilPow2 (len : Nat) : Nat := if len = 0 then 0 else ceilPow2Loop len len 1

/-- The function `buildLCPLR`, with a budget for the depth of the recursion:
the result is the value returned and the array after the writes. -/
def buildLCPLR : Nat → List Nat → List Nat → Nat → Nat → Nat → Except Err (Nat × List Nat)
  | 0, _, _, _, _, _ => .error .fuel
  | fuel + 1, lcplr, lcp, index, lo, hi =>
    if lo ≥ hi then .error .bug
    else if hi - lo > 3 then
      match buildLCPLR fuel lcplr lcp (2 * index + 1) lo (lo + (hi - lo) / 2 - 1) with
      | .error e => .error e
      | .ok (h0, lcplr1) =>
      match ValueAt lcp (lo + (hi - lo) / 2) with
      | .error e => .error e
      | .ok h1 =>
      match ValueAt lcp (lo + (hi - lo) / 2 + 1) with
      | .error e => .error e
      | .ok h2 =>
      match buildLCPLR fuel lcplr1 lcp (2 * index + 2) (lo + (hi - lo) / 2 + 1) hi with
      | .error e => .error e
      | .ok (h3, lcplr2) =>
      match SetValueAt lcplr2 index (min (min (min h0 h1) h2) h3) with
      | .error e => .error e
      | .ok lcplr3 => .ok (min (min (min h0 h1) h2) h3, lcplr3)
    else if hi - lo = 3 then
      match ValueAt lcp (lo + 1) with
      | .error e => .error e
      | .ok h0 =>
      match ValueAt lcp (lo + 2) with
      | .error e => .error e
      | .ok h1 =>
      match ValueAt lcp (lo + 3) with
      | .error e => .error e
      | .ok h2 =>
      match SetValueAt lcplr index (min (min (min h0 h1) h2) placeholder) with
      | .error e => .error e
      | .ok lcplr3 => .ok (min (min (min h0 h1) h2) placeholder, lcplr3)
    else if hi - lo = 2 then
      match ValueAt lcp (lo + 1) with
      | .error e => .error e
      | .ok h0 =>
      match ValueAt lcp (lo + 2) with
      | .error e => .error e
      | .ok h1 =>
      match SetValueAt lcplr index (min (min (min h0 h1) placeholder) placeholder) with
      | .error e => .error e
      | .ok lcplr3 => .ok (min (min (min h0 h1) placeholder) placeholder, lcplr3)
    else
      match ValueAt lcp (lo + 1) with
      | .error e => .error e
      | .ok h0 =>
      match SetValueAt lcplr index (min (min (min h0 placeholder) placeholder) placeholder) with
      | .error e => .error e
      | .ok lcplr3 => .ok (min (min (min h0 placeholder) placeholder) placeholder, lcplr3)

/-- The reverse scan of `BuildLCPLRArray` for the length to keep: the cells
`[0, remaining)` are still to be looked at. -/
def actualLengthLoop (lcplr : List Nat) : Nat → Nat
  | 0 => 0
  | i + 1 => if lcplr.getD i 0 ≠ placeholder then i + 1 else actualLengthLoop lcplr i

/-- The function `BuildLCPLRArray`, with the rounding `ceilPow2` of its comment
for the value of its first statement and the product `2*n+1` as a natural
number.  `BuildLCPLRArrayFrom` is the function for any value of that
statement and with the `uint64` product. -/
def BuildLCPLRArray (lcp : List Nat) : Except Err (List Nat) :=
  match buildLCPLR (64 + lcp.length) (List.replicate (2 * ceilPow2 lcp.length + 1) placeholder) lcp 0 0
      (dec64 lcp.length) with
  | .error e => .error e
  | .ok (_, lcplr) => .ok (lcplr.take (actualLengthLoop lcplr lcplr.length))

/-- The function `BuildLCPLRArray` from its second statement on.  The first
statement, `n := uint64(math.Exp2(math.Ceil(math.Log2(float64(lcp.Len())))))`,
is floating-point arithmetic and is not evaluated here: `n` is the value it
has produced.  The array gets `2*n+1` cells, a `uint64` product, is filled
with `placeholder`, then by `buildLCPLR`, and is cut after its last cell other
than `placeholder`. -/
def BuildLCPLRArrayFrom (n : Nat) (lcp : List Nat) : Except Err (List Nat) :=
  match buildLCPLR (64 + lcp.length) (List.replicate ((2 * n + 1) % 2 ^ 64) placeholder) lcp 0 0
      (dec64 lcp.length) with
  | .error e => .error e
  | .ok (_, lcplr) => .ok (lcplr.take (actualLengthLoop lcplr lcplr.length))

/-! ## The naive LCP-LR builder of the tests (`lcparray_test.go`) -/

/-- The method `naiveLCPLRBuilder.computeLCP`: the number of leading symbols
the suffixes at `sa[i]` and `sa[j]` share, counted one by one; a failing
`PositionAt` panics. -/
def naiveLCPLRBuilder.computeLCP (text : Text) (sa : List Nat) (i j : Nat) : Except Err Nat :=
  match ValueAt sa i with
  | .error e => .error e
  | .ok pos0 =>
    match ValueAt sa j with
    | .error e => .error e
    | .ok pos1 => .ok (naiveLCP (text.ba.drop pos0) (text.ba.drop pos1))

/-- The method `naiveLCPLRBuilder.recurse`, with a budget for the depth of the
recursion; `out` is the slice `builder.out`, handed on explicitly.  The panics
(`lo >= hi`, `h != hh`, a store outside the slice) are the error `bug`. -/
def naiveLCPLRBuilder.recurse :
    Nat → Text → List Nat → List Nat → Nat → Nat → Nat → Except Err (Nat × List Nat)
  | 0, _, _, _, _, _, _ => .error .fuel
  | fuel + 1, text, sa, out, index, lo, hi =>
    if lo ≥ hi then .error .bug
    else
      match (
        if hi - lo > 3 then
          match naiveLCPLRBuilder.recurse fuel text sa out (2 * index + 1) lo
              (lo + (hi - lo) / 2 - 1) with
          | .error e => .error e
          | .ok (h0, out1) =>
          match naiveLCPLRBuilder.computeLCP text sa (lo + (hi - lo) / 2 - 1)
              (lo + (hi - lo) / 2) with
          | .error e => .error e
          | .ok h1 =>
          match naiveLCPLRBuilder.computeLCP text sa (lo + (hi - lo) / 2)
              (lo + (hi - lo) / 2 + 1) with
          | .error e => .error e
          | .ok h2 =>
          match naiveLCPLRBuilder.recurse fuel text sa out1 (2 * index + 2)
              (lo + (hi - lo) / 2 + 1) hi with
          | .error e => .error e
          | .ok (h3, out2) => .ok (min (min (min h0 h1) h2) h3, out2)
        else if hi - lo = 3 then
          match naiveLCPLRBuilder.computeLCP text sa lo (lo + 1) with
          | .error e => .error e
          | .ok h0 =>
          match naiveLCPLRBuilder.computeLCP text sa (lo + 1) (lo + 2) with
          | .error e => .error e
          | .ok h1 =>
          match naiveLCPLRBuilder.computeLCP text sa (lo + 2) (lo + 3) with
          | .error e => .error e
          | .ok h2 => .ok (min (min (min h0 h1) h2) placeholder, out)
        else if hi - lo = 2 then
          match naiveLCPLRBuilder.computeLCP text sa lo (lo + 1) with
          | .error e => .error e
          | .ok h0 =>
          match naiveLCPLRBuilder.computeLCP text sa (lo + 1) (lo + 2) with
          | .error e => .error e
          | .ok h1 => .ok (min (min (min h0 h1) placeholder) placeholder, out)
        else
          match naiveLCPLRBuilder.computeLCP text sa lo (lo + 1) with
          | .error e => .error e
          | .ok h0 => .ok (min (min (min h0 placeholder) placeholder) placeholder, out)
        : Except Err (Nat × List Nat)) with
      | .error e => .error e
      | .ok (h, out2) =>
        match naiveLCPLRBuilder.computeLCP text sa lo hi with
        | .error e => .error e
        | .ok hh =>
          if h ≠ hh then .error .bug
          else if index < out2.length then .ok (hh, out2.set index hh)
          else .error .bug

/-- The loop `n := 1; for sa.Len() > n { n *= 2 }` of `NaiveBuildLCPLRArray`,
`n` being a `uint64`, with a budget for the number of tests. -/
def naiveSizeLoop (len : Nat) : Nat → Nat → Except Err Nat
  | 0, _ => .error .fuel
  | fuel + 1, n => if len > n then naiveSizeLoop len fuel ((2 * n) % 2 ^ 64) else .ok n

/-- The loop `for finalLen > 0` of `NaiveBuildLCPLRArray`: the length left
after the trailing `placeholder` cells are dropped from the first `finalLen`
cells. -/
def naiveFinalLen (lcplr : List Nat) : Nat → Nat
  | 0 => 0
  | finalLen + 1 =>
    if lcplr.getD finalLen 0 ≠ placeholder then finalLen + 1 else naiveFinalLen lcplr finalLen

/-- The function `NaiveBuildLCPLRArray` of the tests, without the string it
prints: the array after the trailing `placeholder` cells are cut off.  The
size loop gets 65 tests (it stops within 64 doublings or never), the
recursion as much budget as `BuildLCPLRArray`. -/
def NaiveBuildLCPLRArray (text : Text) (sa : List Nat) : Except Err (List Nat) :=
  match naiveSizeLoop sa.length 65 1 with
  | .error e => .error e
  | .ok n =>
    match naiveLCPLRBuilder.recurse (64 + sa.length) text sa
        (List.replicate ((2 * n + 1) % 2 ^ 64) placeholder) 0 0 (dec64 sa.length) with
    | .error e => .error e
    | .ok (_, lcplr) => .ok (lcplr.take (naiveFinalLen lcplr lcplr.length))

/-! ## Search (`search.go`) -/

/-- The type `compareResult`; `unset` is its zero value. -/
inductive compareResult where
  | unset
  | goLeft
  | goRight
  | stopHere
  deriving DecidableEq, Repr

/-- The struct `searchState`. -/
structure searchState where
  text : Text
  sa : List Nat
  lcplr : List Nat
  phrase : List Nat
  index : Nat
  height : Nat
  lo : Nat
  hi : Nat
  deriving DecidableEq, Repr

/-- The loop of `compare`: the text iterator has `remaining` items left, the
next one at text index `t`; `i` indexes the phrase. -/
def compareLoop (text : Text) (phrase : List Nat) : Nat → Nat → Nat → compareResult × Nat
  | 0, _, i => (.unset, i)
  | remaining + 1, t, i =>
    if i < phrase.length then
      if phrase.getD i 0 < text.ba.getD t 0 then (.goLeft, i)
      else if phrase.getD i 0 > text.ba.getD t 0 then (.goRight, i)
      else compareLoop text phrase remaining (t + 1) (i + 1)
    else (.unset, i)

/-- The end of `compare` (`if result == 0 { ... }`): without a mismatch the
result is `goRight` when the phrase has symbols left and `stopHere` when not. -/
def compareFinish (phrase : List Nat) : compareResult × Nat → compareResult
  | (.unset, i) => if i < phrase.length then .goRight else .stopHere
  | (result, _) => result

/-- The method `searchState.compare`: the result and the position `pos`. -/
def searchState.compare (state : searchState) (where_ : Nat) : Except Err (compareResult × Nat) :=
  if where_ < state.lo ∨ where_ > state.hi then .error .bug
  else
    match ValueAt state.sa where_ with
    | .error e => .error e
    | .ok pos =>
      .ok (compareFinish state.phrase
        (compareLoop state.text state.phrase (state.text.Len - (pos + state.height))
          (pos + state.height) state.height), pos)

/-- The first loop of `Search` (`for state.hi >= state.lo+3 && !found`): the
result is the state, `where`, `pos` and `found` on leaving the loop. -/
def phase1 : Nat → searchState → Nat → Nat → Except Err (searchState × Nat × Nat × Bool)
  | 0, _, _, _ => .error .fuel
  | fuel + 1, state, where_, pos =>
    if state.hi ≥ state.lo + 3 then
      match ValueAt state.lcplr state.index with
      | .error e => .error e
      | .ok height =>
        match ({ state with height := height }).compare (state.lo + (state.hi - state.lo) / 2) with
        | .error e => .error e
        | .ok (.goLeft, pos1) =>
          phase1 fuel { state with height := height, index := 2 * state.index + 1,
                                   hi := state.lo + (state.hi - state.lo) / 2 - 1 }
            (state.lo + (state.hi - state.lo) / 2) pos1
        | .ok (.goRight, pos1) =>
          phase1 fuel { state with height := height, index := 2 * state.index + 2,
                                   lo := state.lo + (state.hi - state.lo) / 2 + 1 }
            (state.lo + (state.hi - state.lo) / 2) pos1
        | .ok (.stopHere, pos1) =>
          .ok ({ state with height := height }, state.lo + (state.hi - state.lo) / 2, pos1, true)
        | .ok (.unset, pos1) =>
          phase1 fuel { state with height := height } (state.lo + (state.hi - state.lo) / 2) pos1
    else .ok (state, where_, pos, false)

/-- The second loop of `Search` (`for state.hi >= state.lo && !found`). -/
def phase2 : Nat → searchState → Nat → Nat → Except Err (searchState × Nat × Nat × Bool)
  | 0, _, _, _ => .error .fuel
  | fuel + 1, state, where_, pos =>
    if state.hi ≥ state.lo then
      match state.compare state.lo with
      | .error e => .error e
      | .ok (.goLeft, pos1) => phase2 fuel { state with hi := dec64 state.lo } state.lo pos1
      | .ok (.goRight, pos1) => phase2 fuel { state with lo := state.lo + 1 } state.lo pos1
      | .ok (.stopHere, pos1) => .ok (state, state.lo, pos1, true)
      | .ok (.unset, pos1) => phase2 fuel state state.lo pos1
    else .ok (state, where_, pos, false)

/-- The loop `for lowerBound > state.lo` of `Search`: at most `fuel` steps
down from `lowerBound`, collecting the hits. -/
def sweepDown (state : searchState) : Nat → Nat → List Nat → Except Err (List Nat)
  | 0, _, results => .ok results
  | fuel + 1, lowerBound, results =>
    if lowerBound > state.lo then
      match state.compare (lowerBound - 1) with
      | .error e => .error e
      | .ok (cmp, pos) =>
        if cmp ≠ .stopHere then .ok results
        else sweepDown state fuel (lowerBound - 1) (results ++ [pos])
    else .ok results

/-- The loop `for upperBound < state.hi` of `Search`. -/
def sweepUp (state : searchState) : Nat → Nat → List Nat → Except Err (List Nat)
  | 0, _, results => .ok results
  | fuel + 1, upperBound, results =>
    if upperBound < state.hi then
      match state.compare (upperBound + 1) with
      | .error e => .error e
      | .ok (cmp, pos) =>
        if cmp ≠ .stopHere then .ok results
        else sweepUp state fuel (upperBound + 1) (results ++ [pos])
    else .ok results

/-- The part of `Search` after the first loop: the second loop runs unless
the first has found a hit. -/
def afterPhase1 (budget : Nat) :
    Except Err (searchState × Nat × Nat × Bool) → Except Err (searchState × Nat × Nat × Bool)
  | .error e => .error e
  | .ok (state, where_, pos, true) => .ok (state, where_, pos, true)
  | .ok (state, where_, pos, false) => phase2 budget state where_ pos

/-- The part of `Search` after the two loops: nothing (`nil`, the empty list)
without a hit, and otherwise the hit, the hits below and above it, sorted. -/
def afterPhase2 : Except Err (searchState × Nat × Nat × Bool) → Except Err (List Nat)
  | .error e => .error e
  | .ok (_, _, _, false) => .ok []
  | .ok (state, where_, pos, true) =>
    match sweepDown state where_ where_ [pos] with
    | .error e => .error e
    | .ok results =>
      match sweepUp state (state.hi - where_) where_ results with
      | .error e => .error e
      | .ok results1 => .ok (results1.insertionSort (fun a b => a ≤ b))

/-- The function `Search`. -/
def Search (text : Text) (sa : List Nat) (lcplr : List Nat) (phrase : List Nat) :
    Except Err (List Nat) :=
  afterPhase2 (afterPhase1 (2 + sa.length)
    (phase1 (1 + sa.length) ⟨text, sa, lcplr, phrase, 0, 0, 0, dec64 sa.length⟩ 0 0))

/-! ## Specification vocabulary -/

/-- The suffix array of `text` in the sense of the specification: `sa` lists
every offset `0 .. n` once, and each suffix is strictly smaller than the next
(the end of the text being smaller than every symbol). -/
def IsSuffixArray (text sa : List Nat) : Prop :=
  sa.Perm (List.range (text.length + 1)) ∧
  ∀ i, 1 ≤ i → i ≤ text.length →
    lexLt (text.drop (sa.getD (i - 1) 0)) (text.drop (sa.getD i 0)) = true

/-- The offsets at which `phrase` occurs in `text`, ascending: the naive
occurrence set `{ i : T[i .. i+|P|) = P }`. -/
def occurrences (text phrase : List Nat) : List Nat :=
  (List.range (text.length + 1)).filter
    (fun i => decide (i + phrase.length ≤ text.length ∧ (text.drop i).take phrase.length = phrase))

/-- The value `v` is the minimum of `H[p]` over `lo < p ≤ hi`. -/
def IsRangeMin (H : List Nat) (lo hi v : Nat) : Prop :=
  (∃ p, lo < p ∧ p ≤ hi ∧ H[p]? = some v) ∧
  ∀ p, lo < p → p ≤ hi → ∀ x, H[p]? = some x → v ≤ x

/-- The calls of `buildLCPLR`: `Visits k lo hi k1 lo1 hi1` says that the call
`buildLCPLR(k, lo, hi)` leads to the call `buildLCPLR(k1, lo1, hi1)`, itself
included. -/
inductive Visits : Nat → Nat → Nat → Nat → Nat → Nat → Prop where
  | here (k lo hi : Nat) : Visits k lo hi k lo hi
  | left (k lo hi k1 lo1 hi1 : Nat) : hi - lo > 3 →
      Visits (2 * k + 1) lo (lo + (hi - lo) / 2 - 1) k1 lo1 hi1 → Visits k lo hi k1 lo1 hi1
  | right (k lo hi k1 lo1 hi1 : Nat) : hi - lo > 3 →
      Visits (2 * k + 2) (lo + (hi - lo) / 2 + 1) hi k1 lo1 hi1 → Visits k lo hi k1 lo1 hi1

/-- Node `x` lies in the subtree of node `k` of the implicit binary tree in
which the children of `k` are `2k+1` and `2k+2`. -/
inductive Below (k : Nat) : Nat → Prop where
  | self : Below k k
  | left (x : Nat) : Below k x → Below k (2 * x + 1)
  | right (x : Nat) : Below k x → Below k (2 * x + 2)

/-- The comparison `compare` makes when it skips nothing: the phrase `p`
against a suffix `u`, symbol by symbol. -/
def cmpLists : List Nat → List Nat → compareResult
  | [], _ => .stopHere
  | _ :: _, [] => .goRight
  | x :: p, y :: u => if x < y then .goLeft else if x > y then .goRight else cmpLists p u

/-- The suffix at index `w` of the suffix array begins with the phrase. -/
def Hit (text sa phrase : List Nat) (w : Nat) : Prop :=
  phrase.length ≤ naiveLCP phrase (text.drop (sa.getD w 0))

/-- What the loops of `Search` maintain when the phrase occurs in the text:
every hit lies in `[lo, hi]`, and every suffix of `[lo, hi]` agrees with the
phrase on the first `height` symbols (or on the whole phrase). -/
structure SearchInv (text : Text) (sa lcplr phrase : List Nat) (state : searchState) : Prop where
  htext : state.text = text
  hsa : state.sa = sa
  hlcplr : state.lcplr = lcplr
  hphrase : state.phrase = phrase
  hhi : state.hi ≤ text.ba.length
  hocc : ∀ w, w ≤ text.ba.length → Hit text.ba sa phrase w → state.lo ≤ w ∧ w ≤ state.hi
  hskip : ∀ w, state.lo ≤ w → w ≤ state.hi →
    min state.height phrase.length ≤ naiveLCP phrase (text.ba.drop (sa.getD w 0))

/-! ## Vocabulary of the correctness proof of SA-IS -/

/-- The type bits by structural recursion on the text: the reading of
`BuildTypeMap` as a function of the suffix. -/
def types : List Nat → List Bool
  | [] => [SType]
  | [_] => [LType, SType]
  | a :: b :: rest =>
    (if a > b then LType else if a = b then (types (b :: rest)).headD SType else SType)
      :: types (b :: rest)

/-- Position `i` of the text is L-type. -/
def isL (T : List Nat) (i : Nat) : Bool := (types T).getD i SType

/-- Position `i` is a left-most S position (the predicate of `TypeMap.IsLMS`
on the type map of the text). -/
def isLMS (T : List Nat) (i : Nat) : Bool := decide (1 ≤ i) && isL T (i - 1) && !isL T i

/-- A list `sa` holds every offset `0 .. n` once, in increasing order for the
relation `lt`. -/
def SortedPerm (lt : Nat → Nat → Prop) (n : Nat) (sa : List Nat) : Prop :=
  sa.Perm (List.range (n + 1)) ∧ ∀ i j, i < j → j ≤ n → lt (sa.getD i 0) (sa.getD j 0)

/-- First index of bucket `c` in a suffix array: one more than the number of
symbols below `c`. -/
def hd (T : List Nat) (c : Nat) : Nat := 1 + T.countP (fun x => decide (x < c))

/-- Number of occurrences of the symbol `c`. -/
def sz (T : List Nat) (c : Nat) : Nat := T.countP (fun x => decide (x = c))

/-- Number of L-type positions with symbol `c`. -/
def nL (T : List Nat) (c : Nat) : Nat :=
  (List.range T.length).countP (fun q => decide (T.getD q 0 = c) && isL T q)

/-- The offsets that sort before bucket `c`: the end of the text and the
positions with a symbol below `c`. -/
def belowBucket (T : List Nat) (c : Nat) (q : Nat) : Bool :=
  decide (q = T.length) || (decide (q < T.length) && decide (T.getD q 0 < c))

/-- The offsets that sort before the S-type part of bucket `c`. -/
def belowSPart (T : List Nat) (c : Nat) (q : Nat) : Bool :=
  belowBucket T c q || (decide (q < T.length) && (decide (T.getD q 0 = c) && isL T q))

/-- What the two induction passes need of the order `lt` on the offsets
`0 .. n` of a text: nothing sorts before the end of the text, a smaller first
symbol sorts first, and within a bucket no S-type offset sorts before an
L-type one. -/
structure BucketOrder (T : List Nat) (lt : Nat → Nat → Prop) : Prop where
  asymm : ∀ p q, lt p q → ¬ lt q p
  nmin : ∀ q, q ≤ T.length → ¬ lt q T.length
  bkt : ∀ p q, p < T.length → q < T.length → lt q p → T.getD q 0 ≤ T.getD p 0
  typ : ∀ p q, p < T.length → q < T.length → lt q p → T.getD q 0 = T.getD p 0 →
    isL T p = true → isL T q = true

/-- The setting of an L pass (`induceSortL`).  `sao` is the sorted list the
pass works towards, `a0` the array it starts from, and `posQ p` the index at
which the scan meets the offset `p`: for an L-type offset its index in `sao`,
for a seed (an entry of `a0`) the index of the seed. -/
structure LPass (text : Text) (sigma : Nat) (sao a0 : List Nat) (posQ : Nat → Nat) : Prop where
  hn64 : text.ba.length + 1 < 2 ^ 64
  hsym : ∀ i, i < text.ba.length → text.ba.getD i 0 < sigma
  hperm : sao.Perm (List.range (text.ba.length + 1))
  hlen : a0.length = text.ba.length + 1
  hzone : ∀ j, j < text.ba.length → isL text.ba j = true →
    hd text.ba (text.ba.getD j 0) ≤ sao.indexOf j ∧
    sao.indexOf j < hd text.ba (text.ba.getD j 0) + sz text.ba (text.ba.getD j 0)
  hconv : ∀ j, j < text.ba.length → isL text.ba j = true → ∀ x,
    hd text.ba (text.ba.getD j 0) ≤ x → x < sao.indexOf j →
    sao.getD x 0 < text.ba.length ∧ isL text.ba (sao.getD x 0) = true ∧
      text.ba.getD (sao.getD x 0) 0 = text.ba.getD j 0
  hq1 : ∀ j, j < text.ba.length → isL text.ba j = true → posQ j = sao.indexOf j
  hq3 : ∀ j, j < text.ba.length → isL text.ba j = true → posQ (j + 1) < posQ j
  hq4 : ∀ j j', j < text.ba.length → j' < text.ba.length → isL text.ba j = true →
    isL text.ba j' = true → text.ba.getD j 0 = text.ba.getD j' 0 →
    sao.indexOf j' < sao.indexOf j → posQ (j' + 1) < posQ (j + 1)
  hseed : ∀ j, j < text.ba.length → isL text.ba j = true → isL text.ba (j + 1) = false →
    a0.getD (posQ (j + 1)) 0 = j + 1 ∧
    ∀ j', j' < text.ba.length → isL text.ba j' = true → posQ (j + 1) ≠ sao.indexOf j'
  ha0 : ∀ x, x ≤ text.ba.length →
    a0.getD x 0 = placeholder ∨ (a0.getD x 0 ≤ text.ba.length ∧ posQ (a0.getD x 0) = x)

/-- The low end of the range of the bucket iterator of symbol `c`. -/
def loOf (iters : List Iterator) (c : Nat) : Nat := (iters.getD c ⟨0, 0⟩).lo

/-- The high end of the range of the bucket iterator of symbol `c`. -/
def hiOf (iters : List Iterator) (c : Nat) : Nat := (iters.getD c ⟨0, 0⟩).hi

/-- What `induceSortL` maintains when its scan stands at index `i`: the L
parts of the buckets are filled from their heads with the entries of `sao`,
the rest of the array is as at the start, and an L-type offset has been
written exactly when the scan has passed its successor. -/
structure LInv (text : Text) (sigma : Nat) (sao a0 : List Nat) (posQ : Nat → Nat)
    (i : Nat) (iters : List Iterator) (a : List Nat) : Prop where
  hlen : a.length = text.ba.length + 1
  hiters : iters.length = sigma
  hhi : ∀ c, c < sigma → hiOf iters c = hd text.ba c + sz text.ba c
  hlo : ∀ c, c < sigma → hd text.ba c ≤ loOf iters c
  hdone : ∀ c, c < sigma → ∀ x, hd text.ba c ≤ x → x < loOf iters c →
    x ≤ text.ba.length ∧ a.getD x 0 = sao.getD x 0 ∧ sao.getD x 0 < text.ba.length ∧
      isL text.ba (sao.getD x 0) = true ∧ text.ba.getD (sao.getD x 0) 0 = c
  hrest : ∀ x, x ≤ text.ba.length →
    (∀ c, c < sigma → ¬ (hd text.ba c ≤ x ∧ x < loOf iters c)) → a.getD x 0 = a0.getD x 0
  hprog : ∀ j, j < text.ba.length → isL text.ba j = true →
    (sao.indexOf j < loOf iters (text.ba.getD j 0) ↔ posQ (j + 1) < i)

/-- The setting of an S pass (`induceSortR`): `sao` is the sorted list the
pass works towards and `a1` the array it starts from, in which the end of the
text and the L-type offsets already stand where `sao` has them. -/
structure SPass (text : Text) (sigma : Nat) (sao a1 : List Nat) : Prop where
  hn64 : text.ba.length + 1 < 2 ^ 64
  hsym : ∀ i, i < text.ba.length → text.ba.getD i 0 < sigma
  hperm : sao.Perm (List.range (text.ba.length + 1))
  hlen : a1.length = text.ba.length + 1
  hzone : ∀ j, j < text.ba.length → isL text.ba j = false →
    hd text.ba (text.ba.getD j 0) ≤ sao.indexOf j ∧
    sao.indexOf j < hd text.ba (text.ba.getD j 0) + sz text.ba (text.ba.getD j 0)
  hconv : ∀ j, j < text.ba.length → isL text.ba j = false → ∀ x,
    sao.indexOf j < x → x < hd text.ba (text.ba.getD j 0) + sz text.ba (text.ba.getD j 0) →
    sao.getD x 0 < text.ba.length ∧ isL text.ba (sao.getD x 0) = false ∧
      text.ba.getD (sao.getD x 0) 0 = text.ba.getD j 0
  hs3 : ∀ j, j < text.ba.length → isL text.ba j = false → sao.indexOf j < sao.indexOf (j + 1)
  hs4 : ∀ j j', j < text.ba.length → j' < text.ba.length → isL text.ba j = false →
    isL text.ba j' = false → text.ba.getD j 0 = text.ba.getD j' 0 →
    sao.indexOf j < sao.indexOf j' → sao.indexOf (j + 1) < sao.indexOf (j' + 1)
  ha1 : ∀ x, x ≤ text.ba.length →
    (sao.getD x 0 = text.ba.length ∨ isL text.ba (sao.getD x 0) = true) →
    a1.getD x 0 = sao.getD x 0

/-- What `induceSortR` maintains when `r` entries are left to scan: the S
parts of the buckets are filled from their tails with the entries of `sao`, the
rest is as at the start, and an S-type offset has been written exactly when
the scan has passed its successor. -/
structure SInv (text : Text) (sigma : Nat) (sao a1 : List Nat)
    (r : Nat) (iters : List Iterator) (a : List Nat) : Prop where
  hlen : a.length = text.ba.length + 1
  hiters : iters.length = sigma
  hlo : ∀ c, c < sigma → loOf iters c = hd text.ba c
  hhi : ∀ c, c < sigma → hiOf iters c ≤ hd text.ba c + sz text.ba c
  hlohi : ∀ c, c < sigma → hd text.ba c ≤ hiOf iters c
  hdone : ∀ c, c < sigma → ∀ x, hiOf iters c ≤ x → x < hd text.ba c + sz text.ba c →
    a.getD x 0 = sao.getD x 0
  hrest : ∀ x, x ≤ text.ba.length →
    (∀ c, c < sigma → ¬ (hiOf iters c ≤ x ∧ x < hd text.ba c + sz text.ba c)) →
    a.getD x 0 = a1.getD x 0
  hprog : ∀ j, j < text.ba.length → isL text.ba j = false →
    (hiOf iters (text.ba.getD j 0) ≤ sao.indexOf j ↔ r ≤ sao.indexOf (j + 1))

/-- The symbol at `p` together with its type: an L-type position sorts before
an S-type position with the same symbol. -/
def code (T : List Nat) (p : Nat) : Nat := 2 * T.getD p 0 + (if isL T p = true then 0 else 1)

/-- Order of two offsets `p`, `q` with the sort keys `a`, `b`: by key, and for
equal keys the larger offset first. -/
def kltL (a b : List Nat) (p q : Nat) : Prop := lexLt a b = true ∨ (a = b ∧ q < p)

/-- The order on offsets that the sort key `f` induces. -/
def klt (f : Nat → List Nat) (p q : Nat) : Prop := kltL (f p) (f q) p q

/-- What the induction passes need of a sort key `f`, where `e` is the key
by which the seeds (the LMS offsets) are sorted: the key of an offset is its
code followed by the key of the next offset. -/
structure KeyLaw (T : List Nat) (f e : Nat → List Nat) : Prop where
  f0 : f T.length = []
  f1 : ∀ j, j < T.length →
    f j = code T j :: (if isLMS T (j + 1) = true then e (j + 1) else f (j + 1))
  e0 : e T.length = []
  e1 : ∀ q, q < T.length → isLMS T q = true → ∃ t, e q = code T q :: t

/-- The array handed to the first induction pass: the end of the text in
cell 0, every LMS offset `p` in cell `sidx p` in the S part of its bucket, in
the order of the key `e`, and `placeholder` elsewhere. -/
structure Seeds (T : List Nat) (a0 : List Nat) (sidx : Nat → Nat) (e : Nat → List Nat) : Prop where
  hlen : a0.length = T.length + 1
  h0 : sidx T.length = 0
  hval : ∀ p, p ≤ T.length → isLMS T p = true → a0.getD (sidx p) 0 = p
  hzone : ∀ p, p < T.length → isLMS T p = true →
    hd T (T.getD p 0) + nL T (T.getD p 0) ≤ sidx p ∧
    sidx p < hd T (T.getD p 0) + sz T (T.getD p 0)
  hph : ∀ x, x ≤ T.length → a0.getD x 0 = placeholder ∨
    (a0.getD x 0 ≤ T.length ∧ isLMS T (a0.getD x 0) = true ∧ sidx (a0.getD x 0) = x)
  hord : ∀ p q, p < T.length → q < T.length → isLMS T p = true → isLMS T q = true →
    T.getD p 0 = T.getD q 0 → klt e p q → sidx p < sidx q

/-- The index at which the scan of the first pass meets the offset `p`: its
index in the sorted list `sao` if it is L-type, and its seed cell if not. -/
def seedPos (T : List Nat) (sao : List Nat) (sidx : Nat → Nat) (p : Nat) : Nat :=
  if isL T p = true then sao.indexOf p else sidx p

/-- The codes of the suffix that starts at `p`. -/
def csuf (T : List Nat) (p : Nat) : List Nat := (List.range' p (T.length - p)).map (code T)

/-- The key by which the guessed seeds are sorted: the code of the LMS
offset alone (nothing for the end of the text). -/
def seedKey (T : List Nat) (q : Nat) : List Nat := if q < T.length then [code T q] else []

/-- The key of the offset `T.length - r`, by recursion on `r`: the codes from
that offset up to and including the next LMS offset (the end of the text adds
nothing). -/
def lmsKeyAux (T : List Nat) : Nat → List Nat
  | 0 => []
  | r + 1 =>
    code T (T.length - (r + 1)) ::
      (if isLMS T (T.length - r) = true then seedKey T (T.length - r) else lmsKeyAux T r)

/-- The key by which the first round of induced sorting sorts the offsets. -/
def lmsKey (T : List Nat) (p : Nat) : List Nat := lmsKeyAux T (T.length - p)

/-- What the loops that seed the LMS offsets maintain.  `done` lists the
offsets placed so far, the latest first; `tl c` is the next free cell of
bucket `c`; the cells above it hold the placed offsets with symbol `c`. -/
structure TailInv (T : List Nat) (sigma : Nat) (e : Nat → List Nat) (done : List Nat)
    (tl : Nat → Nat) (a : List Nat) : Prop where
  hlen : a.length = T.length + 1
  h0 : a.getD 0 0 = T.length
  hnd : done.Nodup
  hlms : ∀ p, p ∈ done → p < T.length ∧ isLMS T p = true
  hsorted : done.Pairwise (fun p q => T.getD p 0 = T.getD q 0 → klt e p q)
  htl : ∀ c, c < sigma →
    tl c + 1 + (done.filter (fun p => decide (T.getD p 0 = c))).length = hd T c + sz T c
  hval : ∀ c, c < sigma → ∀ k, k < (done.filter (fun p => decide (T.getD p 0 = c))).length →
    a.getD (tl c + 1 + k) 0 = (done.filter (fun p => decide (T.getD p 0 = c))).getD k 0
  hph : ∀ x, 1 ≤ x → x ≤ T.length → (∀ c, c < sigma → ¬ (tl c < x ∧ x < hd T c + sz T c)) →
    a.getD x 0 = placeholder

/-- The cell of the LMS offset `p` among the seeds. -/
def seedIdx (T : List Nat) (done : List Nat) (tl : Nat → Nat) (p : Nat) : Nat :=
  if p = T.length then 0
  else tl (T.getD p 0) + 1 + (done.filter (fun q => decide (T.getD q 0 = T.getD p 0))).indexOf p

/-- The part of a key that follows the code of the offset before `q`. -/
def tailKey (T : List Nat) (q : Nat) : List Nat :=
  if isLMS T q = true then seedKey T q else lmsKey T q

/-- The LMS substrings at `u` and `v` agree: the next LMS offsets are equally
far, and the symbols up to there are the same. -/
def BlockEq (T : List Nat) (u v : Nat) : Prop :=
  ∃ l, 1 ≤ l ∧ u + l ≤ T.length ∧ v + l ≤ T.length ∧
    isLMS T (u + l) = true ∧ isLMS T (v + l) = true ∧
    (∀ k, 1 ≤ k → k < l → isLMS T (u + k) = false ∧ isLMS T (v + k) = false) ∧
    (∀ k, k < l → T.getD (u + k) 0 = T.getD (v + k) 0)

/-- What the first loop of `summarize` maintains when it has read the cells
`0 .. i - 1` of the array `g`: `last` is the latest LMS offset seen, `cn` its
name; names grow along the array; equal names mean equal LMS blocks and a
smaller name means a smaller suffix. -/
structure NameInv (T : List Nat) (g : List Nat) (i cn last : Nat) (names : List Nat) : Prop where
  hlen : names.length = T.length + 1
  hlast : last ≤ T.length ∧ isLMS T last = true ∧ g.indexOf last < i
  hlastmax : ∀ p, p ≤ T.length → isLMS T p = true → g.indexOf p < i →
    g.indexOf p ≤ g.indexOf last
  hcn : names.getD last 0 = cn
  hcnb : cn < i
  hcn0 : cn = 0 → last = T.length
  hseen : ∀ p, p ≤ T.length → isLMS T p = true → g.indexOf p < i → names.getD p 0 ≤ cn
  hunseen : ∀ p, p ≤ T.length → (isLMS T p = false ∨ i ≤ g.indexOf p) →
    names.getD p 0 = placeholder
  hzero : ∀ p, p ≤ T.length → isLMS T p = true → g.indexOf p < i → names.getD p 0 = 0 →
    p = T.length
  hsurj : ∀ m, m ≤ cn →
    ∃ p, p ≤ T.length ∧ isLMS T p = true ∧ g.indexOf p < i ∧ names.getD p 0 = m
  hrel : ∀ p, p ≤ T.length → isLMS T p = true → g.indexOf p < i →
    (names.getD p 0 = cn → p = last ∨ BlockEq T p last) ∧
    (names.getD p 0 < cn → lexLt (lmsKey T p) (lmsKey T last) = true)
  hpair : ∀ p q, p ≤ T.length → q ≤ T.length → isLMS T p = true → isLMS T q = true →
    g.indexOf p < i → g.indexOf q < i →
    (names.getD p 0 = names.getD q 0 → p = q ∨ BlockEq T p q) ∧
    (names.getD p 0 < names.getD q 0 → lexLt (T.drop p) (T.drop q) = true)

/-- The LMS offsets of the text, ascending (the end of the text is the last
one). -/
def lmsList (T : List Nat) : List Nat := (List.range' 0 (T.length + 1)).filter (isLMS T)

/-- The suffix of the summary text that starts at the LMS offset `p`: the
names of the LMS offsets from `p` on. -/
def sfx (T : List Nat) (nm : Nat → Nat) (p : Nat) : List Nat :=
  ((List.range' p (T.length + 1 - p)).filter (isLMS T)).map nm

/-! ## The iterations of the first loop of `Search` -/

/-- The `switch` of the first loop of `Search`: the state after an iteration
in which `lcplr.ValueAt` has returned `height` and `compare` has returned
`cmp` (`where` is `lo + (hi - lo) / 2`). -/
def phase1Step (state : searchState) (height : Nat) (cmp : compareResult) : searchState :=
  match cmp with
  | .goLeft => { state with height := height, index := 2 * state.index + 1,
                            hi := state.lo + (state.hi - state.lo) / 2 - 1 }
  | .goRight => { state with height := height, index := 2 * state.index + 2,
                             lo := state.lo + (state.hi - state.lo) / 2 + 1 }
  | _ => { state with height := height }

/-- The states in which the first loop of `Search` tests its condition, when
it starts in `start`: each iteration runs under `hi >= lo + 3`, reads
`lcplr[index]` and goes on after `goLeft` or `goRight` (after `stopHere` the
loop is left).  The outcome of `compare` is left open, so that every sequence
of outcomes is covered. -/
inductive Phase1Reach (start : searchState) : searchState → Prop where
  | init : Phase1Reach start start
  | step (state : searchState) (height : Nat) (cmp : compareResult) :
      Phase1Reach start state → state.hi ≥ state.lo + 3 →
      ValueAt state.lcplr state.index = .ok height →
      (cmp = .goLeft ∨ cmp = .goRight) →
      Phase1Reach start (phase1Step state height cmp)

/-! ## Counting the calls of `compare` in `Search` -/

/-- The first loop of `Search` with a counter: the first component is what
`phase1` returns, the second is `calls` plus the number of calls of
`compare` the loop has made. -/
def phase1Counted :
    Nat → searchState → Nat → Nat → Nat → Except Err (searchState × Nat × Nat × Bool) × Nat
  | 0, _, _, _, calls => (.error .fuel, calls)
  | fuel + 1, state, where_, pos, calls =>
    if state.hi ≥ state.lo + 3 then
      match ValueAt state.lcplr state.index with
      | .error e => (.error e, calls)
      | .ok height =>
        match ({ state with height := height }).compare (state.lo + (state.hi - state.lo) / 2) with
        | .error e => (.error e, calls + 1)
        | .ok (.goLeft, pos1) =>
          phase1Counted fuel { state with height := height, index := 2 * state.index + 1,
                                          hi := state.lo + (state.hi - state.lo) / 2 - 1 }
            (state.lo + (state.hi - state.lo) / 2) pos1 (calls + 1)
        | .ok (.goRight, pos1) =>
          phase1Counted fuel { state with height := height, index := 2 * state.index + 2,
                                          lo := state.lo + (state.hi - state.lo) / 2 + 1 }
            (state.lo + (state.hi - state.lo) / 2) pos1 (calls + 1)
        | .ok (.stopHere, pos1) =>
          (.ok ({ state with height := height }, state.lo + (state.hi - state.lo) / 2, pos1, true),
            calls + 1)
        | .ok (.unset, pos1) =>
          phase1Counted fuel { state with height := height }
            (state.lo + (state.hi - state.lo) / 2) pos1 (calls + 1)
    else (.ok (state, where_, pos, false), calls)

/-- The second loop of `Search` with the same counter. -/
def phase2Counted :
    Nat → searchState → Nat → Nat → Nat → Except Err (searchState × Nat × Nat × Bool) × Nat
  | 0, _, _, _, calls => (.error .fuel, calls)
  | fuel + 1, state, where_, pos, calls =>
    if state.hi ≥ state.lo then
      match state.compare state.lo with
      | .error e => (.error e, calls + 1)
      | .ok (.goLeft, pos1) =>
        phase2Counted fuel { state with hi := dec64 state.lo } state.lo pos1 (calls + 1)
      | .ok (.goRight, pos1) =>
        phase2Counted fuel { state with lo := state.lo + 1 } state.lo pos1 (calls + 1)
      | .ok (.stopHere, pos1) => (.ok (state, state.lo, pos1, true), calls + 1)
      | .ok (.unset, pos1) => phase2Counted fuel state state.lo pos1 (calls + 1)
    else (.ok (state, where_, pos, false), calls)

/-- The number of calls of `compare` that `Search` makes in its two loops,
before the sweeps: the second loop runs unless the first has found a hit or
failed. -/
def searchCompareCalls (text : Text) (sa lcplr phrase : List Nat) : Nat :=
  match phase1Counted (1 + sa.length) ⟨text, sa, lcplr, phrase, 0, 0, 0, dec64 sa.length⟩ 0 0 0 with
  | (.ok (state, where_, pos, false), calls) =>
    (phase2Counted (2 + sa.length) state where_ pos calls).2
  | (_, calls) => calls

/-! ## The states of the Kasai loop -/

/-- The states of the loop of `BuildLCPArray` over `rankArray`:
`KasaiReach text sa rankArray indexI h lcp` says that the callback is about to
run for `indexI` with the carried length `h` and the array `lcp`.  A rank of
at most 1 is skipped and leaves the state as it is; otherwise the inner loop
extends `h`, the callback stores it at `rank` and carries on with one
less. -/
inductive KasaiReach (text : Text) (sa rankArray : List Nat) : Nat → Nat → List Nat → Prop where
  | init : KasaiReach text sa rankArray 0 0 (makeBigArray sa.length)
  | skip (indexI h : Nat) (lcp : List Nat) (rank : Nat) :
      KasaiReach text sa rankArray indexI h lcp → rankArray[indexI]? = some rank → rank ≤ 1 →
      KasaiReach text sa rankArray (indexI + 1) h lcp
  | step (indexI h : Nat) (lcp : List Nat) (rank indexJ : Nat) (lcp1 : List Nat) :
      KasaiReach text sa rankArray indexI h lcp → rankArray[indexI]? = some rank → ¬ rank ≤ 1 →
      ValueAt sa (rank - 1) = .ok indexJ →
      SetValueAt lcp rank
        (extendLoop text indexI indexJ (min (text.Len - indexI) (text.Len - indexJ) - h) h)
        = .ok lcp1 →
      KasaiReach text sa rankArray (indexI + 1)
        (extendLoop text indexI indexJ (min (text.Len - indexI) (text.Len - indexJ) - h) h - 1)
        lcp1

/-! ## LMS substrings without their closing symbol -/

/-- The first LMS offset from `q` on, looking at `fuel` offsets: `q + fuel`
when none of them is one. -/
def nextLMSFrom (T : List Nat) : Nat → Nat → Nat
  | 0, q => q
  | fuel + 1, q => if isLMS T q = true then q else nextLMSFrom T fuel (q + 1)

/-- The next LMS offset after `p`: the least `q > p` that is an LMS offset;
the end of the text closes the last LMS substring. -/
def nextLMS (T : List Nat) (p : Nat) : Nat := nextLMSFrom T (T.length - (p + 1)) (p + 1)

/-- The LMS substring at `p` without its closing symbol: the symbols
`T[p .. p')`, where `p'` is the next LMS offset after `p`. -/
def lmsBlock (T : List Nat) (p : Nat) : List Nat := (T.drop p).take (nextLMS T p - p)

/-! # Theorems -/

/-! ## Search on the empty text -/

/-- C9: on the empty text (`n = 0`, `SA = [0]`) a search for a non-empty
phrase returns the empty result without error, whatever the LCP-LR array
holds, even an empty one whose every read would fail: the array is not
read. -/
theorem Search_empty_text (ab : Nat) (lcplr phrase : List Nat) (h : phrase ≠ []) :
    Search ⟨ab, []⟩ [0] lcplr phrase = .ok [] := by
  have hlen : 0 < phrase.length := List.length_pos.mpr h
  have hdec : dec64 1 = 0 := by decide
  have h1 : phase1 2 ⟨⟨ab, []⟩, [0], lcplr, phrase, 0, 0, 0, 0⟩ 0 0
      = .ok (⟨⟨ab, []⟩, [0], lcplr, phrase, 0, 0, 0, 0⟩, 0, 0, false) := by
    simp [phase1]
  have h2 : phase2 3 ⟨⟨ab, []⟩, [0], lcplr, phrase, 0, 0, 0, 0⟩ 0 0
      = .ok (⟨⟨ab, []⟩, [0], lcplr, phrase, 0, 0, 1, 0⟩, 0, 0, false) := by
    simp [phase2, searchState.compare, ValueAt, Text.Len, compareLoop, compareFinish, hlen]
  unfold Search
  rw [List.length_singleton, hdec, h1]
  simp only [afterPhase1]
  rw [h2]
  simp only [afterPhase2]

/-- Witness for `Search_empty_text`. -/
theorem Search_empty_text_witness :
    ([98] : List Nat) ≠ [] ∧ Search ⟨256, []⟩ [0] [] [98] = .ok [] :=
  ⟨by decide, Search_empty_text 256 [] [98] (by decide)⟩

/-! ## The LCP-LR fill -/

theorem Below.le {k x : Nat} (h : Below k x) : k ≤ x := by
  induction h with
  | self => exact Nat.le_refl _
  | left x _ ih => omega
  | right x _ ih => omega

theorem Below.of_left {k x : Nat} (h : Below (2 * k + 1) x) : Below k x := by
  induction h with
  | self => exact Below.left k Below.self
  | left x _ ih => exact Below.left x ih
  | right x _ ih => exact Below.right x ih

theorem Below.of_right {k x : Nat} (h : Below (2 * k + 2) x) : Below k x := by
  induction h with
  | self => exact Below.right k Below.self
  | left x _ ih => exact Below.left x ih
  | right x _ ih => exact Below.right x ih

theorem Below.not_left_right {k x : Nat} (h : Below (2 * k + 1) x) : ¬ Below (2 * k + 2) x := by
  induction h with
  | self =>
    intro h2
    generalize hz : 2 * k + 1 = z at h2
    cases h2 with
    | self => omega
    | left y hy =>
      have := hy.le
      omega
    | right y hy => omega
  | left x _ ih =>
    intro h2
    generalize hz : 2 * x + 1 = z at h2
    cases h2 with
    | self => omega
    | left y hy =>
      have : y = x := by omega
      subst this
      exact ih hy
    | right y hy => omega
  | right x _ ih =>
    intro h2
    generalize hz : 2 * x + 2 = z at h2
    cases h2 with
    | self =>
      have : x = k := by omega
      subst this
      rename_i hx
      have := hx.le
      omega
    | left y hy => omega
    | right y hy =>
      have : y = x := by omega
      subst this
      exact ih hy

theorem Visits.isBelow {k lo hi k1 lo1 hi1 : Nat} (h : Visits k lo hi k1 lo1 hi1) : Below k k1 := by
  induction h with
  | here => exact Below.self
  | left k lo hi k1 lo1 hi1 _ _ ih => exact ih.of_left
  | right k lo hi k1 lo1 hi1 _ _ ih => exact ih.of_right

theorem getElem?_set_of_ne (l : List Nat) (i j v : Nat) (h : i ≠ j) :
    (l.set i v)[j]? = l[j]? := by
  simp [List.getElem?_set, h]

theorem getElem?_set_self_of_lt (l : List Nat) (i v : Nat) (h : i < l.length) :
    (l.set i v)[i]? = some v := by
  simp [List.getElem?_set, h]

theorem ValueAt_of_lt (l : List Nat) (i : Nat) (h : i < l.length) :
    ValueAt l i = .ok (l.getD i 0) := by
  simp [ValueAt, List.getD, List.getElem?_eq_getElem h]

theorem getElem?_eq_getD_of_lt (l : List Nat) (i : Nat) (h : i < l.length) :
    l[i]? = some (l.getD i 0) := by
  simp [List.getD, List.getElem?_eq_getElem h]

theorem getD_of_getElem? {l : List Nat} {i x : Nat} (h : l[i]? = some x) : l.getD i 0 = x := by
  simp [List.getD, h]

theorem SetValueAt_of_lt (l : List Nat) (i v : Nat) (h : i < l.length) :
    SetValueAt l i v = .ok (l.set i v) := by
  simp [SetValueAt, h]

theorem IsRangeMin_leaf1 (H : List Nat) (lo hi : Nat) (h1 : hi - lo = 1) (hhi : hi < H.length) :
    IsRangeMin H lo hi (H.getD (lo + 1) 0) := by
  refine ⟨⟨lo + 1, by omega, by omega, getElem?_eq_getD_of_lt H _ (by omega)⟩, ?_⟩
  intro p hp1 hp2 x hx
  have : p = lo + 1 := by omega
  subst this
  have := getD_of_getElem? hx
  omega

theorem IsRangeMin_leaf2 (H : List Nat) (lo hi : Nat) (h1 : hi - lo = 2) (hhi : hi < H.length) :
    IsRangeMin H lo hi (min (H.getD (lo + 1) 0) (H.getD (lo + 2) 0)) := by
  constructor
  · rcases Nat.le_total (H.getD (lo + 1) 0) (H.getD (lo + 2) 0) with h | h
    · exact ⟨lo + 1, by omega, by omega, by
        rw [getElem?_eq_getD_of_lt H _ (by omega), Nat.min_eq_left h]⟩
    · exact ⟨lo + 2, by omega, by omega, by
        rw [getElem?_eq_getD_of_lt H _ (by omega), Nat.min_eq_right h]⟩
  · intro p hp1 hp2 x hx
    have hp : p = lo + 1 ∨ p = lo + 2 := by omega
    have := getD_of_getElem? hx
    rcases hp with hp | hp <;> subst hp <;> omega

theorem IsRangeMin_leaf3 (H : List Nat) (lo hi : Nat) (h1 : hi - lo = 3) (hhi : hi < H.length) :
    IsRangeMin H lo hi
      (min (min (H.getD (lo + 1) 0) (H.getD (lo + 2) 0)) (H.getD (lo + 3) 0)) := by
  constructor
  · have hc : min (min (H.getD (lo + 1) 0) (H.getD (lo + 2) 0)) (H.getD (lo + 3) 0)
          = H.getD (lo + 1) 0 ∨
        min (min (H.getD (lo + 1) 0) (H.getD (lo + 2) 0)) (H.getD (lo + 3) 0)
          = H.getD (lo + 2) 0 ∨
        min (min (H.getD (lo + 1) 0) (H.getD (lo + 2) 0)) (H.getD (lo + 3) 0)
          = H.getD (lo + 3) 0 := by omega
    rcases hc with hc | hc | hc
    · exact ⟨lo + 1, by omega, by omega, by rw [getElem?_eq_getD_of_lt H _ (by omega), hc]⟩
    · exact ⟨lo + 2, by omega, by omega, by rw [getElem?_eq_getD_of_lt H _ (by omega), hc]⟩
    · exact ⟨lo + 3, by omega, by omega, by rw [getElem?_eq_getD_of_lt H _ (by omega), hc]⟩
  · intro p hp1 hp2 x hx
    have hp : p = lo + 1 ∨ p = lo + 2 ∨ p = lo + 3 := by omega
    have := getD_of_getElem? hx
    rcases hp with hp | hp | hp <;> subst hp <;> omega

theorem IsRangeMin_node (H : List Nat) (lo hi h0 h3 : Nat) (h1 : hi - lo > 3)
    (hhi : hi < H.length)
    (hl : IsRangeMin H lo (lo + (hi - lo) / 2 - 1) h0)
    (hr : IsRangeMin H (lo + (hi - lo) / 2 + 1) hi h3) :
    IsRangeMin H lo hi
      (min (min (min h0 (H.getD (lo + (hi - lo) / 2) 0)) (H.getD (lo + (hi - lo) / 2 + 1) 0)) h3) := by
  obtain ⟨⟨pl, hpl1, hpl2, hpl3⟩, hlmin⟩ := hl
  obtain ⟨⟨pr, hpr1, hpr2, hpr3⟩, hrmin⟩ := hr
  generalize hm : lo + (hi - lo) / 2 = mid at *
  have hmid : lo < mid ∧ mid + 1 ≤ hi := by omega
  constructor
  · have hc : min (min (min h0 (H.getD mid 0)) (H.getD (mid + 1) 0)) h3 = h0 ∨
        min (min (min h0 (H.getD mid 0)) (H.getD (mid + 1) 0)) h3 = H.getD mid 0 ∨
        min (min (min h0 (H.getD mid 0)) (H.getD (mid + 1) 0)) h3 = H.getD (mid + 1) 0 ∨
        min (min (min h0 (H.getD mid 0)) (H.getD (mid + 1) 0)) h3 = h3 := by omega
    rcases hc with hc | hc | hc | hc
    · exact ⟨pl, hpl1, by omega, by rw [hpl3, hc]⟩
    · exact ⟨mid, by omega, by omega, by rw [getElem?_eq_getD_of_lt H _ (by omega), hc]⟩
    · exact ⟨mid + 1, by omega, by omega, by rw [getElem?_eq_getD_of_lt H _ (by omega), hc]⟩
    · exact ⟨pr, by omega, hpr2, by rw [hpr3, hc]⟩
  · intro p hp1 hp2 x hx
    have hp : p ≤ mid - 1 ∨ p = mid ∨ p = mid + 1 ∨ mid + 1 < p := by omega
    rcases hp with hp | hp | hp | hp
    · have := hlmin p hp1 hp x hx
      omega
    · have := getD_of_getElem? hx
      subst hp
      omega
    · have := getD_of_getElem? hx
      subst hp
      omega
    · have := hrmin p hp hp2 x hx
      omega

theorem buildLCPLR_leaf (H : List Nat) (fuel k lo hi : Nat) (Lin : List Nat) (v : Nat)
    (hk : k < Lin.length) (hv : v < placeholder) (hmin : IsRangeMin H lo hi v)
    (hd : ¬ hi - lo > 3)
    (hrun : buildLCPLR (fuel + 1) Lin H k lo hi = .ok (v, Lin.set k v)) :
    ∃ v Lout, buildLCPLR (fuel + 1) Lin H k lo hi = .ok (v, Lout) ∧ Lout.length = Lin.length ∧
      v < placeholder ∧ IsRangeMin H lo hi v ∧
      (∀ x, ¬ Below k x → Lout[x]? = Lin[x]?) ∧
      (∀ k1 lo1 hi1, Visits k lo hi k1 lo1 hi1 →
        ∃ v1, Lout[k1]? = some v1 ∧ v1 < placeholder ∧ IsRangeMin H lo1 hi1 v1) := by
  refine ⟨v, Lin.set k v, hrun, by simp, hv, hmin, ?_, ?_⟩
  · intro x hx
    apply getElem?_set_of_ne
    intro hkx
    exact hx (hkx ▸ Below.self)
  · intro k1 lo1 hi1 hvis
    cases hvis with
    | here => exact ⟨v, getElem?_set_self_of_lt _ _ _ hk, hv, hmin⟩
    | left _ _ _ _ _ _ h _ => exact absurd h hd
    | right _ _ _ _ _ _ h _ => exact absurd h hd

theorem buildLCPLR_spec (H : List Nat) (B : Nat)
    (hH : ∀ p, 1 ≤ p → p < H.length → H.getD p 0 < placeholder) :
    ∀ (fuel k lo hi : Nat) (Lin : List Nat), lo < hi → hi < H.length → hi - lo ≤ fuel →
      (k + 2) * (hi - lo + 1) ≤ 2 * B → B ≤ Lin.length →
      ∃ v Lout, buildLCPLR fuel Lin H k lo hi = .ok (v, Lout) ∧ Lout.length = Lin.length ∧
        v < placeholder ∧ IsRangeMin H lo hi v ∧
        (∀ x, ¬ Below k x → Lout[x]? = Lin[x]?) ∧
        (∀ k1 lo1 hi1, Visits k lo hi k1 lo1 hi1 →
          ∃ v1, Lout[k1]? = some v1 ∧ v1 < placeholder ∧ IsRangeMin H lo1 hi1 v1) := by
  intro fuel
  induction fuel with
  | zero => intro k lo hi Lin h1 _ h3; omega
  | succ fuel ih =>
    intro k lo hi Lin hlt hhi hfuel hB hBL
    have hk : k < Lin.length := by
      have h2 : (k + 2) * 2 ≤ (k + 2) * (hi - lo + 1) := Nat.mul_le_mul_left _ (by omega)
      omega
    have e1 := ValueAt_of_lt H (lo + 1) (by omega)
    by_cases hd3 : hi - lo > 3
    · -- inner node
      have hBl : (2 * k + 1 + 2) * (lo + (hi - lo) / 2 - 1 - lo + 1) ≤ 2 * B := by
        have h2 : 2 * (lo + (hi - lo) / 2 - 1 - lo + 1) ≤ hi - lo + 1 := by omega
        nlinarith
      have hBr : (2 * k + 2 + 2) * (hi - (lo + (hi - lo) / 2 + 1) + 1) ≤ 2 * B := by
        have h2 : 2 * (hi - (lo + (hi - lo) / 2 + 1) + 1) ≤ hi - lo + 1 := by omega
        nlinarith
      obtain ⟨h0, L1, hrun1, hlen1, hv0, hmin0, hfr1, hvis1⟩ :=
        ih (2 * k + 1) lo (lo + (hi - lo) / 2 - 1) Lin (by omega) (by omega) (by omega) hBl hBL
      obtain ⟨h3, L2, hrun2, hlen2, hv3, hmin3, hfr2, hvis2⟩ :=
        ih (2 * k + 2) (lo + (hi - lo) / 2 + 1) hi L1 (by omega) (by omega) (by omega) hBr
          (by omega)
      have em := ValueAt_of_lt H (lo + (hi - lo) / 2) (by omega)
      have em1 := ValueAt_of_lt H (lo + (hi - lo) / 2 + 1) (by omega)
      have hmin := IsRangeMin_node H lo hi h0 h3 hd3 hhi hmin0 hmin3
      have hset := SetValueAt_of_lt L2
        k (min (min (min h0 (H.getD (lo + (hi - lo) / 2) 0)) (H.getD (lo + (hi - lo) / 2 + 1) 0)) h3)
        (by omega)
      have hrun : buildLCPLR (fuel + 1) Lin H k lo hi = .ok
          (min (min (min h0 (H.getD (lo + (hi - lo) / 2) 0)) (H.getD (lo + (hi - lo) / 2 + 1) 0)) h3,
           L2.set k
            (min (min (min h0 (H.getD (lo + (hi - lo) / 2) 0)) (H.getD (lo + (hi - lo) / 2 + 1) 0)) h3)) := by
        rw [buildLCPLR, if_neg (by omega), if_pos hd3, hrun1]
        simp only [em, em1, hrun2, hset]
      refine ⟨_, _, hrun, by simp [hlen1, hlen2], by omega, hmin, ?_, ?_⟩
      · intro x hx
        have hxk : k ≠ x := fun hkx => hx (hkx ▸ Below.self)
        rw [getElem?_set_of_ne _ _ _ _ hxk, hfr2 x (fun hb => hx hb.of_right),
          hfr1 x (fun hb => hx hb.of_left)]
      · intro k1 lo1 hi1 hvis
        cases hvis with
        | here =>
          exact ⟨_, getElem?_set_self_of_lt _ _ _ (by omega), by omega, hmin⟩
        | left _ _ _ _ _ _ _ hv =>
          obtain ⟨v1, hv1, hv1p, hv1m⟩ := hvis1 _ _ _ hv
          refine ⟨v1, ?_, hv1p, hv1m⟩
          have hb := hv.isBelow
          have hne : k ≠ k1 := by
            have := hb.le
            omega
          rw [getElem?_set_of_ne _ _ _ _ hne, hfr2 k1 hb.not_left_right, hv1]
        | right _ _ _ _ _ _ _ hv =>
          obtain ⟨v1, hv1, hv1p, hv1m⟩ := hvis2 _ _ _ hv
          refine ⟨v1, ?_, hv1p, hv1m⟩
          have hb := hv.isBelow
          have hne : k ≠ k1 := by
            have := hb.le
            omega
          rw [getElem?_set_of_ne _ _ _ _ hne, hv1]
    · have p1 := hH (lo + 1) (by omega) (by omega)
      by_cases hd2 : hi - lo = 3
      · have e2 := ValueAt_of_lt H (lo + 2) (by omega)
        have e3 := ValueAt_of_lt H (lo + 3) (by omega)
        have p2 := hH (lo + 2) (by omega) (by omega)
        have hm : min (min (min (H.getD (lo + 1) 0) (H.getD (lo + 2) 0)) (H.getD (lo + 3) 0))
            placeholder = min (min (H.getD (lo + 1) 0) (H.getD (lo + 2) 0)) (H.getD (lo + 3) 0) := by
          omega
        apply buildLCPLR_leaf H fuel k lo hi Lin _ hk _ (IsRangeMin_leaf3 H lo hi hd2 hhi) hd3
        · rw [buildLCPLR, if_neg (by omega), if_neg hd3, if_pos hd2]
          simp only [e1, e2, e3, hm, SetValueAt_of_lt Lin k _ hk]
        · omega
      · by_cases hd1 : hi - lo = 2
        · have e2 := ValueAt_of_lt H (lo + 2) (by omega)
          have hm : min (min (min (H.getD (lo + 1) 0) (H.getD (lo + 2) 0)) placeholder)
              placeholder = min (H.getD (lo + 1) 0) (H.getD (lo + 2) 0) := by
            omega
          apply buildLCPLR_leaf H fuel k lo hi Lin _ hk _ (IsRangeMin_leaf2 H lo hi hd1 hhi) hd3
          · rw [buildLCPLR, if_neg (by omega), if_neg hd3, if_neg hd2, if_pos hd1]
            simp only [e1, e2, hm, SetValueAt_of_lt Lin k _ hk]
          · omega
        · have hm : min (min (min (H.getD (lo + 1) 0) placeholder) placeholder)
              placeholder = H.getD (lo + 1) 0 := by
            omega
          apply buildLCPLR_leaf H fuel k lo hi Lin _ hk _
            (IsRangeMin_leaf1 H lo hi (by omega) hhi) hd3
          · rw [buildLCPLR, if_neg (by omega), if_neg hd3, if_neg hd2, if_neg hd1]
            simp only [e1, hm, SetValueAt_of_lt Lin k _ hk]
          · omega

theorem IsRangeMin_unique {H : List Nat} {lo hi v w : Nat} (hv : IsRangeMin H lo hi v)
    (hw : IsRangeMin H lo hi w) : v = w := by
  obtain ⟨⟨p, hp1, hp2, hp3⟩, hvmin⟩ := hv
  obtain ⟨⟨q, hq1, hq2, hq3⟩, hwmin⟩ := hw
  have h1 := hvmin q hq1 hq2 w hq3
  have h2 := hwmin p hp1 hp2 v hp3
  omega

theorem Visits_inv (N B : Nat) {k lo hi k1 lo1 hi1 : Nat} (h : Visits k lo hi k1 lo1 hi1) :
    lo < hi → hi < N → (k + 2) * (hi - lo + 1) ≤ 2 * B →
    lo1 < hi1 ∧ hi1 < N ∧ (k1 + 2) * (hi1 - lo1 + 1) ≤ 2 * B := by
  induction h with
  | here => exact fun a b c => ⟨a, b, c⟩
  | left k lo hi k1 lo1 hi1 hd _ ih =>
    intro a b c
    apply ih (by omega) (by omega)
    have h2 : 2 * (lo + (hi - lo) / 2 - 1 - lo + 1) ≤ hi - lo + 1 := by omega
    nlinarith
  | right k lo hi k1 lo1 hi1 hd _ ih =>
    intro a b c
    apply ih (by omega) (by omega)
    have h2 : 2 * (hi - (lo + (hi - lo) / 2 + 1) + 1) ≤ hi - lo + 1 := by omega
    nlinarith

theorem le_ceilPow2Loop (len : Nat) : ∀ fuel m, len ≤ m * 2 ^ fuel → len ≤ ceilPow2Loop len fuel m := by
  intro fuel
  induction fuel with
  | zero => intro m h; simpa [ceilPow2Loop] using h
  | succ fuel ih =>
    intro m h
    rw [ceilPow2Loop]
    split
    · assumption
    · apply ih
      rw [pow_succ] at h
      nlinarith

theorem le_ceilPow2 (len : Nat) : len ≤ ceilPow2 len := by
  unfold ceilPow2
  split
  · omega
  · apply le_ceilPow2Loop
    have := Nat.lt_two_pow len
    omega

theorem dec64_of_pos (x : Nat) (h1 : 1 ≤ x) (h2 : x ≤ 2 ^ 64) : dec64 x = x - 1 := by
  unfold dec64
  have : x + (2 ^ 64 - 1) = (x - 1) + 2 ^ 64 := by omega
  rw [this, Nat.add_mod_right, Nat.mod_eq_of_lt]
  omega

/-- C10: for an LCP array `H` of length `N ≥ 2` (a `uint64` length) whose
entries at indices `1 .. N-1` are below `placeholder`, the fill started by
`BuildLCPLRArray` as `buildLCPLR(0, 0, N-1)` on the freshly allocated array
succeeds, and for every call `(k, lo, hi)` it makes, the cell `L[k]` of the
array it leaves behind holds the minimum of `H[p]` over `lo < p ≤ hi`; the same
value is what that call returns to its parent. -/
theorem buildLCPLR_minimum_law (H : List Nat) (hN : 2 ≤ H.length) (h64 : H.length < 2 ^ 64)
    (hH : ∀ p, p < H.length → 1 ≤ p → H.getD p 0 < placeholder) :
    ∃ v L, buildLCPLR (64 + H.length) (List.replicate (2 * ceilPow2 H.length + 1) placeholder)
          H 0 0 (dec64 H.length) = .ok (v, L) ∧
      ∀ k lo hi, Visits 0 0 (dec64 H.length) k lo hi →
        ∃ m, L[k]? = some m ∧ IsRangeMin H lo hi m ∧
          ∀ fuel Lin, hi - lo ≤ fuel → Lin.length = 2 * ceilPow2 H.length + 1 →
            ∃ Lout, buildLCPLR fuel Lin H k lo hi = .ok (m, Lout) ∧ Lout[k]? = some m := by
  have hH1 : ∀ p, 1 ≤ p → p < H.length → H.getD p 0 < placeholder := fun p a b => hH p b a
  have hc := le_ceilPow2 H.length
  rw [dec64_of_pos H.length (by omega) (by omega)]
  have hB0 : (0 + 2) * (H.length - 1 - 0 + 1) ≤ 2 * H.length := by omega
  obtain ⟨v, L, hrun, _, _, _, _, hvis⟩ :=
    buildLCPLR_spec H H.length hH1 (64 + H.length) 0 0 (H.length - 1)
      (List.replicate (2 * ceilPow2 H.length + 1) placeholder) (by omega) (by omega) (by omega)
      hB0 (by simp; omega)
  refine ⟨v, L, hrun, ?_⟩
  intro k lo hi hv
  obtain ⟨m, hm1, _, hm3⟩ := hvis k lo hi hv
  refine ⟨m, hm1, hm3, ?_⟩
  intro fuel Lin hfuel hLin
  obtain ⟨h1, h2, h3⟩ := Visits_inv H.length H.length hv (by omega) (by omega) hB0
  obtain ⟨w, Lout, hrun2, _, _, hw, _, hvis2⟩ :=
    buildLCPLR_spec H H.length hH1 fuel k lo hi Lin h1 h2 hfuel h3 (by omega)
  have hwm : w = m := IsRangeMin_unique hw hm3
  subst hwm
  obtain ⟨m2, hm2, _, hm2min⟩ := hvis2 k lo hi (Visits.here k lo hi)
  have : m2 = w := IsRangeMin_unique hm2min hw
  subst this
  exact ⟨Lout, hrun2, hm2⟩

/-- Witness for `buildLCPLR_minimum_law`: the LCP array of `"banana"`. -/
theorem buildLCPLR_minimum_law_witness :
    (2 ≤ [0, 0, 1, 3, 0, 0, 2].length ∧ [0, 0, 1, 3, 0, 0, 2].length < 2 ^ 64 ∧
      ∀ p, p < [0, 0, 1, 3, 0, 0, 2].length → 1 ≤ p →
        [0, 0, 1, 3, 0, 0, 2].getD p 0 < placeholder) ∧
    ∃ v L, buildLCPLR (64 + [0, 0, 1, 3, 0, 0, 2].length)
          (List.replicate (2 * ceilPow2 [0, 0, 1, 3, 0, 0, 2].length + 1) placeholder)
          [0, 0, 1, 3, 0, 0, 2] 0 0 (dec64 [0, 0, 1, 3, 0, 0, 2].length) = .ok (v, L) ∧
      ∀ k lo hi, Visits 0 0 (dec64 [0, 0, 1, 3, 0, 0, 2].length) k lo hi →
        ∃ m, L[k]? = some m ∧ IsRangeMin [0, 0, 1, 3, 0, 0, 2] lo hi m ∧
          ∀ fuel Lin, hi - lo ≤ fuel →
            Lin.length = 2 * ceilPow2 [0, 0, 1, 3, 0, 0, 2].length + 1 →
            ∃ Lout, buildLCPLR fuel Lin [0, 0, 1, 3, 0, 0, 2] k lo hi = .ok (m, Lout) ∧
              Lout[k]? = some m :=
  ⟨⟨by decide, by decide, by decide⟩,
    buildLCPLR_minimum_law [0, 0, 1, 3, 0, 0, 2] (by decide) (by decide) (by decide)⟩

/-! ## Search: a phrase that does not occur -/

/-- C6 (the code departs from it): on the byte text `"aaaaaaa"` with its sorted
suffix array, its LCP array and its LCP-LR array `[0, 0, 4]`, the search for
the phrase `"b"`, which occurs nowhere, returns the offsets `[0, 1, 2, 3]`
instead of the empty occurrence set.  After the first comparison sends the
search to the right, the height `L[2] = 4` is taken as a prefix shared with the
phrase, and `compare` reports a hit without having looked at one symbol. -/
theorem Search_reports_absent_phrase :
    IsSuffixArray [97, 97, 97, 97, 97, 97, 97] [7, 6, 5, 4, 3, 2, 1, 0] ∧
    BuildLCPArray (NewTextFromString [97, 97, 97, 97, 97, 97, 97]) [7, 6, 5, 4, 3, 2, 1, 0]
      = .ok [0, 0, 1, 2, 3, 4, 5, 6] ∧
    BuildLCPLRArray [0, 0, 1, 2, 3, 4, 5, 6] = .ok [0, 0, 4] ∧
    Search (NewTextFromString [97, 97, 97, 97, 97, 97, 97]) [7, 6, 5, 4, 3, 2, 1, 0] [0, 0, 4] [98]
      = .ok [0, 1, 2, 3] ∧
    occurrences [97, 97, 97, 97, 97, 97, 97] [98] = [] := by
  refine ⟨⟨by decide, by decide⟩, by rfl, by rfl, by rfl, by decide⟩

/-- C8 (the code departs from it): on the byte text `"aaaaaaaa"` with its
sorted suffix array, LCP array and LCP-LR array `[0, 0, 5]`, the search for
`"aab"` returns `[0, 1, 2, 3]`, and the text does not begin with the phrase at
the returned offset `0` (nor at any other offset). -/
theorem Search_returns_non_occurrence :
    IsSuffixArray [97, 97, 97, 97, 97, 97, 97, 97] [8, 7, 6, 5, 4, 3, 2, 1, 0] ∧
    BuildLCPArray (NewTextFromString [97, 97, 97, 97, 97, 97, 97, 97])
      [8, 7, 6, 5, 4, 3, 2, 1, 0] = .ok [0, 0, 1, 2, 3, 4, 5, 6, 7] ∧
    BuildLCPLRArray [0, 0, 1, 2, 3, 4, 5, 6, 7] = .ok [0, 0, 5] ∧
    Search (NewTextFromString [97, 97, 97, 97, 97, 97, 97, 97]) [8, 7, 6, 5, 4, 3, 2, 1, 0]
      [0, 0, 5] [97, 97, 98] = .ok [0, 1, 2, 3] ∧
    ¬ (([97, 97, 97, 97, 97, 97, 97, 97] : List Nat).drop 0).take 3 = [97, 97, 98] := by
  refine ⟨⟨by decide, by decide⟩, by rfl, by rfl, by rfl, by decide⟩

/-! ## Lexicographic order and common lengths -/

theorem lexLt_irrefl : ∀ a : List Nat, lexLt a a = false
  | [] => rfl
  | x :: a => by simp [lexLt, lexLt_irrefl a]

theorem lexLt_trans : ∀ a b c : List Nat, lexLt a b = true → lexLt b c = true → lexLt a c = true
  | [], [], _ => by simp [lexLt]
  | [], _ :: _, [] => by simp [lexLt]
  | [], _ :: _, _ :: _ => by simp [lexLt]
  | _ :: _, [], _ => by simp [lexLt]
  | _ :: _, _ :: _, [] => by simp [lexLt]
  | x :: a, y :: b, z :: c => by
    simp only [lexLt, Bool.or_eq_true, decide_eq_true_eq, Bool.and_eq_true, beq_iff_eq]
    intro h1 h2
    rcases h1 with h1 | ⟨h1, h1'⟩
    · rcases h2 with h2 | ⟨h2, _⟩
      · left; omega
      · left; omega
    · rcases h2 with h2 | ⟨h2, h2'⟩
      · left; omega
      · right; exact ⟨by omega, lexLt_trans a b c h1' h2'⟩

theorem lexLt_total : ∀ a b : List Nat, lexLt a b = true ∨ a = b ∨ lexLt b a = true
  | [], [] => by simp
  | [], _ :: _ => by simp [lexLt]
  | _ :: _, [] => by simp [lexLt]
  | x :: a, y :: b => by
    simp only [lexLt, Bool.or_eq_true, decide_eq_true_eq, Bool.and_eq_true, beq_iff_eq,
      List.cons.injEq]
    rcases Nat.lt_trichotomy x y with h | h | h
    · left; left; exact h
    · rcases lexLt_total a b with h' | h' | h'
      · left; right; exact ⟨h, h'⟩
      · right; left; exact ⟨h, h'⟩
      · right; right; right; exact ⟨h.symm, h'⟩
    · right; right; left; exact h

theorem lexLt_asymm (a b : List Nat) (h : lexLt a b = true) : lexLt b a = false := by
  cases hba : lexLt b a with
  | false => rfl
  | true =>
    have := lexLt_trans a b a h hba
    rw [lexLt_irrefl] at this
    exact absurd this (by decide)

theorem naiveLCP_comm : ∀ a b : List Nat, naiveLCP a b = naiveLCP b a
  | [], [] => rfl
  | [], _ :: _ => rfl
  | _ :: _, [] => rfl
  | x :: a, y :: b => by
    simp only [naiveLCP]
    by_cases h : x = y
    · rw [if_pos h, if_pos h.symm, naiveLCP_comm a b]
    · rw [if_neg h, if_neg (fun h' => h h'.symm)]

theorem naiveLCP_le_left : ∀ a b : List Nat, naiveLCP a b ≤ a.length
  | [], [] => by simp [naiveLCP]
  | [], _ :: _ => by simp [naiveLCP]
  | _ :: _, [] => by simp [naiveLCP]
  | x :: a, y :: b => by
    simp only [naiveLCP, List.length_cons]
    split
    · have := naiveLCP_le_left a b
      omega
    · omega

theorem naiveLCP_le_right (a b : List Nat) : naiveLCP a b ≤ b.length := by
  rw [naiveLCP_comm]
  exact naiveLCP_le_left b a

/-- Between two sequences in order, the common length with the far one is at
most the common length with the near one. -/
theorem naiveLCP_mono : ∀ a b c : List Nat, (lexLt a b = true ∨ a = b) →
    (lexLt b c = true ∨ b = c) → naiveLCP a c ≤ naiveLCP b c
  | [], _, _ => by intro _ _; cases ‹List Nat› <;> simp [naiveLCP]
  | _ :: _, [], _ => by
    intro h
    simp [lexLt] at h
  | _ :: _, _ :: _, [] => by
    intro _ h
    simp [lexLt] at h
  | x :: a, y :: b, z :: c => by
    simp only [lexLt, Bool.or_eq_true, decide_eq_true_eq, Bool.and_eq_true, beq_iff_eq,
      List.cons.injEq, naiveLCP]
    intro h1 h2
    by_cases hxz : x = z
    · have hxy : x = y := by
        rcases h1 with (h1 | h1) | h1 <;> rcases h2 with (h2 | h2) | h2 <;> omega
      have hyz : y = z := by omega
      rw [if_pos hxz, if_pos hyz]
      have := naiveLCP_mono a b c
        (by rcases h1 with (h1 | h1) | h1
            · omega
            · exact Or.inl h1.2
            · exact Or.inr h1.2)
        (by rcases h2 with (h2 | h2) | h2
            · omega
            · exact Or.inl h2.2
            · exact Or.inr h2.2)
      omega
    · rw [if_neg hxz]
      omega

theorem drop_eq_getD_cons (l : List Nat) (i : Nat) (h : i < l.length) :
    l.drop i = l.getD i 0 :: l.drop (i + 1) := by
  rw [List.getD_eq_getElem l 0 h]
  exact List.drop_eq_getElem_cons h

theorem naiveLCP_nil_left (b : List Nat) : naiveLCP [] b = 0 := by
  cases b <;> rfl

theorem naiveLCP_nil_right (a : List Nat) : naiveLCP a [] = 0 := by
  cases a <;> rfl

theorem naiveLCP_shift : ∀ (h : Nat) (a b : List Nat), h ≤ naiveLCP a b →
    naiveLCP a b = h + naiveLCP (a.drop h) (b.drop h)
  | 0, a, b => by simp
  | h + 1, [], b => by simp [naiveLCP_nil_left]
  | h + 1, _ :: _, [] => by simp [naiveLCP_nil_right]
  | h + 1, x :: a, y :: b => by
    simp only [naiveLCP, List.drop_succ_cons]
    split
    · intro hle
      have := naiveLCP_shift h a b (by omega)
      omega
    · intro hle
      omega

theorem extendLoop_eq (text : Text) (i j : Nat) : ∀ remaining h,
    remaining = min (text.Len - (i + h)) (text.Len - (j + h)) →
    extendLoop text i j remaining h
      = h + naiveLCP (text.ba.drop (i + h)) (text.ba.drop (j + h)) := by
  intro remaining
  induction remaining with
  | zero =>
    intro h hr
    have hc : text.ba.length ≤ i + h ∨ text.ba.length ≤ j + h := by
      unfold Text.Len at hr
      omega
    rcases hc with hc | hc
    · rw [List.drop_eq_nil_of_le hc, naiveLCP_nil_left]
      rfl
    · rw [List.drop_eq_nil_of_le hc, naiveLCP_nil_right]
      rfl
  | succ remaining ih =>
    intro h hr
    unfold Text.Len at hr
    rw [extendLoop, drop_eq_getD_cons text.ba (i + h) (by omega),
      drop_eq_getD_cons text.ba (j + h) (by omega), naiveLCP]
    split
    · rw [ih (h + 1) (by unfold Text.Len; omega)]
      have e1 : i + (h + 1) = i + h + 1 := by omega
      have e2 : j + (h + 1) = j + h + 1 := by omega
      rw [e1, e2]
      omega
    · rfl

theorem extendLoop_correct (text : Text) (i j h : Nat)
    (hle : h ≤ naiveLCP (text.ba.drop i) (text.ba.drop j)) :
    extendLoop text i j (min (text.Len - i) (text.Len - j) - h) h
      = naiveLCP (text.ba.drop i) (text.ba.drop j) := by
  rw [extendLoop_eq text i j _ h (by omega), naiveLCP_shift h _ _ hle, List.drop_drop,
    List.drop_drop]

/-! ## Facts about a sorted suffix array -/

theorem IsSuffixArray.length_eq {text sa : List Nat} (h : IsSuffixArray text sa) :
    sa.length = text.length + 1 := by
  rw [h.1.length_eq, List.length_range]

theorem IsSuffixArray.getD_le {text sa : List Nat} (h : IsSuffixArray text sa) (i : Nat)
    (hi : i ≤ text.length) : sa.getD i 0 ≤ text.length := by
  have hlt : i < sa.length := by rw [h.length_eq]; omega
  have hm : sa.getD i 0 ∈ sa := by
    rw [List.getD_eq_getElem sa 0 hlt]
    exact List.getElem_mem hlt
  have := (h.1.mem_iff).mp hm
  rw [List.mem_range] at this
  omega

theorem IsSuffixArray.getD_inj {text sa : List Nat} (h : IsSuffixArray text sa) (i j : Nat)
    (hi : i ≤ text.length) (hj : j ≤ text.length) (he : sa.getD i 0 = sa.getD j 0) : i = j := by
  have hil : i < sa.length := by rw [h.length_eq]; omega
  have hjl : j < sa.length := by rw [h.length_eq]; omega
  have hnd : sa.Nodup := (h.1.nodup_iff).mpr (List.nodup_range _)
  rw [List.getD_eq_getElem sa 0 hil, List.getD_eq_getElem sa 0 hjl] at he
  exact (hnd.getElem_inj_iff).mp he

theorem IsSuffixArray.exists_index {text sa : List Nat} (h : IsSuffixArray text sa) (p : Nat)
    (hp : p ≤ text.length) : ∃ i, i ≤ text.length ∧ sa.getD i 0 = p := by
  have hm : p ∈ sa := (h.1.mem_iff).mpr (List.mem_range.mpr (by omega))
  obtain ⟨i, hi, he⟩ := List.getElem_of_mem hm
  refine ⟨i, ?_, ?_⟩
  · have := h.length_eq
    omega
  · rw [List.getD_eq_getElem sa 0 hi, he]

theorem IsSuffixArray.sorted {text sa : List Nat} (h : IsSuffixArray text sa) :
    ∀ j i, i < j → j ≤ text.length →
      lexLt (text.drop (sa.getD i 0)) (text.drop (sa.getD j 0)) = true := by
  intro j
  induction j with
  | zero => intro i hi; omega
  | succ j ih =>
    intro i hi hj
    have hstep := h.2 (j + 1) (by omega) hj
    rw [Nat.add_sub_cancel] at hstep
    by_cases hij : i = j
    · subst hij
      exact hstep
    · exact lexLt_trans _ _ _ (ih i (by omega) (by omega)) hstep

theorem IsSuffixArray.index_lt_of_lexLt {text sa : List Nat} (h : IsSuffixArray text sa)
    (i j : Nat) (hi : i ≤ text.length) (hj : j ≤ text.length)
    (hlt : lexLt (text.drop (sa.getD i 0)) (text.drop (sa.getD j 0)) = true) : i < j := by
  rcases Nat.lt_trichotomy i j with hc | hc | hc
  · exact hc
  · subst hc
    rw [lexLt_irrefl] at hlt
    exact absurd hlt (by decide)
  · have := h.sorted i j hc hi
    rw [lexLt_asymm _ _ this] at hlt
    exact absurd hlt (by decide)

theorem lexLt_nil_right (a : List Nat) : lexLt a [] = false := by
  cases a <;> rfl

theorem IsSuffixArray.head {text sa : List Nat} (h : IsSuffixArray text sa) :
    sa.getD 0 0 = text.length := by
  obtain ⟨i, hi, he⟩ := h.exists_index text.length (Nat.le_refl _)
  by_cases h0 : i = 0
  · subst h0
    exact he
  · have := h.sorted i 0 (by omega) hi
    rw [he, List.drop_length, lexLt_nil_right] at this
    exact absurd this (by decide)

/-! ## Kasai's algorithm -/

theorem getD_set_self (l : List Nat) (i v : Nat) (h : i < l.length) :
    (l.set i v).getD i 0 = v := by
  simp [List.getD, List.getElem?_set, h]

theorem getD_set_of_ne (l : List Nat) (i j v : Nat) (h : i ≠ j) :
    (l.set i v).getD j 0 = l.getD j 0 := by
  simp [List.getD, List.getElem?_set, h]

theorem rankLoop_spec : ∀ (l : List Nat) (idx : Nat) (arr : List Nat), l.Nodup →
    (∀ p ∈ l, p < arr.length) →
    ∃ out, rankLoop l idx arr = .ok out ∧ out.length = arr.length ∧
      (∀ j, j < l.length → out.getD (l.getD j 0) 0 = idx + j) ∧
      (∀ p, p ∉ l → out.getD p 0 = arr.getD p 0)
  | [], idx, arr => by
    intro _ _
    exact ⟨arr, rfl, rfl, by simp, by simp⟩
  | pos :: rest, idx, arr => by
    intro hnd hlt
    have hpos : pos < arr.length := hlt pos (List.mem_cons_self _ _)
    obtain ⟨hnotin, hnd'⟩ := List.nodup_cons.mp hnd
    obtain ⟨out, hrun, hlen, hidx, hframe⟩ := rankLoop_spec rest (idx + 1) (arr.set pos idx) hnd'
      (by intro p hp; simpa using hlt p (List.mem_cons_of_mem _ hp))
    refine ⟨out, ?_, by simpa using hlen, ?_, ?_⟩
    · rw [rankLoop, SetValueAt_of_lt arr pos idx hpos]
      exact hrun
    · intro j hj
      cases j with
      | zero =>
        show out.getD pos 0 = idx + 0
        rw [hframe pos hnotin, getD_set_self arr pos idx hpos]
        rfl
      | succ j =>
        have := hidx j (by simpa using hj)
        show out.getD (rest.getD j 0) 0 = idx + (j + 1)
        omega
    · intro p hp
      have hp1 : p ≠ pos := fun he => hp (he ▸ List.mem_cons_self _ _)
      have hp2 : p ∉ rest := fun hm => hp (List.mem_cons_of_mem _ hm)
      rw [hframe p hp2, getD_set_of_ne arr pos p idx (fun he => hp1 he.symm)]

/-- The rank array of a sorted suffix array is its inverse. -/
theorem rank_of_IsSuffixArray {text sa : List Nat} (h : IsSuffixArray text sa) :
    ∃ rank, rankLoop sa 0 (makeBigArray sa.length) = .ok rank ∧
      rank.length = text.length + 1 ∧
      (∀ i, i ≤ text.length → rank.getD (sa.getD i 0) 0 = i) ∧
      (∀ p, p ≤ text.length → rank.getD p 0 ≤ text.length ∧ sa.getD (rank.getD p 0) 0 = p) := by
  have hnd : sa.Nodup := (h.1.nodup_iff).mpr (List.nodup_range _)
  have hlen := h.length_eq
  obtain ⟨rank, hrun, hl, hidx, _⟩ := rankLoop_spec sa 0 (makeBigArray sa.length) hnd (by
    intro p hp
    have := (h.1.mem_iff).mp hp
    rw [List.mem_range] at this
    simp [makeBigArray]
    omega)
  have hidx' : ∀ i, i ≤ text.length → rank.getD (sa.getD i 0) 0 = i := by
    intro i hi
    have := hidx i (by omega)
    omega
  refine ⟨rank, hrun, by simpa [makeBigArray, hlen] using hl, hidx', ?_⟩
  intro p hp
  obtain ⟨i, hi, he⟩ := h.exists_index p hp
  have := hidx' i hi
  rw [he] at this
  rw [this]
  exact ⟨hi, he⟩

theorem naiveLCP_pos {T : List Nat} {i j : Nat}
    (h : 1 ≤ naiveLCP (T.drop i) (T.drop j)) :
    i < T.length ∧ j < T.length ∧ T.getD i 0 = T.getD j 0 ∧
      naiveLCP (T.drop i) (T.drop j) = naiveLCP (T.drop (i + 1)) (T.drop (j + 1)) + 1 := by
  have hi : i < T.length := by
    by_contra hc
    have e : T.drop i = [] := List.drop_eq_nil_of_le (by omega)
    rw [e, naiveLCP_nil_left] at h
    omega
  have hj : j < T.length := by
    by_contra hc
    have e : T.drop j = [] := List.drop_eq_nil_of_le (by omega)
    rw [e, naiveLCP_nil_right] at h
    omega
  rw [drop_eq_getD_cons T i hi, drop_eq_getD_cons T j hj, naiveLCP] at h ⊢
  by_cases he : T.getD i 0 = T.getD j 0
  · rw [if_pos he]
    exact ⟨hi, hj, he, rfl⟩
  · rw [if_neg he] at h
    omega

theorem lexLt_drop_succ {T : List Nat} {i j : Nat} (hi : i < T.length) (hj : j < T.length)
    (he : T.getD i 0 = T.getD j 0) :
    lexLt (T.drop i) (T.drop j) = lexLt (T.drop (i + 1)) (T.drop (j + 1)) := by
  rw [drop_eq_getD_cons T i hi, drop_eq_getD_cons T j hj, lexLt, he]
  simp

/-- The step of Kasai's argument: dropping the first symbol of two neighbours
in the suffix array loses at most one symbol of common length against the new
neighbour. -/
theorem kasai_next {text sa rank : List Nat} (hsa : IsSuffixArray text sa)
    (hrank : ∀ p, p ≤ text.length → rank.getD p 0 ≤ text.length ∧ sa.getD (rank.getD p 0) 0 = p)
    (i : Nat) (hi : i < text.length) (hr : 1 ≤ rank.getD i 0)
    (hr' : 1 ≤ rank.getD (i + 1) 0) :
    naiveLCP (text.drop i) (text.drop (sa.getD (rank.getD i 0 - 1) 0)) - 1
      ≤ naiveLCP (text.drop (i + 1)) (text.drop (sa.getD (rank.getD (i + 1) 0 - 1) 0)) := by
  by_cases h0 : naiveLCP (text.drop i) (text.drop (sa.getD (rank.getD i 0 - 1) 0)) = 0
  · omega
  · obtain ⟨_, hj, he, hs⟩ := @naiveLCP_pos text i (sa.getD (rank.getD i 0 - 1) 0) (by omega)
    obtain ⟨hri, hsi⟩ := hrank i (by omega)
    obtain ⟨hri', hsi'⟩ := hrank (i + 1) (by omega)
    obtain ⟨hrj, hsj⟩ := hrank (sa.getD (rank.getD i 0 - 1) 0 + 1) (by omega)
    -- the old neighbour is smaller than suffix i
    have hlt : lexLt (text.drop (sa.getD (rank.getD i 0 - 1) 0)) (text.drop i) = true := by
      have := hsa.sorted (rank.getD i 0) (rank.getD i 0 - 1) (by omega) hri
      rwa [hsi] at this
    rw [lexLt_drop_succ hj hi he.symm] at hlt
    -- so its successor comes before suffix i + 1
    have hidx : rank.getD (sa.getD (rank.getD i 0 - 1) 0 + 1) 0 < rank.getD (i + 1) 0 := by
      apply hsa.index_lt_of_lexLt _ _ hrj hri'
      rw [hsj, hsi']
      exact hlt
    have hq : lexLt (text.drop (sa.getD (rank.getD (i + 1) 0 - 1) 0)) (text.drop (i + 1))
        = true := by
      have := hsa.sorted (rank.getD (i + 1) 0) (rank.getD (i + 1) 0 - 1) (by omega) hri'
      rwa [hsi'] at this
    have hjq : lexLt (text.drop (sa.getD (rank.getD i 0 - 1) 0 + 1))
          (text.drop (sa.getD (rank.getD (i + 1) 0 - 1) 0)) = true ∨
        text.drop (sa.getD (rank.getD i 0 - 1) 0 + 1)
          = text.drop (sa.getD (rank.getD (i + 1) 0 - 1) 0) := by
      by_cases hc : rank.getD (sa.getD (rank.getD i 0 - 1) 0 + 1) 0 = rank.getD (i + 1) 0 - 1
      · right
        rw [← hc, hsj]
      · left
        have := hsa.sorted (rank.getD (i + 1) 0 - 1)
          (rank.getD (sa.getD (rank.getD i 0 - 1) 0 + 1) 0) (by omega) (by omega)
        rwa [hsj] at this
    have hmono := naiveLCP_mono _ _ _ hjq (Or.inl hq)
    rw [naiveLCP_comm (text.drop (i + 1)) (text.drop (sa.getD (rank.getD (i + 1) 0 - 1) 0))]
    rw [naiveLCP_comm (text.drop (sa.getD (rank.getD i 0 - 1) 0 + 1)) (text.drop (i + 1))] at hmono
    omega

theorem kasaiLoop_spec {text : Text} {sa rank : List Nat} (hsa : IsSuffixArray text.ba sa)
    (hlen : rank.length = text.ba.length + 1)
    (hrank : ∀ p, p ≤ text.ba.length →
      rank.getD p 0 ≤ text.ba.length ∧ sa.getD (rank.getD p 0) 0 = p) :
    ∀ (m idx h : Nat) (lcp : List Nat), idx + m = text.ba.length + 1 →
      lcp.length = text.ba.length + 1 →
      (idx ≤ text.ba.length → 1 ≤ rank.getD idx 0 →
        h ≤ naiveLCP (text.ba.drop idx) (text.ba.drop (sa.getD (rank.getD idx 0 - 1) 0))) →
      ∃ h1 out, kasaiLoop text sa (rank.drop idx) idx (h, lcp) = .ok (h1, out) ∧
        out.length = text.ba.length + 1 ∧
        (∀ i, idx ≤ i → i ≤ text.ba.length → 2 ≤ rank.getD i 0 →
          out.getD (rank.getD i 0) 0
            = naiveLCP (text.ba.drop i) (text.ba.drop (sa.getD (rank.getD i 0 - 1) 0))) ∧
        (∀ r, (∀ i, idx ≤ i → i ≤ text.ba.length → rank.getD i 0 ≠ r ∨ r < 2) →
          out.getD r 0 = lcp.getD r 0) := by
  intro m
  induction m with
  | zero =>
    intro idx h lcp hidx hl _
    have e : rank.drop idx = [] := List.drop_eq_nil_of_le (by omega)
    rw [e]
    refine ⟨h, lcp, rfl, hl, ?_, ?_⟩
    · intro i h1 h2; omega
    · intro r _; rfl
  | succ m ih =>
    intro idx h lcp hidx hl hpre
    have hidxn : idx ≤ text.ba.length := by omega
    rw [drop_eq_getD_cons rank idx (by omega)]
    obtain ⟨hr1, hr2⟩ := hrank idx hidxn
    by_cases hle : rank.getD idx 0 ≤ 1
    · -- skipped position: the carried length is zero or no successor exists
      have hpre' : idx + 1 ≤ text.ba.length → 1 ≤ rank.getD (idx + 1) 0 →
          h ≤ naiveLCP (text.ba.drop (idx + 1))
            (text.ba.drop (sa.getD (rank.getD (idx + 1) 0 - 1) 0)) := by
        intro hn _
        have hr : rank.getD idx 0 = 1 := by
          by_contra hc
          have h0 : rank.getD idx 0 = 0 := by omega
          rw [h0, hsa.head] at hr2
          omega
        have := hpre hidxn (by omega)
        rw [hr, Nat.sub_self, hsa.head, List.drop_length, naiveLCP_nil_right] at this
        omega
      obtain ⟨h1, out, hrun, hol, hval, hframe⟩ := ih (idx + 1) h lcp (by omega) hl hpre'
      refine ⟨h1, out, ?_, hol, ?_, ?_⟩
      · rw [kasaiLoop, if_pos hle]
        exact hrun
      · intro i hi1 hi2 hi3
        by_cases hii : i = idx
        · subst hii; omega
        · exact hval i (by omega) hi2 hi3
      · intro r hr
        exact hframe r (fun i hi1 hi2 => hr i (by omega) hi2)
    · have hj := ValueAt_of_lt sa (rank.getD idx 0 - 1) (by rw [hsa.length_eq]; omega)
      have hext := extendLoop_correct text idx (sa.getD (rank.getD idx 0 - 1) 0) h
        (hpre hidxn (by omega))
      have hset := SetValueAt_of_lt lcp (rank.getD idx 0)
        (naiveLCP (text.ba.drop idx) (text.ba.drop (sa.getD (rank.getD idx 0 - 1) 0)))
        (by omega)
      have hpre' : idx + 1 ≤ text.ba.length → 1 ≤ rank.getD (idx + 1) 0 →
          naiveLCP (text.ba.drop idx) (text.ba.drop (sa.getD (rank.getD idx 0 - 1) 0)) - 1
            ≤ naiveLCP (text.ba.drop (idx + 1))
              (text.ba.drop (sa.getD (rank.getD (idx + 1) 0 - 1) 0)) := by
        intro hn hr'
        exact kasai_next hsa hrank idx (by omega) (by omega) hr'
      obtain ⟨h1, out, hrun, hol, hval, hframe⟩ := ih (idx + 1)
        (naiveLCP (text.ba.drop idx) (text.ba.drop (sa.getD (rank.getD idx 0 - 1) 0)) - 1)
        (lcp.set (rank.getD idx 0)
          (naiveLCP (text.ba.drop idx) (text.ba.drop (sa.getD (rank.getD idx 0 - 1) 0))))
        (by omega) (by simpa using hl) hpre'
      have hinj : ∀ i, idx + 1 ≤ i → i ≤ text.ba.length →
          rank.getD i 0 ≠ rank.getD idx 0 := by
        intro i hi1 hi2 he
        have h1 := (hrank i hi2).2
        rw [he, hr2] at h1
        omega
      refine ⟨h1, out, ?_, hol, ?_, ?_⟩
      · rw [kasaiLoop, if_neg hle, hj]
        simp only [hext, hset]
        exact hrun
      · intro i hi1 hi2 hi3
        by_cases hii : i = idx
        · subst hii
          rw [hframe (rank.getD i 0) (fun i' a b => Or.inl (hinj i' a b)),
            getD_set_self _ _ _ (by omega)]
        · exact hval i (by omega) hi2 hi3
      · intro r hr
        rw [hframe r (fun i hi1 hi2 => hr i (by omega) hi2)]
        apply getD_set_of_ne
        rcases hr idx (Nat.le_refl _) hidxn with hc | hc
        · exact hc
        · omega

/-- Total correctness of `BuildLCPArray` on a sorted suffix array: every
entry from index 1 on is the common length of two neighbouring suffixes. -/
theorem BuildLCPArray_spec (text : Text) (sa : List Nat)
    (hsa : IsSuffixArray text.ba sa) :
    ∃ H, BuildLCPArray text sa = .ok H ∧ H.length = text.Len + 1 ∧
      ∀ i, 1 ≤ i → i ≤ text.Len →
        H.getD i 0 = naiveLCP (text.ba.drop (sa.getD (i - 1) 0)) (text.ba.drop (sa.getD i 0)) := by
  obtain ⟨rank, hrun, hlen, hinv, hrank⟩ := rank_of_IsSuffixArray hsa
  obtain ⟨h1, H, hrun2, hl, hval, hframe⟩ := kasaiLoop_spec hsa hlen hrank
    (text.ba.length + 1) 0 0 (makeBigArray sa.length) (by omega)
    (by simp [makeBigArray, hsa.length_eq]) (by intro _ _; omega)
  refine ⟨H, ?_, hl, ?_⟩
  · unfold BuildLCPArray
    rw [hrun]
    rw [List.drop_zero] at hrun2
    simp only [hrun2]
  · intro i hi1 hi2
    unfold Text.Len at hi2
    by_cases h1 : i = 1
    · subst h1
      rw [hframe 1 (fun _ _ _ => Or.inr (by omega)), Nat.sub_self, hsa.head, List.drop_length,
        naiveLCP_nil_left]
      simp [makeBigArray, List.getD]
    · have := hval (sa.getD i 0) (Nat.zero_le _) (hsa.getD_le i hi2) (by rw [hinv i hi2]; omega)
      rw [hinv i hi2] at this
      rw [this, naiveLCP_comm]

/-- C5: for a text `T` of length `n` and its sorted suffix array `SA`,
`BuildLCPArray(T, SA)` succeeds with an array `H` of length `n + 1`, and for
every `1 ≤ i ≤ n` the entry `H[i]` is the common length of the suffixes at
`SA[i-1]` and `SA[i]` as the naive symbol-by-symbol loop computes it; this
includes `i = 1`, which the Kasai loop never writes and which keeps the zero
of the fresh array. -/
theorem BuildLCPArray_correct (text : Text) (sa : List Nat)
    (hsa : IsSuffixArray text.ba sa) :
    ∃ H, BuildLCPArray text sa = .ok H ∧ H.length = text.Len + 1 ∧
      ∀ i, 1 ≤ i → i ≤ text.Len →
        H.getD i 0 = naiveLCP (text.ba.drop (sa.getD (i - 1) 0)) (text.ba.drop (sa.getD i 0)) :=
  BuildLCPArray_spec text sa hsa

/-- Witness for `BuildLCPArray_correct`: the text `"banana"`. -/
theorem BuildLCPArray_correct_witness :
    IsSuffixArray (NewTextFromString [98, 97, 110, 97, 110, 97]).ba [6, 5, 3, 1, 0, 4, 2] ∧
    ∃ H, BuildLCPArray (NewTextFromString [98, 97, 110, 97, 110, 97]) [6, 5, 3, 1, 0, 4, 2]
        = .ok H ∧
      H.length = (NewTextFromString [98, 97, 110, 97, 110, 97]).Len + 1 ∧
      ∀ i, 1 ≤ i → i ≤ (NewTextFromString [98, 97, 110, 97, 110, 97]).Len →
        H.getD i 0 = naiveLCP
          ((NewTextFromString [98, 97, 110, 97, 110, 97]).ba.drop
            (([6, 5, 3, 1, 0, 4, 2] : List Nat).getD (i - 1) 0))
          ((NewTextFromString [98, 97, 110, 97, 110, 97]).ba.drop
            (([6, 5, 3, 1, 0, 4, 2] : List Nat).getD i 0)) :=
  ⟨⟨by decide, by decide⟩,
    BuildLCPArray_correct (NewTextFromString [98, 97, 110, 97, 110, 97]) [6, 5, 3, 1, 0, 4, 2]
      ⟨by decide, by decide⟩⟩

/-! ## Search: what `compare` computes -/

theorem compareLoop_eq (text : Text) (phrase : List Nat) : ∀ remaining t i,
    remaining = text.ba.length - t →
    compareFinish phrase (compareLoop text phrase remaining t i)
      = cmpLists (phrase.drop i) (text.ba.drop t) := by
  intro remaining
  induction remaining with
  | zero =>
    intro t i hr
    have e : text.ba.drop t = [] := List.drop_eq_nil_of_le (by omega)
    rw [e, compareLoop, compareFinish]
    by_cases hi : i < phrase.length
    · rw [if_pos hi, drop_eq_getD_cons phrase i hi, cmpLists]
    · rw [if_neg hi]
      have e2 : phrase.drop i = [] := List.drop_eq_nil_of_le (by omega)
      rw [e2, cmpLists]
  | succ remaining ih =>
    intro t i hr
    rw [compareLoop, drop_eq_getD_cons text.ba t (by omega)]
    by_cases hi : i < phrase.length
    · rw [if_pos hi, drop_eq_getD_cons phrase i hi, cmpLists]
      by_cases h1 : phrase.getD i 0 < text.ba.getD t 0
      · rw [if_pos h1, if_pos h1]
        rfl
      · rw [if_neg h1, if_neg h1]
        by_cases h2 : phrase.getD i 0 > text.ba.getD t 0
        · rw [if_pos h2, if_pos h2]
          rfl
        · rw [if_neg h2, if_neg h2]
          exact ih (t + 1) (i + 1) (by omega)
    · rw [if_neg hi, compareFinish, if_neg hi]
      have e2 : phrase.drop i = [] := List.drop_eq_nil_of_le (by omega)
      rw [e2, cmpLists]

theorem compare_eq (state : searchState) (w : Nat) (hlo : state.lo ≤ w) (hhi : w ≤ state.hi)
    (hw : w < state.sa.length) :
    state.compare w = .ok (cmpLists (state.phrase.drop state.height)
      (state.text.ba.drop (state.sa.getD w 0 + state.height)), state.sa.getD w 0) := by
  unfold searchState.compare
  rw [if_neg (by omega), ValueAt_of_lt state.sa w hw]
  simp only []
  unfold Text.Len
  rw [compareLoop_eq state.text state.phrase _ _ _ rfl]

theorem cmpLists_skip : ∀ (h : Nat) (p u : List Nat), min h p.length ≤ naiveLCP p u →
    cmpLists (p.drop h) (u.drop h) = cmpLists p u
  | 0, p, u => by simp
  | h + 1, [], u => by simp [cmpLists]
  | h + 1, x :: p, [] => by
    intro hle
    simp only [naiveLCP, List.length_cons] at hle
    omega
  | h + 1, x :: p, y :: u => by
    intro hle
    simp only [naiveLCP, List.length_cons] at hle
    by_cases hxy : x = y
    · rw [if_pos hxy] at hle
      subst hxy
      rw [List.drop_succ_cons, List.drop_succ_cons, cmpLists, if_neg (Nat.lt_irrefl _),
        if_neg (Nat.lt_irrefl _)]
      exact cmpLists_skip h p u (by omega)
    · rw [if_neg hxy] at hle
      omega

theorem cmpLists_stop_iff : ∀ (p u : List Nat),
    cmpLists p u = .stopHere ↔ p.length ≤ naiveLCP p u
  | [], u => by simp [cmpLists]
  | x :: p, [] => by simp [cmpLists, naiveLCP]
  | x :: p, y :: u => by
    simp only [cmpLists, naiveLCP, List.length_cons]
    by_cases h1 : x < y
    · rw [if_pos h1, if_neg (by omega)]
      simp
    · rw [if_neg h1]
      by_cases h2 : x > y
      · rw [if_pos h2, if_neg (by omega)]
        simp
      · rw [if_neg h2, if_pos (by omega), cmpLists_stop_iff p u]
        omega

theorem cmpLists_left : ∀ (p u s : List Nat), cmpLists p u = .goLeft →
    p.length ≤ naiveLCP p s → lexLt s u = true
  | [], u, s => by simp [cmpLists]
  | x :: p, [], s => by simp [cmpLists]
  | x :: p, y :: u, [] => by simp [naiveLCP]
  | x :: p, y :: u, z :: s => by
    simp only [cmpLists, naiveLCP, List.length_cons, lexLt, Bool.or_eq_true, decide_eq_true_eq,
      Bool.and_eq_true, beq_iff_eq]
    intro hc hs
    by_cases hxz : x = z
    · rw [if_pos hxz] at hs
      by_cases h1 : x < y
      · left; omega
      · rw [if_neg h1] at hc
        by_cases h2 : x > y
        · rw [if_pos h2] at hc
          exact absurd hc (by decide)
        · rw [if_neg h2] at hc
          right
          exact ⟨by omega, cmpLists_left p u s hc (by omega)⟩
    · rw [if_neg hxz] at hs
      omega

theorem cmpLists_right : ∀ (p u s : List Nat), cmpLists p u = .goRight →
    p.length ≤ naiveLCP p s → lexLt u s = true
  | [], u, s => by simp [cmpLists]
  | x :: p, u, [] => by simp [naiveLCP]
  | x :: p, [], z :: s => by simp [lexLt]
  | x :: p, y :: u, z :: s => by
    simp only [cmpLists, naiveLCP, List.length_cons, lexLt, Bool.or_eq_true, decide_eq_true_eq,
      Bool.and_eq_true, beq_iff_eq]
    intro hc hs
    by_cases hxz : x = z
    · rw [if_pos hxz] at hs
      by_cases h1 : x < y
      · rw [if_pos h1] at hc
        exact absurd hc (by decide)
      · rw [if_neg h1] at hc
        by_cases h2 : x > y
        · left; omega
        · rw [if_neg h2] at hc
          right
          exact ⟨by omega, cmpLists_right p u s hc (by omega)⟩
    · rw [if_neg hxz] at hs
      omega

theorem naiveLCP_tri : ∀ (a b c : List Nat),
    min (naiveLCP a b) (naiveLCP b c) ≤ naiveLCP a c
  | [], b, c => by simp [naiveLCP_nil_left]
  | _ :: _, [], c => by simp [naiveLCP_nil_left, naiveLCP_nil_right]
  | _ :: _, _ :: _, [] => by simp [naiveLCP_nil_right]
  | x :: a, y :: b, z :: c => by
    simp only [naiveLCP]
    have := naiveLCP_tri a b c
    by_cases h1 : x = y <;> by_cases h2 : y = z <;> by_cases h3 : x = z <;>
      simp only [h1, h2, h3, if_true, if_false] <;> omega

theorem naiveLCP_ge_iff_take : ∀ (p u : List Nat),
    p.length ≤ naiveLCP p u ↔ u.take p.length = p
  | [], u => by simp
  | x :: p, [] => by simp [naiveLCP]
  | x :: p, y :: u => by
    simp only [naiveLCP, List.length_cons, List.take_succ_cons, List.cons.injEq]
    by_cases hxy : x = y
    · rw [if_pos hxy]
      have := naiveLCP_ge_iff_take p u
      constructor
      · intro h
        exact ⟨hxy.symm, this.mp (by omega)⟩
      · intro h
        have := this.mpr h.2
        omega
    · rw [if_neg hxy]
      constructor
      · intro h; omega
      · intro h; exact absurd h.1.symm hxy

theorem mem_occurrences (text phrase : List Nat) (o : Nat) :
    o ∈ occurrences text phrase ↔
      o ≤ text.length ∧ phrase.length ≤ naiveLCP phrase (text.drop o) := by
  unfold occurrences
  rw [List.mem_filter, List.mem_range, decide_eq_true_eq, naiveLCP_ge_iff_take]
  constructor
  · rintro ⟨h1, _, h3⟩
    exact ⟨by omega, h3⟩
  · rintro ⟨h1, h2⟩
    refine ⟨by omega, ?_, h2⟩
    have := congrArg List.length h2
    rw [List.length_take, List.length_drop] at this
    omega

/-! ## The LCP-LR array of a sorted suffix array -/

theorem Visits.child_left {k lo hi k1 lo1 hi1 : Nat} (h : Visits k lo hi k1 lo1 hi1)
    (hd : hi1 - lo1 > 3) : Visits k lo hi (2 * k1 + 1) lo1 (lo1 + (hi1 - lo1) / 2 - 1) := by
  induction h with
  | here k lo hi => exact Visits.left _ _ _ _ _ _ hd (Visits.here _ _ _)
  | left k lo hi k1 lo1 hi1 h0 _ ih => exact Visits.left _ _ _ _ _ _ h0 (ih hd)
  | right k lo hi k1 lo1 hi1 h0 _ ih => exact Visits.right _ _ _ _ _ _ h0 (ih hd)

theorem Visits.child_right {k lo hi k1 lo1 hi1 : Nat} (h : Visits k lo hi k1 lo1 hi1)
    (hd : hi1 - lo1 > 3) : Visits k lo hi (2 * k1 + 2) (lo1 + (hi1 - lo1) / 2 + 1) hi1 := by
  induction h with
  | here k lo hi => exact Visits.right _ _ _ _ _ _ hd (Visits.here _ _ _)
  | left k lo hi k1 lo1 hi1 h0 _ ih => exact Visits.left _ _ _ _ _ _ h0 (ih hd)
  | right k lo hi k1 lo1 hi1 h0 _ ih => exact Visits.right _ _ _ _ _ _ h0 (ih hd)

theorem lt_actualLengthLoop (lcplr : List Nat) : ∀ len k, k < len →
    lcplr.getD k 0 ≠ placeholder → k < actualLengthLoop lcplr len := by
  intro len
  induction len with
  | zero => intro k h; omega
  | succ len ih =>
    intro k hk hne
    rw [actualLengthLoop]
    by_cases hc : lcplr.getD len 0 ≠ placeholder
    · rw [if_pos hc]
      exact hk
    · rw [if_neg hc]
      have hk' : k ≠ len := fun he => hc (he ▸ hne)
      have := ih k (by omega) hne
      omega

/-- The array `BuildLCPLRArray` returns holds, at every node the fill has
visited, the minimum of the heights over the interval of the node: the
truncation cuts off unwritten cells only. -/
theorem BuildLCPLRArray_spec (H : List Nat) (hN : 2 ≤ H.length) (h64 : H.length < 2 ^ 64)
    (hH : ∀ p, 1 ≤ p → p < H.length → H.getD p 0 < placeholder) :
    ∃ L, BuildLCPLRArray H = .ok L ∧
      ∀ k lo hi, Visits 0 0 (H.length - 1) k lo hi →
        ∃ m, L[k]? = some m ∧ IsRangeMin H lo hi m := by
  have hc := le_ceilPow2 H.length
  have hB0 : (0 + 2) * (H.length - 1 - 0 + 1) ≤ 2 * H.length := by omega
  obtain ⟨v, L, hrun, _, _, _, _, hvis⟩ :=
    buildLCPLR_spec H H.length hH (64 + H.length) 0 0 (H.length - 1)
      (List.replicate (2 * ceilPow2 H.length + 1) placeholder) (by omega) (by omega) (by omega)
      hB0 (by simp; omega)
  refine ⟨L.take (actualLengthLoop L L.length), ?_, ?_⟩
  · unfold BuildLCPLRArray
    rw [dec64_of_pos H.length (by omega) (by omega), hrun]
  · intro k lo hi hv
    obtain ⟨m, hm1, hm2, hm3⟩ := hvis k lo hi hv
    refine ⟨m, ?_, hm3⟩
    have hk : k < L.length := by
      by_contra hc
      rw [List.getElem?_eq_none (by omega)] at hm1
      exact absurd hm1 (by simp)
    have hg : L.getD k 0 = m := getD_of_getElem? hm1
    have := lt_actualLengthLoop L L.length k hk (by omega)
    rw [List.getElem?_take_of_lt this, hm1]

/-- All suffixes in an interval of the suffix array share, pairwise, as many
leading symbols as the smallest height inside the interval. -/
theorem common_of_IsRangeMin {text sa H : List Nat}
    (hH : ∀ i, 1 ≤ i → i ≤ text.length →
      H.getD i 0 = naiveLCP (text.drop (sa.getD (i - 1) 0)) (text.drop (sa.getD i 0)))
    (hlen : H.length = text.length + 1)
    {lo hi m : Nat} (hhi : hi ≤ text.length) (hm : IsRangeMin H lo hi m) :
    ∀ w, lo ≤ w → w ≤ hi →
      m ≤ naiveLCP (text.drop (sa.getD lo 0)) (text.drop (sa.getD w 0)) := by
  have hlo : lo < hi := by
    obtain ⟨⟨p, hp1, hp2, _⟩, _⟩ := hm
    omega
  have hmle : m ≤ (text.drop (sa.getD lo 0)).length := by
    have h1 := hm.2 (lo + 1) (by omega) (by omega) _ (getElem?_eq_getD_of_lt H _ (by omega))
    rw [hH (lo + 1) (by omega) (by omega), Nat.add_sub_cancel] at h1
    have := naiveLCP_le_left (text.drop (sa.getD lo 0)) (text.drop (sa.getD (lo + 1) 0))
    omega
  intro w
  induction w with
  | zero =>
    intro h1 _
    have : lo = 0 := by omega
    subst this
    have := (naiveLCP_ge_iff_take (text.drop (sa.getD 0 0)) (text.drop (sa.getD 0 0))).mpr
      (by simp)
    omega
  | succ w ih =>
    intro h1 h2
    by_cases hw : lo = w + 1
    · rw [← hw]
      have := (naiveLCP_ge_iff_take (text.drop (sa.getD lo 0)) (text.drop (sa.getD lo 0))).mpr
        (by simp)
      omega
    · have h3 := ih (by omega) (by omega)
      have h4 := hm.2 (w + 1) (by omega) h2 _ (getElem?_eq_getD_of_lt H _ (by omega))
      rw [hH (w + 1) (by omega) (by omega), Nat.add_sub_cancel] at h4
      have := naiveLCP_tri (text.drop (sa.getD lo 0)) (text.drop (sa.getD w 0))
        (text.drop (sa.getD (w + 1) 0))
      omega

/-! ## Search for a phrase that occurs -/

theorem cmpLists_ne_unset : ∀ (p u : List Nat), cmpLists p u ≠ .unset
  | [], u => by simp [cmpLists]
  | x :: p, [] => by simp [cmpLists]
  | x :: p, y :: u => by
    simp only [cmpLists]
    split
    · simp
    · split
      · simp
      · exact cmpLists_ne_unset p u

/-- Under the invariant, `compare` with the carried height gives what the
comparison from the first symbol gives. -/
theorem compare_of_SearchInv {text : Text} {sa lcplr phrase : List Nat} {state : searchState}
    (hsa : IsSuffixArray text.ba sa) (hinv : SearchInv text sa lcplr phrase state)
    (w : Nat) (hlo : state.lo ≤ w) (hhi : w ≤ state.hi) :
    state.compare w
      = .ok (cmpLists phrase (text.ba.drop (sa.getD w 0)), sa.getD w 0) := by
  have hw : w < state.sa.length := by
    rw [hinv.hsa, hsa.length_eq]
    have := hinv.hhi
    omega
  rw [compare_eq state w hlo hhi hw, hinv.htext, hinv.hsa, hinv.hphrase, ← List.drop_drop,
    cmpLists_skip _ _ _ (hinv.hskip w hlo hhi)]

theorem phase1_spec {text : Text} {sa lcplr phrase : List Nat}
    (hsa : IsSuffixArray text.ba sa)
    (hLR : ∀ k lo hi, Visits 0 0 text.ba.length k lo hi →
      ∃ m, lcplr[k]? = some m ∧ ∀ w, lo ≤ w → w ≤ hi →
        m ≤ naiveLCP (text.ba.drop (sa.getD lo 0)) (text.ba.drop (sa.getD w 0)))
    (hex : ∃ w0, w0 ≤ text.ba.length ∧ Hit text.ba sa phrase w0) :
    ∀ (fuel : Nat) (state : searchState) (w p : Nat), SearchInv text sa lcplr phrase state →
      (state.lo + 3 ≤ state.hi → Visits 0 0 text.ba.length state.index state.lo state.hi) →
      state.hi - state.lo < fuel →
      ∃ state1 w1 p1 found, phase1 fuel state w p = .ok (state1, w1, p1, found) ∧
        SearchInv text sa lcplr phrase state1 ∧
        (found = true → state1.lo ≤ w1 ∧ w1 ≤ state1.hi ∧ Hit text.ba sa phrase w1 ∧
          p1 = sa.getD w1 0) := by
  intro fuel
  induction fuel with
  | zero => intro state w p _ _ h; omega
  | succ fuel ih =>
    intro state w p hinv hnode hfuel
    rw [phase1]
    by_cases h3 : state.hi ≥ state.lo + 3
    · rw [if_pos h3]
      obtain ⟨m, hm, hcommon⟩ := hLR _ _ _ (hnode h3)
      have hval : ValueAt state.lcplr state.index = .ok m := by
        rw [hinv.hlcplr]
        unfold ValueAt
        rw [hm]
      rw [hval]
      simp only []
      obtain ⟨w0, hw0, hhit⟩ := hex
      obtain ⟨hw0lo, hw0hi⟩ := hinv.hocc w0 hw0 hhit
      -- the invariant for the new height
      have hinv1 : SearchInv text sa lcplr phrase { state with height := m } := by
        refine ⟨hinv.htext, hinv.hsa, hinv.hlcplr, hinv.hphrase, hinv.hhi, hinv.hocc, ?_⟩
        intro x hx1 hx2
        have h1 := hcommon x hx1 hx2
        have h2 := hcommon w0 hw0lo hw0hi
        have h3 := naiveLCP_tri (text.ba.drop (sa.getD w0 0)) (text.ba.drop (sa.getD state.lo 0))
          (text.ba.drop (sa.getD x 0))
        have h4 := naiveLCP_tri phrase (text.ba.drop (sa.getD w0 0)) (text.ba.drop (sa.getD x 0))
        rw [naiveLCP_comm] at h2
        unfold Hit at hhit
        show min m phrase.length ≤ _
        omega
      have hcmp := compare_of_SearchInv hsa hinv1 (state.lo + (state.hi - state.lo) / 2)
        (by show state.lo ≤ _; omega) (by show _ ≤ state.hi; omega)
      rw [hcmp]
      have hwn : state.lo + (state.hi - state.lo) / 2 ≤ text.ba.length := by
        have := hinv.hhi
        omega
      cases hc : cmpLists phrase (text.ba.drop (sa.getD (state.lo + (state.hi - state.lo) / 2) 0)) with
      | unset => exact absurd hc (cmpLists_ne_unset _ _)
      | goLeft =>
        simp only []
        apply ih
        · refine ⟨hinv.htext, hinv.hsa, hinv.hlcplr, hinv.hphrase, ?_, ?_, ?_⟩
          · show state.lo + (state.hi - state.lo) / 2 - 1 ≤ _
            omega
          · intro x hx hxhit
            have := hinv.hocc x hx hxhit
            have hlt := hsa.index_lt_of_lexLt x _ hx hwn (cmpLists_left _ _ _ hc hxhit)
            show state.lo ≤ x ∧ x ≤ state.lo + (state.hi - state.lo) / 2 - 1
            omega
          · intro x hx1 hx2
            exact hinv1.hskip x hx1 (by
              have : x ≤ state.lo + (state.hi - state.lo) / 2 - 1 := hx2
              show x ≤ state.hi
              omega)
        · intro h
          have h' : state.lo + 3 ≤ state.lo + (state.hi - state.lo) / 2 - 1 := h
          exact (hnode h3).child_left (by omega)
        · show state.lo + (state.hi - state.lo) / 2 - 1 - state.lo < fuel
          omega
      | goRight =>
        simp only []
        apply ih
        · refine ⟨hinv.htext, hinv.hsa, hinv.hlcplr, hinv.hphrase, hinv.hhi, ?_, ?_⟩
          · intro x hx hxhit
            have := hinv.hocc x hx hxhit
            have hlt := hsa.index_lt_of_lexLt _ x hwn hx (cmpLists_right _ _ _ hc hxhit)
            show state.lo + (state.hi - state.lo) / 2 + 1 ≤ x ∧ x ≤ state.hi
            omega
          · intro x hx1 hx2
            exact hinv1.hskip x (by
              have : state.lo + (state.hi - state.lo) / 2 + 1 ≤ x := hx1
              show state.lo ≤ x
              omega) hx2
        · intro h
          have h' : state.lo + (state.hi - state.lo) / 2 + 1 + 3 ≤ state.hi := h
          exact (hnode h3).child_right (by omega)
        · show state.hi - (state.lo + (state.hi - state.lo) / 2 + 1) < fuel
          omega
      | stopHere =>
        simp only []
        refine ⟨_, _, _, true, rfl, hinv1, ?_⟩
        intro _
        refine ⟨by show state.lo ≤ _; omega, by show _ ≤ state.hi; omega, ?_, rfl⟩
        exact (cmpLists_stop_iff _ _).mp hc
    · rw [if_neg h3]
      exact ⟨state, w, p, false, rfl, hinv, by simp⟩


theorem phase2_spec {text : Text} {sa lcplr phrase : List Nat}
    (hsa : IsSuffixArray text.ba sa)
    (hex : ∃ w0, w0 ≤ text.ba.length ∧ Hit text.ba sa phrase w0) :
    ∀ (fuel : Nat) (state : searchState) (w p : Nat), SearchInv text sa lcplr phrase state →
      state.hi - state.lo < fuel →
      ∃ state1 w1 p1, phase2 fuel state w p = .ok (state1, w1, p1, true) ∧
        SearchInv text sa lcplr phrase state1 ∧
        state1.lo ≤ w1 ∧ w1 ≤ state1.hi ∧ Hit text.ba sa phrase w1 ∧ p1 = sa.getD w1 0 := by
  intro fuel
  induction fuel with
  | zero => intro state w p _ h; omega
  | succ fuel ih =>
    intro state w p hinv hfuel
    obtain ⟨w0, hw0, hhit⟩ := hex
    obtain ⟨hw0lo, hw0hi⟩ := hinv.hocc w0 hw0 hhit
    rw [phase2, if_pos (by omega), compare_of_SearchInv hsa hinv state.lo (Nat.le_refl _) (by omega)]
    have hwn : state.lo ≤ text.ba.length := by
      have := hinv.hhi
      omega
    cases hc : cmpLists phrase (text.ba.drop (sa.getD state.lo 0)) with
    | unset => exact absurd hc (cmpLists_ne_unset _ _)
    | goLeft =>
      have hlt := hsa.index_lt_of_lexLt w0 _ hw0 hwn (cmpLists_left _ _ _ hc hhit)
      omega
    | goRight =>
      simp only []
      apply ih
      · refine ⟨hinv.htext, hinv.hsa, hinv.hlcplr, hinv.hphrase, hinv.hhi, ?_, ?_⟩
        · intro x hx hxhit
          have := hinv.hocc x hx hxhit
          have hlt := hsa.index_lt_of_lexLt _ x hwn hx (cmpLists_right _ _ _ hc hxhit)
          show state.lo + 1 ≤ x ∧ x ≤ state.hi
          omega
        · intro x hx1 hx2
          exact hinv.hskip x (by
            have : state.lo + 1 ≤ x := hx1
            omega) hx2
      · show state.hi - (state.lo + 1) < fuel
        have hlt := hsa.index_lt_of_lexLt _ w0 hwn hw0 (cmpLists_right _ _ _ hc hhit)
        omega
    | stopHere =>
      simp only []
      exact ⟨_, _, _, rfl, hinv, Nat.le_refl _, by omega, (cmpLists_stop_iff _ _).mp hc, rfl⟩

theorem sweepDown_spec {text : Text} {sa lcplr phrase : List Nat} {state : searchState}
    (hsa : IsSuffixArray text.ba sa) (hinv : SearchInv text sa lcplr phrase state) :
    ∀ (fuel lb : Nat) (results : List Nat), state.lo ≤ lb → lb ≤ state.hi →
      lb - state.lo ≤ fuel →
      ∃ a, state.lo ≤ a ∧ a ≤ lb ∧ (∀ x, a ≤ x → x < lb → Hit text.ba sa phrase x) ∧
        (a = state.lo ∨ ¬ Hit text.ba sa phrase (a - 1)) ∧
        sweepDown state fuel lb results
          = .ok (results ++ ((List.range' a (lb - a)).reverse.map (fun x => sa.getD x 0))) := by
  intro fuel
  induction fuel with
  | zero =>
    intro lb results h1 h2 h3
    refine ⟨lb, h1, Nat.le_refl _, by intro x _ _; omega, Or.inl (by omega), ?_⟩
    simp [sweepDown]
  | succ fuel ih =>
    intro lb results h1 h2 h3
    rw [sweepDown]
    by_cases hgt : lb > state.lo
    · rw [if_pos hgt, compare_of_SearchInv hsa hinv (lb - 1) (by omega) (by omega)]
      simp only []
      by_cases hc : cmpLists phrase (text.ba.drop (sa.getD (lb - 1) 0)) = .stopHere
      · rw [if_neg (fun h => h hc)]
        obtain ⟨a, ha1, ha2, ha3, ha4, hrun⟩ := ih (lb - 1) (results ++ [sa.getD (lb - 1) 0])
          (by omega) (by omega) (by omega)
        refine ⟨a, ha1, by omega, ?_, ha4, ?_⟩
        · intro x hx1 hx2
          by_cases hx : x = lb - 1
          · subst hx
            exact (cmpLists_stop_iff _ _).mp hc
          · exact ha3 x hx1 (by omega)
        · rw [hrun]
          have e : lb - a = (lb - 1 - a) + 1 := by omega
          rw [e, List.range'_concat, List.reverse_append, List.map_append, List.append_assoc]
          have e2 : a + 1 * (lb - 1 - a) = lb - 1 := by omega
          rw [e2]
          rfl
      · rw [if_pos hc]
        refine ⟨lb, h1, Nat.le_refl _, by intro x _ _; omega, Or.inr ?_, by simp⟩
        intro hh
        exact hc ((cmpLists_stop_iff _ _).mpr hh)
    · rw [if_neg hgt]
      refine ⟨lb, h1, Nat.le_refl _, by intro x _ _; omega, Or.inl (by omega), by simp⟩

theorem sweepUp_spec {text : Text} {sa lcplr phrase : List Nat} {state : searchState}
    (hsa : IsSuffixArray text.ba sa) (hinv : SearchInv text sa lcplr phrase state) :
    ∀ (fuel ub : Nat) (results : List Nat), state.lo ≤ ub → ub ≤ state.hi →
      state.hi - ub ≤ fuel →
      ∃ b, ub ≤ b ∧ b ≤ state.hi ∧ (∀ x, ub < x → x ≤ b → Hit text.ba sa phrase x) ∧
        (b = state.hi ∨ ¬ Hit text.ba sa phrase (b + 1)) ∧
        sweepUp state fuel ub results
          = .ok (results ++ ((List.range' (ub + 1) (b - ub)).map (fun x => sa.getD x 0))) := by
  intro fuel
  induction fuel with
  | zero =>
    intro ub results h1 h2 h3
    refine ⟨ub, Nat.le_refl _, h2, by intro x _ _; omega, Or.inl (by omega), ?_⟩
    simp [sweepUp]
  | succ fuel ih =>
    intro ub results h1 h2 h3
    rw [sweepUp]
    by_cases hlt : ub < state.hi
    · rw [if_pos hlt, compare_of_SearchInv hsa hinv (ub + 1) (by omega) (by omega)]
      simp only []
      by_cases hc : cmpLists phrase (text.ba.drop (sa.getD (ub + 1) 0)) = .stopHere
      · rw [if_neg (fun h => h hc)]
        obtain ⟨b, hb1, hb2, hb3, hb4, hrun⟩ := ih (ub + 1) (results ++ [sa.getD (ub + 1) 0])
          (by omega) (by omega) (by omega)
        refine ⟨b, by omega, hb2, ?_, hb4, ?_⟩
        · intro x hx1 hx2
          by_cases hx : x = ub + 1
          · subst hx
            exact (cmpLists_stop_iff _ _).mp hc
          · exact hb3 x (by omega) hx2
        · rw [hrun]
          have e : b - ub = (b - (ub + 1)) + 1 := by omega
          rw [e, List.range'_succ, List.map_cons, List.append_assoc]
          rfl
      · rw [if_pos hc]
        refine ⟨ub, Nat.le_refl _, h2, by intro x _ _; omega, Or.inr ?_, by simp⟩
        intro hh
        exact hc ((cmpLists_stop_iff _ _).mpr hh)
    · rw [if_neg hlt]
      refine ⟨ub, Nat.le_refl _, h2, by intro x _ _; omega, Or.inl (by omega), by simp⟩

theorem Hit_between {text sa phrase : List Nat} (hsa : IsSuffixArray text sa) (x y z : Nat)
    (hxy : x < y) (hyz : y < z) (hz : z ≤ text.length)
    (hx : Hit text sa phrase x) (hzh : Hit text sa phrase z) : Hit text sa phrase y := by
  unfold Hit at *
  have h1 := hsa.sorted y x hxy (by omega)
  have h2 := hsa.sorted z y hyz hz
  have hm := naiveLCP_mono _ _ _ (Or.inl h1) (Or.inl h2)
  have t1 := naiveLCP_tri (text.drop (sa.getD x 0)) phrase (text.drop (sa.getD z 0))
  have t2 := naiveLCP_tri phrase (text.drop (sa.getD z 0)) (text.drop (sa.getD y 0))
  rw [naiveLCP_comm (text.drop (sa.getD x 0)) phrase] at t1
  rw [naiveLCP_comm (text.drop (sa.getD z 0)) (text.drop (sa.getD y 0))] at t2
  omega

theorem afterPhase2_found {text : Text} {sa lcplr phrase : List Nat} {state : searchState}
    (hsa : IsSuffixArray text.ba sa) (hinv : SearchInv text sa lcplr phrase state)
    (w1 p1 : Nat) (hw1lo : state.lo ≤ w1) (hw1hi : w1 ≤ state.hi)
    (hhit : Hit text.ba sa phrase w1) (hp1 : p1 = sa.getD w1 0) :
    afterPhase2 (.ok (state, w1, p1, true)) = .ok (occurrences text.ba phrase) := by
  obtain ⟨a, ha1, ha2, ha3, ha4, hdown⟩ :=
    sweepDown_spec hsa hinv w1 w1 [p1] hw1lo hw1hi (by omega)
  obtain ⟨b, hb1, hb2, hb3, hb4, hup⟩ :=
    sweepUp_spec hsa hinv (state.hi - w1) w1
      ([p1] ++ ((List.range' a (w1 - a)).reverse.map (fun x => sa.getD x 0))) hw1lo hw1hi
      (Nat.le_refl _)
  have hhin := hinv.hhi
  simp only [afterPhase2, hdown, hup]
  -- the hits are exactly the indices from `a` to `b`
  have hiff : ∀ w, w ≤ text.ba.length → (Hit text.ba sa phrase w ↔ a ≤ w ∧ w ≤ b) := by
    intro w hw
    constructor
    · intro hwhit
      obtain ⟨h1, h2⟩ := hinv.hocc w hw hwhit
      constructor
      · by_contra hc
        rcases ha4 with ha4 | ha4
        · omega
        · apply ha4
          by_cases hwa : w = a - 1
          · rw [← hwa]; exact hwhit
          · exact Hit_between hsa w (a - 1) w1 (by omega) (by omega) (by omega) hwhit hhit
      · by_contra hc
        rcases hb4 with hb4 | hb4
        · omega
        · apply hb4
          by_cases hwb : w = b + 1
          · rw [← hwb]; exact hwhit
          · exact Hit_between hsa w1 (b + 1) w (by omega) (by omega) hw hhit hwhit
    · rintro ⟨h1, h2⟩
      rcases Nat.lt_trichotomy w w1 with h | h | h
      · exact ha3 w h1 h
      · rw [h]; exact hhit
      · exact hb3 w h h2
  -- the collected list is a rearrangement of the suffix array between `a` and `b`
  have hperm : ([p1] ++ ((List.range' a (w1 - a)).reverse.map (fun x => sa.getD x 0)) ++
      ((List.range' (w1 + 1) (b - w1)).map (fun x => sa.getD x 0))).Perm
      ((List.range' a (b + 1 - a)).map (fun x => sa.getD x 0)) := by
    have e1 : List.range' a (b + 1 - a)
        = List.range' a (w1 - a) ++ (w1 :: List.range' (w1 + 1) (b - w1)) := by
      have := List.range'_append a (w1 - a) (b + 1 - w1) 1
      have e2 : a + 1 * (w1 - a) = w1 := by omega
      have e3 : b + 1 - w1 + (w1 - a) = b + 1 - a := by omega
      have e4 : b + 1 - w1 = (b - w1) + 1 := by omega
      rw [e2, e3, e4, List.range'_succ] at this
      exact this.symm
    rw [e1, List.map_append, List.map_cons, hp1]
    refine List.Perm.trans ?_ List.perm_middle.symm
    simp only [List.singleton_append, List.cons_append]
    exact List.Perm.cons _ (List.Perm.append_right _ ((List.reverse_perm _).map _))
  have hnd : ((List.range' a (b + 1 - a)).map (fun x => sa.getD x 0)).Nodup := by
    apply List.Nodup.map_on
    · intro x hx y hy hxy
      rw [List.mem_range'_1] at hx hy
      exact hsa.getD_inj x y (by omega) (by omega) hxy
    · exact List.nodup_range' a (b + 1 - a)
  have hnd2 : (occurrences text.ba phrase).Nodup :=
    (List.nodup_range _).filter _
  have hmem : ∀ x, x ∈ (List.range' a (b + 1 - a)).map (fun x => sa.getD x 0) ↔
      x ∈ occurrences text.ba phrase := by
    intro x
    rw [mem_occurrences, List.mem_map]
    constructor
    · rintro ⟨w, hw, rfl⟩
      rw [List.mem_range'_1] at hw
      exact ⟨hsa.getD_le w (by omega), (hiff w (by omega)).mpr ⟨hw.1, by omega⟩⟩
    · rintro ⟨hx1, hx2⟩
      obtain ⟨w, hw, rfl⟩ := hsa.exists_index x hx1
      have := (hiff w hw).mp hx2
      exact ⟨w, by rw [List.mem_range'_1]; omega, rfl⟩
  have hperm2 := hperm.trans ((List.perm_ext_iff_of_nodup hnd hnd2).mpr hmem)
  have hsorted : (occurrences text.ba phrase).Sorted (fun a b => a ≤ b) :=
    (List.sorted_le_range _).filter _
  exact congrArg Except.ok (List.eq_of_perm_of_sorted
    ((List.perm_insertionSort _ _).trans hperm2) (List.sorted_insertionSort _ _) hsorted)

/-- C7: for a non-empty text `T` (of a length that `uint64` can hold) with its
sorted suffix array `SA`, the LCP array and the LCP-LR array can be built, and
for every phrase `P` that occurs in `T` the search returns exactly the naive
occurrence set of `P` in `T`, in ascending order. -/
theorem Search_finds_occurrences (text : Text) (sa phrase : List Nat)
    (hne : text.ba ≠ []) (h64 : text.Len + 1 < 2 ^ 64)
    (hsa : IsSuffixArray text.ba sa) (hocc : occurrences text.ba phrase ≠ []) :
    ∃ H L, BuildLCPArray text sa = .ok H ∧ BuildLCPLRArray H = .ok L ∧
      Search text sa L phrase = .ok (occurrences text.ba phrase) := by
  unfold Text.Len at h64
  have hn : 1 ≤ text.ba.length := List.length_pos.mpr hne
  obtain ⟨H, hH, hHlen, hHval⟩ := BuildLCPArray_spec text sa hsa
  unfold Text.Len at hHlen hHval
  have hpl : placeholder = 2 ^ 64 - 1 := rfl
  have hbound : ∀ p, 1 ≤ p → p < H.length → H.getD p 0 < placeholder := by
    intro p hp1 hp2
    rw [hHval p hp1 (by omega)]
    have := naiveLCP_le_left (text.ba.drop (sa.getD (p - 1) 0)) (text.ba.drop (sa.getD p 0))
    rw [List.length_drop] at this
    omega
  obtain ⟨L, hL, hLvis⟩ := BuildLCPLRArray_spec H (by omega) (by omega) hbound
  refine ⟨H, L, hH, hL, ?_⟩
  have hN : H.length - 1 = text.ba.length := by omega
  rw [hN] at hLvis
  have hLR : ∀ k lo hi, Visits 0 0 text.ba.length k lo hi →
      ∃ m, L[k]? = some m ∧ ∀ w, lo ≤ w → w ≤ hi →
        m ≤ naiveLCP (text.ba.drop (sa.getD lo 0)) (text.ba.drop (sa.getD w 0)) := by
    intro k lo hi hv
    obtain ⟨m, hm1, hm2⟩ := hLvis k lo hi hv
    obtain ⟨_, hhi, _⟩ := Visits_inv (text.ba.length + 1) (text.ba.length + 1) hv (by omega)
      (by omega) (by omega)
    exact ⟨m, hm1, common_of_IsRangeMin hHval hHlen (by omega) hm2⟩
  have hex : ∃ w0, w0 ≤ text.ba.length ∧ Hit text.ba sa phrase w0 := by
    obtain ⟨o, ho⟩ := List.exists_mem_of_ne_nil _ hocc
    rw [mem_occurrences] at ho
    obtain ⟨w, hw, he⟩ := hsa.exists_index o ho.1
    refine ⟨w, hw, ?_⟩
    unfold Hit
    rw [he]
    exact ho.2
  have hdec : dec64 sa.length = text.ba.length := by
    rw [dec64_of_pos sa.length (by rw [hsa.length_eq]; omega) (by rw [hsa.length_eq]; omega),
      hsa.length_eq]
    omega
  have hinv0 : SearchInv text sa L phrase ⟨text, sa, L, phrase, 0, 0, 0, text.ba.length⟩ :=
    ⟨rfl, rfl, rfl, rfl, Nat.le_refl _, fun w hw _ => ⟨Nat.zero_le _, hw⟩,
      fun w _ _ => by simp⟩
  obtain ⟨s1, w1, p1, found, hrun1, hinv1, hfound⟩ := phase1_spec hsa hLR hex (1 + sa.length)
    ⟨text, sa, L, phrase, 0, 0, 0, text.ba.length⟩ 0 0 hinv0 (fun _ => Visits.here _ _ _)
    (by rw [hsa.length_eq]; show text.ba.length - 0 < _; omega)
  unfold Search
  rw [hdec, hrun1]
  cases found with
  | true =>
    obtain ⟨h1, h2, h3, h4⟩ := hfound rfl
    simp only [afterPhase1]
    exact afterPhase2_found hsa hinv1 w1 p1 h1 h2 h3 h4
  | false =>
    simp only [afterPhase1]
    obtain ⟨s2, w2, p2, hrun2, hinv2, h1, h2, h3, h4⟩ := phase2_spec hsa hex (2 + sa.length)
      s1 w1 p1 hinv1 (by
        have := hinv1.hhi
        rw [hsa.length_eq]
        omega)
    rw [hrun2]
    exact afterPhase2_found hsa hinv2 w2 p2 h1 h2 h3 h4

/-- Witness for `Search_finds_occurrences`: the phrase `"ana"` in `"banana"`. -/
theorem Search_finds_occurrences_witness :
    ((NewTextFromString [98, 97, 110, 97, 110, 97]).ba ≠ [] ∧
      (NewTextFromString [98, 97, 110, 97, 110, 97]).Len + 1 < 2 ^ 64 ∧
      IsSuffixArray (NewTextFromString [98, 97, 110, 97, 110, 97]).ba [6, 5, 3, 1, 0, 4, 2] ∧
      occurrences (NewTextFromString [98, 97, 110, 97, 110, 97]).ba [97, 110, 97] ≠ []) ∧
    ∃ H L, BuildLCPArray (NewTextFromString [98, 97, 110, 97, 110, 97]) [6, 5, 3, 1, 0, 4, 2]
        = .ok H ∧ BuildLCPLRArray H = .ok L ∧
      Search (NewTextFromString [98, 97, 110, 97, 110, 97]) [6, 5, 3, 1, 0, 4, 2] L [97, 110, 97]
        = .ok (occurrences (NewTextFromString [98, 97, 110, 97, 110, 97]).ba [97, 110, 97]) :=
  ⟨⟨by decide, by decide, ⟨by decide, by decide⟩, by decide⟩,
    Search_finds_occurrences (NewTextFromString [98, 97, 110, 97, 110, 97]) [6, 5, 3, 1, 0, 4, 2]
      [97, 110, 97] (by decide) (by decide) ⟨by decide, by decide⟩ (by decide)⟩

/-! # SA-IS: the suffix array construction -/

theorem types_ne_nil : ∀ T : List Nat, types T ≠ []
  | [] => by simp [types]
  | [_] => by simp [types]
  | _ :: _ :: _ => by simp [types]

theorem types_length : ∀ T : List Nat, (types T).length = T.length + 1
  | [] => rfl
  | [_] => rfl
  | a :: b :: rest => by
    rw [types, List.length_cons, types_length (b :: rest)]
    rfl

theorem types_cons (a : Nat) (T : List Nat) : ∃ t, types (a :: T) = t :: types T := by
  cases T with
  | nil => exact ⟨LType, rfl⟩
  | cons b rest => exact ⟨_, rfl⟩

theorem types_drop : ∀ (i : Nat) (T : List Nat), i ≤ T.length →
    (types T).drop i = types (T.drop i)
  | 0, T => fun _ => rfl
  | i + 1, [] => by
    intro h
    simp at h
  | i + 1, a :: T => by
    intro h
    obtain ⟨t, ht⟩ := types_cons a T
    rw [ht, List.drop_succ_cons, List.drop_succ_cons]
    exact types_drop i T (by simpa using h)

theorem foldl_typeStep : ∀ (l : List Nat) (sym : Nat) (s : List Nat) (ty : Bool),
    ty = (types (sym :: s)).headD SType →
    (l.foldl typeStep (ty, sym, types (sym :: s))).2.2 = types (l.reverse ++ sym :: s)
  | [], sym, s, ty => by
    intro _
    rfl
  | a :: l, sym, s, ty => by
    intro hty
    rw [List.foldl_cons]
    have h1 : typeStep (ty, sym, types (sym :: s)) a
        = ((types (a :: sym :: s)).headD SType, a, types (a :: sym :: s)) := by
      simp only [typeStep, types, hty, List.headD_cons]
    rw [h1, foldl_typeStep l a (sym :: s) _ rfl, List.reverse_cons, List.append_assoc]
    rfl

theorem BuildTypeMap_eq (text : Text) : BuildTypeMap text = types text.ba := by
  unfold BuildTypeMap
  generalize hr : text.ba.reverse = r
  have hb : text.ba = r.reverse := by rw [← hr, List.reverse_reverse]
  cases r with
  | nil => rw [hb]; rfl
  | cons lastSymbol rest =>
    have := foldl_typeStep rest lastSymbol [] LType rfl
    simp only []
    rw [hb, List.reverse_cons]
    exact this

theorem getD_eq_headD_drop (l : List Bool) (i : Nat) (d : Bool) :
    l.getD i d = (l.drop i).headD d := by
  induction l generalizing i with
  | nil => simp
  | cons a l ih =>
    cases i with
    | zero => rfl
    | succ i => simp [ih i]

theorem isL_eq (T : List Nat) (i : Nat) (h : i ≤ T.length) :
    isL T i = (types (T.drop i)).headD SType := by
  unfold isL
  rw [getD_eq_headD_drop, types_drop i T h]

theorem isL_length (T : List Nat) : isL T T.length = false := by
  rw [isL_eq T _ (Nat.le_refl _), List.drop_length]
  rfl

theorem isL_last (T : List Nat) (h : 1 ≤ T.length) : isL T (T.length - 1) = true := by
  rw [isL_eq T _ (by omega), drop_eq_getD_cons T _ (by omega)]
  have e : T.length - 1 + 1 = T.length := by omega
  rw [e, List.drop_length]
  rfl

theorem isL_step (T : List Nat) (i : Nat) (h : i + 1 < T.length) :
    isL T i = (decide (T.getD i 0 > T.getD (i + 1) 0) ||
      (decide (T.getD i 0 = T.getD (i + 1) 0) && isL T (i + 1))) := by
  rw [isL_eq T i (by omega), isL_eq T (i + 1) (by omega), drop_eq_getD_cons T i (by omega),
    drop_eq_getD_cons T (i + 1) h, types, List.headD_cons]
  by_cases h1 : T.getD i 0 > T.getD (i + 1) 0
  · rw [if_pos h1, decide_eq_true h1]
    rfl
  · rw [if_neg h1, decide_eq_false h1, Bool.false_or]
    by_cases h2 : T.getD i 0 = T.getD (i + 1) 0
    · rw [if_pos h2, decide_eq_true h2, Bool.true_and]
    · rw [if_neg h2, decide_eq_false h2, Bool.false_and]
      rfl

/-- A non-empty sequence is L-type at its head exactly when its tail is
lexicographically smaller than the sequence itself. -/
theorem headL_iff : ∀ (a : Nat) (r : List Nat),
    (types (a :: r)).headD SType = true ↔ lexLt r (a :: r) = true
  | a, [] => by simp [types, lexLt, LType]
  | a, b :: r => by
    rw [types, List.headD_cons, lexLt]
    have ih := headL_iff b r
    by_cases h1 : a > b
    · rw [if_pos h1, decide_eq_true (show b < a from h1), Bool.true_or]
      exact ⟨fun _ => rfl, fun _ => rfl⟩
    · rw [if_neg h1, decide_eq_false (show ¬ b < a from h1), Bool.false_or]
      by_cases h2 : a = b
      · subst h2
        rw [if_pos rfl, beq_self_eq_true, Bool.true_and]
        exact ih
      · rw [if_neg h2]
        have h4 : (b == a) = false := beq_false_of_ne (fun h => h2 h.symm)
        rw [h4, Bool.false_and]
        exact ⟨fun h => absurd h (by decide), fun h => absurd h (by decide)⟩

theorem isL_iff (T : List Nat) (i : Nat) (h : i < T.length) :
    isL T i = true ↔ lexLt (T.drop (i + 1)) (T.drop i) = true := by
  rw [isL_eq T i (by omega), drop_eq_getD_cons T i h]
  exact headL_iff _ _

theorem isS_iff (T : List Nat) (i : Nat) (h : i < T.length) :
    isL T i = false ↔ lexLt (T.drop i) (T.drop (i + 1)) = true := by
  constructor
  · intro hs
    rcases lexLt_total (T.drop i) (T.drop (i + 1)) with h1 | h1 | h1
    · exact h1
    · have := congrArg List.length h1
      rw [List.length_drop, List.length_drop] at this
      omega
    · rw [(isL_iff T i h).mpr h1] at hs
      exact absurd hs (by decide)
  · intro hs
    cases hl : isL T i with
    | false => rfl
    | true =>
      have := lexLt_asymm _ _ ((isL_iff T i h).mp hl)
      rw [this] at hs
      exact absurd hs (by decide)

/-- Two sequences with the same head, the first larger than its tail (L-type)
and the second smaller than its tail (S-type): the first is the smaller. -/
theorem lexLt_of_L_S : ∀ (c : Nat) (r1 r2 : List Nat), lexLt r1 (c :: r1) = true →
    lexLt (c :: r2) r2 = true → lexLt (c :: r1) (c :: r2) = true
  | c, [], r2 => by
    intro _ h2
    cases r2 with
    | nil => simp [lexLt] at h2
    | cons d r2 => simp [lexLt]
  | c, e :: r1, [] => by
    intro _ h2
    simp [lexLt] at h2
  | c, e :: r1, d :: r2 => by
    intro h1 h2
    simp only [lexLt, Bool.or_eq_true, decide_eq_true_eq, Bool.and_eq_true, beq_iff_eq] at h1 h2 ⊢
    right
    refine ⟨trivial, ?_⟩
    rcases h1 with h1 | ⟨h1, h1'⟩
    · rcases h2 with h2 | ⟨h2, _⟩
      · left; omega
      · left; omega
    · rcases h2 with h2 | ⟨h2, h2'⟩
      · left; omega
      · subst h1
        subst h2
        have := lexLt_of_L_S e r1 r2 h1' h2'
        simp only [lexLt, Bool.or_eq_true, decide_eq_true_eq, Bool.and_eq_true, beq_iff_eq] at this
        rcases this with h | ⟨_, h⟩
        · omega
        · right; exact ⟨rfl, h⟩

/-- In one bucket the L-type suffixes come before the S-type suffixes. -/
theorem lexLt_L_S (T : List Nat) (p q : Nat) (hp : p < T.length) (hq : q < T.length)
    (hc : T.getD p 0 = T.getD q 0) (hL : isL T p = true) (hS : isL T q = false) :
    lexLt (T.drop p) (T.drop q) = true := by
  have h1 := (isL_iff T p hp).mp hL
  have h2 := (isS_iff T q hq).mp hS
  rw [drop_eq_getD_cons T p hp] at h1 ⊢
  rw [drop_eq_getD_cons T q hq] at h2 ⊢
  rw [hc] at h1 ⊢
  exact lexLt_of_L_S _ _ _ h1 h2

theorem perm_length {n : Nat} {sa : List Nat} (h : sa.Perm (List.range (n + 1))) :
    sa.length = n + 1 := by
  rw [h.length_eq, List.length_range]

theorem perm_getD_le {n : Nat} {sa : List Nat} (h : sa.Perm (List.range (n + 1))) (i : Nat)
    (hi : i ≤ n) : sa.getD i 0 ≤ n := by
  have hlt : i < sa.length := by rw [perm_length h]; omega
  have hm : sa.getD i 0 ∈ sa := by
    rw [List.getD_eq_getElem sa 0 hlt]
    exact List.getElem_mem hlt
  have := (h.mem_iff).mp hm
  rw [List.mem_range] at this
  omega

theorem perm_getD_inj {n : Nat} {sa : List Nat} (h : sa.Perm (List.range (n + 1))) (i j : Nat)
    (hi : i ≤ n) (hj : j ≤ n) (he : sa.getD i 0 = sa.getD j 0) : i = j := by
  have hil : i < sa.length := by rw [perm_length h]; omega
  have hjl : j < sa.length := by rw [perm_length h]; omega
  have hnd : sa.Nodup := (h.nodup_iff).mpr (List.nodup_range _)
  rw [List.getD_eq_getElem sa 0 hil, List.getD_eq_getElem sa 0 hjl] at he
  exact (hnd.getElem_inj_iff).mp he

theorem perm_indexOf {n : Nat} {sa : List Nat} (h : sa.Perm (List.range (n + 1))) (p : Nat)
    (hp : p ≤ n) : sa.indexOf p ≤ n ∧ sa.getD (sa.indexOf p) 0 = p := by
  have hm : p ∈ sa := (h.mem_iff).mpr (List.mem_range.mpr (by omega))
  have hlt : sa.indexOf p < sa.length := List.indexOf_lt_length.mpr hm
  refine ⟨?_, ?_⟩
  · have := perm_length h
    omega
  · rw [List.getD_eq_getElem sa 0 hlt]
    exact List.getElem_indexOf hlt

theorem perm_indexOf_getD {n : Nat} {sa : List Nat} (h : sa.Perm (List.range (n + 1))) (i : Nat)
    (hi : i ≤ n) : sa.indexOf (sa.getD i 0) = i := by
  have hp := perm_getD_le h i hi
  obtain ⟨h1, h2⟩ := perm_indexOf h (sa.getD i 0) hp
  exact perm_getD_inj h _ _ h1 hi h2

/-- In a list on which membership in `D` can only be lost while moving right,
the members are the first `countP D` entries. -/
theorem mem_iff_lt_countP (D : Nat → Bool) : ∀ (l : List Nat),
    (∀ i j, i < j → j < l.length → D (l.getD j 0) = true → D (l.getD i 0) = true) →
    ∀ i, i < l.length → (D (l.getD i 0) = true ↔ i < l.countP D)
  | [], _, i, hi => by simp at hi
  | x :: l, hmono, i, hi => by
    have hmono' : ∀ i j, i < j → j < l.length → D (l.getD j 0) = true →
        D (l.getD i 0) = true := by
      intro i j hij hj hD
      exact hmono (i + 1) (j + 1) (by omega) (by simpa using hj) hD
    rw [List.countP_cons]
    cases hx : D x with
    | true =>
      cases i with
      | zero =>
        rw [List.getD_cons_zero, hx]
        simp
      | succ i =>
        rw [List.getD_cons_succ, mem_iff_lt_countP D l hmono' i (by simpa using hi)]
        simp
    | false =>
      have hall : ∀ j, j < l.length → D (l.getD j 0) = false := by
        intro j hj
        cases hD : D (l.getD j 0) with
        | false => rfl
        | true =>
          have := hmono 0 (j + 1) (by omega) (by simpa using hj) hD
          rw [List.getD_cons_zero, hx] at this
          exact absurd this (by decide)
      have hz : l.countP D = 0 := by
        rw [List.countP_eq_zero]
        intro a ha
        obtain ⟨j, hj, he⟩ := List.getElem_of_mem ha
        have := hall j hj
        rw [List.getD_eq_getElem l 0 hj, he] at this
        rw [this]
        decide
      rw [hz]
      cases i with
      | zero =>
        rw [List.getD_cons_zero, hx]
        simp
      | succ i =>
        rw [List.getD_cons_succ, hall i (by simpa using hi)]
        simp

/-- A set of offsets closed under going down in the order occupies an initial
segment of the sorted list, as long as its size. -/
theorem SortedPerm.mem_iff_lt {lt : Nat → Nat → Prop} {n : Nat} {sa : List Nat}
    (h : SortedPerm lt n sa) (D : Nat → Bool)
    (hD : ∀ p q, p ≤ n → q ≤ n → lt q p → D p = true → D q = true) (i : Nat) (hi : i ≤ n) :
    D (sa.getD i 0) = true ↔ i < (List.range (n + 1)).countP D := by
  rw [← h.1.countP_eq D]
  have hlen := perm_length h.1
  apply mem_iff_lt_countP D sa _ i (by omega)
  intro i j hij hj hDj
  exact hD _ _ (perm_getD_le h.1 j (by omega)) (perm_getD_le h.1 i (by omega))
    (h.2 i j hij (by omega)) hDj

theorem SortedPerm.indexOf_lt {lt : Nat → Nat → Prop} {n : Nat} {sa : List Nat}
    (h : SortedPerm lt n sa) (hasymm : ∀ p q, lt p q → ¬ lt q p) (p q : Nat) (hp : p ≤ n)
    (hq : q ≤ n) : lt p q ↔ sa.indexOf p < sa.indexOf q := by
  obtain ⟨hp1, hp2⟩ := perm_indexOf h.1 p hp
  obtain ⟨hq1, hq2⟩ := perm_indexOf h.1 q hq
  constructor
  · intro hlt
    rcases Nat.lt_trichotomy (sa.indexOf p) (sa.indexOf q) with hc | hc | hc
    · exact hc
    · rw [hc, hq2] at hp2
      subst hp2
      exact absurd hlt (hasymm _ _ hlt)
    · have := h.2 _ _ hc hp1
      rw [hp2, hq2] at this
      exact absurd hlt (hasymm _ _ this)
  · intro hlt
    have := h.2 _ _ hlt hq1
    rwa [hp2, hq2] at this

theorem countP_getD_range (P : Nat → Bool) : ∀ T : List Nat,
    (List.range T.length).countP (fun q => P (T.getD q 0)) = T.countP P
  | [] => rfl
  | a :: T => by
    rw [List.length_cons, List.range_succ_eq_map, List.countP_cons, List.countP_cons,
      List.countP_map, ← countP_getD_range P T]
    rfl

theorem countP_or_disjoint (p q : Nat → Bool) : ∀ l : List Nat,
    (∀ x ∈ l, p x = true → q x = false) →
    l.countP (fun x => p x || q x) = l.countP p + l.countP q
  | [], _ => rfl
  | a :: l, h => by
    rw [List.countP_cons, List.countP_cons, List.countP_cons,
      countP_or_disjoint p q l (fun x hx => h x (List.mem_cons_of_mem _ hx))]
    have := h a (List.mem_cons_self _ _)
    cases hp : p a <;> cases hq : q a <;> simp_all <;> omega

theorem hd_succ (T : List Nat) (c : Nat) : hd T (c + 1) = hd T c + sz T c := by
  unfold hd sz
  have h := countP_or_disjoint (fun x => decide (x < c)) (fun x => decide (x = c)) T (by
    intro x _ hx
    simp only [decide_eq_true_eq, decide_eq_false_iff_not] at hx ⊢
    omega)
  have e : T.countP (fun x => decide (x < c + 1))
      = T.countP (fun x => decide (x < c) || decide (x = c)) := by
    apply List.countP_congr
    intro x _
    simp only [decide_eq_true_eq, Bool.or_eq_true]
    omega
  rw [e, h]
  omega

theorem countP_belowBucket (T : List Nat) (c : Nat) :
    (List.range (T.length + 1)).countP (belowBucket T c) = hd T c := by
  rw [List.range_succ, List.countP_append]
  have e1 : (List.range T.length).countP (belowBucket T c)
      = (List.range T.length).countP (fun q => decide (T.getD q 0 < c)) := by
    apply List.countP_congr
    intro q hq
    rw [List.mem_range] at hq
    unfold belowBucket
    have h1 : decide (q = T.length) = false := decide_eq_false (by omega)
    have h2 : decide (q < T.length) = true := decide_eq_true hq
    rw [h1, h2, Bool.false_or, Bool.true_and]
  rw [e1, countP_getD_range (fun x => decide (x < c)) T]
  have e2 : [T.length].countP (belowBucket T c) = 1 := by
    rw [List.countP_cons]
    unfold belowBucket
    simp
  rw [e2]
  unfold hd
  omega

theorem countP_belowSPart (T : List Nat) (c : Nat) :
    (List.range (T.length + 1)).countP (belowSPart T c) = hd T c + nL T c := by
  unfold belowSPart
  rw [countP_or_disjoint (belowBucket T c)
    (fun q => decide (q < T.length) && (decide (T.getD q 0 = c) && isL T q)) _ (by
      intro x _ hx
      unfold belowBucket at hx
      simp only [Bool.or_eq_true, Bool.and_eq_true, decide_eq_true_eq] at hx
      rcases hx with hx | ⟨_, hx⟩
      · have : decide (x < T.length) = false := decide_eq_false (by omega)
        show (decide (x < T.length) && (decide (T.getD x 0 = c) && isL T x)) = false
        rw [this, Bool.false_and]
      · have : decide (T.getD x 0 = c) = false := decide_eq_false (by omega)
        show (decide (x < T.length) && (decide (T.getD x 0 = c) && isL T x)) = false
        rw [this, Bool.false_and, Bool.and_false]),
    countP_belowBucket, List.range_succ, List.countP_append]
  have e1 : (List.range T.length).countP
      (fun q => decide (q < T.length) && (decide (T.getD q 0 = c) && isL T q)) = nL T c := by
    unfold nL
    apply List.countP_congr
    intro q hq
    rw [List.mem_range] at hq
    have h2 : decide (q < T.length) = true := decide_eq_true hq
    rw [h2, Bool.true_and]
  have e2 : [T.length].countP
      (fun q => decide (q < T.length) && (decide (T.getD q 0 = c) && isL T q)) = 0 := by
    rw [List.countP_cons]
    simp
  rw [e1, e2]
  omega

theorem nL_le_sz (T : List Nat) (c : Nat) : nL T c ≤ sz T c := by
  unfold nL sz
  rw [← countP_getD_range (fun x => decide (x = c)) T]
  apply List.countP_mono_left
  intro q _ hq
  simp only [Bool.and_eq_true, decide_eq_true_eq] at hq ⊢
  exact hq.1

theorem zone_belowBucket {T : List Nat} {lt : Nat → Nat → Prop} {sa : List Nat}
    (ho : BucketOrder T lt) (hs : SortedPerm lt T.length sa) (c i : Nat) (hi : i ≤ T.length) :
    belowBucket T c (sa.getD i 0) = true ↔ i < hd T c := by
  rw [← countP_belowBucket T c]
  apply hs.mem_iff_lt (belowBucket T c) _ i hi
  intro p q hp hq hlt hD
  unfold belowBucket at hD ⊢
  simp only [Bool.or_eq_true, Bool.and_eq_true, decide_eq_true_eq] at hD ⊢
  rcases hD with hD | ⟨hD1, hD2⟩
  · subst hD
    exact absurd hlt (ho.nmin q hq)
  · by_cases hqn : q = T.length
    · exact Or.inl hqn
    · have := ho.bkt p q hD1 (by omega) hlt
      exact Or.inr ⟨by omega, by omega⟩

theorem zone_belowSPart {T : List Nat} {lt : Nat → Nat → Prop} {sa : List Nat}
    (ho : BucketOrder T lt) (hs : SortedPerm lt T.length sa) (c i : Nat) (hi : i ≤ T.length) :
    belowSPart T c (sa.getD i 0) = true ↔ i < hd T c + nL T c := by
  rw [← countP_belowSPart T c]
  apply hs.mem_iff_lt (belowSPart T c) _ i hi
  intro p q hp hq hlt hD
  unfold belowSPart belowBucket at hD ⊢
  simp only [Bool.or_eq_true, Bool.and_eq_true, decide_eq_true_eq] at hD ⊢
  by_cases hqn : q = T.length
  · exact Or.inl (Or.inl hqn)
  · rcases hD with (hD | ⟨hD1, hD2⟩) | ⟨hD1, hD2, hD3⟩
    · subst hD
      exact absurd hlt (ho.nmin q hq)
    · have := ho.bkt p q hD1 (by omega) hlt
      exact Or.inl (Or.inr ⟨by omega, by omega⟩)
    · have h1 := ho.bkt p q hD1 (by omega) hlt
      by_cases he : T.getD q 0 = T.getD p 0
      · exact Or.inr ⟨by omega, by omega, ho.typ p q hD1 (by omega) hlt he hD3⟩
      · exact Or.inl (Or.inr ⟨by omega, by omega⟩)

theorem zone_head {T : List Nat} {lt : Nat → Nat → Prop} {sa : List Nat}
    (ho : BucketOrder T lt) (hs : SortedPerm lt T.length sa) : sa.getD 0 0 = T.length := by
  have h := (zone_belowBucket ho hs 0 0 (Nat.zero_le _)).mpr (by unfold hd; omega)
  unfold belowBucket at h
  simp only [Bool.or_eq_true, Bool.and_eq_true, decide_eq_true_eq] at h
  rcases h with h | ⟨_, h⟩
  · exact h
  · omega

/-- Where an offset `q < n` sits in the sorted list: inside its bucket, in the
L part or the S part according to its type. -/
theorem zone_of_pos {T : List Nat} {lt : Nat → Nat → Prop} {sa : List Nat}
    (ho : BucketOrder T lt) (hs : SortedPerm lt T.length sa) (i : Nat) (hi : i ≤ T.length)
    (hq : sa.getD i 0 < T.length) :
    hd T (T.getD (sa.getD i 0) 0) ≤ i ∧
    i < hd T (T.getD (sa.getD i 0) 0) + sz T (T.getD (sa.getD i 0) 0) ∧
    (isL T (sa.getD i 0) = true → i < hd T (T.getD (sa.getD i 0) 0) + nL T (T.getD (sa.getD i 0) 0)) ∧
    (isL T (sa.getD i 0) = false →
      hd T (T.getD (sa.getD i 0) 0) + nL T (T.getD (sa.getD i 0) 0) ≤ i) := by
  have h1 := zone_belowBucket ho hs (T.getD (sa.getD i 0) 0) i hi
  have h2 := zone_belowBucket ho hs (T.getD (sa.getD i 0) 0 + 1) i hi
  have h3 := zone_belowSPart ho hs (T.getD (sa.getD i 0) 0) i hi
  rw [hd_succ] at h2
  unfold belowSPart at h3
  unfold belowBucket at h1 h2 h3
  simp only [Bool.or_eq_true, Bool.and_eq_true, decide_eq_true_eq] at h1 h2 h3
  refine ⟨?_, ?_, ?_, ?_⟩
  · by_contra hc
    have := h1.mpr (by omega)
    omega
  · exact h2.mp (Or.inr ⟨hq, by omega⟩)
  · intro hL
    exact h3.mp (Or.inr ⟨hq, trivial, hL⟩)
  · intro hS
    by_contra hc
    have := h3.mpr (by omega)
    rcases this with (h | ⟨_, h⟩) | ⟨_, _, h⟩
    · omega
    · omega
    · rw [hS] at h
      exact absurd h (by decide)

/-- What sits at an index of the L part of bucket `c`. -/
theorem zone_conv_L {T : List Nat} {lt : Nat → Nat → Prop} {sa : List Nat}
    (ho : BucketOrder T lt) (hs : SortedPerm lt T.length sa) (c i : Nat) (hi : i ≤ T.length)
    (h1 : hd T c ≤ i) (h2 : i < hd T c + nL T c) :
    sa.getD i 0 < T.length ∧ T.getD (sa.getD i 0) 0 = c ∧ isL T (sa.getD i 0) = true := by
  have ha := zone_belowBucket ho hs c i hi
  have hb := (zone_belowSPart ho hs c i hi).mpr h2
  unfold belowSPart at hb
  rw [Bool.or_eq_true] at hb
  rcases hb with hb | hb
  · have := ha.mp hb
    omega
  · simp only [Bool.and_eq_true, decide_eq_true_eq] at hb
    exact hb

/-- What sits at an index of the S part of bucket `c`. -/
theorem zone_conv_S {T : List Nat} {lt : Nat → Nat → Prop} {sa : List Nat}
    (ho : BucketOrder T lt) (hs : SortedPerm lt T.length sa) (c i : Nat) (hi : i ≤ T.length)
    (h1 : hd T c + nL T c ≤ i) (h2 : i < hd T c + sz T c) :
    sa.getD i 0 < T.length ∧ T.getD (sa.getD i 0) 0 = c ∧ isL T (sa.getD i 0) = false := by
  have ha := zone_belowBucket ho hs c i hi
  have hb := zone_belowSPart ho hs c i hi
  have hc := (zone_belowBucket ho hs (c + 1) i hi).mpr (by rw [hd_succ]; exact h2)
  have hna : ¬ belowBucket T c (sa.getD i 0) = true := fun h => by
    have := ha.mp h
    omega
  have hnb : ¬ belowSPart T c (sa.getD i 0) = true := fun h => by
    have := hb.mp h
    omega
  unfold belowSPart at hnb
  unfold belowBucket at hc hna hnb
  simp only [Bool.or_eq_true, Bool.and_eq_true, decide_eq_true_eq, not_or, not_and] at hc hna hnb
  rcases hc with hc | ⟨hc1, hc2⟩
  · exact absurd hc hna.1
  · have h3 := hna.2 hc1
    have he : T.getD (sa.getD i 0) 0 = c := by omega
    refine ⟨hc1, he, ?_⟩
    cases hl : isL T (sa.getD i 0) with
    | false => rfl
    | true => exact absurd hl (hnb.2 hc1 he)

theorem TypeAt_types (T : List Nat) (j : Nat) (h : j ≤ T.length) :
    TypeMap.TypeAt (types T) j = .ok (isL T j) := by
  unfold TypeMap.TypeAt isL
  have hlt : j < (types T).length := by rw [types_length]; omega
  rw [List.getElem?_eq_getElem hlt, List.getD_eq_getElem _ _ hlt]

theorem SymbolAt_of_lt (text : Text) (j : Nat) (h : j < text.ba.length) :
    text.SymbolAt j = .ok (text.ba.getD j 0) :=
  ValueAt_of_lt text.ba j h

theorem iter_getElem? (iters : List Iterator) (c : Nat) (h : c < iters.length) :
    iters[c]? = some ⟨loOf iters c, hiOf iters c⟩ := by
  unfold loOf hiOf
  rw [List.getElem?_eq_getElem h, List.getD_eq_getElem _ _ h]

theorem loOf_set_self (iters : List Iterator) (c : Nat) (it : Iterator) (h : c < iters.length) :
    loOf (iters.set c it) c = it.lo := by
  unfold loOf
  rw [List.getD_eq_getElem _ _ (by simpa using h)]
  simp

theorem hiOf_set_self (iters : List Iterator) (c : Nat) (it : Iterator) (h : c < iters.length) :
    hiOf (iters.set c it) c = it.hi := by
  unfold hiOf
  rw [List.getD_eq_getElem _ _ (by simpa using h)]
  simp

theorem loOf_set_of_ne (iters : List Iterator) (c c' : Nat) (it : Iterator) (h : c ≠ c') :
    loOf (iters.set c it) c' = loOf iters c' := by
  unfold loOf
  simp [List.getD, List.getElem?_set, h]

theorem hiOf_set_of_ne (iters : List Iterator) (c c' : Nat) (it : Iterator) (h : c ≠ c') :
    hiOf (iters.set c it) c' = hiOf iters c' := by
  unfold hiOf
  simp [List.getD, List.getElem?_set, h]

/-- What the scan of an L pass finds at the index of the successor of an
L-type offset: that successor. -/
theorem LInv.scan_value {text : Text} {sigma : Nat} {sao a0 : List Nat} {posQ : Nat → Nat}
    {i : Nat} {iters : List Iterator} {a : List Nat} (hp : LPass text sigma sao a0 posQ)
    (hinv : LInv text sigma sao a0 posQ i iters a) (hi : i ≤ text.ba.length)
    (j : Nat) (hj : j < text.ba.length) (hjL : isL text.ba j = true) (hpos : posQ (j + 1) = i) :
    a.getD i 0 = j + 1 := by
  cases hs : isL text.ba (j + 1) with
  | true =>
    have hj1 : j + 1 < text.ba.length := by
      by_contra hc
      have : j + 1 = text.ba.length := by omega
      rw [this, isL_length] at hs
      exact absurd hs (by decide)
    have h1 := hp.hq1 (j + 1) hj1 hs
    have h3 := hp.hq3 (j + 1) hj1 hs
    have hplaced := (hinv.hprog (j + 1) hj1 hs).mpr (by omega)
    have hz := hp.hzone (j + 1) hj1 hs
    obtain ⟨_, h5, _⟩ := hinv.hdone _ (hp.hsym _ hj1) (sao.indexOf (j + 1)) hz.1 hplaced
    rw [← hpos, h1, h5]
    exact (perm_indexOf hp.hperm (j + 1) (by omega)).2
  | false =>
    obtain ⟨h1, h2⟩ := hp.hseed j hj hjL hs
    rw [← hpos, hinv.hrest _ (by omega) _, h1]
    intro c hc ⟨hx1, hx2⟩
    obtain ⟨hx3, _, hx5, hx6, _⟩ := hinv.hdone c hc _ hx1 hx2
    apply h2 _ hx5 hx6
    exact (perm_indexOf_getD hp.hperm _ hx3).symm

theorem LInv.skip {text : Text} {sigma : Nat} {sao a0 : List Nat} {posQ : Nat → Nat}
    {i : Nat} {iters : List Iterator} {a : List Nat}
    (hinv : LInv text sigma sao a0 posQ i iters a)
    (hne : ∀ j, j < text.ba.length → isL text.ba j = true → posQ (j + 1) ≠ i) :
    LInv text sigma sao a0 posQ (i + 1) iters a := by
  refine ⟨hinv.hlen, hinv.hiters, hinv.hhi, hinv.hlo, hinv.hdone, hinv.hrest, ?_⟩
  intro j hj hjL
  rw [hinv.hprog j hj hjL]
  have := hne j hj hjL
  omega

/-- The entry an L pass scans at index `i` is the end marker of a free cell
or an offset `p ≤ n` that the scan meets at `i`. -/
theorem LInv.scan_cases {text : Text} {sigma : Nat} {sao a0 : List Nat} {posQ : Nat → Nat}
    {i : Nat} {iters : List Iterator} {a : List Nat} (hp : LPass text sigma sao a0 posQ)
    (hinv : LInv text sigma sao a0 posQ i iters a) (hi : i ≤ text.ba.length) :
    a.getD i 0 = placeholder ∨
      (a.getD i 0 ≤ text.ba.length ∧
        (1 ≤ a.getD i 0 → isL text.ba (a.getD i 0 - 1) = true → posQ (a.getD i 0) = i)) := by
  by_cases hc : ∀ c, c < sigma → ¬ (hd text.ba c ≤ i ∧ i < loOf iters c)
  · rw [hinv.hrest i hi hc]
    rcases hp.ha0 i hi with h | ⟨h1, h2⟩
    · exact Or.inl h
    · exact Or.inr ⟨h1, fun _ _ => h2⟩
  · right
    simp only [not_forall, not_not] at hc
    obtain ⟨c, hc1, hc2, hc3⟩ := hc
    obtain ⟨_, h2, h3, h4, _⟩ := hinv.hdone c hc1 i hc2 hc3
    rw [h2]
    refine ⟨by omega, fun _ _ => ?_⟩
    rw [hp.hq1 _ h3 h4]
    exact perm_indexOf_getD hp.hperm i hi

theorem induceLLoop_spec {text : Text} {sigma : Nat} {sao a0 : List Nat} {posQ : Nat → Nat}
    (hp : LPass text sigma sao a0 posQ) :
    ∀ (remaining i : Nat) (iters : List Iterator) (a : List Nat),
      i + remaining = text.ba.length + 1 → LInv text sigma sao a0 posQ i iters a →
      ∃ a1 iters1, induceLLoop text (types text.ba) remaining i iters a = .ok a1 ∧
        LInv text sigma sao a0 posQ (text.ba.length + 1) iters1 a1 := by
  intro remaining
  induction remaining with
  | zero =>
    intro i iters a hi hinv
    have : i = text.ba.length + 1 := by omega
    subst this
    exact ⟨a, iters, rfl, hinv⟩
  | succ remaining ih =>
    intro i iters a hi hinv
    have hin : i ≤ text.ba.length := by omega
    have hpl : placeholder = 2 ^ 64 - 1 := rfl
    have hn64 := hp.hn64
    rw [induceLLoop]
    by_cases h0 : a.getD i 0 = 0 ∨ a.getD i 0 = placeholder
    · rw [if_pos h0]
      apply ih (i + 1) iters a (by omega)
      apply hinv.skip
      intro j hj hjL hpos
      have := hinv.scan_value hp hin j hj hjL hpos
      omega
    · rw [if_neg h0]
      rcases hinv.scan_cases hp hin with hx | ⟨hx1, hx2⟩
      · exact absurd (Or.inr hx) h0
      · rw [TypeAt_types text.ba _ (by omega)]
        simp only []
        cases hjL : isL text.ba (a.getD i 0 - 1) with
        | false =>
          rw [if_pos (show false = SType from rfl)]
          apply ih (i + 1) iters a (by omega)
          apply hinv.skip
          intro j hj hjL' hpos
          have := hinv.scan_value hp hin j hj hjL' hpos
          have hjj : j = a.getD i 0 - 1 := by omega
          rw [hjj, hjL] at hjL'
          exact absurd hjL' (by decide)
        | true =>
          rw [if_neg (by decide)]
          have hx0 : 1 ≤ a.getD i 0 := by omega
          have hjn : a.getD i 0 - 1 < text.ba.length := by omega
          have hposx := hx2 hx0 hjL
          generalize hj : a.getD i 0 - 1 = j at hjL hjn ⊢
          have hxj : a.getD i 0 = j + 1 := by omega
          rw [hxj] at hposx
          have hc := hp.hsym j hjn
          rw [SymbolAt_of_lt text j hjn]
          simp only []
          rw [iter_getElem? iters _ (by rw [hinv.hiters]; exact hc)]
          simp only []
          obtain ⟨hz1, hz2⟩ := hp.hzone j hjn hjL
          have hunplaced : ¬ sao.indexOf j < loOf iters (text.ba.getD j 0) := by
            rw [hinv.hprog j hjn hjL]
            omega
          have hcrux : sao.indexOf j = loOf iters (text.ba.getD j 0) := by
            by_contra hne
            have hlt : loOf iters (text.ba.getD j 0) < sao.indexOf j := by omega
            obtain ⟨hq1, hq2, hq3⟩ := hp.hconv j hjn hjL _ (hinv.hlo _ hc) hlt
            have hidx := perm_indexOf_getD hp.hperm (loOf iters (text.ba.getD j 0))
              (by have := (perm_indexOf hp.hperm j (by omega)).1; omega)
            have h4 := hp.hq4 j _ hjn hq1 hjL hq2 hq3.symm (by rw [hidx]; exact hlt)
            have h5 := (hinv.hprog _ hq1 hq2).mpr (by omega)
            rw [hidx, hq3] at h5
            omega
          have hidxj := perm_indexOf hp.hperm j (by omega)
          rw [if_pos (by rw [hinv.hhi _ hc]; omega)]
          apply ih (i + 1) _ _ (by omega)
          have hcl : text.ba.getD j 0 < iters.length := by rw [hinv.hiters]; exact hc
          refine ⟨by simp [hinv.hlen], by simp [hinv.hiters], ?_, ?_, ?_, ?_, ?_⟩
          · intro c' hc'
            by_cases hcc : text.ba.getD j 0 = c'
            · subst hcc
              rw [hiOf_set_self _ _ _ hcl]
              exact hinv.hhi _ hc'
            · rw [hiOf_set_of_ne _ _ _ _ hcc]
              exact hinv.hhi _ hc'
          · intro c' hc'
            by_cases hcc : text.ba.getD j 0 = c'
            · subst hcc
              rw [loOf_set_self _ _ _ hcl]
              show _ ≤ loOf iters (text.ba.getD j 0) + 1
              omega
            · rw [loOf_set_of_ne _ _ _ _ hcc]
              exact hinv.hlo _ hc'
          · intro c' hc' x hx1' hx2'
            by_cases hcc : text.ba.getD j 0 = c'
            · subst hcc
              rw [loOf_set_self _ _ _ hcl] at hx2'
              have hx2'' : x < loOf iters (text.ba.getD j 0) + 1 := hx2'
              by_cases hxl : x = loOf iters (text.ba.getD j 0)
              · subst hxl
                rw [← hcrux, getD_set_self _ _ _ (by rw [hinv.hlen]; omega), hidxj.2]
                exact ⟨by omega, rfl, hjn, hjL, rfl⟩
              · rw [getD_set_of_ne _ _ _ _ (fun h => hxl h.symm)]
                exact hinv.hdone _ hc' x hx1' (by omega)
            · rw [loOf_set_of_ne _ _ _ _ hcc] at hx2'
              obtain ⟨h1, h2, h3, h4, h5⟩ := hinv.hdone _ hc' x hx1' hx2'
              refine ⟨h1, ?_, h3, h4, h5⟩
              rw [getD_set_of_ne _ _ _ _ _, h2]
              intro hxe
              rw [← hxe, ← hcrux, hidxj.2] at h5
              exact hcc h5
          · intro x hx hnot
            have hxl : loOf iters (text.ba.getD j 0) ≠ x := by
              intro he
              apply hnot _ hc
              rw [loOf_set_self _ _ _ hcl]
              show _ ∧ x < loOf iters (text.ba.getD j 0) + 1
              omega
            rw [getD_set_of_ne _ _ _ _ hxl]
            apply hinv.hrest x hx
            intro c' hc' ⟨h1, h2⟩
            apply hnot c' hc'
            refine ⟨h1, ?_⟩
            by_cases hcc : text.ba.getD j 0 = c'
            · subst hcc
              rw [loOf_set_self _ _ _ hcl]
              show x < loOf iters (text.ba.getD j 0) + 1
              omega
            · rw [loOf_set_of_ne _ _ _ _ hcc]
              exact h2
          · intro j2 hj2 hj2L
            by_cases hjj : j2 = j
            · subst hjj
              rw [loOf_set_self _ _ _ hcl]
              show sao.indexOf j2 < loOf iters (text.ba.getD j2 0) + 1 ↔ _
              omega
            · have hidx2 := perm_indexOf hp.hperm j2 (by omega)
              have hne1 : sao.indexOf j2 ≠ sao.indexOf j := by
                intro he
                apply hjj
                rw [← hidx2.2, he, hidxj.2]
              have hne2 : posQ (j2 + 1) ≠ i := by
                intro hpos
                have := hinv.scan_value hp hin j2 hj2 hj2L hpos
                omega
              have hold := hinv.hprog j2 hj2 hj2L
              by_cases hcc : text.ba.getD j 0 = text.ba.getD j2 0
              · rw [← hcc, loOf_set_self _ _ _ hcl]
                rw [← hcc] at hold
                show sao.indexOf j2 < loOf iters (text.ba.getD j 0) + 1 ↔ _
                omega
              · rw [loOf_set_of_ne _ _ _ _ hcc]
                omega

theorem hd_mono (T : List Nat) (c c' : Nat) (h : c ≤ c') : hd T c ≤ hd T c' := by
  unfold hd
  have : T.countP (fun x => decide (x < c)) ≤ T.countP (fun x => decide (x < c')) := by
    apply List.countP_mono_left
    intro x _ hx
    simp only [decide_eq_true_eq] at hx ⊢
    omega
  omega

theorem hd_add_sz_le (T : List Nat) (c : Nat) : hd T c + sz T c ≤ T.length + 1 := by
  rw [← hd_succ]
  unfold hd
  have := @List.countP_le_length _ (fun x => decide (x < c + 1)) T
  omega

theorem bucket_disjoint (T : List Nat) (c c' x : Nat) (h : c ≠ c')
    (h1 : hd T c ≤ x) (h2 : x < hd T c + sz T c) (h3 : hd T c' ≤ x)
    (h4 : x < hd T c' + sz T c') : False := by
  rcases Nat.lt_or_gt_of_ne h with hlt | hlt
  · have := hd_mono T (c + 1) c' hlt
    rw [hd_succ] at this
    omega
  · have := hd_mono T (c' + 1) c hlt
    rw [hd_succ] at this
    omega

/-- What the scan of an S pass finds at an index it has yet to visit: the
entry of the sorted list. -/
theorem SInv.cell_value {text : Text} {sigma : Nat} {sao a1 : List Nat}
    {r : Nat} {iters : List Iterator} {a : List Nat} (hp : SPass text sigma sao a1)
    (hinv : SInv text sigma sao a1 r iters a) (x : Nat) (hx : x ≤ text.ba.length)
    (hxr : r ≤ x + 1) : a.getD x 0 = sao.getD x 0 := by
  by_cases hc : ∀ c, c < sigma → ¬ (hiOf iters c ≤ x ∧ x < hd text.ba c + sz text.ba c)
  · rw [hinv.hrest x hx hc]
    apply hp.ha1 x hx
    by_contra hne
    simp only [not_or] at hne
    have hple := perm_getD_le hp.hperm x hx
    have hpn : sao.getD x 0 < text.ba.length := by omega
    have hS : isL text.ba (sao.getD x 0) = false := by
      cases h : isL text.ba (sao.getD x 0) with
      | false => rfl
      | true => exact absurd h hne.2
    have hidx := perm_indexOf_getD hp.hperm x hx
    have h3 := hp.hs3 _ hpn hS
    rw [hidx] at h3
    have h4 := (hinv.hprog _ hpn hS).mpr (by omega)
    have hz := hp.hzone _ hpn hS
    rw [hidx] at h4 hz
    exact hc _ (hp.hsym _ hpn) ⟨h4, hz.2⟩
  · simp only [not_forall, not_not] at hc
    obtain ⟨c, hc1, hc2, hc3⟩ := hc
    exact hinv.hdone c hc1 x hc2 hc3

theorem SInv.pass_over {text : Text} {sigma : Nat} {sao a1 : List Nat}
    {r : Nat} {iters : List Iterator} {a : List Nat}
    (hinv : SInv text sigma sao a1 (r + 1) iters a)
    (hne : ∀ j, j < text.ba.length → isL text.ba j = false → sao.indexOf (j + 1) ≠ r) :
    SInv text sigma sao a1 r iters a := by
  refine ⟨hinv.hlen, hinv.hiters, hinv.hlo, hinv.hhi, hinv.hlohi, hinv.hdone, hinv.hrest, ?_⟩
  intro j hj hjS
  rw [hinv.hprog j hj hjS]
  have := hne j hj hjS
  omega

theorem induceRLoop_spec {text : Text} {sigma : Nat} {sao a1 : List Nat}
    (hp : SPass text sigma sao a1) :
    ∀ (r : Nat) (iters : List Iterator) (a : List Nat),
      r ≤ text.ba.length + 1 → SInv text sigma sao a1 r iters a →
      ∃ a2 iters2, induceRLoop text (types text.ba) r iters a = .ok a2 ∧
        SInv text sigma sao a1 0 iters2 a2 := by
  intro r
  induction r with
  | zero =>
    intro iters a _ hinv
    exact ⟨a, iters, rfl, hinv⟩
  | succ i ih =>
    intro iters a hi hinv
    have hin : i ≤ text.ba.length := by omega
    have hpl : placeholder = 2 ^ 64 - 1 := rfl
    have hn64 := hp.hn64
    have hval := hinv.cell_value hp i hin (Nat.le_refl _)
    have hple := perm_getD_le hp.hperm i hin
    -- an S-type offset whose successor sits at `i` is the predecessor of the entry
    have hpred : ∀ j, j < text.ba.length → sao.indexOf (j + 1) = i → sao.getD i 0 = j + 1 := by
      intro j hj he
      rw [← he]
      exact (perm_indexOf hp.hperm (j + 1) (by omega)).2
    rw [induceRLoop, hval]
    by_cases h0 : sao.getD i 0 = 0 ∨ sao.getD i 0 = placeholder
    · rw [if_pos h0]
      apply ih iters a (by omega)
      apply hinv.pass_over
      intro j hj _ he
      have := hpred j hj he
      omega
    · rw [if_neg h0, TypeAt_types text.ba _ (by omega)]
      simp only []
      have hx0 : 1 ≤ sao.getD i 0 := by omega
      have hjn : sao.getD i 0 - 1 < text.ba.length := by omega
      generalize hj : sao.getD i 0 - 1 = j at hjn ⊢
      have hxj : sao.getD i 0 = j + 1 := by omega
      have hidxp : sao.indexOf (j + 1) = i := by
        rw [← hxj]
        exact perm_indexOf_getD hp.hperm i hin
      cases hjL : isL text.ba j with
      | true =>
        rw [if_pos (show true = LType from rfl)]
        apply ih iters a (by omega)
        apply hinv.pass_over
        intro j' hj' hj'S he
        have := hpred j' hj' he
        have hjj : j' = j := by omega
        rw [hjj, hjL] at hj'S
        exact absurd hj'S (by decide)
      | false =>
        rw [if_neg (show ¬ (false = LType) by decide)]
        have hc := hp.hsym j hjn
        rw [SymbolAt_of_lt text j hjn]
        simp only []
        rw [iter_getElem? iters _ (by rw [hinv.hiters]; exact hc)]
        simp only []
        obtain ⟨hz1, hz2⟩ := hp.hzone j hjn hjL
        have hunplaced : ¬ hiOf iters (text.ba.getD j 0) ≤ sao.indexOf j := by
          rw [hinv.hprog j hjn hjL]
          omega
        have hhic := hinv.hhi _ hc
        have hcrux : sao.indexOf j = hiOf iters (text.ba.getD j 0) - 1 := by
          by_contra hne
          have hlt : sao.indexOf j < hiOf iters (text.ba.getD j 0) - 1 := by omega
          obtain ⟨hq1, hq2, hq3⟩ := hp.hconv j hjn hjL _ hlt (by omega)
          have hle : hiOf iters (text.ba.getD j 0) - 1 ≤ text.ba.length := by
            have := hd_add_sz_le text.ba (text.ba.getD j 0)
            omega
          have hidx := perm_indexOf_getD hp.hperm (hiOf iters (text.ba.getD j 0) - 1) hle
          have h4 := hp.hs4 j _ hjn hq1 hjL hq2 hq3.symm (by rw [hidx]; exact hlt)
          have h5 := (hinv.hprog _ hq1 hq2).mpr (by omega)
          rw [hidx, hq3] at h5
          omega
        have hidxj := perm_indexOf hp.hperm j (by omega)
        rw [if_pos (by rw [hinv.hlo _ hc]; omega)]
        apply ih _ _ (by omega)
        have hcl : text.ba.getD j 0 < iters.length := by rw [hinv.hiters]; exact hc
        refine ⟨by simp [hinv.hlen], by simp [hinv.hiters], ?_, ?_, ?_, ?_, ?_, ?_⟩
        · intro c' hc'
          by_cases hcc : text.ba.getD j 0 = c'
          · subst hcc
            rw [loOf_set_self _ _ _ hcl]
            exact hinv.hlo _ hc'
          · rw [loOf_set_of_ne _ _ _ _ hcc]
            exact hinv.hlo _ hc'
        · intro c' hc'
          by_cases hcc : text.ba.getD j 0 = c'
          · subst hcc
            rw [hiOf_set_self _ _ _ hcl]
            show hiOf iters (text.ba.getD j 0) - 1 ≤ _
            omega
          · rw [hiOf_set_of_ne _ _ _ _ hcc]
            exact hinv.hhi _ hc'
        · intro c' hc'
          by_cases hcc : text.ba.getD j 0 = c'
          · subst hcc
            rw [hiOf_set_self _ _ _ hcl]
            show _ ≤ hiOf iters (text.ba.getD j 0) - 1
            omega
          · rw [hiOf_set_of_ne _ _ _ _ hcc]
            exact hinv.hlohi _ hc'
        · intro c' hc' x hx1' hx2'
          by_cases hcc : text.ba.getD j 0 = c'
          · subst hcc
            rw [hiOf_set_self _ _ _ hcl] at hx1'
            have hx1'' : hiOf iters (text.ba.getD j 0) - 1 ≤ x := hx1'
            by_cases hxl : x = hiOf iters (text.ba.getD j 0) - 1
            · subst hxl
              rw [getD_set_self _ _ _ (by rw [hinv.hlen]; omega), ← hcrux, hidxj.2]
            · rw [getD_set_of_ne _ _ _ _ (fun h => hxl h.symm)]
              exact hinv.hdone _ hc' x (by omega) hx2'
          · rw [hiOf_set_of_ne _ _ _ _ hcc] at hx1'
            have hold := hinv.hdone _ hc' x hx1' hx2'
            rw [getD_set_of_ne _ _ _ _ _, hold]
            intro hxe
            have h3 := hinv.hlohi _ hc'
            exact bucket_disjoint text.ba _ _ x hcc (by omega) (by omega) (by omega) hx2'
        · intro x hx hnot
          have hxl : hiOf iters (text.ba.getD j 0) - 1 ≠ x := by
            intro he
            apply hnot _ hc
            rw [hiOf_set_self _ _ _ hcl]
            show hiOf iters (text.ba.getD j 0) - 1 ≤ x ∧ _
            omega
          rw [getD_set_of_ne _ _ _ _ hxl]
          apply hinv.hrest x hx
          intro c' hc' ⟨h1, h2⟩
          apply hnot c' hc'
          refine ⟨?_, h2⟩
          by_cases hcc : text.ba.getD j 0 = c'
          · subst hcc
            rw [hiOf_set_self _ _ _ hcl]
            show hiOf iters (text.ba.getD j 0) - 1 ≤ x
            omega
          · rw [hiOf_set_of_ne _ _ _ _ hcc]
            exact h1
        · intro j2 hj2 hj2S
          by_cases hjj : j2 = j
          · subst hjj
            rw [hiOf_set_self _ _ _ hcl]
            show hiOf iters (text.ba.getD j2 0) - 1 ≤ sao.indexOf j2 ↔ _
            omega
          · have hidx2 := perm_indexOf hp.hperm j2 (by omega)
            have hne1 : sao.indexOf j2 ≠ sao.indexOf j := by
              intro he
              apply hjj
              rw [← hidx2.2, he, hidxj.2]
            have hne2 : sao.indexOf (j2 + 1) ≠ i := by
              intro hpos
              have := hpred j2 hj2 hpos
              omega
            have hold := hinv.hprog j2 hj2 hj2S
            by_cases hcc : text.ba.getD j 0 = text.ba.getD j2 0
            · rw [← hcc, hiOf_set_self _ _ _ hcl]
              rw [← hcc] at hold
              show hiOf iters (text.ba.getD j 0) - 1 ≤ sao.indexOf j2 ↔ _
              omega
            · rw [hiOf_set_of_ne _ _ _ _ hcc]
              omega

/-! ## Buckets of a text -/

theorem add64_of_lt (x y : Nat) (h : x + y < 2 ^ 64) : add64 x y = x + y := by
  unfold add64
  exact Nat.mod_eq_of_lt h

theorem bucketSizesLoop_spec : ∀ (l out : List Nat), (∀ x ∈ l, x < out.length) →
    (∀ c, out.getD c 0 + l.length < 2 ^ 64) →
    ∃ res, bucketSizesLoop l out = .ok res ∧ res.length = out.length ∧
      ∀ c, res.getD c 0 = out.getD c 0 + sz l c
  | [], out, _, _ => ⟨out, rfl, rfl, fun c => by simp [sz]⟩
  | symbol :: rest, out, h, hb => by
    have hs : symbol < out.length := h symbol (List.mem_cons_self _ _)
    have hb1 := hb symbol
    rw [List.length_cons] at hb1
    obtain ⟨res, hrun, hlen, hval⟩ := bucketSizesLoop_spec rest (out.set symbol (out.getD symbol 0 + 1))
      (by intro x hx; simpa using h x (List.mem_cons_of_mem _ hx))
      (by
        intro c
        have hbc := hb c
        rw [List.length_cons] at hbc
        by_cases hc : symbol = c
        · subst hc
          rw [getD_set_self _ _ _ hs]
          omega
        · rw [getD_set_of_ne _ _ _ _ hc]
          omega)
    refine ⟨res, ?_, by simpa using hlen, ?_⟩
    · rw [bucketSizesLoop, getElem?_eq_getD_of_lt out symbol hs]
      simp only []
      rw [add64_of_lt _ _ (by omega)]
      exact hrun
    · intro c
      rw [hval c]
      unfold sz
      rw [List.countP_cons]
      by_cases hc : symbol = c
      · subst hc
        rw [getD_set_self _ _ _ hs]
        simp
        omega
      · rw [getD_set_of_ne _ _ _ _ hc]
        simp [hc]

theorem BuildBucketSizes_spec (text : Text) (h : ∀ x ∈ text.ba, x < text.ab)
    (hlen : text.ba.length < 2 ^ 64) :
    ∃ sizes, BuildBucketSizes text = .ok sizes ∧ sizes.length = text.ab ∧
      ∀ c, sizes.getD c 0 = sz text.ba c := by
  obtain ⟨res, hrun, hlen, hval⟩ := bucketSizesLoop_spec text.ba (List.replicate text.ab 0)
    (by simpa using h) (by
      intro c
      have : (List.replicate text.ab 0).getD c 0 = 0 := by
        simp only [List.getD_eq_getElem?_getD, List.getElem?_replicate]
        split <;> rfl
      rw [this]
      omega)
  refine ⟨res, hrun, by simpa using hlen, ?_⟩
  intro c
  rw [hval c]
  simp [List.getD]

theorem hd_zero (T : List Nat) : hd T 0 = 1 := by
  unfold hd
  simp

theorem bucketItersLoop_spec (T : List Nat) (h64 : T.length + 1 < 2 ^ 64) :
    ∀ (l : List Nat) (b : Nat), (∀ k, k < l.length → l.getD k 0 = sz T (b + k)) →
      (bucketItersLoop (hd T b) l).length = l.length ∧
      ∀ k, k < l.length →
        loOf (bucketItersLoop (hd T b) l) k = hd T (b + k) ∧
        hiOf (bucketItersLoop (hd T b) l) k = hd T (b + k) + sz T (b + k)
  | [], b, _ => ⟨rfl, fun k hk => by simp at hk⟩
  | count :: rest, b, h => by
    have hc : count = sz T b := h 0 (by simp)
    have hle := hd_add_sz_le T b
    have hadd : add64 (hd T b) count = hd T (b + 1) := by
      rw [hc, add64_of_lt _ _ (by omega), hd_succ]
    rw [bucketItersLoop, hadd]
    obtain ⟨ihl, ihv⟩ := bucketItersLoop_spec T h64 rest (b + 1) (by
      intro k hk
      have := h (k + 1) (by simpa using hk)
      rw [List.getD_cons_succ] at this
      rw [this, show b + (k + 1) = b + 1 + k by omega])
    refine ⟨by simp [ihl], ?_⟩
    intro k hk
    cases k with
    | zero =>
      unfold loOf hiOf
      rw [List.getD_cons_zero]
      rw [hd_succ]
      exact ⟨rfl, rfl⟩
    | succ k =>
      have := ihv k (by simpa using hk)
      unfold loOf hiOf at this ⊢
      rw [List.getD_cons_succ]
      have e : b + (k + 1) = b + 1 + k := by omega
      rw [e]
      exact this

theorem bucketIters_spec (T sizes : List Nat) (h64 : T.length + 1 < 2 ^ 64)
    (hs : ∀ c, sizes.getD c 0 = sz T c) :
    (bucketItersLoop 1 sizes).length = sizes.length ∧
    ∀ c, c < sizes.length →
      loOf (bucketItersLoop 1 sizes) c = hd T c ∧
      hiOf (bucketItersLoop 1 sizes) c = hd T c + sz T c := by
  have := bucketItersLoop_spec T h64 sizes 0 (by intro k _; rw [hs k]; congr 1; omega)
  rw [hd_zero] at this
  refine ⟨this.1, ?_⟩
  intro c hc
  have h2 := this.2 c hc
  rw [Nat.zero_add] at h2
  exact h2

theorem dec64_add64_tail (T : List Nat) (h64 : T.length + 1 < 2 ^ 64) (c : Nat) :
    add64 (hd T c) (sz T c) = hd T (c + 1) ∧
    dec64 (add64 (hd T c) (sz T c)) = hd T c + sz T c - 1 := by
  have hle := hd_add_sz_le T c
  have h1 : add64 (hd T c) (sz T c) = hd T c + sz T c := add64_of_lt _ _ (by omega)
  rw [h1, hd_succ]
  refine ⟨rfl, ?_⟩
  apply dec64_of_pos
  · unfold hd; omega
  · omega

theorem bucketTailsLoop_spec (T : List Nat) (h64 : T.length + 1 < 2 ^ 64) :
    ∀ (l : List Nat) (b : Nat), (∀ k, k < l.length → l.getD k 0 = sz T (b + k)) →
      (bucketTailsLoop (hd T b) l).length = l.length ∧
      ∀ k, k < l.length →
        (bucketTailsLoop (hd T b) l).getD k 0 = hd T (b + k) + sz T (b + k) - 1
  | [], b, _ => ⟨rfl, fun k hk => by simp at hk⟩
  | count :: rest, b, h => by
    have hc : count = sz T b := h 0 (by simp)
    obtain ⟨h1, h2⟩ := dec64_add64_tail T h64 b
    have h2b : dec64 (hd T (b + 1)) = hd T b + sz T b - 1 := by rw [← h1]; exact h2
    rw [bucketTailsLoop, hc, h1, h2b]
    obtain ⟨ihl, ihv⟩ := bucketTailsLoop_spec T h64 rest (b + 1) (by
      intro k hk
      have := h (k + 1) (by simpa using hk)
      rw [List.getD_cons_succ] at this
      rw [this, show b + (k + 1) = b + 1 + k by omega])
    refine ⟨by simp [ihl], ?_⟩
    intro k hk
    cases k with
    | zero =>
      simp only [List.getD_cons_zero, Nat.add_zero]
    | succ k =>
      have := ihv k (by simpa using hk)
      rw [List.getD_cons_succ]
      have e : b + (k + 1) = b + 1 + k := by omega
      rw [e]
      exact this

theorem BuildBucketTails_spec (T sizes : List Nat) (h64 : T.length + 1 < 2 ^ 64)
    (hs : ∀ c, sizes.getD c 0 = sz T c) :
    (BuildBucketTails sizes).length = sizes.length ∧
    ∀ c, c < sizes.length → (BuildBucketTails sizes).getD c 0 = hd T c + sz T c - 1 := by
  have := bucketTailsLoop_spec T h64 sizes 0 (by intro k _; rw [hs k]; congr 1; omega)
  rw [hd_zero] at this
  refine ⟨this.1, ?_⟩
  intro c hc
  have h2 := this.2 c hc
  rw [Nat.zero_add] at h2
  exact h2

/-! ## The two passes as functions -/

theorem list_ext_getD (a b : List Nat) (n : Nat) (ha : a.length = n) (hb : b.length = n)
    (h : ∀ x, x < n → a.getD x 0 = b.getD x 0) : a = b := by
  apply List.ext_getElem (by rw [ha, hb])
  intro i h1 h2
  have := h i (by omega)
  rw [List.getD_eq_getElem a 0 h1, List.getD_eq_getElem b 0 h2] at this
  exact this

/-- An L pass run on seeds that meet `LPass` succeeds, puts every L-type
offset where `sao` has it, and leaves the other cells as they were. -/
theorem induceSortL_spec {text : Text} {sigma : Nat} {sao a0 : List Nat} {posQ : Nat → Nat}
    (hp : LPass text sigma sao a0 posQ) (sizes : List Nat) (hsl : sizes.length = sigma)
    (hsz : ∀ c, sizes.getD c 0 = sz text.ba c) :
    ∃ a1, induceSortL text (types text.ba) sizes a0 = .ok a1 ∧
      a1.length = text.ba.length + 1 ∧
      (∀ j, j < text.ba.length → isL text.ba j = true → a1.getD (sao.indexOf j) 0 = j) ∧
      (∀ x, x ≤ text.ba.length →
        (∀ j, j < text.ba.length → isL text.ba j = true → sao.indexOf j ≠ x) →
        a1.getD x 0 = a0.getD x 0) := by
  obtain ⟨hil, hiv⟩ := bucketIters_spec text.ba sizes hp.hn64 hsz
  have hinit : LInv text sigma sao a0 posQ 0 (BuildBucketHeadIterators sizes) a0 := by
    unfold BuildBucketHeadIterators
    refine ⟨hp.hlen, by rw [hil, hsl], ?_, ?_, ?_, ?_, ?_⟩
    · intro c hc
      exact (hiv c (by omega)).2
    · intro c hc
      rw [(hiv c (by omega)).1]
    · intro c hc x h1 h2
      rw [(hiv c (by omega)).1] at h2
      omega
    · intro x _ _
      rfl
    · intro j hj hjL
      have hz := hp.hzone j hj hjL
      rw [(hiv _ (by rw [hsl]; exact hp.hsym j hj)).1]
      constructor
      · intro h
        omega
      · intro h
        omega
  obtain ⟨a1, iters1, hrun, hfin⟩ := induceLLoop_spec hp (text.ba.length + 1) 0
    (BuildBucketHeadIterators sizes) a0 (by omega) hinit
  refine ⟨a1, ?_, hfin.hlen, ?_, ?_⟩
  · unfold induceSortL
    rw [hp.hlen]
    exact hrun
  · intro j hj hjL
    have h3 := hp.hq3 j hj hjL
    rw [hp.hq1 j hj hjL] at h3
    have hle := (perm_indexOf hp.hperm j (by omega)).1
    have hlo := (hfin.hprog j hj hjL).mpr (by omega)
    have hz := hp.hzone j hj hjL
    have hd := hfin.hdone _ (hp.hsym j hj) _ hz.1 hlo
    rw [hd.2.1, (perm_indexOf hp.hperm j (by omega)).2]
  · intro x hx hne
    apply hfin.hrest x hx
    intro c hc hzone
    have hd := hfin.hdone c hc x hzone.1 hzone.2
    exact hne _ hd.2.2.1 hd.2.2.2.1 (perm_indexOf_getD hp.hperm x hx)

/-- An S pass run on an array that meets `SPass` succeeds and returns `sao`. -/
theorem induceSortR_spec {text : Text} {sigma : Nat} {sao a1 : List Nat}
    (hp : SPass text sigma sao a1) (sizes : List Nat) (hsl : sizes.length = sigma)
    (hsz : ∀ c, sizes.getD c 0 = sz text.ba c) :
    induceSortR text (types text.ba) sizes a1 = .ok sao := by
  obtain ⟨hil, hiv⟩ := bucketIters_spec text.ba sizes hp.hn64 hsz
  have hinit : SInv text sigma sao a1 (text.ba.length + 1) (BuildBucketTailIterators sizes) a1 := by
    unfold BuildBucketTailIterators
    refine ⟨hp.hlen, by rw [hil, hsl], ?_, ?_, ?_, ?_, ?_, ?_⟩
    · intro c hc
      exact (hiv c (by omega)).1
    · intro c hc
      rw [(hiv c (by omega)).2]
    · intro c hc
      rw [(hiv c (by omega)).2]
      omega
    · intro c hc x h1 h2
      rw [(hiv c (by omega)).2] at h1
      omega
    · intro x _ _
      rfl
    · intro j hj hjS
      have hz := hp.hzone j hj hjS
      rw [(hiv _ (by rw [hsl]; exact hp.hsym j hj)).2]
      have hle := (perm_indexOf hp.hperm (j + 1) (by omega)).1
      constructor
      · intro h
        omega
      · intro h
        omega
  obtain ⟨a2, iters2, hrun, hfin⟩ := induceRLoop_spec hp (text.ba.length + 1)
    (BuildBucketTailIterators sizes) a1 (by omega) hinit
  have he : a2 = sao := by
    apply list_ext_getD a2 sao (text.ba.length + 1) hfin.hlen (perm_length hp.hperm)
    intro x hx
    exact hfin.cell_value hp x (by omega) (by omega)
  unfold induceSortR
  rw [hp.hlen, hrun, he]

/-! ## Orders induced by sort keys -/

theorem kltL_asymm (a b : List Nat) (p q : Nat) (h : kltL a b p q) : ¬ kltL b a q p := by
  intro h2
  rcases h with h | ⟨h, hlt⟩
  · rcases h2 with h2 | ⟨h2, _⟩
    · rw [lexLt_asymm a b h] at h2
      exact absurd h2 (by decide)
    · rw [h2, lexLt_irrefl] at h
      exact absurd h (by decide)
  · rcases h2 with h2 | ⟨_, hlt2⟩
    · rw [h, lexLt_irrefl] at h2
      exact absurd h2 (by decide)
    · omega

theorem kltL_trans (a b c : List Nat) (p q r : Nat) (h1 : kltL a b p q) (h2 : kltL b c q r) :
    kltL a c p r := by
  rcases h1 with h1 | ⟨h1, hlt1⟩
  · rcases h2 with h2 | ⟨h2, _⟩
    · exact Or.inl (lexLt_trans a b c h1 h2)
    · rw [← h2]
      exact Or.inl h1
  · rcases h2 with h2 | ⟨h2, hlt2⟩
    · rw [h1]
      exact Or.inl h2
    · exact Or.inr ⟨h1.trans h2, by omega⟩

theorem kltL_total (a b : List Nat) (p q : Nat) (h : p ≠ q) : kltL a b p q ∨ kltL b a q p := by
  rcases lexLt_total a b with h1 | h1 | h1
  · exact Or.inl (Or.inl h1)
  · rcases Nat.lt_or_gt_of_ne h with h2 | h2
    · exact Or.inr (Or.inr ⟨h1.symm, h2⟩)
    · exact Or.inl (Or.inr ⟨h1, h2⟩)
  · exact Or.inr (Or.inl h1)

theorem kltL_cons (c : Nat) (a b : List Nat) (p q : Nat) :
    kltL (c :: a) (c :: b) p q ↔ kltL a b p q := by
  unfold kltL
  rw [lexLt]
  simp

theorem kltL_head_le (c d : Nat) (a b : List Nat) (p q : Nat) (h : kltL (c :: a) (d :: b) p q) :
    c ≤ d := by
  unfold kltL at h
  rw [lexLt] at h
  rcases h with h | ⟨h, _⟩
  · simp only [Bool.or_eq_true, decide_eq_true_eq, Bool.and_eq_true, beq_iff_eq] at h
    omega
  · injection h with h1 _
    omega

theorem kltL_of_head_lt (c d : Nat) (a b : List Nat) (p q : Nat) (h : c < d) :
    kltL (c :: a) (d :: b) p q := by
  unfold kltL
  rw [lexLt]
  left
  simp [h]

theorem kltL_shift (a b : List Nat) (p q : Nat) : kltL a b p q ↔ kltL a b (p + 1) (q + 1) := by
  unfold kltL
  constructor
  · rintro (h | ⟨h, hlt⟩)
    · exact Or.inl h
    · exact Or.inr ⟨h, by omega⟩
  · rintro (h | ⟨h, hlt⟩)
    · exact Or.inl h
    · exact Or.inr ⟨h, by omega⟩

theorem kltL_nil_right (a : List Nat) (p q : Nat) (h : kltL a [] p q) : a = [] ∧ q < p := by
  rcases h with h | h
  · rw [lexLt_nil_right] at h
    exact absurd h (by decide)
  · exact h

theorem klt_asymm (f : Nat → List Nat) (p q : Nat) (h : klt f p q) : ¬ klt f q p :=
  kltL_asymm _ _ _ _ h

theorem klt_trans (f : Nat → List Nat) (p q r : Nat) (h1 : klt f p q) (h2 : klt f q r) :
    klt f p r :=
  kltL_trans _ _ _ _ _ _ h1 h2

theorem klt_total (f : Nat → List Nat) (p q : Nat) (h : p ≠ q) : klt f p q ∨ klt f q p :=
  kltL_total _ _ _ _ h

/-! ## Types of neighbouring positions -/

theorem isLMS_length (T : List Nat) (h : 1 ≤ T.length) : isLMS T T.length = true := by
  unfold isLMS
  rw [isL_last T h, isL_length]
  simp [h]

theorem isLMS_of_L_S (T : List Nat) (j : Nat) (hL : isL T j = true) (hS : isL T (j + 1) = false) :
    isLMS T (j + 1) = true := by
  unfold isLMS
  simp [hL, hS]

theorem isLMS_isS (T : List Nat) (q : Nat) (h : isLMS T q = true) : isL T q = false := by
  unfold isLMS at h
  simp only [Bool.and_eq_true, Bool.not_eq_true'] at h
  exact h.2

theorem isLMS_pred (T : List Nat) (q : Nat) (h : isLMS T q = true) :
    1 ≤ q ∧ isL T (q - 1) = true := by
  unfold isLMS at h
  simp only [Bool.and_eq_true, Bool.not_eq_true', decide_eq_true_eq] at h
  exact ⟨h.1.1, h.1.2⟩

theorem not_isLMS_succ_of_S (T : List Nat) (j : Nat) (hS : isL T j = false) :
    isLMS T (j + 1) = false := by
  unfold isLMS
  simp [hS]

theorem not_isLMS_of_L (T : List Nat) (q : Nat) (hL : isL T q = true) : isLMS T q = false := by
  unfold isLMS
  simp [hL]

theorem isS_succ_lt (T : List Nat) (j : Nat) (hj : j < T.length) (hS : isL T j = false) :
    j + 1 < T.length := by
  by_contra hc
  have e : j = T.length - 1 := by omega
  rw [e, isL_last T (by omega)] at hS
  exact absurd hS (by decide)

theorem isL_symbols (T : List Nat) (j : Nat) (hj : j + 1 < T.length) (hL : isL T j = true) :
    T.getD (j + 1) 0 ≤ T.getD j 0 ∧ (isL T (j + 1) = false → T.getD (j + 1) 0 < T.getD j 0) := by
  rw [isL_step T j hj] at hL
  simp only [Bool.or_eq_true, decide_eq_true_eq, Bool.and_eq_true] at hL
  constructor
  · omega
  · intro hs
    rcases hL with h | ⟨_, h⟩
    · exact h
    · rw [hs] at h
      exact absurd h (by decide)

theorem isS_symbols (T : List Nat) (j : Nat) (hj : j + 1 < T.length) (hS : isL T j = false) :
    T.getD j 0 ≤ T.getD (j + 1) 0 ∧ (isL T (j + 1) = true → T.getD j 0 < T.getD (j + 1) 0) := by
  rw [isL_step T j hj] at hS
  simp only [Bool.or_eq_false_iff, decide_eq_false_iff_not, Bool.and_eq_false_iff] at hS
  constructor
  · omega
  · intro hl
    rcases hS.2 with h | h
    · omega
    · rw [hl] at h
      exact absurd h (by decide)

theorem code_L (T : List Nat) (p : Nat) (h : isL T p = true) : code T p = 2 * T.getD p 0 := by
  unfold code
  rw [if_pos h, Nat.add_zero]

theorem code_S (T : List Nat) (p : Nat) (h : isL T p = false) : code T p = 2 * T.getD p 0 + 1 := by
  unfold code
  rw [if_neg (by rw [h]; decide)]

/-! ## Consequences of the key law -/

theorem lexLt_cons_lt (c d : Nat) (a b : List Nat) (h : c < d) :
    lexLt (c :: a) (d :: b) = true := by
  rw [lexLt]
  simp [h]

theorem lexLt_cons_self (c : Nat) (a b : List Nat) :
    lexLt (c :: a) (c :: b) = lexLt a b := by
  rw [lexLt]
  simp

theorem code_le_symbol (T : List Nat) (p q : Nat) (h : code T q ≤ code T p) :
    T.getD q 0 ≤ T.getD p 0 ∧ (T.getD q 0 = T.getD p 0 → isL T p = true → isL T q = true) := by
  unfold code at h
  cases hp : isL T p <;> cases hq : isL T q <;> rw [hp, hq] at h <;> simp at h ⊢ <;> omega

/-- An L-type offset sorts after the offset that follows it. -/
theorem KeyLaw.L_step {T : List Nat} {f e : Nat → List Nat} (hk : KeyLaw T f e) :
    ∀ (k j : Nat), T.length - j = k → j < T.length → isL T j = true →
      lexLt (if isLMS T (j + 1) = true then e (j + 1) else f (j + 1)) (f j) = true := by
  intro k
  induction k with
  | zero => intro j h1 h2; omega
  | succ k ih =>
    intro j hk1 hj hL
    rw [hk.f1 j hj]
    by_cases hn : j + 1 = T.length
    · rw [hn, isLMS_length T (by omega), if_pos rfl, hk.e0]
      rfl
    · have hj1 : j + 1 < T.length := by omega
      have hsym := isL_symbols T j hj1 hL
      cases hL1 : isL T (j + 1) with
      | true =>
        rw [not_isLMS_of_L T (j + 1) hL1, if_neg (by decide)]
        have ih1 := ih (j + 1) (by omega) hj1 hL1
        rw [hk.f1 (j + 1) hj1] at ih1 ⊢
        by_cases hlt : T.getD (j + 1) 0 < T.getD j 0
        · apply lexLt_cons_lt
          rw [code_L T j hL, code_L T (j + 1) hL1]
          omega
        · have he : code T j = code T (j + 1) := by
            rw [code_L T j hL, code_L T (j + 1) hL1]
            omega
          rw [he, lexLt_cons_self]
          exact ih1
      | false =>
        rw [isLMS_of_L_S T j hL hL1, if_pos rfl]
        obtain ⟨t, ht⟩ := hk.e1 (j + 1) hj1 (isLMS_of_L_S T j hL hL1)
        rw [ht]
        apply lexLt_cons_lt
        rw [code_L T j hL, code_S T (j + 1) hL1]
        have := hsym.2 hL1
        omega

/-- An S-type offset sorts before the offset that follows it. -/
theorem KeyLaw.S_step {T : List Nat} {f e : Nat → List Nat} (hk : KeyLaw T f e) :
    ∀ (k j : Nat), T.length - j = k → j < T.length → isL T j = false →
      lexLt (f j) (f (j + 1)) = true := by
  intro k
  induction k with
  | zero => intro j h1 h2; omega
  | succ k ih =>
    intro j hk1 hj hS
    have hj1 := isS_succ_lt T j hj hS
    have hsym := isS_symbols T j hj1 hS
    rw [hk.f1 j hj, not_isLMS_succ_of_S T j hS, if_neg (by decide)]
    cases hL1 : isL T (j + 1) with
    | true =>
      rw [hk.f1 (j + 1) hj1]
      apply lexLt_cons_lt
      rw [code_S T j hS, code_L T (j + 1) hL1]
      have := hsym.2 hL1
      omega
    | false =>
      have ih1 := ih (j + 1) (by omega) hj1 hL1
      by_cases hlt : T.getD j 0 < T.getD (j + 1) 0
      · rw [hk.f1 (j + 1) hj1]
        apply lexLt_cons_lt
        rw [code_S T j hS, code_S T (j + 1) hL1]
        omega
      · have he : code T j = code T (j + 1) := by
          rw [code_S T j hS, code_S T (j + 1) hL1]
          omega
        have e2 : f (j + 1) = code T j :: f (j + 1 + 1) := by
          rw [hk.f1 (j + 1) hj1, not_isLMS_succ_of_S T (j + 1) hL1, if_neg (by decide), he]
        nth_rewrite 2 [e2]
        rw [lexLt_cons_self]
        exact ih1

theorem KeyLaw.bucketOrder {T : List Nat} {f e : Nat → List Nat} (hk : KeyLaw T f e) :
    BucketOrder T (klt f) := by
  refine ⟨klt_asymm f, ?_, ?_, ?_⟩
  · intro q hq h
    unfold klt at h
    rw [hk.f0] at h
    have := (kltL_nil_right _ _ _ h).2
    omega
  · intro p q hp hq h
    unfold klt at h
    rw [hk.f1 p hp, hk.f1 q hq] at h
    exact (code_le_symbol T p q (kltL_head_le _ _ _ _ _ _ h)).1
  · intro p q hp hq h he hL
    unfold klt at h
    rw [hk.f1 p hp, hk.f1 q hq] at h
    exact (code_le_symbol T p q (kltL_head_le _ _ _ _ _ _ h)).2 he hL

/-! ## The setting of the first pass, from seeds and a key law -/

theorem seedPos_L (T sao : List Nat) (sidx : Nat → Nat) (p : Nat) (h : isL T p = true) :
    seedPos T sao sidx p = sao.indexOf p := by
  unfold seedPos
  rw [if_pos h]

theorem seedPos_S (T sao : List Nat) (sidx : Nat → Nat) (p : Nat) (h : isL T p = false) :
    seedPos T sao sidx p = sidx p := by
  unfold seedPos
  rw [if_neg (by rw [h]; decide)]

theorem hd_pos (T : List Nat) (c : Nat) : 1 ≤ hd T c := by
  unfold hd
  omega

theorem hd_next_le (T : List Nat) (a b : Nat) (h : a < b) : hd T a + sz T a ≤ hd T b := by
  rw [← hd_succ]
  exact hd_mono T (a + 1) b h

theorem zone_idx {T : List Nat} {lt : Nat → Nat → Prop} {sa : List Nat}
    (ho : BucketOrder T lt) (hs : SortedPerm lt T.length sa) (p : Nat) (hp : p < T.length) :
    hd T (T.getD p 0) ≤ sa.indexOf p ∧
    sa.indexOf p < hd T (T.getD p 0) + sz T (T.getD p 0) ∧
    (isL T p = true → sa.indexOf p < hd T (T.getD p 0) + nL T (T.getD p 0)) ∧
    (isL T p = false → hd T (T.getD p 0) + nL T (T.getD p 0) ≤ sa.indexOf p) := by
  obtain ⟨h1, h2⟩ := perm_indexOf hs.1 p (by omega)
  have h := zone_of_pos ho hs (sa.indexOf p) h1 (by rw [h2]; exact hp)
  rw [h2] at h
  exact h

theorem KeyLaw.f_of_L {T : List Nat} {f e : Nat → List Nat} (hk : KeyLaw T f e) (j : Nat)
    (hj : j < T.length) (h : isL T (j + 1) = true) : f j = code T j :: f (j + 1) := by
  rw [hk.f1 j hj, not_isLMS_of_L T (j + 1) h, if_neg (by decide)]

theorem KeyLaw.f_of_LMS {T : List Nat} {f e : Nat → List Nat} (hk : KeyLaw T f e) (j : Nat)
    (hj : j < T.length) (h : isLMS T (j + 1) = true) : f j = code T j :: e (j + 1) := by
  rw [hk.f1 j hj, h, if_pos rfl]

theorem KeyLaw.f_of_S {T : List Nat} {f e : Nat → List Nat} (hk : KeyLaw T f e) (j : Nat)
    (hj : j < T.length) (h : isL T j = false) : f j = code T j :: f (j + 1) := by
  rw [hk.f1 j hj, not_isLMS_succ_of_S T j h, if_neg (by decide)]

theorem klt_iff_index {T : List Nat} {f : Nat → List Nat} {sao : List Nat}
    (hs : SortedPerm (klt f) T.length sao) (p q : Nat) (hp : p ≤ T.length) (hq : q ≤ T.length) :
    klt f p q ↔ sao.indexOf p < sao.indexOf q :=
  hs.indexOf_lt (klt_asymm f) p q hp hq

/-- Rule for two L-type offsets with the same symbol: the one whose
successor the scan meets first is the smaller one. -/
theorem seeds_hq4 {T : List Nat} {f e : Nat → List Nat} {a0 sao : List Nat} {sidx : Nat → Nat}
    (hk : KeyLaw T f e) (hseed : Seeds T a0 sidx e) (hs : SortedPerm (klt f) T.length sao)
    (j j' : Nat) (hj : j < T.length) (hj' : j' < T.length) (hL : isL T j = true)
    (hL' : isL T j' = true) (hc : T.getD j 0 = T.getD j' 0)
    (hlt : sao.indexOf j' < sao.indexOf j) :
    seedPos T sao sidx (j' + 1) < seedPos T sao sidx (j + 1) := by
  have ho := hk.bucketOrder
  have hk1 : klt f j' j := (klt_iff_index hs j' j (by omega) (by omega)).mpr hlt
  have hcode : code T j' = code T j := by rw [code_L T j hL, code_L T j' hL', hc]
  by_cases hn : j + 1 = T.length
  · exfalso
    unfold klt at hk1
    rw [hk.f_of_LMS j hj (by rw [hn]; exact isLMS_length T (by omega)), hn, hk.e0,
      hk.f1 j' hj', hcode, kltL_cons] at hk1
    have := (kltL_nil_right _ _ _ hk1).2
    omega
  have hj1 : j + 1 < T.length := by omega
  by_cases hn' : j' + 1 = T.length
  · rw [hn', seedPos_S T sao sidx _ (isL_length T), hseed.h0]
    cases h1 : isL T (j + 1) with
    | true =>
      rw [seedPos_L T sao sidx _ h1]
      have := (zone_idx ho hs (j + 1) hj1).1
      have := hd_pos T (T.getD (j + 1) 0)
      omega
    | false =>
      rw [seedPos_S T sao sidx _ h1]
      have := (hseed.hzone (j + 1) hj1 (isLMS_of_L_S T j hL h1)).1
      have := hd_pos T (T.getD (j + 1) 0)
      omega
  have hj1' : j' + 1 < T.length := by omega
  unfold klt at hk1
  cases h1 : isL T (j + 1) with
  | true =>
    rw [seedPos_L T sao sidx _ h1]
    have z := zone_idx ho hs (j + 1) hj1
    cases h1' : isL T (j' + 1) with
    | true =>
      rw [seedPos_L T sao sidx _ h1']
      rw [hk.f_of_L j hj h1, hk.f_of_L j' hj' h1', hcode, kltL_cons, kltL_shift] at hk1
      exact (klt_iff_index hs (j' + 1) (j + 1) (by omega) (by omega)).mp hk1
    | false =>
      rw [seedPos_S T sao sidx _ h1']
      have hlms' := isLMS_of_L_S T j' hL' h1'
      obtain ⟨t, ht⟩ := hk.e1 (j' + 1) hj1' hlms'
      rw [hk.f_of_L j hj h1, hk.f_of_LMS j' hj' hlms', hcode, kltL_cons, ht,
        hk.f1 (j + 1) hj1] at hk1
      have hle := kltL_head_le _ _ _ _ _ _ hk1
      rw [code_L T _ h1, code_S T _ h1'] at hle
      have z' := (hseed.hzone (j' + 1) hj1' hlms').2
      have := hd_next_le T (T.getD (j' + 1) 0) (T.getD (j + 1) 0) (by omega)
      omega
  | false =>
    rw [seedPos_S T sao sidx _ h1]
    have hlms := isLMS_of_L_S T j hL h1
    have z := hseed.hzone (j + 1) hj1 hlms
    obtain ⟨t, ht⟩ := hk.e1 (j + 1) hj1 hlms
    cases h1' : isL T (j' + 1) with
    | true =>
      rw [seedPos_L T sao sidx _ h1']
      rw [hk.f_of_LMS j hj hlms, hk.f_of_L j' hj' h1', hcode, kltL_cons, ht,
        hk.f1 (j' + 1) hj1'] at hk1
      have hle := kltL_head_le _ _ _ _ _ _ hk1
      rw [code_L T _ h1', code_S T _ h1] at hle
      have z' := (zone_idx ho hs (j' + 1) hj1').2.2.1 h1'
      rcases Nat.lt_or_ge (T.getD (j' + 1) 0) (T.getD (j + 1) 0) with hab | hab
      · have := hd_next_le T _ _ hab
        have := nL_le_sz T (T.getD (j' + 1) 0)
        omega
      · have e : T.getD (j' + 1) 0 = T.getD (j + 1) 0 := by omega
        rw [e] at z'
        omega
    | false =>
      rw [seedPos_S T sao sidx _ h1']
      have hlms' := isLMS_of_L_S T j' hL' h1'
      have z' := hseed.hzone (j' + 1) hj1' hlms'
      rw [hk.f_of_LMS j hj hlms, hk.f_of_LMS j' hj' hlms', hcode, kltL_cons] at hk1
      have hk2 := hk1
      obtain ⟨t', ht'⟩ := hk.e1 (j' + 1) hj1' hlms'
      rw [ht, ht'] at hk2
      have hle := kltL_head_le _ _ _ _ _ _ hk2
      rw [code_S T _ h1', code_S T _ h1] at hle
      rcases Nat.lt_or_ge (T.getD (j' + 1) 0) (T.getD (j + 1) 0) with hab | hab
      · have := hd_next_le T _ _ hab
        omega
      · have e : T.getD (j' + 1) 0 = T.getD (j + 1) 0 := by omega
        rw [kltL_shift] at hk1
        exact hseed.hord (j' + 1) (j + 1) hj1' hj1 hlms' hlms e hk1

theorem seeds_hq3 {T : List Nat} {f e : Nat → List Nat} {a0 sao : List Nat} {sidx : Nat → Nat}
    (hk : KeyLaw T f e) (hseed : Seeds T a0 sidx e) (hs : SortedPerm (klt f) T.length sao)
    (j : Nat) (hj : j < T.length) (hL : isL T j = true) :
    seedPos T sao sidx (j + 1) < sao.indexOf j := by
  have ho := hk.bucketOrder
  have zj := zone_idx ho hs j hj
  by_cases hn : j + 1 = T.length
  · rw [hn, seedPos_S T sao sidx _ (isL_length T), hseed.h0]
    have := hd_pos T (T.getD j 0)
    omega
  have hj1 : j + 1 < T.length := by omega
  cases h1 : isL T (j + 1) with
  | true =>
    rw [seedPos_L T sao sidx _ h1]
    apply (klt_iff_index hs (j + 1) j (by omega) (by omega)).mp
    have h := hk.L_step _ j rfl hj hL
    rw [not_isLMS_of_L T (j + 1) h1, if_neg (by decide)] at h
    exact Or.inl h
  | false =>
    rw [seedPos_S T sao sidx _ h1]
    have hlms := isLMS_of_L_S T j hL h1
    have z := hseed.hzone (j + 1) hj1 hlms
    have hsym := (isL_symbols T j hj1 hL).2 h1
    have := hd_next_le T _ _ hsym
    omega

/-- Seeds in the S parts of their buckets and a key law give the setting of
an L pass towards the list sorted by the key. -/
theorem seeds_LPass {text : Text} {f e : Nat → List Nat} {a0 sao : List Nat} {sidx : Nat → Nat}
    (hn64 : text.ba.length + 1 < 2 ^ 64)
    (hsym : ∀ i, i < text.ba.length → text.ba.getD i 0 < text.ab)
    (hk : KeyLaw text.ba f e) (hseed : Seeds text.ba a0 sidx e)
    (hs : SortedPerm (klt f) text.ba.length sao) :
    LPass text text.ab sao a0 (seedPos text.ba sao sidx) := by
  have ho := hk.bucketOrder
  refine ⟨hn64, hsym, hs.1, hseed.hlen, ?_, ?_, ?_, ?_, ?_, ?_, ?_⟩
  · intro j hj hL
    have z := zone_idx ho hs j hj
    exact ⟨z.1, z.2.1⟩
  · intro j hj hL x h1 h2
    have z := zone_idx ho hs j hj
    have hle := (perm_indexOf hs.1 j (by omega)).1
    have := zone_conv_L ho hs (text.ba.getD j 0) x (by omega) h1 (by have := z.2.2.1 hL; omega)
    exact ⟨this.1, this.2.2, this.2.1⟩
  · intro j hj hL
    exact seedPos_L _ _ _ _ hL
  · intro j hj hL
    rw [seedPos_L _ _ _ _ hL]
    exact seeds_hq3 hk hseed hs j hj hL
  · intro j j' hj hj' hL hL' hc hlt
    exact seeds_hq4 hk hseed hs j j' hj hj' hL hL' hc hlt
  · intro j hj hL hS
    have hlms := isLMS_of_L_S text.ba j hL hS
    rw [seedPos_S _ _ _ _ hS]
    refine ⟨hseed.hval (j + 1) (by omega) hlms, ?_⟩
    intro j' hj' hL' heq
    have z' := zone_idx ho hs j' hj'
    have zL := z'.2.2.1 hL'
    by_cases hn : j + 1 = text.ba.length
    · rw [hn, hseed.h0] at heq
      have := hd_pos text.ba (text.ba.getD j' 0)
      omega
    · have z := hseed.hzone (j + 1) (by omega) hlms
      by_cases hcc : text.ba.getD (j + 1) 0 = text.ba.getD j' 0
      · rw [hcc] at z
        omega
      · have := nL_le_sz text.ba (text.ba.getD (j + 1) 0)
        exact bucket_disjoint text.ba _ _ (sidx (j + 1)) hcc (by omega) z.2
          (by rw [heq]; exact z'.1) (by rw [heq]; exact z'.2.1)
  · intro x hx
    rcases hseed.hph x hx with h | ⟨h1, h2, h3⟩
    · exact Or.inl h
    · right
      refine ⟨h1, ?_⟩
      rw [seedPos_S _ _ _ _ (isLMS_isS _ _ h2)]
      exact h3

/-- After the L pass the setting of the S pass holds. -/
theorem seeds_SPass {text : Text} {f e : Nat → List Nat} {a0 a1 sao : List Nat} {sidx : Nat → Nat}
    (hn64 : text.ba.length + 1 < 2 ^ 64)
    (hsym : ∀ i, i < text.ba.length → text.ba.getD i 0 < text.ab)
    (hn : 1 ≤ text.ba.length)
    (hk : KeyLaw text.ba f e) (hseed : Seeds text.ba a0 sidx e)
    (hs : SortedPerm (klt f) text.ba.length sao)
    (hlen : a1.length = text.ba.length + 1)
    (hL : ∀ j, j < text.ba.length → isL text.ba j = true → a1.getD (sao.indexOf j) 0 = j)
    (hrest : ∀ x, x ≤ text.ba.length →
        (∀ j, j < text.ba.length → isL text.ba j = true → sao.indexOf j ≠ x) →
        a1.getD x 0 = a0.getD x 0) :
    SPass text text.ab sao a1 := by
  have ho := hk.bucketOrder
  refine ⟨hn64, hsym, hs.1, hlen, ?_, ?_, ?_, ?_, ?_⟩
  · intro j hj hS
    have z := zone_idx ho hs j hj
    exact ⟨z.1, z.2.1⟩
  · intro j hj hS x h1 h2
    have z := zone_idx ho hs j hj
    have := hd_add_sz_le text.ba (text.ba.getD j 0)
    have := zone_conv_S ho hs (text.ba.getD j 0) x (by omega) (by have := z.2.2.2 hS; omega) h2
    exact ⟨this.1, this.2.2, this.2.1⟩
  · intro j hj hS
    apply (klt_iff_index hs j (j + 1) (by omega) (by omega)).mp
    exact Or.inl (hk.S_step _ j rfl hj hS)
  · intro j j' hj hj' hS hS' hc hlt
    have h := (klt_iff_index hs j j' (by omega) (by omega)).mpr hlt
    apply (klt_iff_index hs (j + 1) (j' + 1) (by omega) (by omega)).mp
    unfold klt at h ⊢
    have hcode : code text.ba j = code text.ba j' := by
      rw [code_S _ j hS, code_S _ j' hS', hc]
    rw [hk.f_of_S j hj hS, hk.f_of_S j' hj' hS', hcode, kltL_cons, kltL_shift] at h
    exact h
  · intro x hx hcase
    have hidx := perm_indexOf_getD hs.1 x hx
    rcases hcase with hcase | hcase
    · have h0 := zone_head ho hs
      have hx0 : x = 0 := perm_getD_inj hs.1 x 0 hx (by omega) (by rw [hcase, h0])
      subst hx0
      rw [hrest 0 (by omega), hcase]
      · have := hseed.hval text.ba.length (by omega) (isLMS_length text.ba hn)
        rw [hseed.h0] at this
        exact this
      · intro j hj hjL heq
        have := (zone_idx ho hs j hj).1
        have := hd_pos text.ba (text.ba.getD j 0)
        omega
    · have hle := perm_getD_le hs.1 x hx
      have hlt : sao.getD x 0 < text.ba.length := by
        by_contra hc
        have e : sao.getD x 0 = text.ba.length := by omega
        rw [e, isL_length] at hcase
        exact absurd hcase (by decide)
      have := hL _ hlt hcase
      rw [hidx] at this
      exact this

/-- Both induction passes: from seeds that follow the key `e`, the L pass
and then the S pass return the list of all offsets sorted by the key `f`. -/
theorem passes_spec {text : Text} {f e : Nat → List Nat} {a0 sao : List Nat} {sidx : Nat → Nat}
    (hn64 : text.ba.length + 1 < 2 ^ 64)
    (hsym : ∀ i, i < text.ba.length → text.ba.getD i 0 < text.ab)
    (hn : 1 ≤ text.ba.length)
    (hk : KeyLaw text.ba f e) (hseed : Seeds text.ba a0 sidx e)
    (hs : SortedPerm (klt f) text.ba.length sao)
    (sizes : List Nat) (hsl : sizes.length = text.ab)
    (hsz : ∀ c, sizes.getD c 0 = sz text.ba c) :
    ∃ a1, induceSortL text (types text.ba) sizes a0 = .ok a1 ∧
      induceSortR text (types text.ba) sizes a1 = .ok sao := by
  have hLP := seeds_LPass hn64 hsym hk hseed hs
  obtain ⟨a1, hrun, hlen, hL, hrest⟩ := induceSortL_spec hLP sizes hsl hsz
  have hSP := seeds_SPass hn64 hsym hn hk hseed hs hlen hL hrest
  exact ⟨a1, hrun, induceSortR_spec hSP sizes hsl hsz⟩

/-! ## Sorted lists exist -/

theorem exists_sortedPerm (f : Nat → List Nat) (n : Nat) : ∃ sao, SortedPerm (klt f) n sao := by
  classical
  let r : Nat → Nat → Prop := fun p q => ¬ klt f q p
  haveI : IsTotal Nat r := ⟨fun p q => by
    by_cases h : klt f q p
    · exact Or.inr (klt_asymm f q p h)
    · exact Or.inl h⟩
  haveI : IsTrans Nat r := ⟨fun p q s h1 h2 h3 => by
    by_cases e1 : p = q
    · subst e1
      exact h2 h3
    · by_cases e2 : q = s
      · subst e2
        exact h1 h3
      · rcases klt_total f p q e1 with h | h
        · rcases klt_total f q s e2 with h' | h'
          · exact klt_asymm f _ _ (klt_trans f _ _ _ h h') h3
          · exact h2 h'
        · exact h1 h⟩
  refine ⟨(List.range (n + 1)).insertionSort r, List.perm_insertionSort r _, ?_⟩
  intro i j hij hj
  have hperm := List.perm_insertionSort r (List.range (n + 1))
  have hsorted := List.sorted_insertionSort r (List.range (n + 1))
  have hlen := perm_length hperm
  have hil : i < ((List.range (n + 1)).insertionSort r).length := by omega
  have hjl : j < ((List.range (n + 1)).insertionSort r).length := by omega
  have hrel := List.pairwise_iff_getElem.mp hsorted i j hil hjl hij
  rw [List.getD_eq_getElem _ 0 hil, List.getD_eq_getElem _ 0 hjl]
  have hne : ((List.range (n + 1)).insertionSort r)[i] ≠ ((List.range (n + 1)).insertionSort r)[j] := by
    intro he
    have := perm_getD_inj hperm i j (by omega) hj (by
      rw [List.getD_eq_getElem _ 0 hil, List.getD_eq_getElem _ 0 hjl]; exact he)
    omega
  rcases klt_total f _ _ hne with h | h
  · exact h
  · exact absurd h hrel

/-- Two lists sorted by the same asymmetric order are equal. -/
theorem SortedPerm.unique {lt : Nat → Nat → Prop} {n : Nat} {s1 s2 : List Nat}
    (hasymm : ∀ p q, lt p q → ¬ lt q p) (h1 : SortedPerm lt n s1) (h2 : SortedPerm lt n s2) :
    s1 = s2 := by
  apply list_ext_getD s1 s2 (n + 1) (perm_length h1.1) (perm_length h2.1)
  intro x hx
  have hx' : x ≤ n := by omega
  -- the index in `s2` of the entry `s1[x]`
  have key : ∀ (a b : List Nat), SortedPerm lt n a → SortedPerm lt n b → ∀ x, x ≤ n →
      b.indexOf (a.getD x 0) ≤ x := by
    intro a b ha hb x hx
    by_contra hc
    have hgt : x < b.indexOf (a.getD x 0) := by omega
    have hple := perm_getD_le ha.1 x hx
    obtain ⟨hb1, hb2⟩ := perm_indexOf hb.1 (a.getD x 0) hple
    -- the entries of `b` at indices `≤ x` come before `a[x]`, so sit left of `x` in `a`
    have hinj : ∀ y, y ≤ x → a.indexOf (b.getD y 0) < x := by
      intro y hy
      have hlt := hb.2 y (b.indexOf (a.getD x 0)) (by omega) hb1
      rw [hb2] at hlt
      have hyle := perm_getD_le hb.1 y (by omega)
      have := (ha.indexOf_lt hasymm (b.getD y 0) (a.getD x 0) hyle hple).mp hlt
      rw [perm_indexOf_getD ha.1 x hx] at this
      exact this
    -- pigeonhole: `x + 1` indices map injectively below `x`
    have hmap : ∀ y ∈ Finset.range (x + 1), a.indexOf (b.getD y 0) ∈ Finset.range x := by
      intro y hy
      rw [Finset.mem_range] at hy ⊢
      exact hinj y (by omega)
    obtain ⟨y1, hy1, y2, hy2, hne, heq⟩ := Finset.exists_ne_map_eq_of_card_lt_of_maps_to
      (by simp) hmap
    rw [Finset.mem_range] at hy1 hy2
    have e1 := (perm_indexOf ha.1 (b.getD y1 0) (perm_getD_le hb.1 y1 (by omega))).2
    have e2 := (perm_indexOf ha.1 (b.getD y2 0) (perm_getD_le hb.1 y2 (by omega))).2
    rw [heq] at e1
    have : b.getD y1 0 = b.getD y2 0 := e1.symm.trans e2
    exact hne (perm_getD_inj hb.1 y1 y2 (by omega) (by omega) this)
  have k1 := key s1 s2 h1 h2 x hx'
  have hple := perm_getD_le h1.1 x hx'
  obtain ⟨hb1, hb2⟩ := perm_indexOf h2.1 (s1.getD x 0) hple
  rcases Nat.lt_or_ge (s2.indexOf (s1.getD x 0)) x with hlt | hge
  · exfalso
    have k2 := key s2 s1 h2 h1 (s2.indexOf (s1.getD x 0)) hb1
    rw [hb2, perm_indexOf_getD h1.1 x hx'] at k2
    omega
  · have : s2.indexOf (s1.getD x 0) = x := by omega
    rw [this] at hb2
    exact hb2.symm

/-! ## The order of the suffixes as a key order -/

theorem csuf_length (T : List Nat) : csuf T T.length = [] := by
  unfold csuf
  rw [Nat.sub_self]
  rfl

theorem csuf_cons (T : List Nat) (j : Nat) (hj : j < T.length) :
    csuf T j = code T j :: csuf T (j + 1) := by
  unfold csuf
  have e : T.length - j = (T.length - (j + 1)) + 1 := by omega
  rw [e, List.range'_succ, List.map_cons]

theorem csuf_length_eq (T : List Nat) (p : Nat) : (csuf T p).length = T.length - p := by
  unfold csuf
  rw [List.length_map, List.length_range']

theorem csuf_keyLaw (T : List Nat) : KeyLaw T (csuf T) (csuf T) := by
  refine ⟨csuf_length T, ?_, csuf_length T, ?_⟩
  · intro j hj
    rw [csuf_cons T j hj, ite_self]
  · intro q hq _
    exact ⟨_, csuf_cons T q hq⟩

theorem lexLt_csuf (T : List Nat) : ∀ (k p q : Nat), T.length - p = k → p ≤ T.length →
    q ≤ T.length → lexLt (csuf T p) (csuf T q) = lexLt (T.drop p) (T.drop q) := by
  intro k
  induction k with
  | zero =>
    intro p q hk hp hq
    have e : p = T.length := by omega
    rw [e, csuf_length, List.drop_length]
    by_cases hqn : q = T.length
    · rw [hqn, csuf_length, List.drop_length]
    · rw [csuf_cons T q (by omega), drop_eq_getD_cons T q (by omega)]
      rfl
  | succ k ih =>
    intro p q hk hp hq
    have hp' : p < T.length := by omega
    rw [csuf_cons T p hp', drop_eq_getD_cons T p hp']
    by_cases hqn : q = T.length
    · rw [hqn, csuf_length, List.drop_length]
      rfl
    · have hq' : q < T.length := by omega
      rw [csuf_cons T q hq', drop_eq_getD_cons T q hq']
      rcases Nat.lt_trichotomy (T.getD p 0) (T.getD q 0) with hlt | heq | hgt
      · have hc : code T p < code T q := by
          unfold code
          split <;> split <;> omega
        rw [lexLt_cons_lt _ _ _ _ hc, lexLt_cons_lt _ _ _ _ hlt]
      · cases hLp : isL T p <;> cases hLq : isL T q
        · have hc : code T p = code T q := by rw [code_S T p hLp, code_S T q hLq, heq]
          rw [hc, heq, lexLt_cons_self, lexLt_cons_self]
          exact ih (p + 1) (q + 1) (by omega) (by omega) (by omega)
        · have hc : code T q < code T p := by rw [code_S T p hLp, code_L T q hLq, heq]; omega
          have h1 := lexLt_asymm _ _ (lexLt_cons_lt _ _ (csuf T (q + 1)) (csuf T (p + 1)) hc)
          have h2 := lexLt_L_S T q p hq' hp' heq.symm hLq hLp
          rw [drop_eq_getD_cons T q hq', drop_eq_getD_cons T p hp'] at h2
          rw [h1, lexLt_asymm _ _ h2]
        · have hc : code T p < code T q := by rw [code_L T p hLp, code_S T q hLq, heq]; omega
          have h2 := lexLt_L_S T p q hp' hq' heq hLp hLq
          rw [drop_eq_getD_cons T p hp', drop_eq_getD_cons T q hq'] at h2
          rw [lexLt_cons_lt _ _ _ _ hc, h2]
        · have hc : code T p = code T q := by rw [code_L T p hLp, code_L T q hLq, heq]
          rw [hc, heq, lexLt_cons_self, lexLt_cons_self]
          exact ih (p + 1) (q + 1) (by omega) (by omega) (by omega)
      · have hc : code T q < code T p := by
          unfold code
          split <;> split <;> omega
        rw [lexLt_asymm _ _ (lexLt_cons_lt _ _ (csuf T (q + 1)) (csuf T (p + 1)) hc),
          lexLt_asymm _ _ (lexLt_cons_lt _ _ (T.drop (q + 1)) (T.drop (p + 1)) hgt)]

theorem klt_csuf_iff (T : List Nat) (p q : Nat) (hp : p ≤ T.length) (hq : q ≤ T.length) :
    klt (csuf T) p q ↔ lexLt (T.drop p) (T.drop q) = true := by
  unfold klt kltL
  rw [lexLt_csuf T _ p q rfl hp hq]
  constructor
  · rintro (h | ⟨h, hlt⟩)
    · exact h
    · exfalso
      have := congrArg List.length h
      rw [csuf_length_eq, csuf_length_eq] at this
      omega
  · intro h
    exact Or.inl h

theorem IsSuffixArray_iff (T sa : List Nat) :
    IsSuffixArray T sa ↔ SortedPerm (klt (csuf T)) T.length sa := by
  constructor
  · intro h
    refine ⟨h.1, ?_⟩
    intro i j hij hj
    rw [klt_csuf_iff T _ _ (perm_getD_le h.1 i (by omega)) (perm_getD_le h.1 j hj)]
    exact h.sorted j i hij hj
  · intro h
    refine ⟨h.1, ?_⟩
    intro i hi hin
    have := h.2 (i - 1) i (by omega) hin
    rw [klt_csuf_iff T _ _ (perm_getD_le h.1 (i - 1) (by omega)) (perm_getD_le h.1 i hin)] at this
    exact this

/-! ## The key of the first round -/

theorem lmsKey_length (T : List Nat) : lmsKey T T.length = [] := by
  unfold lmsKey
  rw [Nat.sub_self]
  rfl

theorem lmsKey_cons (T : List Nat) (j : Nat) (hj : j < T.length) :
    lmsKey T j = code T j ::
      (if isLMS T (j + 1) = true then seedKey T (j + 1) else lmsKey T (j + 1)) := by
  unfold lmsKey
  have e : T.length - j = (T.length - (j + 1)) + 1 := by omega
  rw [e, lmsKeyAux]
  have e1 : T.length - (T.length - (j + 1) + 1) = j := by omega
  have e2 : T.length - (T.length - (j + 1)) = j + 1 := by omega
  rw [e1, e2]

theorem seedKey_length (T : List Nat) : seedKey T T.length = [] := by
  unfold seedKey
  rw [if_neg (by omega)]

theorem seedKey_of_lt (T : List Nat) (q : Nat) (h : q < T.length) : seedKey T q = [code T q] := by
  unfold seedKey
  rw [if_pos h]

theorem lmsKey_keyLaw (T : List Nat) : KeyLaw T (lmsKey T) (seedKey T) := by
  refine ⟨lmsKey_length T, lmsKey_cons T, seedKey_length T, ?_⟩
  intro q hq _
  exact ⟨[], seedKey_of_lt T q hq⟩

theorem code_lt_cases (T : List Nat) (p q : Nat) (h : code T p < code T q) :
    T.getD p 0 < T.getD q 0 ∨
      (T.getD p 0 = T.getD q 0 ∧ isL T p = true ∧ isL T q = false) := by
  unfold code at h
  cases hp : isL T p <;> cases hq : isL T q <;> rw [hp, hq] at h <;> simp at h ⊢ <;> omega

theorem code_eq_cases (T : List Nat) (p q : Nat) (h : code T p = code T q) :
    T.getD p 0 = T.getD q 0 ∧ isL T p = isL T q := by
  unfold code at h
  cases hp : isL T p <;> cases hq : isL T q <;> rw [hp, hq] at h <;> simp at h ⊢ <;> omega

theorem lexLt_cons_cases (c d : Nat) (a b : List Nat) (h : lexLt (c :: a) (d :: b) = true) :
    c < d ∨ (c = d ∧ lexLt a b = true) := by
  rw [lexLt] at h
  simp only [Bool.or_eq_true, decide_eq_true_eq, Bool.and_eq_true, beq_iff_eq] at h
  exact h

theorem lexLt_drop_of_code_lt (T : List Nat) (p q : Nat) (hp : p < T.length) (hq : q < T.length)
    (h : code T p < code T q) : lexLt (T.drop p) (T.drop q) = true := by
  rcases code_lt_cases T p q h with h1 | ⟨h1, h2, h3⟩
  · rw [drop_eq_getD_cons T p hp, drop_eq_getD_cons T q hq]
    exact lexLt_cons_lt _ _ _ _ h1
  · exact lexLt_L_S T p q hp hq h1 h2 h3

theorem lexLt_nil_drop (T : List Nat) (q : Nat) (hq : q < T.length) :
    lexLt (T.drop T.length) (T.drop q) = true := by
  rw [List.drop_length, drop_eq_getD_cons T q hq]
  rfl

/-- A strictly smaller key means a smaller suffix. -/
theorem lexLt_of_lmsKey (T : List Nat) : ∀ (k p q : Nat), T.length - p = k → p ≤ T.length →
    q ≤ T.length → lexLt (lmsKey T p) (lmsKey T q) = true →
    lexLt (T.drop p) (T.drop q) = true := by
  intro k
  induction k with
  | zero =>
    intro p q hk hp hq h
    have e : p = T.length := by omega
    rw [e] at h ⊢
    by_cases hqn : q = T.length
    · rw [hqn, lexLt_irrefl] at h
      exact absurd h (by decide)
    · exact lexLt_nil_drop T q (by omega)
  | succ k ih =>
    intro p q hk hp hq h
    have hp' : p < T.length := by omega
    by_cases hqn : q = T.length
    · rw [hqn, lmsKey_length, lexLt_nil_right] at h
      exact absurd h (by decide)
    have hq' : q < T.length := by omega
    rw [lmsKey_cons T p hp', lmsKey_cons T q hq'] at h
    rcases lexLt_cons_cases _ _ _ _ h with hlt | ⟨hce, hrest⟩
    · exact lexLt_drop_of_code_lt T p q hp' hq' hlt
    obtain ⟨hsym, htyp⟩ := code_eq_cases T p q hce
    rw [lexLt_drop_succ hp' hq' hsym]
    cases hmp : isLMS T (p + 1) <;> cases hmq : isLMS T (q + 1) <;> rw [hmp, hmq] at hrest
    · simp only [Bool.false_eq_true, if_false] at hrest
      exact ih (p + 1) (q + 1) (by omega) (by omega) (by omega) hrest
    · simp only [Bool.false_eq_true, if_false, if_true] at hrest
      have hp1 : p + 1 < T.length := by
        by_contra hc
        have e : p + 1 = T.length := by omega
        rw [e, isLMS_length T (by omega)] at hmp
        exact absurd hmp (by decide)
      by_cases hq1 : q + 1 = T.length
      · rw [hq1, seedKey_length, lexLt_nil_right] at hrest
        exact absurd hrest (by decide)
      · have hq1' : q + 1 < T.length := by omega
        rw [seedKey_of_lt T _ hq1', lmsKey_cons T _ hp1] at hrest
        rcases lexLt_cons_cases _ _ _ _ hrest with hlt | ⟨_, hr⟩
        · exact lexLt_drop_of_code_lt T _ _ hp1 hq1' hlt
        · rw [lexLt_nil_right] at hr
          exact absurd hr (by decide)
    · simp only [Bool.false_eq_true, if_false, if_true] at hrest
      have hq1 : q + 1 < T.length := by
        by_contra hc
        have e : q + 1 = T.length := by omega
        rw [e, isLMS_length T (by omega)] at hmq
        exact absurd hmq (by decide)
      by_cases hp1 : p + 1 = T.length
      · rw [hp1]
        exact lexLt_nil_drop T _ hq1
      · have hp1' : p + 1 < T.length := by omega
        rw [seedKey_of_lt T _ hp1', lmsKey_cons T _ hq1] at hrest
        rcases lexLt_cons_cases _ _ _ _ hrest with hlt | ⟨hce1, _⟩
        · exact lexLt_drop_of_code_lt T _ _ hp1' hq1 hlt
        · exfalso
          obtain ⟨_, htyp1⟩ := code_eq_cases T _ _ hce1
          have hpL := (isLMS_pred T (p + 1) hmp).2
          have hpS := isLMS_isS T (p + 1) hmp
          rw [Nat.add_sub_cancel] at hpL
          rw [hpL] at htyp
          rw [hpS] at htyp1
          have := isLMS_of_L_S T q htyp.symm htyp1.symm
          rw [this] at hmq
          exact absurd hmq (by decide)
    · simp only [if_true] at hrest
      by_cases hp1 : p + 1 = T.length
      · by_cases hq1 : q + 1 = T.length
        · rw [hp1, hq1, lexLt_irrefl] at hrest
          exact absurd hrest (by decide)
        · rw [hp1]
          exact lexLt_nil_drop T _ (by omega)
      · by_cases hq1 : q + 1 = T.length
        · rw [hq1, seedKey_length, lexLt_nil_right] at hrest
          exact absurd hrest (by decide)
        · have hp1' : p + 1 < T.length := by omega
          have hq1' : q + 1 < T.length := by omega
          rw [seedKey_of_lt T _ hp1', seedKey_of_lt T _ hq1'] at hrest
          rcases lexLt_cons_cases _ _ _ _ hrest with hlt | ⟨_, hr⟩
          · exact lexLt_drop_of_code_lt T _ _ hp1' hq1' hlt
          · rw [lexLt_irrefl] at hr
            exact absurd hr (by decide)

/-! ## Seeding the LMS offsets at the tails of the buckets -/

theorem nodup_length_le_countP (P : Nat → Bool) (n : Nat) (l : List Nat) (hnd : l.Nodup)
    (h : ∀ p, p ∈ l → p < n ∧ P p = true) : l.length ≤ (List.range n).countP P := by
  rw [List.countP_eq_length_filter]
  apply List.Subperm.length_le
  apply List.Nodup.subperm hnd
  intro p hp
  rw [List.mem_filter, List.mem_range]
  exact h p hp

theorem nS_add_nL (T : List Nat) (c : Nat) :
    (List.range T.length).countP (fun q => decide (T.getD q 0 = c) && !isL T q) + nL T c
      = sz T c := by
  unfold nL sz
  rw [← countP_getD_range (fun x => decide (x = c)) T, Nat.add_comm,
    ← countP_or_disjoint (fun q => decide (T.getD q 0 = c) && isL T q)
      (fun q => decide (T.getD q 0 = c) && !isL T q)]
  · apply List.countP_congr
    intro q _
    cases isL T q <;> simp
  · intro q _ h
    simp only [Bool.and_eq_true, decide_eq_true_eq] at h
    simp [h.2]

theorem lms_count (T : List Nat) (c : Nat) (l : List Nat) (hnd : l.Nodup)
    (h : ∀ p, p ∈ l → p < T.length ∧ isLMS T p = true ∧ T.getD p 0 = c) :
    l.length + nL T c ≤ sz T c := by
  rw [← nS_add_nL T c]
  apply Nat.add_le_add_right
  apply nodup_length_le_countP _ _ l hnd
  intro p hp
  obtain ⟨h1, h2, h3⟩ := h p hp
  refine ⟨h1, ?_⟩
  rw [h3, isLMS_isS T p h2]
  simp

theorem getD_mem_of_lt (l : List Nat) (k : Nat) (h : k < l.length) : l.getD k 0 ∈ l := by
  rw [List.getD_eq_getElem l 0 h]
  exact List.getElem_mem h

theorem getD_indexOf_of_mem (l : List Nat) (p : Nat) (h : p ∈ l) :
    l.indexOf p < l.length ∧ l.getD (l.indexOf p) 0 = p := by
  have hlt : l.indexOf p < l.length := List.indexOf_lt_length.mpr h
  refine ⟨hlt, ?_⟩
  rw [List.getD_eq_getElem l 0 hlt]
  exact List.getElem_indexOf hlt

theorem nodup_indexOf_getD (l : List Nat) (hnd : l.Nodup) (k : Nat) (h : k < l.length) :
    l.indexOf (l.getD k 0) = k := by
  rw [List.getD_eq_getElem l 0 h]
  exact List.indexOf_getElem hnd k h

/-- One step of seeding: the bucket of the new LMS offset has a free cell in
its S part, and writing the offset there keeps the invariant. -/
theorem TailInv.step {T : List Nat} {sigma : Nat} {e : Nat → List Nat} {done : List Nat}
    {tl : Nat → Nat} {a : List Nat} (hinv : TailInv T sigma e done tl a)
    (p : Nat) (hp : p < T.length) (hlms : isLMS T p = true) (hnew : p ∉ done)
    (hord : ∀ q, q ∈ done → T.getD p 0 = T.getD q 0 → klt e p q)
    (hc : T.getD p 0 < sigma) (tl1 : Nat → Nat)
    (h1 : tl1 (T.getD p 0) + 1 = tl (T.getD p 0))
    (h2 : ∀ c, c ≠ T.getD p 0 → tl1 c = tl c) :
    hd T (T.getD p 0) + nL T (T.getD p 0) ≤ tl (T.getD p 0) ∧ tl (T.getD p 0) ≤ T.length ∧
    TailInv T sigma e (p :: done) tl1 (a.set (tl (T.getD p 0)) p) := by
  have hnd1 : (p :: done).Nodup := List.nodup_cons.mpr ⟨hnew, hinv.hnd⟩
  have hcount := lms_count T (T.getD p 0)
    ((p :: done).filter (fun q => decide (T.getD q 0 = T.getD p 0))) (hnd1.filter _) (by
      intro q hq
      rw [List.mem_filter, decide_eq_true_eq] at hq
      rcases List.mem_cons.mp hq.1 with h | h
      · rw [h]
        exact ⟨hp, hlms, rfl⟩
      · exact ⟨(hinv.hlms q h).1, (hinv.hlms q h).2, hq.2⟩)
  have hfil : (p :: done).filter (fun q => decide (T.getD q 0 = T.getD p 0))
      = p :: done.filter (fun q => decide (T.getD q 0 = T.getD p 0)) := by
    rw [List.filter_cons, if_pos (by simp)]
  rw [hfil, List.length_cons] at hcount
  have htl := hinv.htl _ hc
  have hle := hd_add_sz_le T (T.getD p 0)
  have hpos := hd_pos T (T.getD p 0)
  have hb1 : hd T (T.getD p 0) + nL T (T.getD p 0) ≤ tl (T.getD p 0) := by omega
  have hb2 : tl (T.getD p 0) ≤ T.length := by omega
  refine ⟨hb1, hb2, ?_⟩
  refine ⟨by rw [List.length_set]; exact hinv.hlen, ?_, hnd1, ?_, ?_, ?_, ?_, ?_⟩
  · rw [getD_set_of_ne _ _ _ _ (by omega)]
    exact hinv.h0
  · intro q hq
    rcases List.mem_cons.mp hq with h | h
    · rw [h]
      exact ⟨hp, hlms⟩
    · exact hinv.hlms q h
  · exact List.pairwise_cons.mpr ⟨hord, hinv.hsorted⟩
  · intro c hcs
    by_cases hcc : c = T.getD p 0
    · rw [hcc, hfil, List.length_cons]
      omega
    · rw [h2 c hcc, List.filter_cons, if_neg (by rw [decide_eq_true_eq]; exact fun h => hcc h.symm)]
      exact hinv.htl c hcs
  · intro c hcs k hk
    by_cases hcc : c = T.getD p 0
    · rw [hcc] at hk ⊢
      rw [hfil] at hk ⊢
      cases k with
      | zero =>
        rw [List.getD_cons_zero, Nat.add_zero, h1]
        exact getD_set_self _ _ _ (by rw [hinv.hlen]; omega)
      | succ k =>
        rw [List.getD_cons_succ, getD_set_of_ne _ _ _ _ (by omega)]
        have := hinv.hval _ hc k (by simpa using hk)
        rw [← this]
        congr 1
        omega
    · rw [List.filter_cons, if_neg (by rw [decide_eq_true_eq]; exact fun h => hcc h.symm)] at hk ⊢
      rw [h2 c hcc, getD_set_of_ne _ _ _ _ (by
        intro he
        have h3 := hinv.htl c hcs
        exact bucket_disjoint T c (T.getD p 0) (tl (T.getD p 0)) hcc
          (by
            have := lms_count T c (done.filter (fun q => decide (T.getD q 0 = c)))
              (hinv.hnd.filter _) (by
                intro q hq
                rw [List.mem_filter, decide_eq_true_eq] at hq
                exact ⟨(hinv.hlms q hq.1).1, (hinv.hlms q hq.1).2, hq.2⟩)
            omega)
          (by omega) (by omega) (by omega))]
      exact hinv.hval c hcs k hk
  · intro x hx1 hx2 hfree
    by_cases hxe : x = tl (T.getD p 0)
    · exfalso
      exact hfree _ hc ⟨by omega, by omega⟩
    · rw [getD_set_of_ne _ _ _ _ (fun h => hxe h.symm)]
      apply hinv.hph x hx1 hx2
      intro c hcs hz
      by_cases hcc : c = T.getD p 0
      · rw [hcc] at hz
        exact hfree _ hc ⟨by omega, hz.2⟩
      · exact hfree c hcs ⟨by rw [h2 c hcc]; exact hz.1, hz.2⟩

/-- When every LMS offset has been placed, the array is a seed array. -/
theorem TailInv.seeds {T : List Nat} {sigma : Nat} {e : Nat → List Nat} {done : List Nat}
    {tl : Nat → Nat} {a : List Nat} (hinv : TailInv T sigma e done tl a)
    (hn : 1 ≤ T.length) (hsym : ∀ i, i < T.length → T.getD i 0 < sigma)
    (hall : ∀ p, p < T.length → isLMS T p = true → p ∈ done) :
    Seeds T a (seedIdx T done tl) e := by
  have hF : ∀ p, p < T.length → isLMS T p = true →
      p ∈ done.filter (fun q => decide (T.getD q 0 = T.getD p 0)) := by
    intro p hp hl
    rw [List.mem_filter, decide_eq_true_eq]
    exact ⟨hall p hp hl, rfl⟩
  have hidx : ∀ p, p < T.length →
      seedIdx T done tl p = tl (T.getD p 0) + 1 +
        (done.filter (fun q => decide (T.getD q 0 = T.getD p 0))).indexOf p := by
    intro p hp
    unfold seedIdx
    rw [if_neg (by omega)]
  refine ⟨hinv.hlen, ?_, ?_, ?_, ?_, ?_⟩
  · unfold seedIdx
    rw [if_pos rfl]
  · intro p hp hl
    by_cases hpn : p = T.length
    · rw [hpn]
      unfold seedIdx
      rw [if_pos rfl]
      exact hinv.h0
    · have hp' : p < T.length := by omega
      obtain ⟨h1, h2⟩ := getD_indexOf_of_mem _ p (hF p hp' hl)
      rw [hidx p hp', hinv.hval _ (hsym p hp') _ h1, h2]
  · intro p hp hl
    obtain ⟨h1, h2⟩ := getD_indexOf_of_mem _ p (hF p hp hl)
    have htl := hinv.htl _ (hsym p hp)
    have hcount := lms_count T (T.getD p 0)
      (done.filter (fun q => decide (T.getD q 0 = T.getD p 0))) (hinv.hnd.filter _) (by
        intro q hq
        rw [List.mem_filter, decide_eq_true_eq] at hq
        exact ⟨(hinv.hlms q hq.1).1, (hinv.hlms q hq.1).2, hq.2⟩)
    rw [hidx p hp]
    omega
  · intro x hx
    by_cases hx0 : x = 0
    · right
      rw [hx0, hinv.h0]
      refine ⟨Nat.le_refl _, isLMS_length T hn, ?_⟩
      unfold seedIdx
      rw [if_pos rfl]
    · by_cases hz : ∀ c, c < sigma → ¬ (tl c < x ∧ x < hd T c + sz T c)
      · exact Or.inl (hinv.hph x (by omega) hx hz)
      · right
        simp only [not_forall, not_not] at hz
        obtain ⟨c, hc, hz1, hz2⟩ := hz
        have htl := hinv.htl c hc
        have hk : x - (tl c + 1) < (done.filter (fun q => decide (T.getD q 0 = c))).length := by
          omega
        have hv := hinv.hval c hc _ hk
        have e1 : tl c + 1 + (x - (tl c + 1)) = x := by omega
        rw [e1] at hv
        have hm := getD_mem_of_lt _ _ hk
        rw [← hv, List.mem_filter, decide_eq_true_eq] at hm
        obtain ⟨hm1, hm2⟩ := hm
        obtain ⟨hp1, hp2⟩ := hinv.hlms _ hm1
        refine ⟨by omega, hp2, ?_⟩
        rw [hidx _ hp1, hm2]
        rw [hv]
        rw [nodup_indexOf_getD _ (hinv.hnd.filter _) _ hk]
        omega
  · intro p q hp hq hlp hlq hc hlt
    rw [hidx p hp, hidx q hq, ← hc]
    have hmp := hF p hp hlp
    have hmq := hF q hq hlq
    rw [← hc] at hmq
    obtain ⟨hp1, hp2⟩ := getD_indexOf_of_mem _ p hmp
    obtain ⟨hq1, hq2⟩ := getD_indexOf_of_mem _ q hmq
    have hpw : (done.filter (fun r => decide (T.getD r 0 = T.getD p 0))).Pairwise
        (fun r s => T.getD r 0 = T.getD s 0 → klt e r s) :=
      hinv.hsorted.sublist (List.filter_sublist _)
    rcases Nat.lt_trichotomy
      ((done.filter (fun r => decide (T.getD r 0 = T.getD p 0))).indexOf p)
      ((done.filter (fun r => decide (T.getD r 0 = T.getD p 0))).indexOf q) with h | h | h
    · omega
    · exfalso
      rw [h, hq2] at hp2
      rw [hp2] at hlt
      exact klt_asymm e p p hlt hlt
    · exfalso
      have := List.pairwise_iff_getElem.mp hpw _ _ hq1 hp1 h
      rw [← List.getD_eq_getElem _ 0 hq1, ← List.getD_eq_getElem _ 0 hp1, hq2, hp2] at this
      exact klt_asymm e p q hlt (this hc.symm)

/-- The bucket of an LMS offset that has not been placed yet still has a free
cell in its S part. -/
theorem TailInv.room {T : List Nat} {sigma : Nat} {e : Nat → List Nat} {done : List Nat}
    {tl : Nat → Nat} {a : List Nat} (hinv : TailInv T sigma e done tl a)
    (p : Nat) (hp : p < T.length) (hlms : isLMS T p = true) (hnew : p ∉ done)
    (hc : T.getD p 0 < sigma) :
    hd T (T.getD p 0) + nL T (T.getD p 0) ≤ tl (T.getD p 0) ∧ tl (T.getD p 0) ≤ T.length := by
  have hnd1 : (p :: done).Nodup := List.nodup_cons.mpr ⟨hnew, hinv.hnd⟩
  have hcount := lms_count T (T.getD p 0)
    ((p :: done).filter (fun q => decide (T.getD q 0 = T.getD p 0))) (hnd1.filter _) (by
      intro q hq
      rw [List.mem_filter, decide_eq_true_eq] at hq
      rcases List.mem_cons.mp hq.1 with h | h
      · rw [h]
        exact ⟨hp, hlms, rfl⟩
      · exact ⟨(hinv.hlms q h).1, (hinv.hlms q h).2, hq.2⟩)
  have hfil : (p :: done).filter (fun q => decide (T.getD q 0 = T.getD p 0))
      = p :: done.filter (fun q => decide (T.getD q 0 = T.getD p 0)) := by
    rw [List.filter_cons, if_pos (by simp)]
  rw [hfil, List.length_cons] at hcount
  have htl := hinv.htl _ hc
  have hle := hd_add_sz_le T (T.getD p 0)
  have hpos := hd_pos T (T.getD p 0)
  constructor <;> omega

theorem typeIter_next (T : List Nat) (i : Nat) (hi : i < T.length) (last : Bool) :
    (TypeMapIterator.mk (types T) i T.length last (decide (0 < i))).Next =
      (true, TypeMapIterator.mk (types T) (i + 1) T.length
        (if 0 < i then isL T (i - 1) else SType) (decide (0 < i + 1))) := by
  have hlen : i < (types T).length := by rw [types_length]; omega
  have e : decide (0 < i + 1) = true := by simp
  rw [e]
  by_cases h0 : 0 < i
  · have e0 : decide (0 < i) = true := by simp [h0]
    rw [e0, if_pos h0]
    simp [TypeMapIterator.Next, TypeMapIterator.Skip, TypeMapIterator.implSkip,
      TypeMapIterator.implBit, hi, hlen, isL, SType]
  · have e0 : decide (0 < i) = false := by simp [h0]
    rw [e0, if_neg h0]
    simp [TypeMapIterator.Next, TypeMapIterator.Skip, TypeMapIterator.implSkip, hi, hlen]

theorem typeIter_isLMS (T : List Nat) (i : Nat) (p : Bool) :
    (TypeMapIterator.mk (types T) (i + 1) T.length
      (if 0 < i then isL T (i - 1) else SType) p).IsLMS = isLMS T i := by
  unfold TypeMapIterator.IsLMS TypeMapIterator.Type TypeMapIterator.implBit isLMS
  simp only [Nat.add_sub_cancel]
  have e : (types T).getD i false = isL T i := rfl
  rw [e]
  by_cases h0 : 0 < i
  · rw [if_pos h0]
    have : decide (1 ≤ i) = true := by simp; omega
    rw [this]
    cases isL T (i - 1) <;> cases isL T i <;> rfl
  · rw [if_neg h0]
    have : decide (1 ≤ i) = false := by simp; omega
    rw [this]
    cases isL T i <;> rfl

/-- The loop of `guessLMSSort` places every LMS offset and keeps the seeding
invariant. -/
theorem guessLoop_spec (text : Text)
    (hsym : ∀ i, i < text.ba.length → text.ba.getD i 0 < text.ab) :
    ∀ (remaining i : Nat) (last : Bool) (iters : List Iterator) (a done : List Nat),
      i + remaining = text.ba.length →
      iters.length = text.ab →
      (∀ c, c < text.ab → loOf iters c = hd text.ba c) →
      (∀ c, c < text.ab → 1 ≤ hiOf iters c) →
      TailInv text.ba text.ab (seedKey text.ba) done (fun c => hiOf iters c - 1) a →
      (∀ q, q ∈ done ↔ q < i ∧ isLMS text.ba q = true) →
      ∃ a0 done1 tl1,
        guessLoop text remaining i
          (TypeMapIterator.mk (types text.ba) i text.ba.length last (decide (0 < i))) iters a
          = .ok a0 ∧
        TailInv text.ba text.ab (seedKey text.ba) done1 tl1 a0 ∧
        (∀ q, q ∈ done1 ↔ q < text.ba.length ∧ isLMS text.ba q = true) := by
  intro remaining
  induction remaining with
  | zero =>
    intro i last iters a done hi hlen hlo hhi hinv hdone
    refine ⟨a, done, _, rfl, hinv, ?_⟩
    have e : i = text.ba.length := by omega
    rw [← e]
    exact hdone
  | succ r ih =>
    intro i last iters a done hi hlen hlo hhi hinv hdone
    have hin : i < text.ba.length := by omega
    rw [guessLoop, typeIter_next text.ba i hin last]
    simp only []
    rw [typeIter_isLMS]
    cases hl : isLMS text.ba i with
    | false =>
      simp only [Bool.false_eq_true, if_false]
      apply ih (i + 1) _ iters a done (by omega) hlen hlo hhi hinv
      intro q
      rw [hdone q]
      constructor
      · intro h
        exact ⟨by omega, h.2⟩
      · intro h
        refine ⟨?_, h.2⟩
        by_contra hc
        have e : q = i := by omega
        rw [e, hl] at h
        exact absurd h.2 (by decide)
    | true =>
      simp only [if_true]
      have hc := hsym i hin
      have hnew : i ∉ done := by
        intro hm
        have := ((hdone i).mp hm).1
        omega
      have hroom := hinv.room i hin hl hnew hc
      simp only [] at hroom
      have hhi1 := hhi _ hc
      rw [iter_getElem? iters _ (by rw [hlen]; exact hc)]
      simp only []
      have hpos := hd_pos text.ba (text.ba.getD i 0)
      rw [hlo _ hc, if_pos (by omega)]
      have hlen1 : (iters.set (text.ba.getD i 0)
          ⟨hd text.ba (text.ba.getD i 0), hiOf iters (text.ba.getD i 0) - 1⟩).length = text.ab := by
        rw [List.length_set]
        exact hlen
      have hstep := hinv.step i hin hl hnew (by
          intro q hq hcq
          obtain ⟨hq1, hq2⟩ := (hdone q).mp hq
          unfold klt
          rw [seedKey_of_lt _ i hin, seedKey_of_lt _ q (by omega)]
          right
          refine ⟨?_, hq1⟩
          rw [code_S _ i (isLMS_isS _ i hl), code_S _ q (isLMS_isS _ q hq2), hcq]) hc
        (fun c => hiOf (iters.set (text.ba.getD i 0)
          ⟨hd text.ba (text.ba.getD i 0), hiOf iters (text.ba.getD i 0) - 1⟩) c - 1)
        (by
          simp only []
          rw [hiOf_set_self _ _ _ (by rw [hlen]; exact hc)]
          simp only []
          omega)
        (by
          intro c hcc
          simp only []
          rw [hiOf_set_of_ne _ _ _ _ (fun h => hcc h.symm)])
      simp only [] at hstep
      apply ih (i + 1) _ _ _ (i :: done) (by omega) hlen1 ?_ ?_ hstep.2.2
      · intro q
        rw [List.mem_cons, hdone q]
        constructor
        · rintro (h | h)
          · rw [h]
            exact ⟨by omega, hl⟩
          · exact ⟨by omega, h.2⟩
        · intro h
          by_cases e : q = i
          · exact Or.inl e
          · exact Or.inr ⟨by omega, h.2⟩
      · intro c hcs
        by_cases hcc : c = text.ba.getD i 0
        · rw [hcc, loOf_set_self _ _ _ (by rw [hlen]; exact hc)]
        · rw [loOf_set_of_ne _ _ _ _ (fun h => hcc h.symm)]
          exact hlo c hcs
      · intro c hcs
        by_cases hcc : c = text.ba.getD i 0
        · rw [hcc, hiOf_set_self _ _ _ (by rw [hlen]; exact hc)]
          simp only []
          omega
        · rw [hiOf_set_of_ne _ _ _ _ (fun h => hcc h.symm)]
          exact hhi c hcs

/-- The function `guessLMSSort` returns a seed array: every LMS offset stands
in the S part of its bucket, larger offsets first. -/
theorem guessLMSSort_spec (text : Text) (hn64 : text.ba.length + 1 < 2 ^ 64)
    (hsym : ∀ i, i < text.ba.length → text.ba.getD i 0 < text.ab)
    (hn : 1 ≤ text.ba.length) (sizes : List Nat) (hsl : sizes.length = text.ab)
    (hsz : ∀ c, sizes.getD c 0 = sz text.ba c) :
    ∃ a0 sidx, guessLMSSort text (types text.ba) sizes = .ok a0 ∧
      Seeds text.ba a0 sidx (seedKey text.ba) := by
  obtain ⟨hil, hiv⟩ := bucketIters_spec text.ba sizes hn64 hsz
  have hinit : TailInv text.ba text.ab (seedKey text.ba) []
      (fun c => hiOf (BuildBucketTailIterators sizes) c - 1)
      ((clearedSA (text.ba.length + 1)).set 0 text.ba.length) := by
    unfold BuildBucketTailIterators
    refine ⟨by simp [clearedSA], ?_, List.nodup_nil, ?_, List.Pairwise.nil, ?_, ?_, ?_⟩
    · exact getD_set_self _ _ _ (by simp [clearedSA])
    · intro p hp
      simp at hp
    · intro c hc
      simp only [List.filter_nil, List.length_nil]
      rw [(hiv c (by omega)).2]
      have := hd_pos text.ba c
      omega
    · intro c hc k hk
      simp at hk
    · intro x hx1 hx2 _
      rw [getD_set_of_ne _ _ _ _ (by omega)]
      unfold clearedSA
      rw [List.getD_eq_getElem _ 0 (by simp; omega)]
      simp
  obtain ⟨a0, done1, tl1, hrun, hfin, hall⟩ := guessLoop_spec text hsym text.ba.length 0 false
    (BuildBucketTailIterators sizes) _ [] (by omega)
    (by unfold BuildBucketTailIterators; rw [hil, hsl])
    (by
      intro c hc
      unfold BuildBucketTailIterators
      exact (hiv c (by omega)).1)
    (by
      intro c hc
      unfold BuildBucketTailIterators
      rw [(hiv c (by omega)).2]
      have := hd_pos text.ba c
      omega)
    hinit (by
      intro q
      simp)
  refine ⟨a0, seedIdx text.ba done1 tl1, ?_, hfin.seeds hn hsym (fun p hp hl => (hall p).mpr ⟨hp, hl⟩)⟩
  unfold guessLMSSort
  rw [SetValueAt_of_lt _ _ _ (by simp [clearedSA])]
  simp only []
  unfold Text.Len TypeMap.Iterate
  exact hrun

/-! ## Comparing LMS substrings -/

theorem IsLMS_types (T : List Nat) (i : Nat) (hi : i ≤ T.length) :
    TypeMap.IsLMS (types T) i = .ok (isLMS T i) := by
  unfold TypeMap.IsLMS isLMS
  by_cases h : i < 1
  · rw [if_pos h]
    have : decide (1 ≤ i) = false := by simp; omega
    rw [this]
    rfl
  · rw [if_neg h]
    have h1 : i - 1 < (types T).length := by rw [types_length]; omega
    have h2 : i < (types T).length := by rw [types_length]; omega
    rw [List.getElem?_eq_getElem h1, List.getElem?_eq_getElem h2]
    simp only []
    have : decide (1 ≤ i) = true := by simp; omega
    rw [this]
    unfold isL
    rw [List.getD_eq_getElem _ _ h1, List.getD_eq_getElem _ _ h2]
    cases (types T)[i - 1] <;> cases (types T)[i] <;> rfl

theorem lmsKey_cons_tail (T : List Nat) (j : Nat) (hj : j < T.length) :
    lmsKey T j = code T j :: tailKey T (j + 1) :=
  lmsKey_cons T j hj

theorem not_isLMS_lt (T : List Nat) (q : Nat) (hq : q ≤ T.length) (hn : 1 ≤ T.length)
    (h : isLMS T q = false) : q < T.length := by
  by_contra hc
  have e : q = T.length := by omega
  rw [e, isLMS_length T hn] at h
  exact absurd h (by decide)

theorem tailKey_mixed (T : List Nat) (p q : Nat) (_ : 1 ≤ p) (hpn : p ≤ T.length)
    (hqn : q ≤ T.length) (hq : 1 ≤ q)
    (hlp : isLMS T p = true) (hlq : isLMS T q = false)
    (hty : isL T (p - 1) = isL T (q - 1)) : tailKey T p ≠ tailKey T q := by
  intro he
  unfold tailKey at he
  rw [hlp, hlq] at he
  simp only [if_true, Bool.false_eq_true, if_false] at he
  have hq' := not_isLMS_lt T q hqn (by omega) hlq
  rw [lmsKey_cons T q hq'] at he
  by_cases hpe : p = T.length
  · rw [hpe, seedKey_length] at he
    exact absurd he (by simp)
  · rw [seedKey_of_lt T p (by omega)] at he
    injection he with h1 _
    obtain ⟨_, ht⟩ := code_eq_cases T p q h1
    have hpL := (isLMS_pred T p hlp).2
    have hpS := isLMS_isS T p hlp
    rw [hpL] at hty
    rw [hpS] at ht
    have := isLMS_of_L_S T (q - 1) hty.symm (by
      have e : q - 1 + 1 = q := by omega
      rw [e]
      exact ht.symm)
    have e : q - 1 + 1 = q := by omega
    rw [e, hlq] at this
    exact absurd this (by decide)

/-- The loop of `LMSSubstringsAreEqual` from its second iteration on: it
returns, a positive answer means equal blocks, and equal keys give a positive
answer. -/
theorem lmsEqLoop_spec (text : Text) (u v : Nat) :
    ∀ (fuel k : Nat), 1 ≤ k → u + k ≤ text.ba.length → v + k ≤ text.ba.length →
      text.ba.length + 1 ≤ fuel + (u + k) →
      ∃ b, lmsEqLoop (types text.ba) text u v fuel k = .ok b ∧
        (b = true → ∃ l, k ≤ l ∧ u + l ≤ text.ba.length ∧ v + l ≤ text.ba.length ∧
          isLMS text.ba (u + l) = true ∧ isLMS text.ba (v + l) = true ∧
          ∀ k', k ≤ k' → k' < l →
            isLMS text.ba (u + k') = false ∧ isLMS text.ba (v + k') = false ∧
            text.ba.getD (u + k') 0 = text.ba.getD (v + k') 0) ∧
        (tailKey text.ba (u + k) = tailKey text.ba (v + k) →
          isL text.ba (u + k - 1) = isL text.ba (v + k - 1) → b = true) := by
  intro fuel
  induction fuel with
  | zero => intro k hk hu hv hf; omega
  | succ fuel ih =>
    intro k hk hu hv hf
    rw [lmsEqLoop, IsLMS_types _ _ hu, IsLMS_types _ _ hv]
    simp only []
    have hk0 : decide (k > 0) = true := by simp; omega
    rw [hk0]
    cases hlu : isLMS text.ba (u + k) <;> cases hlv : isLMS text.ba (v + k)
    · -- neither is an LMS offset
      simp only [Bool.and_false, Bool.false_eq_true, if_false, bne_self_eq_false]
      have hu' := not_isLMS_lt _ _ hu (by omega) hlu
      have hv' := not_isLMS_lt _ _ hv (by omega) hlv
      rw [SymbolAt_of_lt text _ hu', SymbolAt_of_lt text _ hv']
      simp only []
      by_cases hs : text.ba.getD (u + k) 0 = text.ba.getD (v + k) 0
      · rw [if_neg (by rw [bne_iff_ne]; exact not_not.mpr hs)]
        obtain ⟨b, hb, h1, h2⟩ := ih (k + 1) (by omega) (by omega) (by omega) (by omega)
        refine ⟨b, hb, ?_, ?_⟩
        · intro hbt
          obtain ⟨l, hl1, hl2, hl3, hl4, hl5, hl6⟩ := h1 hbt
          refine ⟨l, by omega, hl2, hl3, hl4, hl5, ?_⟩
          intro k' hk1 hk2
          by_cases e : k' = k
          · rw [e]
            exact ⟨hlu, hlv, hs⟩
          · exact hl6 k' (by omega) hk2
        · intro hkey hty
          apply h2
          · unfold tailKey at hkey
            rw [hlu, hlv] at hkey
            simp only [Bool.false_eq_true, if_false] at hkey
            rw [lmsKey_cons_tail _ _ hu', lmsKey_cons_tail _ _ hv'] at hkey
            injection hkey with _ h3
          · unfold tailKey at hkey
            rw [hlu, hlv] at hkey
            simp only [Bool.false_eq_true, if_false] at hkey
            rw [lmsKey_cons_tail _ _ hu', lmsKey_cons_tail _ _ hv'] at hkey
            injection hkey with h3 _
            exact (code_eq_cases _ _ _ h3).2
      · rw [if_pos (by rw [bne_iff_ne]; exact hs)]
        refine ⟨false, rfl, by intro h; exact absurd h (by decide), ?_⟩
        intro hkey _
        exfalso
        unfold tailKey at hkey
        rw [hlu, hlv] at hkey
        simp only [Bool.false_eq_true, if_false] at hkey
        rw [lmsKey_cons_tail _ _ hu', lmsKey_cons_tail _ _ hv'] at hkey
        injection hkey with h3 _
        exact hs (code_eq_cases _ _ _ h3).1
    · -- only `v + k` is an LMS offset
      refine ⟨false, by simp, by intro h; exact absurd h (by decide), ?_⟩
      intro hkey hty
      exfalso
      exact tailKey_mixed text.ba (v + k) (u + k) (by omega) hv hu (by omega) hlv hlu hty.symm
        hkey.symm
    · -- only `u + k` is an LMS offset
      refine ⟨false, by simp, by intro h; exact absurd h (by decide), ?_⟩
      intro hkey hty
      exfalso
      exact tailKey_mixed text.ba (u + k) (v + k) (by omega) hu hv (by omega) hlu hlv hty hkey
    · -- both are
      refine ⟨true, by simp, ?_, fun _ _ => rfl⟩
      intro _
      exact ⟨k, Nat.le_refl _, hu, hv, hlu, hlv, fun k' h1 h2 => by omega⟩

/-- The method `LMSSubstringsAreEqual` on two LMS offsets inside the text: it
returns, a positive answer means equal blocks, and equal keys give a positive
answer. -/
theorem LMSSubstringsAreEqual_spec (text : Text) (u v : Nat) (hu : u < text.ba.length)
    (hv : v < text.ba.length) (hlu : isLMS text.ba u = true) (hlv : isLMS text.ba v = true) :
    ∃ b, TypeMap.LMSSubstringsAreEqual (types text.ba) text u v = .ok b ∧
      (b = true → BlockEq text.ba u v) ∧
      (lmsKey text.ba u = lmsKey text.ba v → b = true) := by
  unfold TypeMap.LMSSubstringsAreEqual Text.Len
  simp only []
  rw [if_neg (by omega)]
  have e : 2 + text.ba.length = (1 + text.ba.length) + 1 := by omega
  rw [e, lmsEqLoop, IsLMS_types _ _ (by omega), IsLMS_types _ _ (by omega)]
  simp only []
  rw [Nat.add_zero, Nat.add_zero, hlu, hlv, SymbolAt_of_lt text _ hu, SymbolAt_of_lt text _ hv]
  simp only []
  have hk0 : decide (0 > 0) = false := by simp
  rw [hk0]
  simp only [Bool.false_and, Bool.false_eq_true, if_false, bne_self_eq_false]
  by_cases hs : text.ba.getD u 0 = text.ba.getD v 0
  · rw [if_neg (by rw [bne_iff_ne]; exact not_not.mpr hs)]
    obtain ⟨b, hb, h1, h2⟩ := lmsEqLoop_spec text u v (1 + text.ba.length) 1 (by omega)
      (by omega) (by omega) (by omega)
    refine ⟨b, hb, ?_, ?_⟩
    · intro hbt
      obtain ⟨l, hl1, hl2, hl3, hl4, hl5, hl6⟩ := h1 hbt
      refine ⟨l, hl1, hl2, hl3, hl4, hl5, ?_, ?_⟩
      · intro k hk1 hk2
        exact ⟨(hl6 k hk1 hk2).1, (hl6 k hk1 hk2).2.1⟩
      · intro k hk
        by_cases hk0 : k = 0
        · rw [hk0]
          exact hs
        · exact (hl6 k (by omega) hk).2.2
    · intro hkey
      rw [lmsKey_cons_tail _ _ hu, lmsKey_cons_tail _ _ hv] at hkey
      injection hkey with h3 h4
      apply h2 h4
      rw [Nat.add_sub_cancel, Nat.add_sub_cancel]
      exact (code_eq_cases _ _ _ h3).2
  · rw [if_pos (by rw [bne_iff_ne]; exact hs)]
    refine ⟨false, rfl, by intro h; exact absurd h (by decide), ?_⟩
    intro hkey
    exfalso
    rw [lmsKey_cons_tail _ _ hu, lmsKey_cons_tail _ _ hv] at hkey
    injection hkey with h3 _
    exact hs (code_eq_cases _ _ _ h3).1

theorem LMSSubstringsAreEqual_end (text : Text) (v : Nat) (hv : v < text.ba.length) :
    TypeMap.LMSSubstringsAreEqual (types text.ba) text text.ba.length v = .ok false := by
  unfold TypeMap.LMSSubstringsAreEqual Text.Len
  simp only []
  rw [if_pos (Or.inl (Nat.le_refl _))]
  have : (text.ba.length == v) = false := by
    rw [beq_eq_false_iff_ne]
    omega
  rw [this]

theorem BlockEq.symm {T : List Nat} {u v : Nat} (h : BlockEq T u v) : BlockEq T v u := by
  obtain ⟨l, h1, h2, h3, h4, h5, h6, h7⟩ := h
  exact ⟨l, h1, h3, h2, h5, h4, fun k a b => ⟨(h6 k a b).2, (h6 k a b).1⟩,
    fun k a => (h7 k a).symm⟩

theorem BlockEq.trans {T : List Nat} {u v w : Nat} (h1 : BlockEq T u v) (h2 : BlockEq T v w) :
    BlockEq T u w := by
  obtain ⟨l, a1, a2, a3, a4, a5, a6, a7⟩ := h1
  obtain ⟨m, b1, b2, b3, b4, b5, b6, b7⟩ := h2
  have hlm : l = m := by
    rcases Nat.lt_trichotomy l m with h | h | h
    · have := (b6 l a1 h).1
      rw [a5] at this
      exact absurd this (by decide)
    · exact h
    · have := (a6 m b1 h).2
      rw [b4] at this
      exact absurd this (by decide)
  subst hlm
  exact ⟨l, a1, a2, b3, a4, b5, fun k x y => ⟨(a6 k x y).1, (b6 k x y).2⟩,
    fun k x => (a7 k x).trans (b7 k x)⟩

/-! ## Naming the LMS substrings -/

theorem NameInv.step_skip {T g : List Nat} {i cn last : Nat} {names : List Nat}
    (hg : g.Perm (List.range (T.length + 1))) (hinv : NameInv T g i cn last names)
    (_ : i ≤ T.length) (hl : isLMS T (g.getD i 0) = false) :
    NameInv T g (i + 1) cn last names := by
  have hold : ∀ p, p ≤ T.length → isLMS T p = true → g.indexOf p < i + 1 → g.indexOf p < i := by
    intro p hp hlp hlt
    by_contra hc
    have e : g.indexOf p = i := by omega
    have := (perm_indexOf hg p hp).2
    rw [e] at this
    rw [this, hlp] at hl
    exact absurd hl (by decide)
  refine ⟨hinv.hlen, ⟨hinv.hlast.1, hinv.hlast.2.1, by have := hinv.hlast.2.2; omega⟩, ?_,
    hinv.hcn, by have := hinv.hcnb; omega, hinv.hcn0, ?_, ?_, ?_, ?_, ?_, ?_⟩
  · intro p hp hlp hlt
    exact hinv.hlastmax p hp hlp (hold p hp hlp hlt)
  · intro p hp hlp hlt
    exact hinv.hseen p hp hlp (hold p hp hlp hlt)
  · intro p hp h
    apply hinv.hunseen p hp
    rcases h with h | h
    · exact Or.inl h
    · exact Or.inr (by omega)
  · intro p hp hlp hlt
    exact hinv.hzero p hp hlp (hold p hp hlp hlt)
  · intro m hm
    obtain ⟨p, h1, h2, h3, h4⟩ := hinv.hsurj m hm
    exact ⟨p, h1, h2, by omega, h4⟩
  · intro p hp hlp hlt
    exact hinv.hrel p hp hlp (hold p hp hlp hlt)
  · intro p q hp hq hlp hlq h1 h2
    exact hinv.hpair p q hp hq hlp hlq (hold p hp hlp h1) (hold q hq hlq h2)

/-- The step of the naming loop at an LMS offset `v`, given what the new
name `cn1` has to do with the names handed out so far. -/
theorem NameInv.step_lms {T g : List Nat} {i cn last : Nat} {names : List Nat}
    (hg : g.Perm (List.range (T.length + 1))) (hinv : NameInv T g i cn last names)
    (hi : i ≤ T.length) (hl : isLMS T (g.getD i 0) = true) (cn1 : Nat)
    (hv : g.getD i 0 < T.length)
    (F1 : cn ≤ cn1 ∧ cn1 ≤ cn + 1 ∧ 1 ≤ cn1)
    (F2 : ∀ p, p ≤ T.length → isLMS T p = true → g.indexOf p < i → names.getD p 0 = cn1 →
      BlockEq T p (g.getD i 0))
    (F3 : ∀ p, p ≤ T.length → isLMS T p = true → g.indexOf p < i → names.getD p 0 < cn1 →
      lexLt (lmsKey T p) (lmsKey T (g.getD i 0)) = true) :
    NameInv T g (i + 1) cn1 (g.getD i 0) (names.set (g.getD i 0) cn1) := by
  have hiv : g.indexOf (g.getD i 0) = i := perm_indexOf_getD hg i hi
  have hcase : ∀ p, p ≤ T.length → g.indexOf p < i + 1 →
      p = g.getD i 0 ∨ (p ≠ g.getD i 0 ∧ g.indexOf p < i) := by
    intro p hp hlt
    by_cases e : p = g.getD i 0
    · exact Or.inl e
    · right
      refine ⟨e, ?_⟩
      by_contra hc
      have e2 : g.indexOf p = i := by omega
      have := (perm_indexOf hg p hp).2
      rw [e2] at this
      exact e this.symm
  have hvlen : g.getD i 0 < names.length := by rw [hinv.hlen]; omega
  have hnew : (names.set (g.getD i 0) cn1).getD (g.getD i 0) 0 = cn1 :=
    getD_set_self _ _ _ hvlen
  have hold : ∀ p, p ≠ g.getD i 0 → (names.set (g.getD i 0) cn1).getD p 0 = names.getD p 0 :=
    fun p hp => getD_set_of_ne _ _ _ _ (fun h => hp h.symm)
  refine ⟨by rw [List.length_set]; exact hinv.hlen, ⟨by omega, hl, by omega⟩, ?_, hnew,
    by have := hinv.hcnb; omega, by intro h; omega, ?_, ?_, ?_, ?_, ?_, ?_⟩
  · intro p hp hlp hlt
    omega
  · intro p hp hlp hlt
    rcases hcase p hp hlt with e | ⟨e, hlt'⟩
    · rw [e, hnew]
    · rw [hold p e]
      have := hinv.hseen p hp hlp hlt'
      omega
  · intro p hp h
    have hne : p ≠ g.getD i 0 := by
      intro e
      rw [e, hl, hiv] at h
      rcases h with h | h
      · exact absurd h (by decide)
      · omega
    rw [hold p hne]
    apply hinv.hunseen p hp
    rcases h with h | h
    · exact Or.inl h
    · exact Or.inr (by omega)
  · intro p hp hlp hlt h0
    rcases hcase p hp hlt with e | ⟨e, hlt'⟩
    · rw [e, hnew] at h0
      omega
    · rw [hold p e] at h0
      exact hinv.hzero p hp hlp hlt' h0
  · intro m hm
    by_cases e : m = cn1
    · exact ⟨g.getD i 0, by omega, hl, by omega, by rw [hnew, e]⟩
    · obtain ⟨p, h1, h2, h3, h4⟩ := hinv.hsurj m (by omega)
      have hne : p ≠ g.getD i 0 := by
        intro e2
        rw [e2, hiv] at h3
        omega
      exact ⟨p, h1, h2, by omega, by rw [hold p hne]; exact h4⟩
  · intro p hp hlp hlt
    rcases hcase p hp hlt with e | ⟨e, hlt'⟩
    · exact ⟨fun _ => Or.inl e, fun h => by rw [e, hnew] at h; omega⟩
    · rw [hold p e]
      exact ⟨fun h => Or.inr (F2 p hp hlp hlt' h), fun h => F3 p hp hlp hlt' h⟩
  · intro p q hp hq hlp hlq h1 h2
    rcases hcase p hp h1 with e | ⟨e, hlt1⟩ <;> rcases hcase q hq h2 with e' | ⟨e', hlt2⟩
    · exact ⟨fun _ => Or.inl (e.trans e'.symm), fun h => by rw [e, e'] at h; omega⟩
    · rw [e, hnew, hold q e']
      have hs := hinv.hseen q hq hlq hlt2
      refine ⟨fun h => Or.inr (F2 q hq hlq hlt2 h.symm).symm, fun h => by omega⟩
    · rw [e', hnew, hold p e]
      have hs := hinv.hseen p hp hlp hlt1
      refine ⟨fun h => Or.inr (F2 p hp hlp hlt1 h), fun h => ?_⟩
      exact lexLt_of_lmsKey T _ p _ rfl hp (by omega) (F3 p hp hlp hlt1 h)
    · rw [hold p e, hold q e']
      exact hinv.hpair p q hp hq hlp hlq hlt1 hlt2

theorem lexLt_of_le_of_lt (a b c : List Nat) (h1 : lexLt a b = true ∨ a = b)
    (h2 : lexLt b c = true) : lexLt a c = true := by
  rcases h1 with h | h
  · exact lexLt_trans a b c h h2
  · rw [h]
    exact h2

theorem lexLt_of_lt_of_le (a b c : List Nat) (h1 : lexLt a b = true)
    (h2 : lexLt b c = true ∨ b = c) : lexLt a c = true := by
  rcases h2 with h | h
  · exact lexLt_trans a b c h1 h
  · rw [← h]
    exact h1

theorem sorted_lmsKey_le {T g : List Nat} (hs : SortedPerm (klt (lmsKey T)) T.length g)
    (p q : Nat) (hp : p ≤ T.length) (hq : q ≤ T.length) (h : g.indexOf p < g.indexOf q) :
    lexLt (lmsKey T p) (lmsKey T q) = true ∨ lmsKey T p = lmsKey T q := by
  have := (klt_iff_index hs p q hp hq).mpr h
  rcases this with h1 | ⟨h1, _⟩
  · exact Or.inl h1
  · exact Or.inr h1

/-- The facts about the new name that the step of the naming loop needs, from
the answer `b` of `LMSSubstringsAreEqual`. -/
theorem NameInv.name_facts {T g : List Nat} {i cn last : Nat} {names : List Nat}
    (hs : SortedPerm (klt (lmsKey T)) T.length g) (hinv : NameInv T g i cn last names)
    (hi : i ≤ T.length) (hv : g.getD i 0 < T.length) (b : Bool)
    (hb1 : b = true → BlockEq T last (g.getD i 0))
    (hb2 : lmsKey T last = lmsKey T (g.getD i 0) → b = true) :
    (cn ≤ (if b = true then cn else cn + 1) ∧ (if b = true then cn else cn + 1) ≤ cn + 1 ∧
      1 ≤ (if b = true then cn else cn + 1)) ∧
    (∀ p, p ≤ T.length → isLMS T p = true → g.indexOf p < i →
      names.getD p 0 = (if b = true then cn else cn + 1) → BlockEq T p (g.getD i 0)) ∧
    (∀ p, p ≤ T.length → isLMS T p = true → g.indexOf p < i →
      names.getD p 0 < (if b = true then cn else cn + 1) →
      lexLt (lmsKey T p) (lmsKey T (g.getD i 0)) = true) := by
  have hiv : g.indexOf (g.getD i 0) = i := perm_indexOf_getD hs.1 i hi
  have hle : ∀ p, p ≤ T.length → g.indexOf p < i →
      lexLt (lmsKey T p) (lmsKey T (g.getD i 0)) = true ∨ lmsKey T p = lmsKey T (g.getD i 0) := by
    intro p hp hlt
    exact sorted_lmsKey_le hs p _ hp (by omega) (by rw [hiv]; exact hlt)
  cases b with
  | true =>
    have hB := hb1 rfl
    simp only [if_true]
    refine ⟨⟨Nat.le_refl _, by omega, ?_⟩, ?_, ?_⟩
    · by_contra hc
      have h0 : cn = 0 := by omega
      have hl := hinv.hcn0 h0
      obtain ⟨l, h1, h2, _⟩ := hB
      omega
    · intro p hp hlp hlt he
      rcases (hinv.hrel p hp hlp hlt).1 he with h | h
      · rw [h]
        exact hB
      · exact h.trans hB
    · intro p hp hlp hlt he
      exact lexLt_of_lt_of_le _ _ _ ((hinv.hrel p hp hlp hlt).2 he)
        (hle last hinv.hlast.1 hinv.hlast.2.2)
  | false =>
    simp only [Bool.false_eq_true, if_false]
    have hstrict : lexLt (lmsKey T last) (lmsKey T (g.getD i 0)) = true := by
      rcases hle last hinv.hlast.1 hinv.hlast.2.2 with h | h
      · exact h
      · exact absurd (hb2 h) (by decide)
    refine ⟨⟨by omega, Nat.le_refl _, by omega⟩, ?_, ?_⟩
    · intro p hp hlp hlt he
      have := hinv.hseen p hp hlp hlt
      omega
    · intro p hp hlp hlt _
      apply lexLt_of_le_of_lt _ _ _ _ hstrict
      by_cases e : p = last
      · rw [e]
        exact Or.inr rfl
      · have h1 := hinv.hlastmax p hp hlp hlt
        have hne : g.indexOf p ≠ g.indexOf last := by
          intro h
          have e1 := (perm_indexOf hs.1 p hp).2
          have e2 := (perm_indexOf hs.1 last hinv.hlast.1).2
          rw [h] at e1
          exact e (e1.symm.trans e2)
        exact sorted_lmsKey_le hs p last hp hinv.hlast.1 (by omega)

/-- The first loop of `summarize` on the array sorted by the keys of the
first round: it returns, and the invariant holds for the whole array. -/
theorem nameLoop_spec (text : Text) (g : List Nat)
    (hs : SortedPerm (klt (lmsKey text.ba)) text.ba.length g) :
    ∀ (rest : List Nat) (i cn last : Nat) (names : List Nat), 1 ≤ i → i ≤ text.ba.length + 1 →
      g.drop i = rest → NameInv text.ba g i cn last names →
      ∃ cn1 last1 names1,
        nameLoop text (types text.ba) rest i (cn, last, names) = .ok (cn1, last1, names1) ∧
        NameInv text.ba g (text.ba.length + 1) cn1 last1 names1 := by
  have hglen := perm_length hs.1
  have ho := (lmsKey_keyLaw text.ba).bucketOrder
  have hg0 := zone_head ho hs
  intro rest
  induction rest with
  | nil =>
    intro i cn last names hi1 hi2 hdrop hinv
    have : g.length ≤ i := List.drop_eq_nil_iff.mp hdrop
    have e : i = text.ba.length + 1 := by omega
    rw [e] at hinv
    exact ⟨cn, last, names, rfl, hinv⟩
  | cons pos rest ih =>
    intro i cn last names hi1 hi2 hdrop hinv
    have hil : i < g.length := by
      by_contra hc
      rw [List.drop_eq_nil_of_le (by omega)] at hdrop
      exact absurd hdrop (by simp)
    have hi : i ≤ text.ba.length := by omega
    rw [drop_eq_getD_cons g i hil] at hdrop
    injection hdrop with hpos hrest
    subst hpos
    have hple := perm_getD_le hs.1 i hi
    have hpn : g.getD i 0 < text.ba.length := by
      by_contra hc
      have e : g.getD i 0 = text.ba.length := by omega
      have := perm_getD_inj hs.1 i 0 hi (by omega) (by rw [e, hg0])
      omega
    rw [nameLoop, if_neg (by omega), IsLMS_types _ _ hple]
    cases hl : isLMS text.ba (g.getD i 0) with
    | false =>
      simp only []
      exact ih (i + 1) cn last names (by omega) (by omega) hrest (hinv.step_skip hs.1 hi hl)
    | true =>
      simp only []
      have hE : ∃ b, TypeMap.LMSSubstringsAreEqual (types text.ba) text last (g.getD i 0)
          = .ok b ∧ (b = true → BlockEq text.ba last (g.getD i 0)) ∧
          (lmsKey text.ba last = lmsKey text.ba (g.getD i 0) → b = true) := by
        by_cases hln : last = text.ba.length
        · refine ⟨false, by rw [hln]; exact LMSSubstringsAreEqual_end text _ hpn,
            fun h => absurd h (by decide), ?_⟩
          intro h
          rw [hln, lmsKey_length, lmsKey_cons _ _ hpn] at h
          exact absurd h (by simp)
        · exact LMSSubstringsAreEqual_spec text last _
            (by have := hinv.hlast.1; omega) hpn hinv.hlast.2.1 hl
      obtain ⟨b, hE1, hE2, hE3⟩ := hE
      rw [hE1]
      simp only []
      rw [SetValueAt_of_lt _ _ _ (by rw [hinv.hlen]; omega)]
      simp only []
      obtain ⟨F1, F2, F3⟩ := hinv.name_facts hs hi hpn b hE2 hE3
      exact ih (i + 1) _ _ _ (by omega) (by omega) hrest
        (hinv.step_lms hs.1 hi hl _ hpn F1 F2 F3)

/-! ## The summary text -/

theorem extractLoop_spec : ∀ (l : List Nat) (s : Nat) (all : List Nat),
    (∀ k, k < l.length → all.getD (s + k) 0 = l.getD k 0) →
    (extractLoop l s).2 =
      (List.range' s l.length).filter (fun p => decide (all.getD p 0 ≠ placeholder)) ∧
    (extractLoop l s).1 = (extractLoop l s).2.map (fun p => all.getD p 0)
  | [], _, _, _ => ⟨rfl, rfl⟩
  | name :: rest, s, all, h => by
    have h0 : all.getD s 0 = name := h 0 (by simp)
    obtain ⟨ih1, ih2⟩ := extractLoop_spec rest (s + 1) all (by
      intro k hk
      have := h (k + 1) (by simpa using hk)
      rw [List.getD_cons_succ] at this
      rw [← this]
      congr 1
      omega)
    rw [List.length_cons, List.range'_succ, List.filter_cons, extractLoop, h0]
    by_cases hn : name = placeholder
    · rw [if_pos hn, if_neg (by simp [hn])]
      exact ⟨ih1, ih2⟩
    · rw [if_neg hn, if_pos (by simp [hn])]
      simp only [List.map_cons]
      rw [h0, ← ih1, ← ih2]
      exact ⟨rfl, rfl⟩

theorem mem_lmsList (T : List Nat) (p : Nat) :
    p ∈ lmsList T ↔ p ≤ T.length ∧ isLMS T p = true := by
  unfold lmsList
  rw [List.mem_filter, List.mem_range'_1]
  constructor
  · intro h
    exact ⟨by omega, h.2⟩
  · intro h
    exact ⟨by omega, h.2⟩

/-- The function `summarize` on the array sorted by the keys of the first
round: the offsets are the LMS offsets in text order, the summary text lists
their names, and the names meet the naming invariant. -/
theorem summarize_spec (text : Text) (g : List Nat) (hn : 1 ≤ text.ba.length)
    (hn64 : text.ba.length + 1 < 2 ^ 64)
    (hs : SortedPerm (klt (lmsKey text.ba)) text.ba.length g) :
    ∃ cn last names,
      summarize text (types text.ba) g
        = .ok (⟨cn + 1, (lmsList text.ba).map (fun p => names.getD p 0)⟩, lmsList text.ba) ∧
      NameInv text.ba g (text.ba.length + 1) cn last names := by
  have hglen := perm_length hs.1
  have ho := (lmsKey_keyLaw text.ba).bucketOrder
  have hg0 := zone_head ho hs
  have hidx0 : g.indexOf text.ba.length = 0 := by
    rw [← hg0]
    exact perm_indexOf_getD hs.1 0 (by omega)
  have hone : ∀ p, p ≤ text.ba.length → g.indexOf p < 1 → p = text.ba.length := by
    intro p hp hlt
    have := (perm_indexOf hs.1 p hp).2
    have e : g.indexOf p = 0 := by omega
    rw [e, hg0] at this
    exact this.symm
  have hclen : (clearedSA (text.ba.length + 1)).length = text.ba.length + 1 := by
    simp [clearedSA]
  have hcl : ∀ p, p ≤ text.ba.length → (clearedSA (text.ba.length + 1)).getD p 0 = placeholder := by
    intro p hp
    unfold clearedSA
    rw [List.getD_eq_getElem _ 0 (by simp; omega)]
    simp
  have hinit : NameInv text.ba g 1 0 text.ba.length
      ((clearedSA (text.ba.length + 1)).set text.ba.length 0) := by
    have hself := getD_set_self (clearedSA (text.ba.length + 1)) text.ba.length 0 (by omega)
    refine ⟨by rw [List.length_set]; exact hclen, ⟨Nat.le_refl _, isLMS_length _ hn, by omega⟩,
      ?_, hself, by omega, fun _ => rfl, ?_, ?_, ?_, ?_, ?_, ?_⟩
    · intro p hp _ hlt
      omega
    · intro p hp _ hlt
      rw [hone p hp hlt, hself]
    · intro p hp h
      have hne : p ≠ text.ba.length := by
        intro e
        rw [e, isLMS_length _ hn, hidx0] at h
        rcases h with h | h
        · exact absurd h (by decide)
        · omega
      rw [getD_set_of_ne _ _ _ _ (fun h => hne h.symm)]
      exact hcl p hp
    · intro p hp _ hlt _
      exact hone p hp hlt
    · intro m hm
      exact ⟨text.ba.length, Nat.le_refl _, isLMS_length _ hn, by omega, by rw [hself]; omega⟩
    · intro p hp _ hlt
      exact ⟨fun _ => Or.inl (hone p hp hlt), fun h => by omega⟩
    · intro p q hp hq _ _ h1 h2
      rw [hone p hp h1, hone q hq h2]
      exact ⟨fun _ => Or.inl rfl, fun h => by omega⟩
  have hgc : g = text.ba.length :: g.drop 1 := by
    have := drop_eq_getD_cons g 0 (by omega)
    rw [List.drop_zero, hg0] at this
    exact this
  obtain ⟨cn, last, names, hrun, hfin⟩ := nameLoop_spec text g hs (g.drop 1) 1 0 text.ba.length
    _ (by omega) (by omega) rfl hinit
  refine ⟨cn, last, names, ?_, hfin⟩
  unfold summarize Text.Len
  rw [hgc, nameLoop, if_pos rfl, SetValueAt_of_lt _ _ _ (by omega)]
  simp only []
  rw [hrun]
  simp only []
  obtain ⟨e1, e2⟩ := extractLoop_spec names 0 names (by
    intro k _
    rw [Nat.zero_add])
  rw [e2, e1, hfin.hlen]
  have hfil : (List.range' 0 (text.ba.length + 1)).filter
      (fun p => decide (names.getD p 0 ≠ placeholder)) = lmsList text.ba := by
    unfold lmsList
    apply List.filter_congr
    intro p hp
    rw [List.mem_range'_1] at hp
    cases hl : isLMS text.ba p with
    | false =>
      rw [hfin.hunseen p (by omega) (Or.inl hl)]
      simp
    | true =>
      have h1 := hfin.hseen p (by omega) hl (by
        have := (perm_indexOf hs.1 p (by omega)).1
        omega)
      have h2 := hfin.hcnb
      have : names.getD p 0 ≠ placeholder := by
        unfold placeholder
        omega
      simp only [this, ne_eq, not_false_eq_true, decide_True]
  rw [hfil]

/-! ## The order of the summary suffixes is the order of the LMS suffixes -/

theorem sfx_length (T : List Nat) (nm : Nat → Nat) (hn : 1 ≤ T.length) :
    sfx T nm T.length = [nm T.length] := by
  unfold sfx
  have e : T.length + 1 - T.length = 1 := by omega
  rw [e]
  simp [List.range', isLMS_length T hn]

theorem sfx_block (T : List Nat) (nm : Nat → Nat) (p l : Nat) (hl : 1 ≤ l)
    (hp : p + l ≤ T.length) (hlms : isLMS T p = true)
    (hno : ∀ k, 1 ≤ k → k < l → isLMS T (p + k) = false) :
    sfx T nm p = nm p :: sfx T nm (p + l) := by
  unfold sfx
  have e1 : T.length + 1 - p = (T.length - p) + 1 := by omega
  rw [e1, List.range'_succ, List.filter_cons, if_pos hlms, List.map_cons]
  congr 1
  have e2 : List.range' (p + 1) (T.length - p)
      = List.range' (p + 1) (l - 1) ++ List.range' (p + l) (T.length + 1 - (p + l)) := by
    have e3 : p + l = (p + 1) + (l - 1) := by omega
    rw [e3, List.range'_append_1]
    congr 1
    omega
  rw [e2, List.filter_append]
  have e4 : (List.range' (p + 1) (l - 1)).filter (isLMS T) = [] := by
    rw [List.filter_eq_nil_iff]
    intro x hx
    rw [List.mem_range'_1] at hx
    have := hno (x - p) (by omega) (by omega)
    have e5 : p + (x - p) = x := by omega
    rw [e5] at this
    rw [this]
    decide
  rw [e4, List.nil_append]

theorem sfx_cons (T : List Nat) (nm : Nat → Nat) (p : Nat) (hp : p ≤ T.length)
    (hlms : isLMS T p = true) : ∃ r, sfx T nm p = nm p :: r := by
  unfold sfx
  have e1 : T.length + 1 - p = (T.length - p) + 1 := by omega
  rw [e1, List.range'_succ, List.filter_cons, if_pos hlms, List.map_cons]
  exact ⟨_, rfl⟩

theorem lexLt_drop_block (T : List Nat) : ∀ (l p q : Nat), p + l ≤ T.length → q + l ≤ T.length →
    (∀ k, k < l → T.getD (p + k) 0 = T.getD (q + k) 0) →
    lexLt (T.drop p) (T.drop q) = lexLt (T.drop (p + l)) (T.drop (q + l)) := by
  intro l
  induction l with
  | zero => intro p q _ _ _; rfl
  | succ l ih =>
    intro p q hp hq h
    have h0 : T.getD p 0 = T.getD q 0 := h 0 (by omega)
    rw [lexLt_drop_succ (by omega) (by omega) h0,
      ih (p + 1) (q + 1) (by omega) (by omega) (by
        intro k hk
        have := h (k + 1) (by omega)
        rw [show p + 1 + k = p + (k + 1) by omega, show q + 1 + k = q + (k + 1) by omega]
        exact this)]
    rw [show p + 1 + l = p + (l + 1) by omega, show q + 1 + l = q + (l + 1) by omega]

/-- If equal names mean equal blocks and a smaller name a smaller suffix,
then the order of the summary suffixes is the order of the LMS suffixes. -/
theorem summary_order (T : List Nat) (nm : Nat → Nat) (hn : 1 ≤ T.length)
    (hpair : ∀ p q, p ≤ T.length → q ≤ T.length → isLMS T p = true → isLMS T q = true →
      (nm p = nm q → p = q ∨ BlockEq T p q) ∧
      (nm p < nm q → lexLt (T.drop p) (T.drop q) = true))
    (hend : nm T.length = 0) :
    ∀ (k p q : Nat), T.length - p ≤ k → p ≤ T.length → q ≤ T.length → isLMS T p = true →
      isLMS T q = true → lexLt (sfx T nm p) (sfx T nm q) = true →
      lexLt (T.drop p) (T.drop q) = true := by
  intro k
  induction k with
  | zero =>
    intro p q hk hp hq hlp hlq h
    have e : p = T.length := by omega
    rw [e] at h ⊢
    by_cases hqn : q = T.length
    · rw [hqn, lexLt_irrefl] at h
      exact absurd h (by decide)
    · exact lexLt_nil_drop T q (by omega)
  | succ k ih =>
    intro p q hk hp hq hlp hlq h
    by_cases hpn : p = T.length
    · rw [hpn] at h ⊢
      by_cases hqn : q = T.length
      · rw [hqn, lexLt_irrefl] at h
        exact absurd h (by decide)
      · exact lexLt_nil_drop T q (by omega)
    have hp' : p < T.length := by omega
    by_cases hqn : q = T.length
    · exfalso
      rw [hqn, sfx_length T nm hn, hend] at h
      obtain ⟨r, hr⟩ := sfx_cons T nm p hp hlp
      rw [hr] at h
      rcases lexLt_cons_cases _ _ _ _ h with h1 | ⟨_, h1⟩
      · omega
      · rw [lexLt_nil_right] at h1
        exact absurd h1 (by decide)
    have hq' : q < T.length := by omega
    rcases Nat.lt_trichotomy (nm p) (nm q) with hlt | heq | hgt
    · exact (hpair p q hp hq hlp hlq).2 hlt
    · rcases (hpair p q hp hq hlp hlq).1 heq with e | hB
      · rw [e, lexLt_irrefl] at h
        exact absurd h (by decide)
      · obtain ⟨l, h1, h2, h3, h4, h5, h6, h7⟩ := hB
        rw [sfx_block T nm p l h1 h2 hlp (fun k a b => (h6 k a b).1),
          sfx_block T nm q l h1 h3 hlq (fun k a b => (h6 k a b).2), heq, lexLt_cons_self] at h
        rw [lexLt_drop_block T l p q h2 h3 h7]
        exact ih (p + l) (q + l) (by omega) h2 h3 h4 h5 h
    · exfalso
      obtain ⟨r, hr⟩ := sfx_cons T nm p hp hlp
      obtain ⟨r', hr'⟩ := sfx_cons T nm q hq hlq
      rw [hr, hr'] at h
      rcases lexLt_cons_cases _ _ _ _ h with h1 | ⟨h1, _⟩ <;> omega

/-! ## The LMS offsets as a list -/

theorem filter_range'_drop (P : Nat → Bool) : ∀ (len s a : Nat),
    a < ((List.range' s len).filter P).length →
    ((List.range' s len).filter P).drop a =
      (List.range' (((List.range' s len).filter P).getD a 0)
        (s + len - ((List.range' s len).filter P).getD a 0)).filter P := by
  intro len
  induction len with
  | zero =>
    intro s a h
    simp at h
  | succ len ih =>
    intro s a h
    rw [List.range'_succ, List.filter_cons] at h ⊢
    by_cases hs : P s = true
    · rw [if_pos hs] at h ⊢
      cases a with
      | zero =>
        rw [List.drop_zero, List.getD_cons_zero]
        have e : s + (len + 1) - s = len + 1 := by omega
        rw [e, List.range'_succ, List.filter_cons, if_pos hs]
      | succ a =>
        rw [List.drop_succ_cons, List.getD_cons_succ]
        have := ih (s + 1) a (by simpa using h)
        rw [this]
        congr 2
        omega
    · rw [if_neg hs] at h ⊢
      have := ih (s + 1) a h
      rw [this]
      congr 2
      omega

theorem lmsList_nodup (T : List Nat) : (lmsList T).Nodup := by
  unfold lmsList
  exact (List.nodup_range' 0 (T.length + 1)).filter _

theorem lmsList_last (T : List Nat) (hn : 1 ≤ T.length) :
    1 ≤ (lmsList T).length ∧ (lmsList T).getD ((lmsList T).length - 1) 0 = T.length := by
  have e : lmsList T = (List.range' 0 T.length).filter (isLMS T) ++ [T.length] := by
    unfold lmsList
    rw [List.range'_1_concat, List.filter_append, Nat.zero_add]
    congr 1
    rw [List.filter_cons, if_pos (isLMS_length T hn)]
    rfl
  rw [e, List.length_append]
  refine ⟨by simp, ?_⟩
  rw [List.getD_eq_getElem _ 0 (by simp)]
  simp

theorem lmsList_getD (T : List Nat) (a : Nat) (ha : a < (lmsList T).length) :
    (lmsList T).getD a 0 ≤ T.length ∧ isLMS T ((lmsList T).getD a 0) = true :=
  (mem_lmsList T _).mp (getD_mem_of_lt _ a ha)

theorem lmsList_getD_inj (T : List Nat) (a b : Nat) (ha : a < (lmsList T).length)
    (hb : b < (lmsList T).length) (h : (lmsList T).getD a 0 = (lmsList T).getD b 0) : a = b := by
  rw [List.getD_eq_getElem _ 0 ha, List.getD_eq_getElem _ 0 hb] at h
  exact ((lmsList_nodup T).getElem_inj_iff).mp h

theorem lmsList_getD_lt (T : List Nat) (hn : 1 ≤ T.length) (a : Nat)
    (ha : a + 1 < (lmsList T).length) : (lmsList T).getD a 0 < T.length := by
  have h1 := (lmsList_getD T a (by omega)).1
  have h2 := (lmsList_last T hn).2
  by_contra hc
  have e : (lmsList T).getD a 0 = T.length := by omega
  have := lmsList_getD_inj T a _ (by omega) (by omega) (e.trans h2.symm)
  omega

/-- The suffix of the summary text at index `a` lists the names from the
`a`-th LMS offset on. -/
theorem summary_drop (T : List Nat) (nm : Nat → Nat) (a : Nat) (ha : a < (lmsList T).length) :
    ((lmsList T).map nm).drop a = sfx T nm ((lmsList T).getD a 0) := by
  unfold sfx
  rw [← List.map_drop]
  congr 1
  have := filter_range'_drop (isLMS T) (T.length + 1) 0 a ha
  rw [Nat.zero_add] at this
  exact this

/-- Fewer LMS offsets than symbols: the summary text is shorter than the
text. -/
theorem lmsList_length_lt (T : List Nat) (hn : 2 ≤ T.length) : (lmsList T).length < T.length := by
  have hnd : ((lmsList T).map (fun p => p - 2)).Nodup := by
    apply List.Nodup.map_on _ (lmsList_nodup T)
    intro x hx y hy hxy
    rw [mem_lmsList] at hx hy
    have hx1 := (isLMS_pred T x hx.2).1
    have hy1 := (isLMS_pred T y hy.2).1
    by_contra hne
    have h12 : (x = 1 ∧ y = 2) ∨ (x = 2 ∧ y = 1) := by omega
    have hbad : isLMS T 1 = true ∧ isLMS T 2 = true := by
      rcases h12 with ⟨e1, e2⟩ | ⟨e1, e2⟩
      · rw [e1] at hx
        rw [e2] at hy
        exact ⟨hx.2, hy.2⟩
      · rw [e1] at hx
        rw [e2] at hy
        exact ⟨hy.2, hx.2⟩
    have h1 := isLMS_isS T 1 hbad.1
    have h2 := (isLMS_pred T 2 hbad.2).2
    rw [h1] at h2
    exact absurd h2 (by decide)
  have hsub : ∀ q, q ∈ (lmsList T).map (fun p => p - 2) → q < T.length - 1 ∧ true = true := by
    intro q hq
    rw [List.mem_map] at hq
    obtain ⟨p, hp, e⟩ := hq
    rw [mem_lmsList] at hp
    refine ⟨?_, rfl⟩
    omega
  have := nodup_length_le_countP (fun _ => true) (T.length - 1) _ hnd hsub
  rw [List.length_map] at this
  have h2 := @List.countP_le_length _ (fun _ => true) (List.range (T.length - 1))
  rw [List.length_range] at h2
  omega

/-- What the suffix array of the summary text says about the LMS offsets of
the text: from index 2 on it lists every LMS offset inside the text once, in
the order of their suffixes. -/
theorem ssa_facts (T : List Nat) (nm : Nat → Nat) (SSA : List Nat) (hn : 1 ≤ T.length)
    (hpair : ∀ p q, p ≤ T.length → q ≤ T.length → isLMS T p = true → isLMS T q = true →
      (nm p = nm q → p = q ∨ BlockEq T p q) ∧
      (nm p < nm q → lexLt (T.drop p) (T.drop q) = true))
    (hend : nm T.length = 0)
    (hsa : IsSuffixArray ((lmsList T).map nm) SSA) :
    (∀ i, 2 ≤ i → i ≤ (lmsList T).length →
      SSA.getD i 0 < (lmsList T).length ∧
      (lmsList T).getD (SSA.getD i 0) 0 < T.length ∧
      isLMS T ((lmsList T).getD (SSA.getD i 0) 0) = true) ∧
    (∀ i j, 2 ≤ i → i < j → j ≤ (lmsList T).length →
      lexLt (T.drop ((lmsList T).getD (SSA.getD i 0) 0))
        (T.drop ((lmsList T).getD (SSA.getD j 0) 0)) = true) ∧
    (∀ p, p < T.length → isLMS T p = true →
      ∃ i, 2 ≤ i ∧ i ≤ (lmsList T).length ∧ (lmsList T).getD (SSA.getD i 0) 0 = p) := by
  have hSlen : ((lmsList T).map nm).length = (lmsList T).length := List.length_map _ _
  obtain ⟨hm1, hlast⟩ := lmsList_last T hn
  have h0 : SSA.getD 0 0 = (lmsList T).length := by rw [hsa.head, hSlen]
  have hlt : ∀ i, 1 ≤ i → i ≤ (lmsList T).length → SSA.getD i 0 < (lmsList T).length := by
    intro i hi1 hi2
    have h1 := hsa.getD_le i (by rw [hSlen]; exact hi2)
    rw [hSlen] at h1
    by_contra hc
    have e : SSA.getD i 0 = (lmsList T).length := by omega
    have := hsa.getD_inj i 0 (by rw [hSlen]; exact hi2) (by omega) (by rw [e, h0])
    omega
  have hord : ∀ i j, 1 ≤ i → i < j → j ≤ (lmsList T).length →
      lexLt (T.drop ((lmsList T).getD (SSA.getD i 0) 0))
        (T.drop ((lmsList T).getD (SSA.getD j 0) 0)) = true := by
    intro i j hi hij hj
    have h := hsa.sorted j i hij (by rw [hSlen]; exact hj)
    have hi' := hlt i hi (by omega)
    have hj' := hlt j (by omega) hj
    rw [summary_drop T nm _ hi', summary_drop T nm _ hj'] at h
    exact summary_order T nm hn hpair hend _ _ _ (Nat.le_refl _)
      (lmsList_getD T _ hi').1 (lmsList_getD T _ hj').1
      (lmsList_getD T _ hi').2 (lmsList_getD T _ hj').2 h
  have h1 : SSA.getD 1 0 = (lmsList T).length - 1 := by
    obtain ⟨j, hj, hej⟩ := hsa.exists_index ((lmsList T).length - 1) (by rw [hSlen]; omega)
    rw [hSlen] at hj
    have hj0 : j ≠ 0 := by
      intro e
      rw [e, h0] at hej
      omega
    by_cases hj1 : j = 1
    · rw [hj1] at hej
      exact hej
    · exfalso
      have := hord 1 j (by omega) (by omega) hj
      rw [hej, hlast, List.drop_length, lexLt_nil_right] at this
      exact absurd this (by decide)
  refine ⟨?_, ?_, ?_⟩
  · intro i hi1 hi2
    have h2 := hlt i (by omega) hi2
    have hne : SSA.getD i 0 ≠ (lmsList T).length - 1 := by
      intro e
      have := hsa.getD_inj i 1 (by rw [hSlen]; exact hi2) (by rw [hSlen]; omega) (by rw [e, h1])
      omega
    exact ⟨h2, lmsList_getD_lt T hn _ (by omega), (lmsList_getD T _ h2).2⟩
  · intro i j hi hij hj
    exact hord i j (by omega) hij hj
  · intro p hp hl
    have hmem : p ∈ lmsList T := (mem_lmsList T p).mpr ⟨by omega, hl⟩
    obtain ⟨ha1, ha2⟩ := getD_indexOf_of_mem _ p hmem
    obtain ⟨i, hi, hei⟩ := hsa.exists_index ((lmsList T).indexOf p) (by rw [hSlen]; omega)
    rw [hSlen] at hi
    refine ⟨i, ?_, hi, by rw [hei]; exact ha2⟩
    by_contra hc
    have hcase : i = 0 ∨ i = 1 := by omega
    rcases hcase with e | e
    · rw [e, h0] at hei
      omega
    · rw [e, h1] at hei
      rw [← hei, hlast] at ha2
      omega

/-! ## Seeding the LMS offsets in the order of their suffixes -/

/-- The loop of `exactLMSSort`: it places the LMS offsets that the summary
suffix array lists from index 2 on, the largest suffix first. -/
theorem exactLoop_spec (text : Text) (SSA offs : List Nat) (m : Nat)
    (hn64 : text.ba.length + 1 < 2 ^ 64)
    (hsym : ∀ i, i < text.ba.length → text.ba.getD i 0 < text.ab)
    (ha : ∀ i, 2 ≤ i → i ≤ m → SSA.getD i 0 < offs.length ∧
      offs.getD (SSA.getD i 0) 0 < text.ba.length ∧
      isLMS text.ba (offs.getD (SSA.getD i 0) 0) = true)
    (hb : ∀ i j, 2 ≤ i → i < j → j ≤ m →
      lexLt (text.ba.drop (offs.getD (SSA.getD i 0) 0))
        (text.ba.drop (offs.getD (SSA.getD j 0) 0)) = true) :
    ∀ (k : Nat) (tails a : List Nat), k ≤ m + 1 → tails.length = text.ab →
      TailInv text.ba text.ab (csuf text.ba)
        ((List.range' (max k 2) (m + 1 - max k 2)).map (fun i => offs.getD (SSA.getD i 0) 0))
        (fun c => tails.getD c 0) a →
      ∃ a0 tl1, exactLoop text SSA offs k tails a = .ok a0 ∧
        TailInv text.ba text.ab (csuf text.ba)
          ((List.range' 2 (m + 1 - 2)).map (fun i => offs.getD (SSA.getD i 0) 0)) tl1 a0 := by
  intro k
  induction k with
  | zero =>
    intro tails a _ _ hinv
    exact ⟨a, _, rfl, hinv⟩
  | succ k ih =>
    intro tails a hk hlen hinv
    rw [exactLoop]
    by_cases hk01 : k = 0 ∨ k = 1
    · rw [if_pos hk01]
      apply ih tails a (by omega) hlen
      have e : max (k + 1) 2 = max k 2 := by omega
      rw [← e]
      exact hinv
    · rw [if_neg hk01]
      have hk2 : 2 ≤ k := by omega
      have e1 : max (k + 1) 2 = k + 1 := by omega
      have e2 : max k 2 = k := by omega
      rw [e1] at hinv
      obtain ⟨h1, h2, h3⟩ := ha k hk2 (by omega)
      have hmem : ∀ q, q ∈ (List.range' (k + 1) (m + 1 - (k + 1))).map
          (fun i => offs.getD (SSA.getD i 0) 0) →
          ∃ j, k < j ∧ j ≤ m ∧ offs.getD (SSA.getD j 0) 0 = q := by
        intro q hq
        obtain ⟨j, hj, hjq⟩ := List.mem_map.mp hq
        rw [List.mem_range'_1] at hj
        exact ⟨j, by omega, by omega, hjq⟩
      have hnew : offs.getD (SSA.getD k 0) 0 ∉ (List.range' (k + 1) (m + 1 - (k + 1))).map
          (fun i => offs.getD (SSA.getD i 0) 0) := by
        intro hq
        obtain ⟨j, hj1, hj2, hj3⟩ := hmem _ hq
        have := hb k j hk2 hj1 hj2
        rw [hj3, lexLt_irrefl] at this
        exact absurd this (by decide)
      have hc := hsym _ h2
      have hroom := hinv.room _ h2 h3 hnew hc
      simp only [] at hroom
      have hpos := hd_pos text.ba (text.ba.getD (offs.getD (SSA.getD k 0) 0) 0)
      rw [ValueAt_of_lt offs _ h1]
      simp only []
      rw [SymbolAt_of_lt text _ h2]
      simp only []
      rw [getElem?_eq_getD_of_lt tails _ (by rw [hlen]; exact hc)]
      simp only []
      rw [SetValueAt_of_lt _ _ _ (by rw [hinv.hlen]; omega)]
      simp only []
      rw [dec64_of_pos _ (by omega) (by omega)]
      have hstep := hinv.step _ h2 h3 hnew (by
          intro q hq _
          obtain ⟨j, hj1, hj2, hj3⟩ := hmem q hq
          rw [← hj3]
          exact (klt_csuf_iff text.ba _ _ (by omega) (by have := (ha j (by omega) hj2).2.1; omega)).mpr
            (hb k j hk2 hj1 hj2)) hc
        (fun c => (tails.set (text.ba.getD (offs.getD (SSA.getD k 0) 0) 0)
          (tails.getD (text.ba.getD (offs.getD (SSA.getD k 0) 0) 0) 0 - 1)).getD c 0)
        (by
          simp only []
          rw [getD_set_self _ _ _ (by rw [hlen]; exact hc)]
          omega)
        (by
          intro c hcc
          simp only []
          rw [getD_set_of_ne _ _ _ _ (fun h => hcc h.symm)])
      apply ih _ _ (by omega) (by rw [List.length_set]; exact hlen)
      rw [e2]
      have e3 : m + 1 - k = (m + 1 - (k + 1)) + 1 := by omega
      rw [e3, List.range'_succ, List.map_cons]
      exact hstep.2.2

/-- The function `exactLMSSort` returns a seed array in which the LMS offsets
stand in the order of their suffixes. -/
theorem exactLMSSort_spec (text : Text) (SSA offs : List Nat) (m : Nat)
    (hn64 : text.ba.length + 1 < 2 ^ 64)
    (hsym : ∀ i, i < text.ba.length → text.ba.getD i 0 < text.ab)
    (hn : 1 ≤ text.ba.length) (hm : 1 ≤ m) (hlen : SSA.length = m + 1)
    (ha : ∀ i, 2 ≤ i → i ≤ m → SSA.getD i 0 < offs.length ∧
      offs.getD (SSA.getD i 0) 0 < text.ba.length ∧
      isLMS text.ba (offs.getD (SSA.getD i 0) 0) = true)
    (hb : ∀ i j, 2 ≤ i → i < j → j ≤ m →
      lexLt (text.ba.drop (offs.getD (SSA.getD i 0) 0))
        (text.ba.drop (offs.getD (SSA.getD j 0) 0)) = true)
    (hc : ∀ p, p < text.ba.length → isLMS text.ba p = true →
      ∃ i, 2 ≤ i ∧ i ≤ m ∧ offs.getD (SSA.getD i 0) 0 = p)
    (sizes : List Nat) (hsl : sizes.length = text.ab)
    (hsz : ∀ c, sizes.getD c 0 = sz text.ba c) :
    ∃ a0 sidx, exactLMSSort text sizes SSA offs = .ok a0 ∧
      Seeds text.ba a0 sidx (csuf text.ba) := by
  obtain ⟨htl, htv⟩ := BuildBucketTails_spec text.ba sizes hn64 hsz
  have e1 : max (m + 1) 2 = m + 1 := by omega
  have hinit : TailInv text.ba text.ab (csuf text.ba)
      ((List.range' (max (m + 1) 2) (m + 1 - max (m + 1) 2)).map
        (fun i => offs.getD (SSA.getD i 0) 0))
      (fun c => (BuildBucketTails sizes).getD c 0)
      ((clearedSA (text.ba.length + 1)).set 0 text.ba.length) := by
    rw [e1, Nat.sub_self]
    refine ⟨by simp [clearedSA], ?_, List.nodup_nil, ?_, List.Pairwise.nil, ?_, ?_, ?_⟩
    · exact getD_set_self _ _ _ (by simp [clearedSA])
    · intro p hp
      simp at hp
    · intro c hc
      simp only [List.range'_zero, List.map_nil, List.filter_nil, List.length_nil]
      rw [htv c (by omega)]
      have := hd_pos text.ba c
      omega
    · intro c hc k hk
      simp at hk
    · intro x hx1 hx2 _
      rw [getD_set_of_ne _ _ _ _ (by omega)]
      unfold clearedSA
      rw [List.getD_eq_getElem _ 0 (by simp; omega)]
      simp
  obtain ⟨a0, tl1, hrun, hfin⟩ := exactLoop_spec text SSA offs m hn64 hsym ha hb (m + 1)
    (BuildBucketTails sizes) _ (Nat.le_refl _) (by rw [htl, hsl]) hinit
  refine ⟨a0, _, ?_, hfin.seeds hn hsym ?_⟩
  · unfold exactLMSSort Text.Len
    rw [SetValueAt_of_lt _ _ _ (by simp [clearedSA])]
    simp only []
    rw [hlen]
    exact hrun
  · intro p hp hl
    obtain ⟨i, hi1, hi2, hi3⟩ := hc p hp hl
    rw [List.mem_map]
    exact ⟨i, by rw [List.mem_range'_1]; omega, hi3⟩

/-! ## The summary suffix array when all names differ -/

theorem directLoop_spec (S : List Nat) (hnd : S.Nodup) (hlt : ∀ x, x ∈ S → x < S.length) :
    ∀ (rest : List Nat) (j : Nat) (ssa : List Nat), S.drop j = rest →
      ssa.length = S.length + 1 →
      ∃ out, directLoop rest j ssa = .ok out ∧ out.length = S.length + 1 ∧
        (∀ j', j ≤ j' → j' < S.length → out.getD (S.getD j' 0 + 1) 0 = j') ∧
        (∀ x, (∀ j', j ≤ j' → j' < S.length → S.getD j' 0 + 1 ≠ x) →
          out.getD x 0 = ssa.getD x 0) := by
  intro rest
  induction rest with
  | nil =>
    intro j ssa hdrop hlen
    have hj : S.length ≤ j := List.drop_eq_nil_iff.mp hdrop
    exact ⟨ssa, rfl, hlen, fun j' h1 h2 => by omega, fun _ _ => rfl⟩
  | cons symbol rest ih =>
    intro j ssa hdrop hlen
    have hjl : j < S.length := by
      by_contra hc
      rw [List.drop_eq_nil_of_le (by omega)] at hdrop
      exact absurd hdrop (by simp)
    rw [drop_eq_getD_cons S j hjl] at hdrop
    injection hdrop with hs hrest
    subst hs
    have hb := hlt _ (getD_mem_of_lt S j hjl)
    rw [directLoop, SetValueAt_of_lt _ _ _ (by omega)]
    simp only []
    obtain ⟨out, hrun, hol, h1, h2⟩ := ih (j + 1) (ssa.set (S.getD j 0 + 1) j) hrest
      (by rw [List.length_set]; exact hlen)
    refine ⟨out, hrun, hol, ?_, ?_⟩
    · intro j' hj1 hj2
      by_cases e : j' = j
      · rw [e, h2 _ (by
          intro j'' hj3 hj4 he
          have e2 : S.getD j'' 0 = S.getD j 0 := by omega
          rw [List.getD_eq_getElem S 0 hj4, List.getD_eq_getElem S 0 hjl] at e2
          have := (hnd.getElem_inj_iff).mp e2
          omega)]
        exact getD_set_self ssa _ _ (by omega)
      · exact h1 j' (by omega) hj2
    · intro x hx
      rw [h2 x (fun j' a b => hx j' (by omega) b)]
      exact getD_set_of_ne _ _ _ _ (hx j (Nat.le_refl _) hjl)

/-- When the symbols of the summary text are `0 .. m - 1` in some order, the
array that `buildSummarySuffixArray` fills in directly is its suffix array. -/
theorem direct_spec (S : List Nat) (hperm : S.Perm (List.range S.length)) :
    ∃ ssa, directLoop S 0 ((makeBigArray (S.length + 1)).set 0 S.length) = .ok ssa ∧
      IsSuffixArray S ssa := by
  have hnd : S.Nodup := (hperm.nodup_iff).mpr (List.nodup_range _)
  have hlt : ∀ x, x ∈ S → x < S.length := fun x hx => List.mem_range.mp ((hperm.mem_iff).mp hx)
  have hsurj : ∀ s, s < S.length → ∃ j, j < S.length ∧ S.getD j 0 = s := by
    intro s hs
    have hm : s ∈ S := (hperm.mem_iff).mpr (List.mem_range.mpr hs)
    obtain ⟨h1, h2⟩ := getD_indexOf_of_mem S s hm
    exact ⟨_, h1, h2⟩
  have hmlen : ((makeBigArray (S.length + 1)).set 0 S.length).length = S.length + 1 := by
    simp [makeBigArray]
  obtain ⟨out, hrun, hol, h1, h2⟩ := directLoop_spec S hnd hlt S 0 _ (List.drop_zero _) hmlen
  have h0 : out.getD 0 0 = S.length := by
    rw [h2 0 (fun j' _ _ => by omega)]
    exact getD_set_self _ _ _ (by simp [makeBigArray])
  refine ⟨out, hrun, ?_, ?_⟩
  · apply List.Perm.symm
    apply List.Subperm.perm_of_length_le
    · apply List.Nodup.subperm (List.nodup_range _)
      intro v hv
      rw [List.mem_range] at hv
      by_cases e : v = S.length
      · rw [e, ← h0]
        exact getD_mem_of_lt out 0 (by omega)
      · have := h1 v (by omega) (by omega)
        rw [← this]
        exact getD_mem_of_lt out _ (by
          have := hlt _ (getD_mem_of_lt S v (by omega))
          omega)
    · rw [hol, List.length_range]
  · intro i hi1 hi2
    by_cases e : i = 1
    · subst e
      obtain ⟨j0, hj0, hs0⟩ := hsurj 0 (by omega)
      have := h1 j0 (by omega) hj0
      rw [hs0] at this
      rw [h0, Nat.zero_add] at *
      rw [this]
      exact lexLt_nil_drop S j0 hj0
    · obtain ⟨j1, hj1, hs1⟩ := hsurj (i - 2) (by omega)
      obtain ⟨j2, hj2, hs2⟩ := hsurj (i - 1) (by omega)
      have e1 := h1 j1 (by omega) hj1
      have e2 := h1 j2 (by omega) hj2
      rw [hs1, show i - 2 + 1 = i - 1 by omega] at e1
      rw [hs2, show i - 1 + 1 = i by omega] at e2
      rw [e1, e2, drop_eq_getD_cons S j1 hj1, drop_eq_getD_cons S j2 hj2, hs1, hs2]
      exact lexLt_cons_lt _ _ _ _ (by omega)

/-! ## The recursion of `BuildSuffixArray` -/

theorem NameInv.final {T g : List Nat} {cn last : Nat} {names : List Nat}
    (hg : g.Perm (List.range (T.length + 1)))
    (hinv : NameInv T g (T.length + 1) cn last names) :
    (∀ p, p ≤ T.length → isLMS T p = true → names.getD p 0 ≤ cn) ∧
    (∀ m, m ≤ cn → ∃ p, p ≤ T.length ∧ isLMS T p = true ∧ names.getD p 0 = m) ∧
    (∀ p q, p ≤ T.length → q ≤ T.length → isLMS T p = true → isLMS T q = true →
      (names.getD p 0 = names.getD q 0 → p = q ∨ BlockEq T p q) ∧
      (names.getD p 0 < names.getD q 0 → lexLt (T.drop p) (T.drop q) = true)) ∧
    names.getD T.length 0 = 0 ∧ cn ≤ T.length := by
  have hidx : ∀ p, p ≤ T.length → g.indexOf p < T.length + 1 := by
    intro p hp
    have := (perm_indexOf hg p hp).1
    omega
  refine ⟨fun p hp hl => hinv.hseen p hp hl (hidx p hp), ?_,
    fun p q hp hq hlp hlq => hinv.hpair p q hp hq hlp hlq (hidx p hp) (hidx q hq), ?_,
    by have := hinv.hcnb; omega⟩
  · intro m hm
    obtain ⟨p, h1, h2, _, h4⟩ := hinv.hsurj m hm
    exact ⟨p, h1, h2, h4⟩
  · obtain ⟨p, h1, h2, h3, h4⟩ := hinv.hsurj 0 (Nat.zero_le _)
    have := hinv.hzero p h1 h2 h3 h4
    rw [this] at h4
    exact h4

/-- The function `buildSummarySuffixArray` returns the suffix array of the
summary text, if `build` does so for every shorter text. -/
theorem buildSummary_spec (build : Text → Except Err (List Nat)) (T g : List Nat)
    (cn last : Nat) (names : List Nat) (hn64 : T.length + 1 < 2 ^ 64)
    (hm : (lmsList T).length ≤ T.length)
    (hg : g.Perm (List.range (T.length + 1)))
    (hinv : NameInv T g (T.length + 1) cn last names)
    (hbuild : ∀ st : Text, st.ba.length ≤ (lmsList T).length →
      (∀ i, i < st.ba.length → st.ba.getD i 0 < st.ab) → st.ba.length + 1 < 2 ^ 64 →
      ∃ sa, build st = .ok sa ∧ IsSuffixArray st.ba sa) :
    ∃ SSA, buildSummarySuffixArray build
        ⟨cn + 1, (lmsList T).map (fun p => names.getD p 0)⟩ = .ok SSA ∧
      IsSuffixArray ((lmsList T).map (fun p => names.getD p 0)) SSA := by
  obtain ⟨hle, hsurj, _, _, hcn⟩ := hinv.final hg
  have hmem : ∀ x, x ∈ (lmsList T).map (fun p => names.getD p 0) → x ≤ cn := by
    intro x hx
    obtain ⟨p, hp, e⟩ := List.mem_map.mp hx
    rw [mem_lmsList] at hp
    rw [← e]
    exact hle p hp.1 hp.2
  unfold buildSummarySuffixArray Text.Len Text.AlphabetSize
  simp only []
  by_cases hd : ((lmsList T).map (fun p => names.getD p 0)).length = cn + 1
  · rw [if_pos hd, SetValueAt_of_lt _ _ _ (by simp [makeBigArray])]
    simp only []
    apply direct_spec
    apply List.Perm.symm
    apply List.Subperm.perm_of_length_le
    · apply List.Nodup.subperm (List.nodup_range _)
      intro v hv
      rw [List.mem_range, hd] at hv
      obtain ⟨p, h1, h2, h3⟩ := hsurj v (by omega)
      rw [List.mem_map]
      exact ⟨p, (mem_lmsList T p).mpr ⟨h1, h2⟩, h3⟩
    · rw [List.length_range]
  · rw [if_neg hd]
    apply hbuild ⟨cn + 1, (lmsList T).map (fun p => names.getD p 0)⟩
    · simp
    · intro i hi
      have := hmem _ (getD_mem_of_lt _ i hi)
      simp only []
      omega
    · show ((lmsList T).map (fun p => names.getD p 0)).length + 1 < 2 ^ 64
      rw [List.length_map]
      omega

theorem IsSuffixArray_nil : IsSuffixArray [] [0] := by
  refine ⟨List.Perm.refl _, ?_⟩
  intro i h1 h2
  simp at h2
  omega

theorem IsSuffixArray_single (x : Nat) : IsSuffixArray [x] [1, 0] := by
  refine ⟨?_, ?_⟩
  · exact List.Perm.swap 0 1 []
  · intro i h1 h2
    have e : i = 1 := by simp at h2; omega
    subst e
    rfl

/-- Total correctness of the recursion: with a budget above the length of the
text, `BuildSuffixArray` returns the suffix array. -/
theorem BuildSuffixArrayFuel_spec : ∀ (fuel : Nat) (text : Text), text.ba.length < fuel →
    (∀ i, i < text.ba.length → text.ba.getD i 0 < text.ab) → text.ba.length + 1 < 2 ^ 64 →
    ∃ sa, BuildSuffixArrayFuel fuel text = .ok sa ∧ IsSuffixArray text.ba sa := by
  intro fuel
  induction fuel with
  | zero => intro text h; omega
  | succ fuel ih =>
    intro text hfuel hsym hn64
    rw [BuildSuffixArrayFuel]
    unfold Text.Len
    by_cases h0 : text.ba.length = 0
    · rw [if_pos h0]
      rw [List.length_eq_zero] at h0
      rw [h0]
      exact ⟨[0], rfl, IsSuffixArray_nil⟩
    rw [if_neg h0]
    by_cases h1 : text.ba.length = 1
    · rw [if_pos h1]
      obtain ⟨x, hx⟩ := List.length_eq_one.mp h1
      rw [hx]
      exact ⟨[1, 0], rfl, IsSuffixArray_single x⟩
    rw [if_neg h1]
    have hn : 1 ≤ text.ba.length := by omega
    obtain ⟨sizes, hsz1, hsl, hsz⟩ := BuildBucketSizes_spec text (by
      intro x hx
      obtain ⟨i, hi, e⟩ := List.getElem_of_mem hx
      have := hsym i hi
      rw [List.getD_eq_getElem _ 0 hi, e] at this
      exact this) (by omega)
    rw [hsz1, BuildTypeMap_eq]
    simp only []
    -- first round: guessed seeds, sorted by the LMS keys
    obtain ⟨a0, sidx, hguess, hseeds⟩ := guessLMSSort_spec text hn64 hsym hn sizes hsl hsz
    obtain ⟨g, hg⟩ := exists_sortedPerm (lmsKey text.ba) text.ba.length
    obtain ⟨a1, hL1, hR1⟩ := passes_spec hn64 hsym hn (lmsKey_keyLaw text.ba) hseeds hg
      sizes hsl hsz
    rw [hguess]
    simp only []
    rw [hL1]
    simp only []
    rw [hR1]
    simp only []
    -- the summary
    obtain ⟨cn, last, names, hsum, hinv⟩ := summarize_spec text g hn hn64 hg
    rw [hsum]
    simp only []
    obtain ⟨SSA, hssa, hsa⟩ := buildSummary_spec (BuildSuffixArrayFuel fuel) text.ba g cn last
      names hn64 (by have := lmsList_length_lt text.ba (by omega); omega) hg.1 hinv (by
        intro st h1 h2 h3
        exact ih st (by have := lmsList_length_lt text.ba (by omega); omega) h2 h3)
    rw [hssa]
    simp only []
    -- second round: exact seeds, sorted by the suffixes
    obtain ⟨_, _, hpair, hend, _⟩ := hinv.final hg.1
    obtain ⟨fa, fb, fc⟩ := ssa_facts text.ba (fun p => names.getD p 0) SSA hn hpair hend hsa
    obtain ⟨b0, sidx2, hexact, hseeds2⟩ := exactLMSSort_spec text SSA (lmsList text.ba)
      (lmsList text.ba).length hn64 hsym hn (lmsList_last text.ba hn).1
      (by rw [hsa.length_eq, List.length_map]) fa fb fc sizes hsl hsz
    obtain ⟨sao, hsao⟩ := exists_sortedPerm (csuf text.ba) text.ba.length
    obtain ⟨b1, hL2, hR2⟩ := passes_spec hn64 hsym hn (csuf_keyLaw text.ba) hseeds2 hsao
      sizes hsl hsz
    rw [hexact]
    simp only []
    rw [hL2]
    simp only []
    exact ⟨sao, hR2, (IsSuffixArray_iff text.ba sao).mpr hsao⟩

/-! ## The naive construction -/

/-- The function `NaiveBuildSuffixArray` returns the suffix array. -/
theorem NaiveBuildSuffixArray_spec (T : List Nat) : IsSuffixArray T (NaiveBuildSuffixArray T) := by
  let r : List Nat → List Nat → Prop := fun a b => lexLt b a = false
  haveI : IsTotal (List Nat) r := ⟨fun a b => by
    cases h : lexLt b a with
    | false => exact Or.inl h
    | true => exact Or.inr (lexLt_asymm b a h)⟩
  haveI : IsTrans (List Nat) r := ⟨fun a b c h1 h2 => by
    cases h : lexLt c a with
    | false => exact h
    | true =>
      exfalso
      rcases lexLt_total a b with h3 | h3 | h3
      · have := lexLt_trans c a b h h3
        rw [h2] at this
        exact absurd this (by decide)
      · rw [h3] at h
        rw [h2] at h
        exact absurd h (by decide)
      · rw [h1] at h3
        exact absurd h3 (by decide)⟩
  have hperm : (((List.range (T.length + 1)).map (fun i => T.drop i)).insertionSort r).Perm
      ((List.range (T.length + 1)).map (fun i => T.drop i)) := List.perm_insertionSort r _
  have hsorted : (((List.range (T.length + 1)).map (fun i => T.drop i)).insertionSort r).Sorted r :=
    List.sorted_insertionSort r _
  have hnd0 : ((List.range (T.length + 1)).map (fun i => T.drop i)).Nodup := by
    apply List.Nodup.map_on _ (List.nodup_range _)
    intro x hx y hy hxy
    rw [List.mem_range] at hx hy
    have := congrArg List.length hxy
    rw [List.length_drop, List.length_drop] at this
    omega
  have hnd : (((List.range (T.length + 1)).map (fun i => T.drop i)).insertionSort r).Nodup :=
    (hperm.nodup_iff).mpr hnd0
  have hlen : (((List.range (T.length + 1)).map (fun i => T.drop i)).insertionSort r).length
      = T.length + 1 := by
    rw [hperm.length_eq, List.length_map, List.length_range]
  have hdrop : ∀ s, s ∈ ((List.range (T.length + 1)).map (fun i => T.drop i)).insertionSort r →
      T.drop (T.length - s.length) = s := by
    intro s hs
    obtain ⟨k, hk, e⟩ := List.mem_map.mp ((hperm.mem_iff).mp hs)
    rw [List.mem_range] at hk
    rw [← e, List.length_drop]
    congr 1
    omega
  have hget : ∀ i, i < T.length + 1 → T.drop ((NaiveBuildSuffixArray T).getD i 0)
      = (((List.range (T.length + 1)).map (fun i => T.drop i)).insertionSort r).getD i [] := by
    intro i hi
    have hil : i < (((List.range (T.length + 1)).map (fun i => T.drop i)).insertionSort r).length := by
      rw [hlen]
      exact hi
    unfold NaiveBuildSuffixArray
    rw [List.getD_eq_getElem _ 0 (by rw [List.length_map]; exact hil), List.getElem_map,
      List.getD_eq_getElem _ [] hil]
    exact hdrop _ (List.getElem_mem _)
  refine ⟨?_, ?_⟩
  · unfold NaiveBuildSuffixArray
    have h1 := hperm.map (fun suffix : List Nat => T.length - suffix.length)
    refine h1.trans ?_
    rw [List.map_map]
    have : (List.range (T.length + 1)).map
        ((fun suffix : List Nat => T.length - suffix.length) ∘ (fun i => T.drop i))
        = (List.range (T.length + 1)).map id := by
      apply List.map_congr_left
      intro i hi
      rw [List.mem_range] at hi
      simp only [Function.comp, List.length_drop, id]
      omega
    rw [this, List.map_id]
  · intro i hi1 hi2
    have h1 : i - 1 < (((List.range (T.length + 1)).map (fun i => T.drop i)).insertionSort r).length := by
      rw [hlen]
      omega
    have h2 : i < (((List.range (T.length + 1)).map (fun i => T.drop i)).insertionSort r).length := by
      rw [hlen]
      omega
    rw [hget (i - 1) (by omega), hget i (by omega), List.getD_eq_getElem _ [] h1,
      List.getD_eq_getElem _ [] h2]
    have hrel := List.pairwise_iff_getElem.mp hsorted (i - 1) i h1 h2 (by omega)
    rcases lexLt_total
      (((List.range (T.length + 1)).map (fun i => T.drop i)).insertionSort r)[i - 1]
      (((List.range (T.length + 1)).map (fun i => T.drop i)).insertionSort r)[i] with h | h | h
    · exact h
    · exfalso
      have := (hnd.getElem_inj_iff).mp h
      omega
    · exfalso
      rw [hrel] at h
      exact absurd h (by decide)

/-! ## `BuildSuffixArray` -/

/-- Total correctness of `BuildSuffixArray`: on a text whose symbols lie below
its alphabet size it returns the suffix array of the text. -/
theorem BuildSuffixArray_spec (text : Text) (hsym : ∀ x ∈ text.ba, x < text.AlphabetSize)
    (hlen : text.Len + 1 < 2 ^ 64) :
    ∃ sa, BuildSuffixArray text = .ok sa ∧ IsSuffixArray text.ba sa := by
  unfold BuildSuffixArray
  apply BuildSuffixArrayFuel_spec (1 + text.Len) text (by unfold Text.Len; omega) _ hlen
  intro i hi
  exact hsym _ (getD_mem_of_lt text.ba i hi)

/-- C1: for every text whose symbols lie below its alphabet size (and whose
length fits a `uint64` with room for the end marker), `BuildSuffixArray`
succeeds and returns exactly `NaiveBuildSuffixArray` of the text, the start
offsets of all `n + 1` suffixes in lexicographic order. -/
theorem BuildSuffixArray_eq_naive (text : Text) (hsym : ∀ x ∈ text.ba, x < text.AlphabetSize)
    (hlen : text.Len + 1 < 2 ^ 64) :
    BuildSuffixArray text = .ok (NaiveBuildSuffixArray text.ba) ∧
    IsSuffixArray text.ba (NaiveBuildSuffixArray text.ba) := by
  obtain ⟨sa, h1, h2⟩ := BuildSuffixArray_spec text hsym hlen
  have h3 := NaiveBuildSuffixArray_spec text.ba
  have e : sa = NaiveBuildSuffixArray text.ba :=
    SortedPerm.unique (klt_asymm (csuf text.ba)) ((IsSuffixArray_iff _ _).mp h2)
      ((IsSuffixArray_iff _ _).mp h3)
  rw [h1, e]
  exact ⟨rfl, h3⟩

/-- Witness for `BuildSuffixArray_eq_naive`: the text `"banana"`. -/
theorem BuildSuffixArray_eq_naive_witness :
    ((∀ x ∈ (NewTextFromString [98, 97, 110, 97, 110, 97]).ba,
        x < (NewTextFromString [98, 97, 110, 97, 110, 97]).AlphabetSize) ∧
      (NewTextFromString [98, 97, 110, 97, 110, 97]).Len + 1 < 2 ^ 64) ∧
    BuildSuffixArray (NewTextFromString [98, 97, 110, 97, 110, 97])
      = .ok (NaiveBuildSuffixArray (NewTextFromString [98, 97, 110, 97, 110, 97]).ba) ∧
    IsSuffixArray (NewTextFromString [98, 97, 110, 97, 110, 97]).ba
      (NaiveBuildSuffixArray (NewTextFromString [98, 97, 110, 97, 110, 97]).ba) :=
  ⟨⟨by decide, by decide⟩,
    BuildSuffixArray_eq_naive (NewTextFromString [98, 97, 110, 97, 110, 97]) (by decide)
      (by decide)⟩

/-- C2: the array that `BuildSuffixArray` returns is sorted: for all
`1 ≤ i ≤ n` the suffix at `SA[i - 1]` is strictly smaller than the suffix at
`SA[i]`, the end of the text being smaller than every symbol. -/
theorem BuildSuffixArray_sorted (text : Text) (hsym : ∀ x ∈ text.ba, x < text.AlphabetSize)
    (hlen : text.Len + 1 < 2 ^ 64) :
    ∃ sa, BuildSuffixArray text = .ok sa ∧
      ∀ i, 1 ≤ i → i ≤ text.Len →
        lexLt (text.ba.drop (sa.getD (i - 1) 0)) (text.ba.drop (sa.getD i 0)) = true := by
  obtain ⟨sa, h1, h2⟩ := BuildSuffixArray_spec text hsym hlen
  exact ⟨sa, h1, h2.2⟩

/-- Witness for `BuildSuffixArray_sorted`: the text `"mississippi"`. -/
theorem BuildSuffixArray_sorted_witness :
    ((∀ x ∈ (NewTextFromString [109, 105, 115, 115, 105, 115, 115, 105, 112, 112, 105]).ba,
        x < (NewTextFromString [109, 105, 115, 115, 105, 115, 115, 105, 112, 112, 105]).AlphabetSize) ∧
      (NewTextFromString [109, 105, 115, 115, 105, 115, 115, 105, 112, 112, 105]).Len + 1
        < 2 ^ 64) ∧
    ∃ sa, BuildSuffixArray
        (NewTextFromString [109, 105, 115, 115, 105, 115, 115, 105, 112, 112, 105]) = .ok sa ∧
      ∀ i, 1 ≤ i →
        i ≤ (NewTextFromString [109, 105, 115, 115, 105, 115, 115, 105, 112, 112, 105]).Len →
        lexLt
          ((NewTextFromString [109, 105, 115, 115, 105, 115, 115, 105, 112, 112, 105]).ba.drop
            (sa.getD (i - 1) 0))
          ((NewTextFromString [109, 105, 115, 115, 105, 115, 115, 105, 112, 112, 105]).ba.drop
            (sa.getD i 0)) = true :=
  ⟨⟨by decide, by decide⟩,
    BuildSuffixArray_sorted
      (NewTextFromString [109, 105, 115, 115, 105, 115, 115, 105, 112, 112, 105]) (by decide)
      (by decide)⟩

/-- C3: `BuildSuffixArray` returns an array of length `n + 1` that is a
permutation of `0 .. n`: every offset appears exactly once and no
`placeholder` remains. -/
theorem BuildSuffixArray_permutation (text : Text)
    (hsym : ∀ x ∈ text.ba, x < text.AlphabetSize) (hlen : text.Len + 1 < 2 ^ 64) :
    ∃ sa, BuildSuffixArray text = .ok sa ∧ sa.length = text.Len + 1 ∧
      sa.Perm (List.range (text.Len + 1)) ∧
      (∀ p, p ≤ text.Len → sa.count p = 1) ∧
      ∀ x ∈ sa, x ≠ placeholder := by
  obtain ⟨sa, h1, h2⟩ := BuildSuffixArray_spec text hsym hlen
  refine ⟨sa, h1, h2.length_eq, h2.1, ?_, ?_⟩
  · intro p hp
    have hnd : sa.Nodup := (h2.1.nodup_iff).mpr (List.nodup_range _)
    exact List.count_eq_one_of_mem hnd ((h2.1.mem_iff).mpr (List.mem_range.mpr (by
      unfold Text.Len at hp
      omega)))
  · intro x hx
    have := List.mem_range.mp ((h2.1.mem_iff).mp hx)
    unfold Text.Len at hlen
    unfold placeholder
    omega

/-- Witness for `BuildSuffixArray_permutation`: the text `"abracadabra"`. -/
theorem BuildSuffixArray_permutation_witness :
    ((∀ x ∈ (NewTextFromString [97, 98, 114, 97, 99, 97, 100, 97, 98, 114, 97]).ba,
        x < (NewTextFromString [97, 98, 114, 97, 99, 97, 100, 97, 98, 114, 97]).AlphabetSize) ∧
      (NewTextFromString [97, 98, 114, 97, 99, 97, 100, 97, 98, 114, 97]).Len + 1 < 2 ^ 64) ∧
    ∃ sa, BuildSuffixArray (NewTextFromString [97, 98, 114, 97, 99, 97, 100, 97, 98, 114, 97])
        = .ok sa ∧
      sa.length = (NewTextFromString [97, 98, 114, 97, 99, 97, 100, 97, 98, 114, 97]).Len + 1 ∧
      sa.Perm (List.range
        ((NewTextFromString [97, 98, 114, 97, 99, 97, 100, 97, 98, 114, 97]).Len + 1)) ∧
      (∀ p, p ≤ (NewTextFromString [97, 98, 114, 97, 99, 97, 100, 97, 98, 114, 97]).Len →
        sa.count p = 1) ∧
      ∀ x ∈ sa, x ≠ placeholder :=
  ⟨⟨by decide, by decide⟩,
    BuildSuffixArray_permutation
      (NewTextFromString [97, 98, 114, 97, 99, 97, 100, 97, 98, 114, 97]) (by decide)
      (by decide)⟩

/-- C4: the first entry of the array that `BuildSuffixArray` returns is `n`,
the offset of the empty suffix at the end of the text. -/
theorem BuildSuffixArray_first (text : Text) (hsym : ∀ x ∈ text.ba, x < text.AlphabetSize)
    (hlen : text.Len + 1 < 2 ^ 64) :
    ∃ sa, BuildSuffixArray text = .ok sa ∧ sa.getD 0 0 = text.Len := by
  obtain ⟨sa, h1, h2⟩ := BuildSuffixArray_spec text hsym hlen
  exact ⟨sa, h1, h2.head⟩

/-- Witness for `BuildSuffixArray_first`: the text `"cabbage"`. -/
theorem BuildSuffixArray_first_witness :
    ((∀ x ∈ (NewTextFromString [99, 97, 98, 98, 97, 103, 101]).ba,
        x < (NewTextFromString [99, 97, 98, 98, 97, 103, 101]).AlphabetSize) ∧
      (NewTextFromString [99, 97, 98, 98, 97, 103, 101]).Len + 1 < 2 ^ 64) ∧
    ∃ sa, BuildSuffixArray (NewTextFromString [99, 97, 98, 98, 97, 103, 101]) = .ok sa ∧
      sa.getD 0 0 = (NewTextFromString [99, 97, 98, 98, 97, 103, 101]).Len :=
  ⟨⟨by decide, by decide⟩,
    BuildSuffixArray_first (NewTextFromString [99, 97, 98, 98, 97, 103, 101]) (by decide)
      (by decide)⟩

/-! # The type map -/

/-- C13: `BuildTypeMap(T)` has `n + 1` bits; bit `n` is `S`; bit `n - 1` is
`L` when `n ≥ 1`; and for every `i ≤ n - 2` bit `i` is `L` if
`T[i] > T[i+1]`, `S` if `T[i] < T[i+1]`, and bit `i + 1` if the two symbols are
equal. -/
theorem BuildTypeMap_recurrence (text : Text) :
    (BuildTypeMap text).length = text.Len + 1 ∧
    (BuildTypeMap text).TypeAt text.Len = .ok SType ∧
    (1 ≤ text.Len → (BuildTypeMap text).TypeAt (text.Len - 1) = .ok LType) ∧
    ∀ i, i + 2 ≤ text.Len →
      ∃ next, (BuildTypeMap text).TypeAt (i + 1) = .ok next ∧
        (BuildTypeMap text).TypeAt i = .ok
          (if text.ba.getD i 0 > text.ba.getD (i + 1) 0 then LType
            else if text.ba.getD i 0 < text.ba.getD (i + 1) 0 then SType
            else next) := by
  rw [BuildTypeMap_eq]
  unfold Text.Len
  refine ⟨types_length _, ?_, ?_, ?_⟩
  · rw [TypeAt_types _ _ (Nat.le_refl _), isL_length]
    rfl
  · intro h
    rw [TypeAt_types _ _ (by omega), isL_last _ h]
    rfl
  · intro i hi
    refine ⟨isL text.ba (i + 1), TypeAt_types _ _ (by omega), ?_⟩
    rw [TypeAt_types _ _ (by omega), isL_step _ i (by omega)]
    by_cases h1 : text.ba.getD i 0 > text.ba.getD (i + 1) 0
    · rw [if_pos h1, decide_eq_true h1]
      rfl
    · rw [if_neg h1]
      by_cases h2 : text.ba.getD i 0 < text.ba.getD (i + 1) 0
      · rw [if_pos h2]
        have h3 : ¬ text.ba.getD i 0 = text.ba.getD (i + 1) 0 := by omega
        rw [decide_eq_false h1, decide_eq_false h3]
        rfl
      · rw [if_neg h2]
        have h3 : text.ba.getD i 0 = text.ba.getD (i + 1) 0 := by omega
        rw [decide_eq_false h1, decide_eq_true h3]
        rfl

/-- C14: for a text of length `n ≥ 1` and a position `i < n`, `BuildTypeMap`
marks `i` as S-type exactly when the suffix at `i` is smaller than the suffix
at `i + 1` (the end of the text being smaller than every symbol), and as
L-type exactly when it is greater. -/
theorem BuildTypeMap_suffix_order (text : Text) (i : Nat) (hi : i < text.Len) :
    ((BuildTypeMap text).TypeAt i = .ok SType ↔
      lexLt (text.ba.drop i) (text.ba.drop (i + 1)) = true) ∧
    ((BuildTypeMap text).TypeAt i = .ok LType ↔
      lexLt (text.ba.drop (i + 1)) (text.ba.drop i) = true) := by
  unfold Text.Len at hi
  rw [BuildTypeMap_eq, TypeAt_types _ _ (by omega), ← isS_iff _ i hi, ← isL_iff _ i hi]
  constructor
  · constructor
    · intro h
      injection h
    · intro h
      rw [h]
      rfl
  · constructor
    · intro h
      injection h
    · intro h
      rw [h]
      rfl

/-- Witness for `BuildTypeMap_suffix_order`: position 2 of `"banana"`. -/
theorem BuildTypeMap_suffix_order_witness :
    2 < (NewTextFromString [98, 97, 110, 97, 110, 97]).Len ∧
    (((BuildTypeMap (NewTextFromString [98, 97, 110, 97, 110, 97])).TypeAt 2 = .ok SType ↔
      lexLt ((NewTextFromString [98, 97, 110, 97, 110, 97]).ba.drop 2)
        ((NewTextFromString [98, 97, 110, 97, 110, 97]).ba.drop (2 + 1)) = true) ∧
    ((BuildTypeMap (NewTextFromString [98, 97, 110, 97, 110, 97])).TypeAt 2 = .ok LType ↔
      lexLt ((NewTextFromString [98, 97, 110, 97, 110, 97]).ba.drop (2 + 1))
        ((NewTextFromString [98, 97, 110, 97, 110, 97]).ba.drop 2) = true)) :=
  ⟨by decide, BuildTypeMap_suffix_order (NewTextFromString [98, 97, 110, 97, 110, 97]) 2
    (by decide)⟩

/-- C15: for every type map and every index `i` inside it, `IsLMS(i)` returns
without error, and returns `true` exactly when `i ≥ 1`, bit `i - 1` is `L` and
bit `i` is `S`; `IsLMS(0)` is `false` without error; and on the map built from
a text of length `n ≥ 1`, `IsLMS(n)` is `true`. -/
theorem TypeMap_IsLMS_iff (typeMap : TypeMap) (i : Nat) (hi : i < typeMap.length) :
    (∃ b, typeMap.IsLMS i = .ok b ∧
      (b = true ↔ 1 ≤ i ∧ typeMap.TypeAt (i - 1) = .ok LType ∧ typeMap.TypeAt i = .ok SType)) ∧
    typeMap.IsLMS 0 = .ok false ∧
    ∀ text : Text, 1 ≤ text.Len → (BuildTypeMap text).IsLMS text.Len = .ok true := by
  refine ⟨?_, ?_, ?_⟩
  · unfold TypeMap.IsLMS TypeMap.TypeAt
    by_cases h : i < 1
    · rw [if_pos h]
      exact ⟨false, rfl, by constructor <;> intro h2 <;> [exact absurd h2 (by decide); omega]⟩
    · rw [if_neg h]
      have h1 : i - 1 < typeMap.length := by omega
      rw [List.getElem?_eq_getElem h1, List.getElem?_eq_getElem hi]
      simp only []
      refine ⟨_, rfl, ?_⟩
      cases typeMap[i - 1] <;> cases typeMap[i] <;> simp [SType, LType]
      all_goals omega
  · rfl
  · intro text hn
    rw [BuildTypeMap_eq]
    unfold Text.Len at hn ⊢
    rw [IsLMS_types _ _ (Nat.le_refl _), isLMS_length _ hn]

/-- Witness for `TypeMap_IsLMS_iff`: index 1 of the type map `L S L S`. -/
theorem TypeMap_IsLMS_iff_witness :
    1 < ([true, false, true, false] : TypeMap).length ∧
    ((∃ b, TypeMap.IsLMS [true, false, true, false] 1 = .ok b ∧
      (b = true ↔ 1 ≤ 1 ∧ TypeMap.TypeAt [true, false, true, false] (1 - 1) = .ok LType ∧
        TypeMap.TypeAt [true, false, true, false] 1 = .ok SType)) ∧
    TypeMap.IsLMS [true, false, true, false] 0 = .ok false ∧
    ∀ text : Text, 1 ≤ text.Len → (BuildTypeMap text).IsLMS text.Len = .ok true) :=
  ⟨by decide, TypeMap_IsLMS_iff [true, false, true, false] 1 (by decide)⟩

/-! # The buckets -/

theorem sz_eq_count (T : List Nat) (c : Nat) : sz T c = T.count c := by
  unfold sz
  rw [List.count_eq_countP]
  apply List.countP_congr
  intro x _
  simp

theorem sum_sz (T : List Nat) : ∀ sigma, ((List.range sigma).map (sz T)).sum + 1 = hd T sigma := by
  intro sigma
  induction sigma with
  | zero => rw [hd_zero]; rfl
  | succ sigma ih =>
    rw [List.range_succ, List.map_append, List.sum_append, hd_succ, ← ih]
    simp only [List.map_cons, List.map_nil, List.sum_cons, List.sum_nil]
    omega

theorem sum_take_next (l : List Nat) (c : Nat) (h : c < l.length) :
    (l.take (c + 1)).sum = (l.take c).sum + l.getD c 0 := by
  induction l generalizing c with
  | nil => simp at h
  | cons a l ih =>
    cases c with
    | zero => simp
    | succ c =>
      rw [List.take_succ_cons, List.sum_cons, ih c (by simpa using h), List.take_succ_cons,
        List.sum_cons, List.getD_cons_succ]
      omega

theorem sum_take_le (l : List Nat) (c : Nat) : (l.take c).sum ≤ l.sum := by
  induction l generalizing c with
  | nil => simp
  | cons a l ih =>
    cases c with
    | zero => simp
    | succ c =>
      rw [List.take_succ_cons, List.sum_cons, List.sum_cons]
      have := ih c
      omega

/-- C17: for a text over an alphabet of size `sigma` whose symbols are all
below `sigma` (its length being a `uint64`), `BuildBucketSizes` returns an
array of length `sigma` whose entry `c` is the number of positions that hold
`c`; the counts add up to the length of the text. -/
theorem BuildBucketSizes_counts (text : Text) (hsym : ∀ x ∈ text.ba, x < text.AlphabetSize)
    (hlen : text.Len < 2 ^ 64) :
    ∃ sizes, BuildBucketSizes text = .ok sizes ∧ sizes.length = text.AlphabetSize ∧
      (∀ c, c < text.AlphabetSize → sizes.getD c 0 = text.ba.count c) ∧
      sizes.sum = text.Len := by
  obtain ⟨sizes, hrun, hl, hv⟩ := BuildBucketSizes_spec text hsym hlen
  refine ⟨sizes, hrun, hl, fun c _ => by rw [hv c, sz_eq_count], ?_⟩
  have e : sizes = (List.range text.ab).map (sz text.ba) := by
    apply list_ext_getD _ _ text.ab hl (by simp)
    intro x hx
    rw [hv x, List.getD_eq_getElem _ 0 (by simpa using hx)]
    simp
  have h1 := sum_sz text.ba text.ab
  have h2 : hd text.ba text.ab = 1 + text.ba.length := by
    unfold hd
    congr 1
    rw [List.countP_eq_length]
    intro a ha
    simpa using hsym a ha
  rw [e]
  unfold Text.Len
  omega

/-- Witness for `BuildBucketSizes_counts`: the text of the repository's test,
`"cabbage"` over the alphabet `a .. g`. -/
theorem BuildBucketSizes_counts_witness :
    ((∀ x ∈ (Text.mk 7 [2, 0, 1, 1, 0, 6, 4]).ba, x < (Text.mk 7 [2, 0, 1, 1, 0, 6, 4]).AlphabetSize) ∧
      (Text.mk 7 [2, 0, 1, 1, 0, 6, 4]).Len < 2 ^ 64) ∧
    ∃ sizes, BuildBucketSizes (Text.mk 7 [2, 0, 1, 1, 0, 6, 4]) = .ok sizes ∧
      sizes.length = (Text.mk 7 [2, 0, 1, 1, 0, 6, 4]).AlphabetSize ∧
      (∀ c, c < (Text.mk 7 [2, 0, 1, 1, 0, 6, 4]).AlphabetSize →
        sizes.getD c 0 = (Text.mk 7 [2, 0, 1, 1, 0, 6, 4]).ba.count c) ∧
      sizes.sum = (Text.mk 7 [2, 0, 1, 1, 0, 6, 4]).Len :=
  ⟨⟨by decide, by decide⟩,
    BuildBucketSizes_counts (Text.mk 7 [2, 0, 1, 1, 0, 6, 4]) (by decide) (by decide)⟩

theorem bucketHeadsLoop_sum : ∀ (l : List Nat) (offset : Nat), offset + l.sum < 2 ^ 64 →
    (bucketHeadsLoop offset l).length = l.length ∧
    ∀ c, c < l.length → (bucketHeadsLoop offset l).getD c 0 = offset + (l.take c).sum
  | [], _, _ => ⟨rfl, fun c hc => by simp at hc⟩
  | count :: rest, offset, h => by
    rw [List.sum_cons] at h
    rw [bucketHeadsLoop, add64_of_lt _ _ (by omega)]
    obtain ⟨ih1, ih2⟩ := bucketHeadsLoop_sum rest (offset + count) (by omega)
    refine ⟨by simp [ih1], ?_⟩
    intro c hc
    cases c with
    | zero => simp
    | succ c =>
      rw [List.getD_cons_succ, ih2 c (by simpa using hc), List.take_succ_cons, List.sum_cons]
      omega

theorem bucketTailsLoop_sum : ∀ (l : List Nat) (offset : Nat), 1 ≤ offset →
    offset + l.sum < 2 ^ 64 →
    (bucketTailsLoop offset l).length = l.length ∧
    ∀ c, c < l.length → (bucketTailsLoop offset l).getD c 0 + 1 = offset + (l.take (c + 1)).sum
  | [], _, _, _ => ⟨rfl, fun c hc => by simp at hc⟩
  | count :: rest, offset, h1, h => by
    rw [List.sum_cons] at h
    rw [bucketTailsLoop, add64_of_lt _ _ (by omega), dec64_of_pos _ (by omega) (by omega)]
    obtain ⟨ih1, ih2⟩ := bucketTailsLoop_sum rest (offset + count) (by omega) (by omega)
    refine ⟨by simp [ih1], ?_⟩
    intro c hc
    cases c with
    | zero =>
      rw [List.getD_cons_zero]
      simp
      omega
    | succ c =>
      rw [List.getD_cons_succ, ih2 c (by simpa using hc), List.take_succ_cons, List.sum_cons]
      omega

/-- C18 holds when the running offset does not wrap around: for bucket sizes
with a total below `2 ^ 64 - 1`, `BuildBucketHeads` returns an array of the
same length with `heads[c] = 1 + (count[0] + ... + count[c-1])`; so
`heads[0] = 1` and `heads` is non-decreasing. -/
theorem BuildBucketHeads_sums (bucketSizes : List Nat) (htot : bucketSizes.sum < 2 ^ 64 - 1) :
    (BuildBucketHeads bucketSizes).length = bucketSizes.length ∧
    (∀ c, c < bucketSizes.length →
      (BuildBucketHeads bucketSizes).getD c 0 = 1 + (bucketSizes.take c).sum) ∧
    (bucketSizes ≠ [] → (BuildBucketHeads bucketSizes).getD 0 0 = 1) ∧
    ∀ c c', c ≤ c' → c' < bucketSizes.length →
      (BuildBucketHeads bucketSizes).getD c 0 ≤ (BuildBucketHeads bucketSizes).getD c' 0 := by
  unfold BuildBucketHeads
  obtain ⟨h1, h2⟩ := bucketHeadsLoop_sum bucketSizes 1 (by omega)
  refine ⟨h1, h2, ?_, ?_⟩
  · intro hne
    rw [h2 0 (List.length_pos.mpr hne)]
    simp
  · intro c c' hcc hc'
    rw [h2 c (by omega), h2 c' hc']
    have e : bucketSizes.take c = (bucketSizes.take c').take c := by
      rw [List.take_take, Nat.min_eq_left hcc]
    have := sum_take_le (bucketSizes.take c') c
    rw [← e] at this
    omega

/-- Witness for `BuildBucketHeads_sums`: the bucket sizes of `"cabbage"`. -/
theorem BuildBucketHeads_sums_witness :
    ([2, 2, 1, 0, 1, 0, 1] : List Nat).sum < 2 ^ 64 - 1 ∧
    ((BuildBucketHeads [2, 2, 1, 0, 1, 0, 1]).length = ([2, 2, 1, 0, 1, 0, 1] : List Nat).length ∧
    (∀ c, c < ([2, 2, 1, 0, 1, 0, 1] : List Nat).length →
      (BuildBucketHeads [2, 2, 1, 0, 1, 0, 1]).getD c 0
        = 1 + (([2, 2, 1, 0, 1, 0, 1] : List Nat).take c).sum) ∧
    (([2, 2, 1, 0, 1, 0, 1] : List Nat) ≠ [] →
      (BuildBucketHeads [2, 2, 1, 0, 1, 0, 1]).getD 0 0 = 1) ∧
    ∀ c c', c ≤ c' → c' < ([2, 2, 1, 0, 1, 0, 1] : List Nat).length →
      (BuildBucketHeads [2, 2, 1, 0, 1, 0, 1]).getD c 0
        ≤ (BuildBucketHeads [2, 2, 1, 0, 1, 0, 1]).getD c' 0) :=
  ⟨by decide, BuildBucketHeads_sums [2, 2, 1, 0, 1, 0, 1] (by decide)⟩

/-- C18 as it is written fails: on the bucket sizes `[2 ^ 64 - 1, 1]` the
running offset `1 + (2 ^ 64 - 1)` wraps around to `0`, so `heads[1] = 0`, which
is neither `1 + count[0]` nor at least `heads[0] = 1`. -/
theorem BuildBucketHeads_wraps :
    BuildBucketHeads [2 ^ 64 - 1, 1] = [1, 0] ∧
    (BuildBucketHeads [2 ^ 64 - 1, 1]).getD 1 0 ≠ 1 + (([2 ^ 64 - 1, 1] : List Nat).take 1).sum ∧
    ¬ ((BuildBucketHeads [2 ^ 64 - 1, 1]).getD 0 0 ≤ (BuildBucketHeads [2 ^ 64 - 1, 1]).getD 1 0) := by
  have e : BuildBucketHeads [2 ^ 64 - 1, 1] = [1, 0] := by
    unfold BuildBucketHeads
    rw [bucketHeadsLoop, bucketHeadsLoop, bucketHeadsLoop]
    have : add64 1 (2 ^ 64 - 1) = 0 := by
      unfold add64
      norm_num
    rw [this]
  rw [e]
  refine ⟨rfl, ?_, ?_⟩
  · simp
  · simp

/-- C19: for bucket sizes with a total below `2 ^ 64 - 1`, `BuildBucketTails`
returns `tails[c]` with `tails[c] + 1 = heads[c] + count[c]`: the decrement
never starts from zero, so nothing wraps around, and an empty bucket gets
`heads[c] - 1`, where `heads[c] ≥ 1`; the tail of the last bucket is the sum of
all counts. -/
theorem BuildBucketTails_law (bucketSizes : List Nat) (htot : bucketSizes.sum < 2 ^ 64 - 1) :
    (BuildBucketTails bucketSizes).length = bucketSizes.length ∧
    (∀ c, c < bucketSizes.length →
      (BuildBucketTails bucketSizes).getD c 0 + 1
        = (BuildBucketHeads bucketSizes).getD c 0 + bucketSizes.getD c 0 ∧
      1 ≤ (BuildBucketHeads bucketSizes).getD c 0 ∧
      (bucketSizes.getD c 0 = 0 →
        (BuildBucketTails bucketSizes).getD c 0 = (BuildBucketHeads bucketSizes).getD c 0 - 1)) ∧
    (bucketSizes ≠ [] →
      (BuildBucketTails bucketSizes).getD (bucketSizes.length - 1) 0 = bucketSizes.sum) := by
  unfold BuildBucketTails BuildBucketHeads
  obtain ⟨h1, h2⟩ := bucketHeadsLoop_sum bucketSizes 1 (by omega)
  obtain ⟨t1, t2⟩ := bucketTailsLoop_sum bucketSizes 1 (Nat.le_refl _) (by omega)
  refine ⟨t1, ?_, ?_⟩
  · intro c hc
    have e := sum_take_next bucketSizes c hc
    have ht := t2 c hc
    have hh := h2 c hc
    refine ⟨by omega, by omega, fun h0 => by omega⟩
  · intro hne
    have hpos := List.length_pos.mpr hne
    have ht := t2 (bucketSizes.length - 1) (by omega)
    rw [show bucketSizes.length - 1 + 1 = bucketSizes.length by omega, List.take_length] at ht
    omega

/-- Witness for `BuildBucketTails_law`: the bucket sizes of `"cabbage"`, two
of them empty. -/
theorem BuildBucketTails_law_witness :
    ([2, 2, 1, 0, 1, 0, 1] : List Nat).sum < 2 ^ 64 - 1 ∧
    ((BuildBucketTails [2, 2, 1, 0, 1, 0, 1]).length = ([2, 2, 1, 0, 1, 0, 1] : List Nat).length ∧
    (∀ c, c < ([2, 2, 1, 0, 1, 0, 1] : List Nat).length →
      (BuildBucketTails [2, 2, 1, 0, 1, 0, 1]).getD c 0 + 1
        = (BuildBucketHeads [2, 2, 1, 0, 1, 0, 1]).getD c 0
          + ([2, 2, 1, 0, 1, 0, 1] : List Nat).getD c 0 ∧
      1 ≤ (BuildBucketHeads [2, 2, 1, 0, 1, 0, 1]).getD c 0 ∧
      (([2, 2, 1, 0, 1, 0, 1] : List Nat).getD c 0 = 0 →
        (BuildBucketTails [2, 2, 1, 0, 1, 0, 1]).getD c 0
          = (BuildBucketHeads [2, 2, 1, 0, 1, 0, 1]).getD c 0 - 1)) ∧
    (([2, 2, 1, 0, 1, 0, 1] : List Nat) ≠ [] →
      (BuildBucketTails [2, 2, 1, 0, 1, 0, 1]).getD
        (([2, 2, 1, 0, 1, 0, 1] : List Nat).length - 1) 0
        = ([2, 2, 1, 0, 1, 0, 1] : List Nat).sum)) :=
  ⟨by decide, BuildBucketTails_law [2, 2, 1, 0, 1, 0, 1] (by decide)⟩

/-! # Base case and LMS substrings -/

/-- C20: `BuildSuffixArray` of the empty text, over any alphabet, returns the
one-element array `[0]`. -/
theorem BuildSuffixArray_empty (sigma : Nat) : BuildSuffixArray ⟨sigma, []⟩ = .ok [0] := by
  unfold BuildSuffixArray Text.Len
  rw [show 1 + ([] : List Nat).length = 0 + 1 from rfl, BuildSuffixArrayFuel]
  rfl

/-- C16 (counterexample): in the byte text `"babab"` the LMS
positions are 1, 3 and the end of the text, 5.  The LMS substring at 1 is
`T[1 .. 3] = "aba"`; the one at 3 runs into the end of the text, `"ab"`
followed by the sentinel.  `LMSSubstringsAreEqual(1, 3)` answers `true`: at
`k = 2` both `1 + k` and `3 + k` are LMS positions and the loop returns before
it looks at a symbol, so it never sees that one side stands on the symbol `a`
and the other on the end of the text.  The same early return leaves the
closing symbols uncompared: in `"cacacbd"` the LMS substrings at 1 and 3 are
`"aca"` and `"acb"`, and the answer is `true` as well. -/
theorem LMSSubstringsAreEqual_misses_sentinel :
    (NewTextFromString [98, 97, 98, 97, 98]).Len = 5 ∧
    TypeMap.IsLMS (BuildTypeMap (NewTextFromString [98, 97, 98, 97, 98])) 1 = .ok true ∧
    TypeMap.IsLMS (BuildTypeMap (NewTextFromString [98, 97, 98, 97, 98])) 2 = .ok false ∧
    TypeMap.IsLMS (BuildTypeMap (NewTextFromString [98, 97, 98, 97, 98])) 3 = .ok true ∧
    TypeMap.IsLMS (BuildTypeMap (NewTextFromString [98, 97, 98, 97, 98])) 4 = .ok false ∧
    TypeMap.IsLMS (BuildTypeMap (NewTextFromString [98, 97, 98, 97, 98])) 5 = .ok true ∧
    TypeMap.LMSSubstringsAreEqual (BuildTypeMap (NewTextFromString [98, 97, 98, 97, 98]))
      (NewTextFromString [98, 97, 98, 97, 98]) 1 3 = .ok true ∧
    TypeMap.IsLMS (BuildTypeMap (NewTextFromString [99, 97, 99, 97, 99, 98, 100])) 1 = .ok true ∧
    TypeMap.IsLMS (BuildTypeMap (NewTextFromString [99, 97, 99, 97, 99, 98, 100])) 2 = .ok false ∧
    TypeMap.IsLMS (BuildTypeMap (NewTextFromString [99, 97, 99, 97, 99, 98, 100])) 3 = .ok true ∧
    TypeMap.IsLMS (BuildTypeMap (NewTextFromString [99, 97, 99, 97, 99, 98, 100])) 4 = .ok false ∧
    TypeMap.IsLMS (BuildTypeMap (NewTextFromString [99, 97, 99, 97, 99, 98, 100])) 5 = .ok true ∧
    (NewTextFromString [99, 97, 99, 97, 99, 98, 100]).SymbolAt 3 = .ok 97 ∧
    (NewTextFromString [99, 97, 99, 97, 99, 98, 100]).SymbolAt 5 = .ok 98 ∧
    TypeMap.LMSSubstringsAreEqual (BuildTypeMap (NewTextFromString [99, 97, 99, 97, 99, 98, 100]))
      (NewTextFromString [99, 97, 99, 97, 99, 98, 100]) 1 3 = .ok true :=
  ⟨rfl, rfl, rfl, rfl, rfl, rfl, rfl, rfl, rfl, rfl, rfl, rfl, rfl, rfl, rfl⟩

/-! # The LCP-LR array: allocation and truncation -/

theorem buildLCPLR_leaf_shape (H : List Nat) (fuel : Nat) (Lin : List Nat) (k lo hi v : Nat)
    (Lout : List Nat) (hd : ¬ hi - lo > 3)
    (h : buildLCPLR (fuel + 1) Lin H k lo hi = .ok (v, Lout)) : Lout = Lin.set k v := by
  rw [buildLCPLR] at h
  simp only [SetValueAt] at h
  split_ifs at h <;> (repeat' split at h) <;> simp_all

theorem buildLCPLR_node_shape (H : List Nat) (fuel : Nat) (Lin : List Nat) (k lo hi v : Nat)
    (Lout : List Nat) (hd : hi - lo > 3)
    (h : buildLCPLR (fuel + 1) Lin H k lo hi = .ok (v, Lout)) :
    ∃ h0 L1 h3 L2, buildLCPLR fuel Lin H (2 * k + 1) lo (lo + (hi - lo) / 2 - 1) = .ok (h0, L1) ∧
      buildLCPLR fuel L1 H (2 * k + 2) (lo + (hi - lo) / 2 + 1) hi = .ok (h3, L2) ∧
      Lout = L2.set k v := by
  rw [buildLCPLR, if_neg (by omega), if_pos hd] at h
  simp only [SetValueAt] at h
  (repeat' split at h) <;> try (simp at h; done)
  rename_i _ _ _ hr1 _ _ _ _ _ _ _ _ _ hr2 _ _ hset
  simp only [Except.ok.injEq, Prod.mk.injEq] at h
  refine ⟨_, _, _, _, hr1, hr2, ?_⟩
  split_ifs at hset
  simp only [Except.ok.injEq] at hset
  rw [← h.2, ← hset, h.1]

/-- The fill writes visited cells only: a cell whose index no call reaches
keeps the value it had. -/
theorem buildLCPLR_frame (H : List Nat) : ∀ (fuel : Nat) (Lin : List Nat) (k lo hi v : Nat)
    (Lout : List Nat), buildLCPLR fuel Lin H k lo hi = .ok (v, Lout) →
    ∀ x, (∀ lo1 hi1, ¬ Visits k lo hi x lo1 hi1) → Lout[x]? = Lin[x]? := by
  intro fuel
  induction fuel with
  | zero =>
    intro Lin k lo hi v Lout h
    rw [buildLCPLR] at h
    exact absurd h (by simp)
  | succ fuel ih =>
    intro Lin k lo hi v Lout h x hx
    have hxk : k ≠ x := fun he => hx lo hi (he ▸ Visits.here k lo hi)
    by_cases hd : hi - lo > 3
    · obtain ⟨h0, L1, h3, L2, hr1, hr2, hout⟩ := buildLCPLR_node_shape H fuel Lin k lo hi v Lout hd h
      rw [hout, getElem?_set_of_ne _ _ _ _ hxk,
        ih L1 _ _ _ _ _ hr2 x (fun lo1 hi1 hv => hx lo1 hi1 (Visits.right _ _ _ _ _ _ hd hv)),
        ih Lin _ _ _ _ _ hr1 x (fun lo1 hi1 hv => hx lo1 hi1 (Visits.left _ _ _ _ _ _ hd hv))]
    · rw [buildLCPLR_leaf_shape H fuel Lin k lo hi v Lout hd h, getElem?_set_of_ne _ _ _ _ hxk]

theorem actualLengthLoop_spec (L : List Nat) : ∀ n,
    actualLengthLoop L n ≤ n ∧
    (1 ≤ actualLengthLoop L n → L.getD (actualLengthLoop L n - 1) 0 ≠ placeholder) ∧
    ∀ x, actualLengthLoop L n ≤ x → x < n → L.getD x 0 = placeholder := by
  intro n
  induction n with
  | zero => exact ⟨Nat.le_refl _, fun h => by simp [actualLengthLoop] at h, fun x _ h => by omega⟩
  | succ n ih =>
    rw [actualLengthLoop]
    by_cases hc : L.getD n 0 ≠ placeholder
    · rw [if_pos hc]
      exact ⟨Nat.le_refl _, fun _ => hc, fun x h1 h2 => by omega⟩
    · rw [if_neg hc]
      obtain ⟨a, b, c⟩ := ih
      refine ⟨by omega, b, ?_⟩
      intro x h1 h2
      by_cases hxn : x = n
      · subst hxn
        exact not_not.mp hc
      · exact c x h1 (by omega)

theorem ceilPow2Loop_pow (len : Nat) : ∀ fuel a, len ≤ 2 ^ a * 2 ^ fuel →
    (a = 0 ∨ 2 ^ (a - 1) < len) →
    ∃ b, ceilPow2Loop len fuel (2 ^ a) = 2 ^ b ∧ len ≤ 2 ^ b ∧ (b = 0 ∨ 2 ^ (b - 1) < len) := by
  intro fuel
  induction fuel with
  | zero =>
    intro a h1 h2
    exact ⟨a, rfl, by simpa using h1, h2⟩
  | succ fuel ih =>
    intro a h1 h2
    rw [ceilPow2Loop]
    by_cases hc : len ≤ 2 ^ a
    · rw [if_pos hc]
      exact ⟨a, rfl, hc, h2⟩
    · rw [if_neg hc, show 2 * 2 ^ a = 2 ^ (a + 1) by rw [pow_succ]; omega]
      apply ih (a + 1)
      · rw [pow_succ] at h1 ⊢
        nlinarith
      · right
        rw [Nat.add_sub_cancel]
        omega

/-- The size `ceilPow2 len` is the smallest power of two that is at least
`len`, for `len ≥ 1`. -/
theorem ceilPow2_smallest (len : Nat) (h : 1 ≤ len) :
    ∃ e, ceilPow2 len = 2 ^ e ∧ len ≤ 2 ^ e ∧ ∀ e1, len ≤ 2 ^ e1 → e ≤ e1 := by
  unfold ceilPow2
  rw [if_neg (by omega)]
  obtain ⟨b, hb1, hb2, hb3⟩ := ceilPow2Loop_pow len len 0 (by
    have := Nat.lt_two_pow len
    simp only [pow_zero, one_mul]
    omega) (Or.inl rfl)
  rw [pow_zero] at hb1
  refine ⟨b, hb1, hb2, ?_⟩
  intro e1 he1
  rcases hb3 with hb3 | hb3
  · omega
  · have hlt : 2 ^ (b - 1) < 2 ^ e1 := by omega
    have := (Nat.pow_lt_pow_iff_right (by norm_num : 1 < 2)).mp hlt
    omega

/-! # The LCP-LR array against the naive builder -/

theorem naiveLCP_mono_right (a b c : List Nat) (h1 : lexLt a b = true ∨ a = b)
    (h2 : lexLt b c = true ∨ b = c) : naiveLCP a c ≤ naiveLCP a b := by
  have hm := naiveLCP_mono a b c h1 h2
  have ht := naiveLCP_tri a c b
  rw [naiveLCP_comm c b] at ht
  omega

theorem IsSuffixArray.le_of_le {text sa : List Nat} (h : IsSuffixArray text sa) (i j : Nat)
    (hij : i ≤ j) (hj : j ≤ text.length) :
    lexLt (text.drop (sa.getD i 0)) (text.drop (sa.getD j 0)) = true ∨
      text.drop (sa.getD i 0) = text.drop (sa.getD j 0) := by
  by_cases he : i = j
  · subst he
    exact Or.inr rfl
  · exact Or.inl (h.sorted j i (by omega) hj)

/-- In a sorted suffix array, the smallest height inside an interval is the
number of leading symbols its two end suffixes share. -/
theorem IsRangeMin_eq_naiveLCP {text sa H : List Nat} (hsa : IsSuffixArray text sa)
    (hH : ∀ i, 1 ≤ i → i ≤ text.length →
      H.getD i 0 = naiveLCP (text.drop (sa.getD (i - 1) 0)) (text.drop (sa.getD i 0)))
    (hlen : H.length = text.length + 1)
    {lo hi m : Nat} (hhi : hi ≤ text.length) (hm : IsRangeMin H lo hi m) :
    m = naiveLCP (text.drop (sa.getD lo 0)) (text.drop (sa.getD hi 0)) := by
  obtain ⟨p, hp1, hp2, hp3⟩ := hm.1
  have hle := common_of_IsRangeMin hH hlen hhi hm hi (by omega) (Nat.le_refl _)
  have hmp : m = H.getD p 0 := (getD_of_getElem? hp3).symm
  rw [hH p (by omega) (by omega)] at hmp
  have s1 := naiveLCP_mono _ _ _ (hsa.le_of_le lo (p - 1) (by omega) (by omega))
    (hsa.le_of_le (p - 1) hi (by omega) hhi)
  have s2 := naiveLCP_mono_right _ _ _ (hsa.le_of_le (p - 1) p (by omega) (by omega))
    (hsa.le_of_le p hi hp2 hhi)
  omega

theorem computeLCP_spec {text : Text} {sa : List Nat} (hsa : IsSuffixArray text.ba sa)
    (i j : Nat) (hi : i ≤ text.ba.length) (hj : j ≤ text.ba.length) :
    naiveLCPLRBuilder.computeLCP text sa i j =
      .ok (naiveLCP (text.ba.drop (sa.getD i 0)) (text.ba.drop (sa.getD j 0))) := by
  have hl := hsa.length_eq
  unfold naiveLCPLRBuilder.computeLCP
  rw [ValueAt_of_lt sa i (by omega), ValueAt_of_lt sa j (by omega)]

theorem computeLCP_next {text : Text} {sa H : List Nat} (hsa : IsSuffixArray text.ba sa)
    (hH : ∀ i, 1 ≤ i → i ≤ text.ba.length →
      H.getD i 0 = naiveLCP (text.ba.drop (sa.getD (i - 1) 0)) (text.ba.drop (sa.getD i 0)))
    (q : Nat) (hq : q + 1 ≤ text.ba.length) :
    naiveLCPLRBuilder.computeLCP text sa q (q + 1) = .ok (H.getD (q + 1) 0) := by
  rw [computeLCP_spec hsa q (q + 1) (by omega) hq, hH (q + 1) (by omega) hq, Nat.add_sub_cancel]

theorem computeLCP_prev {text : Text} {sa H : List Nat} (hsa : IsSuffixArray text.ba sa)
    (hH : ∀ i, 1 ≤ i → i ≤ text.ba.length →
      H.getD i 0 = naiveLCP (text.ba.drop (sa.getD (i - 1) 0)) (text.ba.drop (sa.getD i 0)))
    (p : Nat) (hp1 : 1 ≤ p) (hp : p ≤ text.ba.length) :
    naiveLCPLRBuilder.computeLCP text sa (p - 1) p = .ok (H.getD p 0) := by
  rw [computeLCP_spec hsa (p - 1) p (by omega) hp, hH p hp1 hp]

theorem recurse_leaf {text : Text} {sa H : List Nat} (hsa : IsSuffixArray text.ba sa)
    (hH : ∀ i, 1 ≤ i → i ≤ text.ba.length →
      H.getD i 0 = naiveLCP (text.ba.drop (sa.getD (i - 1) 0)) (text.ba.drop (sa.getD i 0)))
    (hlen : H.length = text.ba.length + 1) (k lo hi m : Nat) (Lin : List Nat)
    (hk : k < Lin.length) (hhi : hi < H.length) (hm : IsRangeMin H lo hi m) :
    (match naiveLCPLRBuilder.computeLCP text sa lo hi with
      | .error e => .error e
      | .ok hh =>
        if m ≠ hh then .error .bug
        else if k < Lin.length then .ok (hh, Lin.set k hh)
        else .error .bug : Except Err (Nat × List Nat)) = .ok (m, Lin.set k m) := by
  have hlo : lo < hi := by
    obtain ⟨⟨p, hp1, hp2, _⟩, _⟩ := hm
    omega
  rw [computeLCP_spec hsa lo hi (by omega) (by omega),
    ← IsRangeMin_eq_naiveLCP hsa hH hlen (by omega) hm]
  simp only [ne_eq, not_true_eq_false, if_false, if_pos hk]

/-- On a sorted suffix array with its LCP array `H`, the naive recursion and
the fill of `BuildLCPLRArray` return the same value and leave the same array:
the check `h != hh` of the naive recursion never fires. -/
theorem recurse_eq_buildLCPLR {text : Text} {sa H : List Nat} (B : Nat)
    (hsa : IsSuffixArray text.ba sa)
    (hH : ∀ i, 1 ≤ i → i ≤ text.ba.length →
      H.getD i 0 = naiveLCP (text.ba.drop (sa.getD (i - 1) 0)) (text.ba.drop (sa.getD i 0)))
    (hlen : H.length = text.ba.length + 1)
    (hlt : ∀ p, 1 ≤ p → p < H.length → H.getD p 0 < placeholder) :
    ∀ (fuel k lo hi : Nat) (Lin : List Nat), lo < hi → hi < H.length → hi - lo ≤ fuel →
      (k + 2) * (hi - lo + 1) ≤ 2 * B → B ≤ Lin.length →
      naiveLCPLRBuilder.recurse fuel text sa Lin k lo hi = buildLCPLR fuel Lin H k lo hi := by
  intro fuel
  induction fuel with
  | zero => intro k lo hi Lin h1 _ h3; omega
  | succ fuel ih =>
    intro k lo hi Lin hlo hhi hfuel hB hBL
    have hk : k < Lin.length := by
      have h2 : (k + 2) * 2 ≤ (k + 2) * (hi - lo + 1) := Nat.mul_le_mul_left _ (by omega)
      omega
    have e1 := ValueAt_of_lt H (lo + 1) (by omega)
    have c1 := computeLCP_next hsa hH lo (by omega)
    by_cases hd3 : hi - lo > 3
    · have hBl : (2 * k + 1 + 2) * (lo + (hi - lo) / 2 - 1 - lo + 1) ≤ 2 * B := by
        have h2 : 2 * (lo + (hi - lo) / 2 - 1 - lo + 1) ≤ hi - lo + 1 := by omega
        nlinarith
      have hBr : (2 * k + 2 + 2) * (hi - (lo + (hi - lo) / 2 + 1) + 1) ≤ 2 * B := by
        have h2 : 2 * (hi - (lo + (hi - lo) / 2 + 1) + 1) ≤ hi - lo + 1 := by omega
        nlinarith
      obtain ⟨h0, L1, hrun1, hlen1, hv0, hmin0, _, _⟩ :=
        buildLCPLR_spec H B hlt fuel (2 * k + 1) lo (lo + (hi - lo) / 2 - 1) Lin (by omega)
          (by omega) (by omega) hBl hBL
      obtain ⟨h3, L2, hrun2, hlen2, hv3, hmin3, _, _⟩ :=
        buildLCPLR_spec H B hlt fuel (2 * k + 2) (lo + (hi - lo) / 2 + 1) hi L1 (by omega)
          (by omega) (by omega) hBr (by omega)
      have n1 := ih (2 * k + 1) lo (lo + (hi - lo) / 2 - 1) Lin (by omega) (by omega) (by omega)
        hBl hBL
      have n2 := ih (2 * k + 2) (lo + (hi - lo) / 2 + 1) hi L1 (by omega) (by omega) (by omega)
        hBr (by omega)
      rw [hrun1] at n1
      rw [hrun2] at n2
      have em := ValueAt_of_lt H (lo + (hi - lo) / 2) (by omega)
      have em1 := ValueAt_of_lt H (lo + (hi - lo) / 2 + 1) (by omega)
      have cm := computeLCP_prev hsa hH (lo + (hi - lo) / 2) (by omega) (by omega)
      have cm1 := computeLCP_next hsa hH (lo + (hi - lo) / 2) (by omega)
      have hmin := IsRangeMin_node H lo hi h0 h3 hd3 hhi hmin0 hmin3
      have hset := SetValueAt_of_lt L2
        k (min (min (min h0 (H.getD (lo + (hi - lo) / 2) 0)) (H.getD (lo + (hi - lo) / 2 + 1) 0)) h3)
        (by omega)
      have htail := recurse_leaf hsa hH hlen k lo hi _ L2 (by omega) hhi hmin
      rw [buildLCPLR, if_neg (by omega), if_pos hd3, hrun1]
      simp only [em, em1, hrun2, hset]
      rw [naiveLCPLRBuilder.recurse, if_neg (by omega), if_pos hd3, n1]
      simp only [cm, cm1, n2]
      exact htail
    · have p1 := hlt (lo + 1) (by omega) (by omega)
      by_cases hd2 : hi - lo = 3
      · have e2 := ValueAt_of_lt H (lo + 2) (by omega)
        have e3 := ValueAt_of_lt H (lo + 3) (by omega)
        have c2 := computeLCP_next hsa hH (lo + 1) (by omega)
        have c3 := computeLCP_next hsa hH (lo + 2) (by omega)
        have p2 := hlt (lo + 2) (by omega) (by omega)
        have hm : min (min (min (H.getD (lo + 1) 0) (H.getD (lo + 2) 0)) (H.getD (lo + 3) 0))
            placeholder = min (min (H.getD (lo + 1) 0) (H.getD (lo + 2) 0)) (H.getD (lo + 3) 0) := by
          omega
        have htail := recurse_leaf hsa hH hlen k lo hi _ Lin hk hhi (IsRangeMin_leaf3 H lo hi hd2 hhi)
        rw [buildLCPLR, if_neg (by omega), if_neg hd3, if_pos hd2]
        simp only [e1, e2, e3, hm, SetValueAt_of_lt Lin k _ hk]
        rw [naiveLCPLRBuilder.recurse, if_neg (by omega), if_neg hd3, if_pos hd2]
        simp only [c1, c2, c3, hm]
        exact htail
      · by_cases hd1 : hi - lo = 2
        · have e2 := ValueAt_of_lt H (lo + 2) (by omega)
          have c2 := computeLCP_next hsa hH (lo + 1) (by omega)
          have hm : min (min (min (H.getD (lo + 1) 0) (H.getD (lo + 2) 0)) placeholder)
              placeholder = min (H.getD (lo + 1) 0) (H.getD (lo + 2) 0) := by
            omega
          have htail := recurse_leaf hsa hH hlen k lo hi _ Lin hk hhi
            (IsRangeMin_leaf2 H lo hi hd1 hhi)
          rw [buildLCPLR, if_neg (by omega), if_neg hd3, if_neg hd2, if_pos hd1]
          simp only [e1, e2, hm, SetValueAt_of_lt Lin k _ hk]
          rw [naiveLCPLRBuilder.recurse, if_neg (by omega), if_neg hd3, if_neg hd2, if_pos hd1]
          simp only [c1, c2, hm]
          exact htail
        · have hm : min (min (min (H.getD (lo + 1) 0) placeholder) placeholder)
              placeholder = H.getD (lo + 1) 0 := by
            omega
          have htail := recurse_leaf hsa hH hlen k lo hi _ Lin hk hhi
            (IsRangeMin_leaf1 H lo hi (by omega) hhi)
          rw [buildLCPLR, if_neg (by omega), if_neg hd3, if_neg hd2, if_neg hd1]
          simp only [e1, hm, SetValueAt_of_lt Lin k _ hk]
          rw [naiveLCPLRBuilder.recurse, if_neg (by omega), if_neg hd3, if_neg hd2, if_neg hd1]
          simp only [c1, hm]
          exact htail

theorem naiveSizeLoop_pow (len : Nat) (h63 : len ≤ 2 ^ 63) : ∀ fuel a, len ≤ 2 ^ a * 2 ^ fuel →
    (a = 0 ∨ 2 ^ (a - 1) < len) →
    ∃ b, naiveSizeLoop len (fuel + 1) (2 ^ a) = .ok (2 ^ b) ∧ len ≤ 2 ^ b ∧
      (b = 0 ∨ 2 ^ (b - 1) < len) := by
  intro fuel
  induction fuel with
  | zero =>
    intro a h1 h2
    rw [naiveSizeLoop, if_neg (by simpa using h1)]
    exact ⟨a, rfl, by simpa using h1, h2⟩
  | succ fuel ih =>
    intro a h1 h2
    rw [naiveSizeLoop]
    by_cases hc : len > 2 ^ a
    · rw [if_pos hc, Nat.mod_eq_of_lt (by omega),
        show 2 * 2 ^ a = 2 ^ (a + 1) by rw [pow_succ]; omega]
      apply ih (a + 1)
      · rw [pow_succ] at h1 ⊢
        nlinarith
      · right
        rw [Nat.add_sub_cancel]
        omega
    · rw [if_neg hc]
      exact ⟨a, rfl, by omega, h2⟩

/-- The doubling loop of the naive builder finds the size `BuildLCPLRArray`
computes, for lengths up to `2 ^ 63`. -/
theorem naiveSizeLoop_eq_ceilPow2 (len : Nat) (h1 : 1 ≤ len) (h63 : len ≤ 2 ^ 63) :
    naiveSizeLoop len 65 1 = .ok (ceilPow2 len) := by
  obtain ⟨b, hb1, hb2, hb3⟩ := naiveSizeLoop_pow len h63 64 0 (by omega) (Or.inl rfl)
  obtain ⟨e, he1, he2, he3⟩ := ceilPow2_smallest len h1
  rw [pow_zero] at hb1
  have hbe : b = e := by
    have h3 := he3 b hb2
    rcases hb3 with hb3 | hb3
    · omega
    · have hlt : 2 ^ (b - 1) < 2 ^ e := by omega
      have := (Nat.pow_lt_pow_iff_right (by norm_num : 1 < 2)).mp hlt
      omega
  rw [hb1, he1, hbe]

theorem naiveFinalLen_eq (L : List Nat) : ∀ n, naiveFinalLen L n = actualLengthLoop L n := by
  intro n
  induction n with
  | zero => rfl
  | succ n ih => rw [naiveFinalLen, actualLengthLoop, ih]

/-- C11: for a text of length `n ≥ 1` (with `n + 1 ≤ 2 ^ 62`, so that the
`uint64` size `2m + 1` of the naive builder does not wrap) and its sorted
suffix array `sa`, `BuildLCPArray` returns an array `H`, and
`BuildLCPLRArray(H)` and `NaiveBuildLCPLRArray(T, sa)` both succeed with the
same array `L`: in particular the naive check `h == hh` never fails and the two
truncated lengths agree.  For every node `(k, lo, hi)` the fill visits, `L[k]`
is the number of leading symbols the suffixes at `sa[lo]` and `sa[hi]` share,
which is what `computeLCP(lo, hi)` returns. -/
theorem BuildLCPLRArray_eq_naive (text : Text) (sa : List Nat) (hn : 1 ≤ text.Len)
    (h62 : text.Len + 1 ≤ 2 ^ 62) (hsa : IsSuffixArray text.ba sa) :
    ∃ H L, BuildLCPArray text sa = .ok H ∧ BuildLCPLRArray H = .ok L ∧
      NaiveBuildLCPLRArray text sa = .ok L ∧
      ∀ k lo hi, Visits 0 0 text.Len k lo hi →
        naiveLCPLRBuilder.computeLCP text sa lo hi =
          .ok (naiveLCP (text.ba.drop (sa.getD lo 0)) (text.ba.drop (sa.getD hi 0))) ∧
        L[k]? = some (naiveLCP (text.ba.drop (sa.getD lo 0)) (text.ba.drop (sa.getD hi 0))) := by
  obtain ⟨H, hrunH, hHlen, hHval⟩ := BuildLCPArray_spec text sa hsa
  unfold Text.Len at hn h62 hHlen hHval ⊢
  have hsalen := hsa.length_eq
  have hlt : ∀ p, 1 ≤ p → p < H.length → H.getD p 0 < placeholder := by
    intro p hp1 hp2
    rw [hHval p hp1 (by omega)]
    have h1 := naiveLCP_le_left (text.ba.drop (sa.getD (p - 1) 0)) (text.ba.drop (sa.getD p 0))
    rw [List.length_drop] at h1
    unfold placeholder
    omega
  obtain ⟨L, hL, hLvis⟩ := BuildLCPLRArray_spec H (by omega) (by omega) hlt
  have hB0 : (0 + 2) * (H.length - 1 - 0 + 1) ≤ 2 * H.length := by omega
  obtain ⟨e, he1, he2, he3⟩ := ceilPow2_smallest H.length (by omega)
  have he62 : e ≤ 62 := he3 62 (by omega)
  have hm62 : ceilPow2 H.length ≤ 2 ^ 62 := by
    rw [he1]
    exact Nat.pow_le_pow_right (by norm_num) he62
  refine ⟨H, L, hrunH, hL, ?_, ?_⟩
  · rw [← hL]
    unfold NaiveBuildLCPLRArray BuildLCPLRArray
    rw [hsalen, ← hHlen, naiveSizeLoop_eq_ceilPow2 H.length (by omega) (by omega)]
    simp only
    rw [Nat.mod_eq_of_lt (by omega), dec64_of_pos H.length (by omega) (by omega),
      recurse_eq_buildLCPLR H.length hsa hHval hHlen hlt (64 + H.length) 0 0 (H.length - 1) _
        (by omega) (by omega) (by omega) hB0 (by rw [List.length_replicate]; have := le_ceilPow2 H.length; omega)]
    cases buildLCPLR (64 + H.length) (List.replicate (2 * ceilPow2 H.length + 1) placeholder) H 0 0
        (H.length - 1) with
    | error e => rfl
    | ok r => simp only [naiveFinalLen_eq]
  · intro k lo hi hv
    rw [show text.ba.length = H.length - 1 by omega] at hv
    obtain ⟨h1, h2, _⟩ := Visits_inv H.length H.length hv (by omega) (by omega) hB0
    obtain ⟨m, hm1, hm2⟩ := hLvis k lo hi hv
    have hmeq := IsRangeMin_eq_naiveLCP hsa hHval hHlen (by omega) hm2
    exact ⟨computeLCP_spec hsa lo hi (by omega) (by omega), by rw [hm1, hmeq]⟩

/-- Witness for `BuildLCPLRArray_eq_naive`: the text `"banana"` with its
suffix array. -/
theorem BuildLCPLRArray_eq_naive_witness :
    (1 ≤ (NewTextFromString [98, 97, 110, 97, 110, 97]).Len ∧
      (NewTextFromString [98, 97, 110, 97, 110, 97]).Len + 1 ≤ 2 ^ 62 ∧
      IsSuffixArray (NewTextFromString [98, 97, 110, 97, 110, 97]).ba [6, 5, 3, 1, 0, 4, 2]) ∧
    ∃ H L, BuildLCPArray (NewTextFromString [98, 97, 110, 97, 110, 97]) [6, 5, 3, 1, 0, 4, 2]
        = .ok H ∧
      BuildLCPLRArray H = .ok L ∧
      NaiveBuildLCPLRArray (NewTextFromString [98, 97, 110, 97, 110, 97]) [6, 5, 3, 1, 0, 4, 2]
        = .ok L ∧
      ∀ k lo hi, Visits 0 0 (NewTextFromString [98, 97, 110, 97, 110, 97]).Len k lo hi →
        naiveLCPLRBuilder.computeLCP (NewTextFromString [98, 97, 110, 97, 110, 97])
            [6, 5, 3, 1, 0, 4, 2] lo hi =
          .ok (naiveLCP
            ((NewTextFromString [98, 97, 110, 97, 110, 97]).ba.drop
              (([6, 5, 3, 1, 0, 4, 2] : List Nat).getD lo 0))
            ((NewTextFromString [98, 97, 110, 97, 110, 97]).ba.drop
              (([6, 5, 3, 1, 0, 4, 2] : List Nat).getD hi 0))) ∧
        L[k]? = some (naiveLCP
            ((NewTextFromString [98, 97, 110, 97, 110, 97]).ba.drop
              (([6, 5, 3, 1, 0, 4, 2] : List Nat).getD lo 0))
            ((NewTextFromString [98, 97, 110, 97, 110, 97]).ba.drop
              (([6, 5, 3, 1, 0, 4, 2] : List Nat).getD hi 0))) :=
  ⟨⟨by decide, by decide, ⟨by decide, by decide⟩⟩,
    BuildLCPLRArray_eq_naive (NewTextFromString [98, 97, 110, 97, 110, 97]) [6, 5, 3, 1, 0, 4, 2]
      (by decide) (by decide) ⟨by decide, by decide⟩⟩

/-! # Suffix arrays of special texts -/

theorem IsSuffixArray.eq_of_both {T s1 s2 : List Nat} (h1 : IsSuffixArray T s1)
    (h2 : IsSuffixArray T s2) : s1 = s2 :=
  SortedPerm.unique (klt_asymm (csuf T)) ((IsSuffixArray_iff _ _).mp h1)
    ((IsSuffixArray_iff _ _).mp h2)

theorem getD_reverse_range (n i : Nat) (hi : i ≤ n) :
    ((List.range (n + 1)).reverse).getD i 0 = n - i := by
  rw [List.getD_eq_getElem _ 0 (by simp; omega), List.getElem_reverse, List.getElem_range]
  simp

theorem lexLt_replicate_succ (c : Nat) : ∀ k, lexLt (List.replicate k c) (List.replicate (k + 1) c) = true
  | 0 => rfl
  | k + 1 => by
    rw [List.replicate_succ, List.replicate_succ c (k + 1), lexLt, lexLt_replicate_succ c k]
    simp

theorem naiveLCP_replicate_succ (c : Nat) : ∀ k,
    naiveLCP (List.replicate k c) (List.replicate (k + 1) c) = k
  | 0 => rfl
  | k + 1 => by
    rw [List.replicate_succ, List.replicate_succ c (k + 1), naiveLCP, if_pos rfl,
      naiveLCP_replicate_succ c k]

/-- The suffix array of a constant text lists the offsets from the end of the
text down to `0`. -/
theorem IsSuffixArray_replicate (n c : Nat) :
    IsSuffixArray (List.replicate n c) (List.range (n + 1)).reverse := by
  refine ⟨?_, ?_⟩
  · rw [List.length_replicate]
    exact List.reverse_perm _
  · intro i h1 h2
    rw [List.length_replicate] at h2
    rw [getD_reverse_range n (i - 1) (by omega), getD_reverse_range n i h2,
      List.drop_replicate, List.drop_replicate,
      show n - (n - (i - 1)) = i - 1 by omega, show n - (n - i) = (i - 1) + 1 by omega]
    exact lexLt_replicate_succ c (i - 1)

theorem getD_cons_range (n i : Nat) (h1 : 1 ≤ i) (hi : i ≤ n) :
    (n :: List.range n).getD i 0 = i - 1 := by
  obtain ⟨j, rfl⟩ : ∃ j, i = j + 1 := ⟨i - 1, by omega⟩
  rw [List.getD_cons_succ, List.getD_eq_getElem _ 0 (by simp; omega), List.getElem_range]
  simp

/-- The suffix array of a strictly ascending text: the end of the text, then
the offsets in text order. -/
theorem IsSuffixArray_ascending (T : List Nat) (h : T.Pairwise (fun a b => a < b)) :
    IsSuffixArray T (T.length :: List.range T.length) := by
  refine ⟨?_, ?_⟩
  · rw [List.range_succ]
    exact (List.perm_append_singleton _ _).symm
  · intro i h1 h2
    by_cases hi1 : i = 1
    · subst hi1
      rw [getD_cons_range _ 1 (by omega) h2]
      simp only [Nat.sub_self, List.getD_cons_zero, List.drop_length, List.drop_zero]
      cases T with
      | nil => simp at h2
      | cons x T => rfl
    · rw [getD_cons_range _ (i - 1) (by omega) (by omega), getD_cons_range _ i h1 h2,
        drop_eq_getD_cons T (i - 1 - 1) (by omega), drop_eq_getD_cons T (i - 1) (by omega), lexLt]
      have hlt : T.getD (i - 1 - 1) 0 < T.getD (i - 1) 0 := by
        rw [List.getD_eq_getElem _ 0 (by omega), List.getD_eq_getElem _ 0 (by omega)]
        exact List.pairwise_iff_getElem.mp h (i - 1 - 1) (i - 1) (by omega) (by omega) (by omega)
      simp only [Bool.or_eq_true, decide_eq_true_eq]
      exact Or.inl hlt

/-- C21: for every text of length 1, whatever its symbol and its alphabet
size, `BuildSuffixArray` returns `[1, 0]`. -/
theorem BuildSuffixArray_length_one (text : Text) (h : text.Len = 1) :
    BuildSuffixArray text = .ok [1, 0] := by
  unfold BuildSuffixArray
  rw [h, BuildSuffixArrayFuel, if_neg (by omega), if_pos h]

/-- Witness for `BuildSuffixArray_length_one`: the text `"a"`. -/
theorem BuildSuffixArray_length_one_witness :
    (NewTextFromString [97]).Len = 1 ∧ BuildSuffixArray (NewTextFromString [97]) = .ok [1, 0] :=
  ⟨by decide, BuildSuffixArray_length_one (NewTextFromString [97]) (by decide)⟩

/-- C22: for every `n ≥ 0` and every symbol `c` of the alphabet (`c < sigma`),
`BuildSuffixArray` of the text made of `n` copies of `c` returns
`[n, n-1, ..., 1, 0]` (`n + 1` being below `2 ^ 64`). -/
theorem BuildSuffixArray_constant (sigma n c : Nat) (hc : c < sigma) (hn : n + 1 < 2 ^ 64) :
    BuildSuffixArray ⟨sigma, List.replicate n c⟩ = .ok (List.range (n + 1)).reverse := by
  obtain ⟨sa, h1, h2⟩ := BuildSuffixArray_spec ⟨sigma, List.replicate n c⟩
    (by intro x hx; rw [List.eq_of_mem_replicate hx]; exact hc)
    (by unfold Text.Len; rw [List.length_replicate]; exact hn)
  rw [h1, h2.eq_of_both (IsSuffixArray_replicate n c)]

/-- Witness for `BuildSuffixArray_constant`: the text `"aaaaaaaa"` of the
tests. -/
theorem BuildSuffixArray_constant_witness :
    (97 < 256 ∧ 8 + 1 < 2 ^ 64) ∧
    BuildSuffixArray ⟨256, List.replicate 8 97⟩ = .ok (List.range (8 + 1)).reverse :=
  ⟨⟨by decide, by decide⟩, BuildSuffixArray_constant 256 8 97 (by decide) (by decide)⟩

/-- C23: for every `n` (in particular `n ≥ 1`) and every symbol `c`,
`BuildLCPArray` of the text made of `n` copies of `c` with its suffix array
`[n, n-1, ..., 0]` returns an array `H` of `n + 1` cells with `H[i] = i - 1`
for every `1 ≤ i ≤ n`. -/
theorem BuildLCPArray_constant (sigma n c : Nat) :
    ∃ H, BuildLCPArray ⟨sigma, List.replicate n c⟩ (List.range (n + 1)).reverse = .ok H ∧
      H.length = n + 1 ∧ ∀ i, 1 ≤ i → i ≤ n → H.getD i 0 = i - 1 := by
  obtain ⟨H, h1, h2, h3⟩ := BuildLCPArray_spec ⟨sigma, List.replicate n c⟩
    (List.range (n + 1)).reverse (IsSuffixArray_replicate n c)
  unfold Text.Len at h2 h3
  simp only [List.length_replicate] at h2 h3
  refine ⟨H, h1, h2, ?_⟩
  intro i hi1 hi2
  rw [h3 i hi1 hi2, getD_reverse_range n (i - 1) (by omega), getD_reverse_range n i hi2,
    List.drop_replicate, List.drop_replicate,
    show n - (n - (i - 1)) = i - 1 by omega, show n - (n - i) = (i - 1) + 1 by omega]
  exact naiveLCP_replicate_succ c (i - 1)

/-- C24: for every text of length `n` whose symbols are strictly ascending
(and lie below the alphabet size, `n + 1` being below `2 ^ 64`),
`BuildSuffixArray` returns `[n, 0, 1, ..., n-1]`. -/
theorem BuildSuffixArray_ascending (text : Text) (hsym : ∀ x ∈ text.ba, x < text.AlphabetSize)
    (hlen : text.Len + 1 < 2 ^ 64) (hasc : text.ba.Pairwise (fun a b => a < b)) :
    BuildSuffixArray text = .ok (text.Len :: List.range text.Len) := by
  obtain ⟨sa, h1, h2⟩ := BuildSuffixArray_spec text hsym hlen
  rw [h1, h2.eq_of_both (IsSuffixArray_ascending text.ba hasc)]
  rfl

/-- Witness for `BuildSuffixArray_ascending`: the text `"abcdefgh"` of the
tests. -/
theorem BuildSuffixArray_ascending_witness :
    ((∀ x ∈ (NewTextFromString [97, 98, 99, 100, 101, 102, 103, 104]).ba,
        x < (NewTextFromString [97, 98, 99, 100, 101, 102, 103, 104]).AlphabetSize) ∧
      (NewTextFromString [97, 98, 99, 100, 101, 102, 103, 104]).Len + 1 < 2 ^ 64 ∧
      (NewTextFromString [97, 98, 99, 100, 101, 102, 103, 104]).ba.Pairwise
        (fun a b => a < b)) ∧
    BuildSuffixArray (NewTextFromString [97, 98, 99, 100, 101, 102, 103, 104])
      = .ok ((NewTextFromString [97, 98, 99, 100, 101, 102, 103, 104]).Len ::
          List.range (NewTextFromString [97, 98, 99, 100, 101, 102, 103, 104]).Len) :=
  ⟨⟨by decide, by decide, by decide⟩,
    BuildSuffixArray_ascending (NewTextFromString [97, 98, 99, 100, 101, 102, 103, 104])
      (by decide) (by decide) (by decide)⟩

/-! # The type map iterator away from the start -/

/-- C25 (the code departs from it): in the type map of `"banana"` the
offsets 1, 3 and 6 are left-most S.  A forward iterator made by
`Iterate(1, 7)` stands at index 1 after its first `Next`, and there
`iter.IsLMS()` is `false` although `TypeMap.IsLMS(1)` is `true`: the first
`Next` sets `last` to `SType` without reading the bit before the range.  From
the second index on `last` is the bit just left behind and the two agree (at
index 3 both say `true`). -/
theorem TypeMapIterator_first_index_not_LMS :
    ((BuildTypeMap (NewTextFromString [98, 97, 110, 97, 110, 97])).Iterate 1 7).Next.1 = true ∧
    ((BuildTypeMap (NewTextFromString [98, 97, 110, 97, 110, 97])).Iterate 1 7).Next.2.Index = 1 ∧
    ((BuildTypeMap (NewTextFromString [98, 97, 110, 97, 110, 97])).Iterate 1 7).Next.2.IsLMS
      = false ∧
    (BuildTypeMap (NewTextFromString [98, 97, 110, 97, 110, 97])).IsLMS 1 = .ok true ∧
    ((BuildTypeMap (NewTextFromString [98, 97, 110, 97, 110, 97])).Iterate 1 7).Next.2.Next.2.Next.1
      = true ∧
    ((BuildTypeMap (NewTextFromString [98, 97, 110, 97, 110, 97])).Iterate 1 7).Next.2.Next.2.Next.2.Index
      = 3 ∧
    ((BuildTypeMap (NewTextFromString [98, 97, 110, 97, 110, 97])).Iterate 1 7).Next.2.Next.2.Next.2.IsLMS
      = true ∧
    (BuildTypeMap (NewTextFromString [98, 97, 110, 97, 110, 97])).IsLMS 3 = .ok true :=
  ⟨rfl, rfl, rfl, rfl, rfl, rfl, rfl, rfl⟩

/-! # Search: the skipped prefix -/

/-- C26 (the code departs from it): the byte text `"aaaaaaa"` with its sorted
suffix array, its LCP array and its LCP-LR array `[0, 0, 4]`, searched for the
phrase `"b"`.  The first iteration of the first loop reads `L[0] = 0`, compares
at `where = 3` and goes right, to node 2 with bounds `(4, 7)`.  The second
iteration reads `height = L[2] = 4` and compares at `where = 5`, where the
suffix array holds offset 2: the phrase and the suffix `"aaaaa"` share no
symbol at all, the phrase is not a prefix of the suffix, and `compare`
starting at offset 4 answers `stopHere` where the comparison from offset 0
answers `goRight`.  The first loop ends there with `found = true`. -/
theorem Search_skip_not_safe :
    IsSuffixArray [97, 97, 97, 97, 97, 97, 97] [7, 6, 5, 4, 3, 2, 1, 0] ∧
    BuildLCPArray (NewTextFromString [97, 97, 97, 97, 97, 97, 97]) [7, 6, 5, 4, 3, 2, 1, 0]
      = .ok [0, 0, 1, 2, 3, 4, 5, 6] ∧
    BuildLCPLRArray [0, 0, 1, 2, 3, 4, 5, 6] = .ok [0, 0, 4] ∧
    ValueAt [0, 0, 4] 0 = .ok 0 ∧
    (searchState.mk (NewTextFromString [97, 97, 97, 97, 97, 97, 97]) [7, 6, 5, 4, 3, 2, 1, 0]
      [0, 0, 4] [98] 0 0 0 7).compare 3 = .ok (.goRight, 4) ∧
    ValueAt [0, 0, 4] 2 = .ok 4 ∧
    (searchState.mk (NewTextFromString [97, 97, 97, 97, 97, 97, 97]) [7, 6, 5, 4, 3, 2, 1, 0]
      [0, 0, 4] [98] 2 4 4 7).compare 5 = .ok (.stopHere, 2) ∧
    (searchState.mk (NewTextFromString [97, 97, 97, 97, 97, 97, 97]) [7, 6, 5, 4, 3, 2, 1, 0]
      [0, 0, 4] [98] 2 0 4 7).compare 5 = .ok (.goRight, 2) ∧
    naiveLCP [98] (([97, 97, 97, 97, 97, 97, 97] : List Nat).drop 2) = 0 ∧
    ¬ (([97, 97, 97, 97, 97, 97, 97] : List Nat).drop 2).take 1 = [98] ∧
    phase1 (1 + 8) (searchState.mk (NewTextFromString [97, 97, 97, 97, 97, 97, 97])
        [7, 6, 5, 4, 3, 2, 1, 0] [0, 0, 4] [98] 0 0 0 (dec64 8)) 0 0
      = .ok (searchState.mk (NewTextFromString [97, 97, 97, 97, 97, 97, 97])
          [7, 6, 5, 4, 3, 2, 1, 0] [0, 0, 4] [98] 2 4 4 7, 5, 2, true) := by
  refine ⟨⟨by decide, by decide⟩, by rfl, by rfl, by rfl, by rfl, by rfl, by rfl, by rfl,
    by rfl, by decide, by rfl⟩

/-! # What `compare` answers from the first symbol -/

theorem cmpLists_goLeft_iff : ∀ (p u : List Nat),
    cmpLists p u = .goLeft ↔
      ∃ i, i < p.length ∧ i < u.length ∧ (∀ j, j < i → p.getD j 0 = u.getD j 0) ∧
        p.getD i 0 < u.getD i 0
  | [], u => by simp [cmpLists]
  | x :: p, [] => by simp [cmpLists]
  | x :: p, y :: u => by
    rw [cmpLists]
    by_cases h1 : x < y
    · rw [if_pos h1]
      constructor
      · intro _
        exact ⟨0, by simp, by simp, by intro j hj; omega, by simpa using h1⟩
      · intro _
        rfl
    · rw [if_neg h1]
      by_cases h2 : x > y
      · rw [if_pos h2]
        constructor
        · intro h
          exact absurd h (by decide)
        · rintro ⟨i, _, _, hpre, hlt⟩
          exfalso
          cases i with
          | zero =>
            rw [List.getD_cons_zero, List.getD_cons_zero] at hlt
            omega
          | succ i =>
            have := hpre 0 (by omega)
            rw [List.getD_cons_zero, List.getD_cons_zero] at this
            omega
      · rw [if_neg h2, cmpLists_goLeft_iff p u]
        have hxy : x = y := by omega
        constructor
        · rintro ⟨i, hi1, hi2, hpre, hlt⟩
          refine ⟨i + 1, by simpa using hi1, by simpa using hi2, ?_, ?_⟩
          · intro j hj
            cases j with
            | zero => rw [List.getD_cons_zero, List.getD_cons_zero, hxy]
            | succ j =>
              rw [List.getD_cons_succ, List.getD_cons_succ]
              exact hpre j (by omega)
          · rw [List.getD_cons_succ, List.getD_cons_succ]
            exact hlt
        · rintro ⟨i, hi1, hi2, hpre, hlt⟩
          cases i with
          | zero =>
            rw [List.getD_cons_zero, List.getD_cons_zero] at hlt
            omega
          | succ i =>
            rw [List.getD_cons_succ, List.getD_cons_succ] at hlt
            refine ⟨i, by simpa using hi1, by simpa using hi2, ?_, hlt⟩
            intro j hj
            have := hpre (j + 1) (by omega)
            rw [List.getD_cons_succ, List.getD_cons_succ] at this
            exact this

theorem cmpLists_goRight_iff : ∀ (p u : List Nat),
    cmpLists p u = .goRight ↔
      (∃ i, i < p.length ∧ i < u.length ∧ (∀ j, j < i → p.getD j 0 = u.getD j 0) ∧
        p.getD i 0 > u.getD i 0) ∨
      (u.length < p.length ∧ ∀ j, j < u.length → p.getD j 0 = u.getD j 0)
  | [], u => by simp [cmpLists]
  | x :: p, [] => by simp [cmpLists]
  | x :: p, y :: u => by
    rw [cmpLists]
    by_cases h1 : x < y
    · rw [if_pos h1]
      constructor
      · intro h
        exact absurd h (by decide)
      · rintro (⟨i, _, _, hpre, hgt⟩ | ⟨_, hall⟩)
        · exfalso
          cases i with
          | zero =>
            rw [List.getD_cons_zero, List.getD_cons_zero] at hgt
            omega
          | succ i =>
            have := hpre 0 (by omega)
            rw [List.getD_cons_zero, List.getD_cons_zero] at this
            omega
        · exfalso
          have := hall 0 (by simp)
          rw [List.getD_cons_zero, List.getD_cons_zero] at this
          omega
    · rw [if_neg h1]
      by_cases h2 : x > y
      · rw [if_pos h2]
        constructor
        · intro _
          exact Or.inl ⟨0, by simp, by simp, by intro j hj; omega, by simpa using h2⟩
        · intro _
          rfl
      · rw [if_neg h2, cmpLists_goRight_iff p u]
        have hxy : x = y := by omega
        constructor
        · rintro (⟨i, hi1, hi2, hpre, hgt⟩ | ⟨hlen, hall⟩)
          · left
            refine ⟨i + 1, by simpa using hi1, by simpa using hi2, ?_, ?_⟩
            · intro j hj
              cases j with
              | zero => rw [List.getD_cons_zero, List.getD_cons_zero, hxy]
              | succ j =>
                rw [List.getD_cons_succ, List.getD_cons_succ]
                exact hpre j (by omega)
            · rw [List.getD_cons_succ, List.getD_cons_succ]
              exact hgt
          · right
            refine ⟨by simpa using hlen, ?_⟩
            intro j hj
            cases j with
            | zero => rw [List.getD_cons_zero, List.getD_cons_zero, hxy]
            | succ j =>
              rw [List.getD_cons_succ, List.getD_cons_succ]
              exact hall j (by simpa using hj)
        · rintro (⟨i, hi1, hi2, hpre, hgt⟩ | ⟨hlen, hall⟩)
          · cases i with
            | zero =>
              rw [List.getD_cons_zero, List.getD_cons_zero] at hgt
              omega
            | succ i =>
              rw [List.getD_cons_succ, List.getD_cons_succ] at hgt
              left
              refine ⟨i, by simpa using hi1, by simpa using hi2, ?_, hgt⟩
              intro j hj
              have := hpre (j + 1) (by omega)
              rw [List.getD_cons_succ, List.getD_cons_succ] at this
              exact this
          · right
            refine ⟨by simpa using hlen, ?_⟩
            intro j hj
            have := hall (j + 1) (by simpa using hj)
            rw [List.getD_cons_succ, List.getD_cons_succ] at this
            exact this

theorem getD_drop_add (l : List Nat) (p j : Nat) : (l.drop p).getD j 0 = l.getD (p + j) 0 := by
  rw [List.getD_eq_getElem?_getD, List.getD_eq_getElem?_getD, List.getElem?_drop]

/-- C28: with `height = 0`, for an index `w` of the suffix array inside
`[lo, hi]`, `compare(w)` returns the position `pos = SA[w]` and one of
`stopHere`, `goLeft`, `goRight`: `stopHere` iff the phrase is a prefix of the
suffix at `pos`; `goLeft` iff at the first offset where they differ the symbol
of the phrase is the smaller one; `goRight` iff at the first offset where they
differ the symbol of the phrase is the larger one, or the suffix ends, equal
to the phrase so far, while the phrase has symbols left. -/
theorem compare_from_first_symbol (state : searchState) (w : Nat) (h0 : state.height = 0)
    (hlo : state.lo ≤ w) (hhi : w ≤ state.hi) (hw : w < state.sa.length) :
    ∃ cmp, state.compare w = .ok (cmp, state.sa.getD w 0) ∧
      (cmp = .stopHere ∨ cmp = .goLeft ∨ cmp = .goRight) ∧
      (cmp = .stopHere ↔
        (state.text.ba.drop (state.sa.getD w 0)).take state.phrase.length = state.phrase) ∧
      (cmp = .goLeft ↔
        ∃ i, i < state.phrase.length ∧ state.sa.getD w 0 + i < state.text.Len ∧
          (∀ j, j < i →
            state.phrase.getD j 0 = state.text.ba.getD (state.sa.getD w 0 + j) 0) ∧
          state.phrase.getD i 0 < state.text.ba.getD (state.sa.getD w 0 + i) 0) ∧
      (cmp = .goRight ↔
        (∃ i, i < state.phrase.length ∧ state.sa.getD w 0 + i < state.text.Len ∧
          (∀ j, j < i →
            state.phrase.getD j 0 = state.text.ba.getD (state.sa.getD w 0 + j) 0) ∧
          state.phrase.getD i 0 > state.text.ba.getD (state.sa.getD w 0 + i) 0) ∨
        (state.text.Len - state.sa.getD w 0 < state.phrase.length ∧
          ∀ j, state.sa.getD w 0 + j < state.text.Len →
            state.phrase.getD j 0 = state.text.ba.getD (state.sa.getD w 0 + j) 0)) := by
  have hrun := compare_eq state w hlo hhi hw
  rw [h0, List.drop_zero, Nat.add_zero] at hrun
  unfold Text.Len
  have hi : ∀ i, i < state.text.ba.length - state.sa.getD w 0 ↔
      state.sa.getD w 0 + i < state.text.ba.length := by
    intro i
    omega
  refine ⟨_, hrun, ?_, ?_, ?_, ?_⟩
  · cases hc : cmpLists state.phrase (state.text.ba.drop (state.sa.getD w 0)) with
    | unset => exact absurd hc (cmpLists_ne_unset _ _)
    | goLeft => exact Or.inr (Or.inl rfl)
    | goRight => exact Or.inr (Or.inr rfl)
    | stopHere => exact Or.inl rfl
  · rw [cmpLists_stop_iff, naiveLCP_ge_iff_take]
  · rw [cmpLists_goLeft_iff]
    simp only [List.length_drop, hi, getD_drop_add]
  · rw [cmpLists_goRight_iff]
    simp only [List.length_drop, hi, getD_drop_add]

/-- Witness for `compare_from_first_symbol`: the phrase `"ana"` against the
suffix `"anana"` of `"banana"`, index 3 of its suffix array. -/
theorem compare_from_first_symbol_witness :
    ((searchState.mk (NewTextFromString [98, 97, 110, 97, 110, 97]) [6, 5, 3, 1, 0, 4, 2]
        [0, 0, 0] [97, 110, 97] 0 0 0 6).height = 0 ∧
      (searchState.mk (NewTextFromString [98, 97, 110, 97, 110, 97]) [6, 5, 3, 1, 0, 4, 2]
        [0, 0, 0] [97, 110, 97] 0 0 0 6).lo ≤ 3 ∧
      3 ≤ (searchState.mk (NewTextFromString [98, 97, 110, 97, 110, 97]) [6, 5, 3, 1, 0, 4, 2]
        [0, 0, 0] [97, 110, 97] 0 0 0 6).hi ∧
      3 < (searchState.mk (NewTextFromString [98, 97, 110, 97, 110, 97]) [6, 5, 3, 1, 0, 4, 2]
        [0, 0, 0] [97, 110, 97] 0 0 0 6).sa.length) ∧
    ∃ cmp, (searchState.mk (NewTextFromString [98, 97, 110, 97, 110, 97]) [6, 5, 3, 1, 0, 4, 2]
        [0, 0, 0] [97, 110, 97] 0 0 0 6).compare 3 = .ok (cmp, 1) ∧ cmp = .stopHere := by
  obtain ⟨cmp, h1, _, h3, _, _⟩ := compare_from_first_symbol
    (searchState.mk (NewTextFromString [98, 97, 110, 97, 110, 97]) [6, 5, 3, 1, 0, 4, 2]
      [0, 0, 0] [97, 110, 97] 0 0 0 6) 3 rfl (by decide) (by decide) (by decide)
  exact ⟨⟨rfl, by decide, by decide, by decide⟩, cmp, h1, h3.mpr (by decide)⟩

/-! # Search reads the LCP-LR array where the fill has written it -/

/-- An iteration of the first loop of `Search` that goes left or right goes
on from the state `phase1Step` gives. -/
theorem phase1_step_eq (fuel : Nat) (state : searchState) (w p height : Nat)
    (cmp : compareResult) (pos : Nat) (h3 : state.hi ≥ state.lo + 3)
    (hval : ValueAt state.lcplr state.index = .ok height)
    (hcmp : ({ state with height := height } : searchState).compare
      (state.lo + (state.hi - state.lo) / 2) = .ok (cmp, pos))
    (hc : cmp = .goLeft ∨ cmp = .goRight) :
    phase1 (fuel + 1) state w p
      = phase1 fuel (phase1Step state height cmp) (state.lo + (state.hi - state.lo) / 2) pos := by
  rw [phase1, if_pos h3, hval]
  simp only []
  rw [hcmp]
  rcases hc with hc | hc <;> subst hc <;> rfl

theorem Phase1Reach.inv {start state : searchState} (N : Nat) (h : Phase1Reach start state)
    (hs : start.index = 0 ∧ start.lo = 0 ∧ start.hi = N) :
    state.lcplr = start.lcplr ∧
      (state.lo + 3 ≤ state.hi → Visits 0 0 N state.index state.lo state.hi) := by
  induction h with
  | init =>
    refine ⟨rfl, ?_⟩
    intro _
    rw [hs.1, hs.2.1, hs.2.2]
    exact Visits.here _ _ _
  | step state height cmp _ h3 _ hc ih =>
    have hv := ih.2 h3
    rcases hc with hc | hc <;> subst hc
    · refine ⟨ih.1, ?_⟩
      intro hlt
      simp only [phase1Step] at hlt ⊢
      exact hv.child_left (by omega)
    · refine ⟨ih.1, ?_⟩
      intro hlt
      simp only [phase1Step] at hlt ⊢
      exact hv.child_right (by omega)

/-- C27: for an LCP array `H` of length `N ≥ 2` (a `uint64` length) whose
entries at indices `1 .. N-1` are below `placeholder`, `BuildLCPLRArray`
returns an array `L` such that, for every text, every suffix array of `N`
entries and every phrase, whatever `compare` answers: every iteration of the
first loop of `Search` (a state reached from the initial one in which
`hi >= lo + 3`) stands at a node `(index, lo, hi)` that the fill has visited
as `buildLCPLR(index, lo, hi)`; its read `lcplr.ValueAt(index)` is inside the
truncated array, succeeds, does not give `placeholder` and gives the minimum
of `H` over `(lo, hi]`.  The second part says that the iterations of `phase1`
are the steps of `Phase1Reach`. -/
theorem Search_reads_visited_nodes (H : List Nat) (hN : 2 ≤ H.length) (h64 : H.length < 2 ^ 64)
    (hH : ∀ p, p < H.length → 1 ≤ p → H.getD p 0 < placeholder) :
    ∃ L, BuildLCPLRArray H = .ok L ∧
      (∀ (text : Text) (sa phrase : List Nat) (state : searchState), sa.length = H.length →
        Phase1Reach ⟨text, sa, L, phrase, 0, 0, 0, dec64 sa.length⟩ state →
        state.hi ≥ state.lo + 3 →
        Visits 0 0 (dec64 H.length) state.index state.lo state.hi ∧
        state.index < L.length ∧
        ∃ m, ValueAt state.lcplr state.index = .ok m ∧ m ≠ placeholder ∧
          IsRangeMin H state.lo state.hi m) ∧
      ∀ (fuel : Nat) (state : searchState) (w p height : Nat) (cmp : compareResult) (pos : Nat),
        state.hi ≥ state.lo + 3 → ValueAt state.lcplr state.index = .ok height →
        ({ state with height := height } : searchState).compare
          (state.lo + (state.hi - state.lo) / 2) = .ok (cmp, pos) →
        (cmp = .goLeft ∨ cmp = .goRight) →
        phase1 (fuel + 1) state w p
          = phase1 fuel (phase1Step state height cmp)
              (state.lo + (state.hi - state.lo) / 2) pos := by
  have hH1 : ∀ p, 1 ≤ p → p < H.length → H.getD p 0 < placeholder := fun p a b => hH p b a
  obtain ⟨L, hL, hLvis⟩ := BuildLCPLRArray_spec H hN h64 hH1
  have hd := dec64_of_pos H.length (by omega) (by omega)
  refine ⟨L, hL, ?_, ?_⟩
  · intro text sa phrase state hsa hreach h3
    have hinv := hreach.inv (H.length - 1) ⟨rfl, rfl, by rw [hsa, hd]⟩
    have hv := hinv.2 h3
    obtain ⟨m, hm1, hm2⟩ := hLvis _ _ _ hv
    have hB0 : (0 + 2) * (H.length - 1 - 0 + 1) ≤ 2 * H.length := by omega
    obtain ⟨_, hhi, _⟩ := Visits_inv H.length H.length hv (by omega) (by omega) hB0
    obtain ⟨q, hq1, hq2, hq3⟩ := hm2.1
    have hmq : m = H.getD q 0 := (getD_of_getElem? hq3).symm
    have hlt := hH1 q (by omega) (by omega)
    have hk : state.index < L.length := by
      by_contra hc
      rw [List.getElem?_eq_none (by omega)] at hm1
      exact absurd hm1 (by simp)
    rw [hd]
    refine ⟨hv, hk, m, ?_, by omega, hm2⟩
    rw [hinv.1]
    unfold ValueAt
    simp only [hm1]
  · intro fuel state w p height cmp pos h3 hval hcmp hc
    exact phase1_step_eq fuel state w p height cmp pos h3 hval hcmp hc

/-- Witness for `Search_reads_visited_nodes`: the LCP array of `"banana"`. -/
theorem Search_reads_visited_nodes_witness :
    (2 ≤ [0, 0, 1, 3, 0, 0, 2].length ∧ [0, 0, 1, 3, 0, 0, 2].length < 2 ^ 64 ∧
      ∀ p, p < [0, 0, 1, 3, 0, 0, 2].length → 1 ≤ p →
        [0, 0, 1, 3, 0, 0, 2].getD p 0 < placeholder) ∧
    ∃ L, BuildLCPLRArray [0, 0, 1, 3, 0, 0, 2] = .ok L ∧
      (∀ (text : Text) (sa phrase : List Nat) (state : searchState),
        sa.length = [0, 0, 1, 3, 0, 0, 2].length →
        Phase1Reach ⟨text, sa, L, phrase, 0, 0, 0, dec64 sa.length⟩ state →
        state.hi ≥ state.lo + 3 →
        Visits 0 0 (dec64 [0, 0, 1, 3, 0, 0, 2].length) state.index state.lo state.hi ∧
        state.index < L.length ∧
        ∃ m, ValueAt state.lcplr state.index = .ok m ∧ m ≠ placeholder ∧
          IsRangeMin [0, 0, 1, 3, 0, 0, 2] state.lo state.hi m) ∧
      ∀ (fuel : Nat) (state : searchState) (w p height : Nat) (cmp : compareResult) (pos : Nat),
        state.hi ≥ state.lo + 3 → ValueAt state.lcplr state.index = .ok height →
        ({ state with height := height } : searchState).compare
          (state.lo + (state.hi - state.lo) / 2) = .ok (cmp, pos) →
        (cmp = .goLeft ∨ cmp = .goRight) →
        phase1 (fuel + 1) state w p
          = phase1 fuel (phase1Step state height cmp)
              (state.lo + (state.hi - state.lo) / 2) pos :=
  ⟨⟨by decide, by decide, by decide⟩,
    Search_reads_visited_nodes [0, 0, 1, 3, 0, 0, 2] (by decide) (by decide) (by decide)⟩

/-! # Search returns its hits in strictly ascending order -/

theorem compare_ok (state : searchState) (w : Nat) (hlo : state.lo ≤ w) (hhi : w ≤ state.hi)
    (hw : w < state.sa.length) :
    ∃ c, state.compare w = .ok (c, state.sa.getD w 0) ∧ c ≠ .unset ∧
      (state.text.ba.length ≤ state.sa.getD w 0 → c ≠ .goLeft) := by
  refine ⟨_, compare_eq state w hlo hhi hw, cmpLists_ne_unset _ _, ?_⟩
  intro h
  rw [List.drop_eq_nil_of_le
    (show state.text.ba.length ≤ state.sa.getD w 0 + state.height by omega)]
  cases state.phrase.drop state.height with
  | nil => simp [cmpLists]
  | cons x p => simp [cmpLists]

/-- The first loop of `Search` ends without error whenever the LCP-LR array
has a cell for every node the fill visits, whatever the comparisons say. -/
theorem phase1_total {sa lcplr : List Nat} (N : Nat)
    (hLR : ∀ k lo hi, Visits 0 0 N k lo hi → ∃ m, lcplr[k]? = some m) :
    ∀ (fuel : Nat) (state : searchState) (w p : Nat), state.sa = sa → state.lcplr = lcplr →
      state.hi < sa.length →
      (state.lo + 3 ≤ state.hi → Visits 0 0 N state.index state.lo state.hi) →
      state.hi - state.lo < fuel →
      ∃ state1 w1 p1 found, phase1 fuel state w p = .ok (state1, w1, p1, found) ∧
        state1.sa = sa ∧ state1.text = state.text ∧ state1.hi < sa.length ∧
        (found = true → state1.lo ≤ w1 ∧ w1 ≤ state1.hi ∧ p1 = sa.getD w1 0) := by
  intro fuel
  induction fuel with
  | zero => intro state w p _ _ _ _ h; omega
  | succ fuel ih =>
    intro state w p hsa hl hhi hnode hfuel
    rw [phase1]
    by_cases h3 : state.hi ≥ state.lo + 3
    · rw [if_pos h3]
      obtain ⟨m, hm⟩ := hLR _ _ _ (hnode h3)
      have hval : ValueAt state.lcplr state.index = .ok m := by
        rw [hl]
        unfold ValueAt
        rw [hm]
      rw [hval]
      simp only []
      obtain ⟨c, hc, hcu, _⟩ := compare_ok { state with height := m }
        (state.lo + (state.hi - state.lo) / 2) (by show state.lo ≤ _; omega)
        (by show _ ≤ state.hi; omega) (by show _ < state.sa.length; rw [hsa]; omega)
      rw [hc]
      cases c with
      | unset => exact absurd rfl hcu
      | goLeft =>
        simp only []
        obtain ⟨s1, w1, p1, f1, hrun, h1, h2, h4, h5⟩ := ih
          { state with height := m, index := 2 * state.index + 1,
                       hi := state.lo + (state.hi - state.lo) / 2 - 1 }
          (state.lo + (state.hi - state.lo) / 2) (state.sa.getD (state.lo + (state.hi - state.lo) / 2) 0)
          hsa hl (by show state.lo + (state.hi - state.lo) / 2 - 1 < _; omega)
          (by
            intro h
            have h' : state.lo + 3 ≤ state.lo + (state.hi - state.lo) / 2 - 1 := h
            exact (hnode h3).child_left (by omega))
          (by show state.lo + (state.hi - state.lo) / 2 - 1 - state.lo < fuel; omega)
        exact ⟨s1, w1, p1, f1, hrun, h1, h2, h4, h5⟩
      | goRight =>
        simp only []
        obtain ⟨s1, w1, p1, f1, hrun, h1, h2, h4, h5⟩ := ih
          { state with height := m, index := 2 * state.index + 2,
                       lo := state.lo + (state.hi - state.lo) / 2 + 1 }
          (state.lo + (state.hi - state.lo) / 2) (state.sa.getD (state.lo + (state.hi - state.lo) / 2) 0)
          hsa hl hhi
          (by
            intro h
            have h' : state.lo + (state.hi - state.lo) / 2 + 1 + 3 ≤ state.hi := h
            exact (hnode h3).child_right (by omega))
          (by show state.hi - (state.lo + (state.hi - state.lo) / 2 + 1) < fuel; omega)
        exact ⟨s1, w1, p1, f1, hrun, h1, h2, h4, h5⟩
      | stopHere =>
        simp only []
        refine ⟨_, _, _, _, rfl, hsa, rfl, hhi, ?_⟩
        intro _
        refine ⟨?_, ?_, by rw [← hsa]⟩
        · show state.lo ≤ _
          omega
        · show _ ≤ state.hi
          omega
    · rw [if_neg h3]
      exact ⟨state, w, p, false, rfl, hsa, rfl, hhi, by simp⟩

/-- The second loop of `Search` ends without error when the suffix array
starts with the end of the text. -/
theorem phase2_total {text : Text} {sa : List Nat} (h0 : text.ba.length ≤ sa.getD 0 0)
    (h64 : sa.length < 2 ^ 64) :
    ∀ (fuel : Nat) (state : searchState) (w p : Nat), state.sa = sa → state.text = text →
      state.hi < sa.length → state.hi + 1 - state.lo < fuel →
      ∃ state1 w1 p1 found, phase2 fuel state w p = .ok (state1, w1, p1, found) ∧
        state1.sa = sa ∧ state1.hi < sa.length ∧
        (found = true → state1.lo ≤ w1 ∧ w1 ≤ state1.hi ∧ p1 = sa.getD w1 0) := by
  intro fuel
  induction fuel with
  | zero => intro state w p _ _ _ h; omega
  | succ fuel ih =>
    intro state w p hsa ht hhi hfuel
    rw [phase2]
    by_cases hge : state.hi ≥ state.lo
    · rw [if_pos hge]
      obtain ⟨c, hc, hcu, hcl⟩ := compare_ok state state.lo (Nat.le_refl _) hge
        (by rw [hsa]; omega)
      rw [hc]
      cases c with
      | unset => exact absurd rfl hcu
      | goLeft =>
        simp only []
        have hlo : 1 ≤ state.lo := by
          by_contra hz
          have e : state.lo = 0 := by omega
          rw [e, hsa, ht] at hcl
          exact hcl h0 rfl
        have hd : dec64 state.lo = state.lo - 1 := dec64_of_pos state.lo hlo (by omega)
        obtain ⟨s1, w1, p1, f1, hrun, h1, h4, h5⟩ := ih { state with hi := dec64 state.lo }
          state.lo (state.sa.getD state.lo 0) hsa ht
          (by show dec64 state.lo < _; rw [hd]; omega)
          (by show dec64 state.lo + 1 - state.lo < fuel; rw [hd]; omega)
        exact ⟨s1, w1, p1, f1, hrun, h1, h4, h5⟩
      | goRight =>
        simp only []
        obtain ⟨s1, w1, p1, f1, hrun, h1, h4, h5⟩ := ih { state with lo := state.lo + 1 }
          state.lo (state.sa.getD state.lo 0) hsa ht hhi
          (by show state.hi + 1 - (state.lo + 1) < fuel; omega)
        exact ⟨s1, w1, p1, f1, hrun, h1, h4, h5⟩
      | stopHere =>
        simp only []
        exact ⟨_, _, _, _, rfl, hsa, hhi, fun _ => ⟨Nat.le_refl _, hge, by rw [← hsa]⟩⟩
    · rw [if_neg hge]
      exact ⟨state, w, p, false, rfl, hsa, hhi, by simp⟩

theorem sweepDown_total {sa : List Nat} {state : searchState} (hsa : state.sa = sa)
    (hhi : state.hi < sa.length) :
    ∀ (fuel lb : Nat) (results : List Nat), state.lo ≤ lb → lb ≤ state.hi →
      ∃ a, state.lo ≤ a ∧ a ≤ lb ∧
        sweepDown state fuel lb results
          = .ok (results ++ ((List.range' a (lb - a)).reverse.map (fun x => sa.getD x 0))) := by
  intro fuel
  induction fuel with
  | zero =>
    intro lb results h1 h2
    refine ⟨lb, h1, Nat.le_refl _, ?_⟩
    simp [sweepDown]
  | succ fuel ih =>
    intro lb results h1 h2
    rw [sweepDown]
    by_cases hgt : lb > state.lo
    · obtain ⟨c, hc, _, _⟩ := compare_ok state (lb - 1) (by omega) (by omega)
        (by rw [hsa]; omega)
      rw [if_pos hgt, hc, hsa]
      simp only []
      by_cases hs : c = .stopHere
      · rw [if_neg (fun h => h hs)]
        obtain ⟨a, ha1, ha2, hrun⟩ := ih (lb - 1) (results ++ [sa.getD (lb - 1) 0])
          (by omega) (by omega)
        refine ⟨a, ha1, by omega, ?_⟩
        rw [hrun]
        have e : lb - a = (lb - 1 - a) + 1 := by omega
        rw [e, List.range'_concat, List.reverse_append, List.map_append, List.append_assoc]
        have e2 : a + 1 * (lb - 1 - a) = lb - 1 := by omega
        rw [e2]
        rfl
      · rw [if_pos hs]
        exact ⟨lb, h1, Nat.le_refl _, by simp⟩
    · rw [if_neg hgt]
      exact ⟨lb, h1, Nat.le_refl _, by simp⟩

theorem sweepUp_total {sa : List Nat} {state : searchState} (hsa : state.sa = sa)
    (hhi : state.hi < sa.length) :
    ∀ (fuel ub : Nat) (results : List Nat), state.lo ≤ ub → ub ≤ state.hi →
      ∃ b, ub ≤ b ∧ b ≤ state.hi ∧
        sweepUp state fuel ub results
          = .ok (results ++ ((List.range' (ub + 1) (b - ub)).map (fun x => sa.getD x 0))) := by
  intro fuel
  induction fuel with
  | zero =>
    intro ub results h1 h2
    refine ⟨ub, Nat.le_refl _, h2, ?_⟩
    simp [sweepUp]
  | succ fuel ih =>
    intro ub results h1 h2
    rw [sweepUp]
    by_cases hlt : ub < state.hi
    · obtain ⟨c, hc, _, _⟩ := compare_ok state (ub + 1) (by omega) (by omega)
        (by rw [hsa]; omega)
      rw [if_pos hlt, hc, hsa]
      simp only []
      by_cases hs : c = .stopHere
      · rw [if_neg (fun h => h hs)]
        obtain ⟨b, hb1, hb2, hrun⟩ := ih (ub + 1) (results ++ [sa.getD (ub + 1) 0])
          (by omega) (by omega)
        refine ⟨b, by omega, hb2, ?_⟩
        rw [hrun]
        have e : b - ub = (b - (ub + 1)) + 1 := by omega
        rw [e, List.range'_succ, List.map_cons, List.append_assoc]
        rfl
      · rw [if_pos hs]
        exact ⟨ub, Nat.le_refl _, h2, by simp⟩
    · rw [if_neg hlt]
      exact ⟨ub, Nat.le_refl _, h2, by simp⟩

/-- After a hit at index `w1`, the sweeps collect the entries of the suffix
array at distinct indices, and the sorted result is strictly ascending. -/
theorem afterPhase2_ascending {text : List Nat} {sa : List Nat} {state : searchState}
    (hsa : IsSuffixArray text sa) (hs : state.sa = sa) (hhi : state.hi < sa.length)
    (w1 p1 : Nat) (hw1lo : state.lo ≤ w1) (hw1hi : w1 ≤ state.hi) (hp1 : p1 = sa.getD w1 0) :
    ∃ r, afterPhase2 (.ok (state, w1, p1, true)) = .ok r ∧ r.Pairwise (fun a b => a < b) ∧
      ∀ x ∈ r, x ≤ text.length := by
  obtain ⟨a, ha1, ha2, hdown⟩ := sweepDown_total hs hhi w1 w1 [p1] hw1lo hw1hi
  obtain ⟨b, hb1, hb2, hup⟩ := sweepUp_total hs hhi (state.hi - w1) w1
    ([p1] ++ ((List.range' a (w1 - a)).reverse.map (fun x => sa.getD x 0))) hw1lo hw1hi
  have hlen := hsa.length_eq
  simp only [afterPhase2, hdown, hup]
  refine ⟨_, rfl, ?_, ?_⟩
  · have hI : (w1 :: ((List.range' a (w1 - a)).reverse ++ List.range' (w1 + 1) (b - w1))).Nodup := by
      rw [List.nodup_cons, List.nodup_append]
      refine ⟨?_, List.nodup_reverse.mpr (List.nodup_range' _ _), List.nodup_range' _ _, ?_⟩
      · simp only [List.mem_append, List.mem_reverse, List.mem_range'_1]
        omega
      · intro x hx hy
        simp only [List.mem_reverse, List.mem_range'_1] at hx hy
        omega
    have hR : ([p1] ++ ((List.range' a (w1 - a)).reverse.map (fun x => sa.getD x 0)) ++
        ((List.range' (w1 + 1) (b - w1)).map (fun x => sa.getD x 0))).Nodup := by
      have e : [p1] ++ ((List.range' a (w1 - a)).reverse.map (fun x => sa.getD x 0)) ++
          ((List.range' (w1 + 1) (b - w1)).map (fun x => sa.getD x 0))
          = (w1 :: ((List.range' a (w1 - a)).reverse ++ List.range' (w1 + 1) (b - w1))).map
              (fun x => sa.getD x 0) := by
        rw [hp1]
        simp
      rw [e]
      apply List.Nodup.map_on _ hI
      intro x hx y hy hxy
      simp only [List.mem_cons, List.mem_append, List.mem_reverse, List.mem_range'_1] at hx hy
      exact hsa.getD_inj x y (by omega) (by omega) hxy
    have hsorted := List.sorted_insertionSort (fun a b : Nat => a ≤ b)
      ([p1] ++ ((List.range' a (w1 - a)).reverse.map (fun x => sa.getD x 0)) ++
        ((List.range' (w1 + 1) (b - w1)).map (fun x => sa.getD x 0)))
    have hperm := List.perm_insertionSort (fun a b : Nat => a ≤ b)
      ([p1] ++ ((List.range' a (w1 - a)).reverse.map (fun x => sa.getD x 0)) ++
        ((List.range' (w1 + 1) (b - w1)).map (fun x => sa.getD x 0)))
    exact List.Sorted.lt_of_le hsorted ((hperm.nodup_iff).mpr hR)
  · intro x hx
    have hperm := List.perm_insertionSort (fun a b : Nat => a ≤ b)
      ([p1] ++ ((List.range' a (w1 - a)).reverse.map (fun x => sa.getD x 0)) ++
        ((List.range' (w1 + 1) (b - w1)).map (fun x => sa.getD x 0)))
    have hm := (hperm.mem_iff).mp hx
    simp only [List.mem_append, List.mem_singleton, List.mem_map, List.mem_reverse,
      List.mem_range'_1] at hm
    rcases hm with (hm | ⟨i, hi, e⟩) | ⟨i, hi, e⟩
    · rw [hm, hp1]
      exact hsa.getD_le w1 (by omega)
    · rw [← e]
      exact hsa.getD_le i (by omega)
    · rw [← e]
      exact hsa.getD_le i (by omega)

/-- C29: for a non-empty text (of a length that `uint64` can hold) with its
sorted suffix array, the LCP array and the LCP-LR array can be built, and for
every phrase, whether it occurs or not, `Search` returns without error a list
that is strictly ascending, so sorted and free of repetitions; its entries are
offsets into the text. -/
theorem Search_strictly_ascending (text : Text) (sa phrase : List Nat)
    (hne : text.ba ≠ []) (h64 : text.Len + 1 < 2 ^ 64) (hsa : IsSuffixArray text.ba sa) :
    ∃ H L r, BuildLCPArray text sa = .ok H ∧ BuildLCPLRArray H = .ok L ∧
      Search text sa L phrase = .ok r ∧ r.Pairwise (fun a b => a < b) ∧
      ∀ x ∈ r, x ≤ text.Len := by
  unfold Text.Len at h64 ⊢
  have hn : 1 ≤ text.ba.length := List.length_pos.mpr hne
  obtain ⟨H, hH, hHlen, hHval⟩ := BuildLCPArray_spec text sa hsa
  unfold Text.Len at hHlen hHval
  have hbound : ∀ p, 1 ≤ p → p < H.length → H.getD p 0 < placeholder := by
    intro p hp1 hp2
    rw [hHval p hp1 (by omega)]
    have := naiveLCP_le_left (text.ba.drop (sa.getD (p - 1) 0)) (text.ba.drop (sa.getD p 0))
    rw [List.length_drop] at this
    unfold placeholder
    omega
  obtain ⟨L, hL, hLvis⟩ := BuildLCPLRArray_spec H (by omega) (by omega) hbound
  have hN : H.length - 1 = text.ba.length := by omega
  rw [hN] at hLvis
  have hlen := hsa.length_eq
  have hd : dec64 sa.length = text.ba.length := by
    rw [dec64_of_pos sa.length (by omega) (by omega), hlen, Nat.add_sub_cancel]
  obtain ⟨s1, w1, p1, f1, hrun1, hs1, ht1, hhi1, hf1⟩ := @phase1_total sa L text.ba.length
    (fun k lo hi hv => by
      obtain ⟨m, hm, _⟩ := hLvis k lo hi hv
      exact ⟨m, hm⟩)
    (1 + sa.length) ⟨text, sa, L, phrase, 0, 0, 0, dec64 sa.length⟩ 0 0 rfl rfl
    (by show dec64 sa.length < _; rw [hd]; omega)
    (by
      intro _
      show Visits 0 0 text.ba.length 0 0 (dec64 sa.length)
      rw [hd]
      exact Visits.here _ _ _)
    (by show dec64 sa.length - 0 < _; rw [hd]; omega)
  refine ⟨H, L, ?_⟩
  unfold Search
  rw [hrun1]
  cases f1 with
  | true =>
    obtain ⟨h1, h2, h3⟩ := hf1 rfl
    obtain ⟨r, hr, hp, hm⟩ := afterPhase2_ascending hsa hs1 hhi1 w1 p1 h1 h2 h3
    exact ⟨r, hH, hL, by rw [afterPhase1]; exact hr, hp, hm⟩
  | false =>
    rw [afterPhase1]
    obtain ⟨s2, w2, p2, f2, hrun2, hs2, hhi2, hf2⟩ := @phase2_total text sa
      (by rw [hsa.head]) (by omega) (2 + sa.length) s1 w1 p1 hs1 ht1 hhi1 (by omega)
    rw [hrun2]
    cases f2 with
    | true =>
      obtain ⟨h1, h2, h3⟩ := hf2 rfl
      obtain ⟨r, hr, hp, hm⟩ := afterPhase2_ascending hsa hs2 hhi2 w2 p2 h1 h2 h3
      exact ⟨r, hH, hL, hr, hp, hm⟩
    | false =>
      exact ⟨[], hH, hL, rfl, List.Pairwise.nil, by simp⟩

/-- Witness for `Search_strictly_ascending`: the text `"banana"` with its
suffix array, searched for `"x"`, which does not occur. -/
theorem Search_strictly_ascending_witness :
    ((NewTextFromString [98, 97, 110, 97, 110, 97]).ba ≠ [] ∧
      (NewTextFromString [98, 97, 110, 97, 110, 97]).Len + 1 < 2 ^ 64 ∧
      IsSuffixArray (NewTextFromString [98, 97, 110, 97, 110, 97]).ba [6, 5, 3, 1, 0, 4, 2]) ∧
    ∃ H L r, BuildLCPArray (NewTextFromString [98, 97, 110, 97, 110, 97]) [6, 5, 3, 1, 0, 4, 2]
        = .ok H ∧
      BuildLCPLRArray H = .ok L ∧
      Search (NewTextFromString [98, 97, 110, 97, 110, 97]) [6, 5, 3, 1, 0, 4, 2] L [120]
        = .ok r ∧
      r.Pairwise (fun a b => a < b) ∧
      ∀ x ∈ r, x ≤ (NewTextFromString [98, 97, 110, 97, 110, 97]).Len :=
  ⟨⟨by decide, by decide, ⟨by decide, by decide⟩⟩,
    Search_strictly_ascending (NewTextFromString [98, 97, 110, 97, 110, 97])
      [6, 5, 3, 1, 0, 4, 2] [120] (by decide) (by decide) ⟨by decide, by decide⟩⟩

/-! # The summary text is shorter than the text -/

/-- C30: for a text of length `n ≥ 2` (symbols below the alphabet size,
`n + 1` below `2 ^ 64`), the steps of `BuildSuffixArray` up to `summarize`
succeed; the offsets `summarize` returns are the left-most-S positions of the
text, each once, the end of the text `n` among them; the summary text has one
symbol for each of them and is strictly shorter than the text.  So every
recursion of `BuildSuffixArray` through `buildSummarySuffixArray` is on a
shorter text, and `BuildSuffixArray` returns, with any recursion budget above
`n`, in particular with the budget `1 + n` it is given. -/
theorem summarize_shorter (text : Text) (hsym : ∀ x ∈ text.ba, x < text.AlphabetSize)
    (hn : 2 ≤ text.Len) (h64 : text.Len + 1 < 2 ^ 64) :
    ∃ sizes a0 a1 g st offs,
      BuildBucketSizes text = .ok sizes ∧
      guessLMSSort text (BuildTypeMap text) sizes = .ok a0 ∧
      induceSortL text (BuildTypeMap text) sizes a0 = .ok a1 ∧
      induceSortR text (BuildTypeMap text) sizes a1 = .ok g ∧
      summarize text (BuildTypeMap text) g = .ok (st, offs) ∧
      (∀ p, p ∈ offs ↔ p ≤ text.Len ∧ (BuildTypeMap text).IsLMS p = .ok true) ∧
      offs.Nodup ∧ text.Len ∈ offs ∧
      st.Len = offs.length ∧ st.Len < text.Len ∧
      (∀ fuel, text.Len < fuel → ∃ sa, BuildSuffixArrayFuel fuel text = .ok sa) ∧
      ∃ sa, BuildSuffixArray text = .ok sa := by
  unfold Text.Len at hn h64 ⊢
  have hsym' : ∀ i, i < text.ba.length → text.ba.getD i 0 < text.ab := by
    intro i hi
    exact hsym _ (getD_mem_of_lt text.ba i hi)
  have hn1 : 1 ≤ text.ba.length := by omega
  obtain ⟨sizes, hsz1, hsl, hsz⟩ := BuildBucketSizes_spec text hsym (by omega)
  obtain ⟨a0, sidx, hguess, hseeds⟩ := guessLMSSort_spec text h64 hsym' hn1 sizes hsl hsz
  obtain ⟨g, hg⟩ := exists_sortedPerm (lmsKey text.ba) text.ba.length
  obtain ⟨a1, hL1, hR1⟩ := passes_spec h64 hsym' hn1 (lmsKey_keyLaw text.ba) hseeds hg
    sizes hsl hsz
  obtain ⟨cn, last, names, hsum, _⟩ := summarize_spec text g hn1 h64 hg
  rw [BuildTypeMap_eq]
  refine ⟨sizes, a0, a1, g, _, _, hsz1, hguess, hL1, hR1, hsum, ?_, lmsList_nodup _, ?_, ?_,
    ?_, ?_, ?_⟩
  · intro p
    rw [mem_lmsList]
    constructor
    · rintro ⟨h1, h2⟩
      exact ⟨h1, by rw [IsLMS_types _ _ h1, h2]⟩
    · rintro ⟨h1, h2⟩
      rw [IsLMS_types _ _ h1] at h2
      exact ⟨h1, by simpa using h2⟩
  · rw [mem_lmsList]
    exact ⟨Nat.le_refl _, isLMS_length _ hn1⟩
  · show ((lmsList text.ba).map _).length = _
    rw [List.length_map]
  · show ((lmsList text.ba).map _).length < _
    rw [List.length_map]
    exact lmsList_length_lt text.ba hn
  · intro fuel hfuel
    obtain ⟨sa, h1, _⟩ := BuildSuffixArrayFuel_spec fuel text hfuel hsym' h64
    exact ⟨sa, h1⟩
  · obtain ⟨sa, h1, _⟩ := BuildSuffixArray_spec text hsym (by unfold Text.Len; exact h64)
    exact ⟨sa, h1⟩

/-- Witness for `summarize_shorter`: the text `"banana"`. -/
theorem summarize_shorter_witness :
    ((∀ x ∈ (NewTextFromString [98, 97, 110, 97, 110, 97]).ba,
        x < (NewTextFromString [98, 97, 110, 97, 110, 97]).AlphabetSize) ∧
      2 ≤ (NewTextFromString [98, 97, 110, 97, 110, 97]).Len ∧
      (NewTextFromString [98, 97, 110, 97, 110, 97]).Len + 1 < 2 ^ 64) ∧
    ∃ sizes a0 a1 g st offs,
      BuildBucketSizes (NewTextFromString [98, 97, 110, 97, 110, 97]) = .ok sizes ∧
      guessLMSSort (NewTextFromString [98, 97, 110, 97, 110, 97])
        (BuildTypeMap (NewTextFromString [98, 97, 110, 97, 110, 97])) sizes = .ok a0 ∧
      induceSortL (NewTextFromString [98, 97, 110, 97, 110, 97])
        (BuildTypeMap (NewTextFromString [98, 97, 110, 97, 110, 97])) sizes a0 = .ok a1 ∧
      induceSortR (NewTextFromString [98, 97, 110, 97, 110, 97])
        (BuildTypeMap (NewTextFromString [98, 97, 110, 97, 110, 97])) sizes a1 = .ok g ∧
      summarize (NewTextFromString [98, 97, 110, 97, 110, 97])
        (BuildTypeMap (NewTextFromString [98, 97, 110, 97, 110, 97])) g = .ok (st, offs) ∧
      (∀ p, p ∈ offs ↔ p ≤ (NewTextFromString [98, 97, 110, 97, 110, 97]).Len ∧
        (BuildTypeMap (NewTextFromString [98, 97, 110, 97, 110, 97])).IsLMS p = .ok true) ∧
      offs.Nodup ∧ (NewTextFromString [98, 97, 110, 97, 110, 97]).Len ∈ offs ∧
      st.Len = offs.length ∧ st.Len < (NewTextFromString [98, 97, 110, 97, 110, 97]).Len ∧
      (∀ fuel, (NewTextFromString [98, 97, 110, 97, 110, 97]).Len < fuel →
        ∃ sa, BuildSuffixArrayFuel fuel (NewTextFromString [98, 97, 110, 97, 110, 97]) = .ok sa) ∧
      ∃ sa, BuildSuffixArray (NewTextFromString [98, 97, 110, 97, 110, 97]) = .ok sa :=
  ⟨⟨by decide, by decide, by decide⟩,
    summarize_shorter (NewTextFromString [98, 97, 110, 97, 110, 97]) (by decide) (by decide)
      (by decide)⟩

/-! # LMS positions are at least two apart -/

/-- C32: in the type map `BuildTypeMap` builds for a text of length `n`, an
LMS position is never followed by an LMS position, so two distinct LMS
positions are at least two apart; and position `n - 1` is never LMS (for
`n ≥ 1`).  `IsLMS` is read through `TypeMap.IsLMS`, at indices inside the
map. -/
theorem BuildTypeMap_LMS_apart (text : Text) :
    (∀ i, i + 1 ≤ text.Len → (BuildTypeMap text).IsLMS i = .ok true →
      (BuildTypeMap text).IsLMS (i + 1) = .ok false) ∧
    (∀ i j, i < j → j ≤ text.Len → (BuildTypeMap text).IsLMS i = .ok true →
      (BuildTypeMap text).IsLMS j = .ok true → i + 2 ≤ j) ∧
    (1 ≤ text.Len → (BuildTypeMap text).IsLMS (text.Len - 1) = .ok false) := by
  unfold Text.Len
  rw [BuildTypeMap_eq]
  have hstep : ∀ i, i + 1 ≤ text.ba.length → TypeMap.IsLMS (types text.ba) i = .ok true →
      TypeMap.IsLMS (types text.ba) (i + 1) = .ok false := by
    intro i hi h
    rw [IsLMS_types _ _ (by omega)] at h
    rw [IsLMS_types _ _ hi]
    have h1 : isLMS text.ba i = true := by simpa using h
    rw [not_isLMS_succ_of_S _ _ (isLMS_isS _ _ h1)]
  refine ⟨hstep, ?_, ?_⟩
  · intro i j hij hj hi hjl
    by_contra hc
    have e : j = i + 1 := by omega
    subst e
    rw [hstep i hj hi] at hjl
    exact absurd hjl (by simp)
  · intro hn
    rw [IsLMS_types _ _ (by omega), not_isLMS_of_L _ _ (isL_last _ hn)]

/-! # The length of the summary text -/

/-- At most every second position is LMS, the end of the text being one of
them: twice the number of LMS positions is at most `n + 1`. -/
theorem lmsList_length_half (T : List Nat) : 2 * (lmsList T).length ≤ T.length + 1 := by
  have hnd : ((lmsList T).map (fun p => (p - 1) / 2)).Nodup := by
    apply List.Nodup.map_on _ (lmsList_nodup T)
    intro x hx y hy hxy
    rw [mem_lmsList] at hx hy
    have hx1 := (isLMS_pred T x hx.2).1
    have hy1 := (isLMS_pred T y hy.2).1
    by_contra hne
    have h12 : y = x + 1 ∨ x = y + 1 := by omega
    rcases h12 with e | e
    · have := not_isLMS_succ_of_S T x (isLMS_isS T x hx.2)
      rw [← e, hy.2] at this
      exact absurd this (by decide)
    · have := not_isLMS_succ_of_S T y (isLMS_isS T y hy.2)
      rw [← e, hx.2] at this
      exact absurd this (by decide)
  have hsub : ∀ q, q ∈ (lmsList T).map (fun p => (p - 1) / 2) →
      q < (T.length + 1) / 2 ∧ true = true := by
    intro q hq
    rw [List.mem_map] at hq
    obtain ⟨p, hp, e⟩ := hq
    rw [mem_lmsList] at hp
    have hp1 := (isLMS_pred T p hp.2).1
    refine ⟨?_, rfl⟩
    omega
  have := nodup_length_le_countP (fun _ => true) ((T.length + 1) / 2) _ hnd hsub
  rw [List.length_map] at this
  have h2 := @List.countP_le_length _ (fun _ => true) (List.range ((T.length + 1) / 2))
  rw [List.length_range] at h2
  omega

/-- C31 (as amended): for a text of length `n ≥ 2` (symbols below the alphabet
size, `n + 1` below `2 ^ 64`), the steps of `BuildSuffixArray` up to
`summarize` succeed, and the summary text has at most `(n + 1) / 2` symbols:
twice its length is at most `n + 1`. -/
theorem summarize_at_most_half_up (text : Text) (hsym : ∀ x ∈ text.ba, x < text.AlphabetSize)
    (hn : 2 ≤ text.Len) (h64 : text.Len + 1 < 2 ^ 64) :
    ∃ sizes a0 a1 g st offs,
      BuildBucketSizes text = .ok sizes ∧
      guessLMSSort text (BuildTypeMap text) sizes = .ok a0 ∧
      induceSortL text (BuildTypeMap text) sizes a0 = .ok a1 ∧
      induceSortR text (BuildTypeMap text) sizes a1 = .ok g ∧
      summarize text (BuildTypeMap text) g = .ok (st, offs) ∧
      2 * st.Len ≤ text.Len + 1 := by
  unfold Text.Len at hn h64 ⊢
  have hsym' : ∀ i, i < text.ba.length → text.ba.getD i 0 < text.ab := by
    intro i hi
    exact hsym _ (getD_mem_of_lt text.ba i hi)
  have hn1 : 1 ≤ text.ba.length := by omega
  obtain ⟨sizes, hsz1, hsl, hsz⟩ := BuildBucketSizes_spec text hsym (by omega)
  obtain ⟨a0, sidx, hguess, hseeds⟩ := guessLMSSort_spec text h64 hsym' hn1 sizes hsl hsz
  obtain ⟨g, hg⟩ := exists_sortedPerm (lmsKey text.ba) text.ba.length
  obtain ⟨a1, hL1, hR1⟩ := passes_spec h64 hsym' hn1 (lmsKey_keyLaw text.ba) hseeds hg
    sizes hsl hsz
  obtain ⟨cn, last, names, hsum, _⟩ := summarize_spec text g hn1 h64 hg
  rw [BuildTypeMap_eq]
  refine ⟨sizes, a0, a1, g, _, _, hsz1, hguess, hL1, hR1, hsum, ?_⟩
  show 2 * ((lmsList text.ba).map _).length ≤ _
  rw [List.length_map]
  exact lmsList_length_half text.ba

/-- Witness for `summarize_at_most_half_up`: the text `"banana"`. -/
theorem summarize_at_most_half_up_witness :
    ((∀ x ∈ (NewTextFromString [98, 97, 110, 97, 110, 97]).ba,
        x < (NewTextFromString [98, 97, 110, 97, 110, 97]).AlphabetSize) ∧
      2 ≤ (NewTextFromString [98, 97, 110, 97, 110, 97]).Len ∧
      (NewTextFromString [98, 97, 110, 97, 110, 97]).Len + 1 < 2 ^ 64) ∧
    ∃ sizes a0 a1 g st offs,
      BuildBucketSizes (NewTextFromString [98, 97, 110, 97, 110, 97]) = .ok sizes ∧
      guessLMSSort (NewTextFromString [98, 97, 110, 97, 110, 97])
        (BuildTypeMap (NewTextFromString [98, 97, 110, 97, 110, 97])) sizes = .ok a0 ∧
      induceSortL (NewTextFromString [98, 97, 110, 97, 110, 97])
        (BuildTypeMap (NewTextFromString [98, 97, 110, 97, 110, 97])) sizes a0 = .ok a1 ∧
      induceSortR (NewTextFromString [98, 97, 110, 97, 110, 97])
        (BuildTypeMap (NewTextFromString [98, 97, 110, 97, 110, 97])) sizes a1 = .ok g ∧
      summarize (NewTextFromString [98, 97, 110, 97, 110, 97])
        (BuildTypeMap (NewTextFromString [98, 97, 110, 97, 110, 97])) g = .ok (st, offs) ∧
      2 * st.Len ≤ (NewTextFromString [98, 97, 110, 97, 110, 97]).Len + 1 :=
  ⟨⟨by decide, by decide, by decide⟩,
    summarize_at_most_half_up (NewTextFromString [98, 97, 110, 97, 110, 97]) (by decide)
      (by decide) (by decide)⟩

/-- C31 (counterexample): the text `"bab"` (symbols `1 0 1` over an alphabet
of 2) has length 3 and the LMS positions 1 and 3, so `summarize` returns a
summary text of 2 symbols (the names `[1, 0]`), more than `3 / 2`. -/
theorem summarize_bab_longer_than_half :
    (Text.mk 2 [1, 0, 1]).Len = 3 ∧
    BuildBucketSizes (Text.mk 2 [1, 0, 1]) = .ok [1, 2] ∧
    guessLMSSort (Text.mk 2 [1, 0, 1]) (BuildTypeMap (Text.mk 2 [1, 0, 1])) [1, 2]
      = .ok [3, 1, placeholder, placeholder] ∧
    induceSortL (Text.mk 2 [1, 0, 1]) (BuildTypeMap (Text.mk 2 [1, 0, 1])) [1, 2]
      [3, 1, placeholder, placeholder] = .ok [3, 1, 2, 0] ∧
    induceSortR (Text.mk 2 [1, 0, 1]) (BuildTypeMap (Text.mk 2 [1, 0, 1])) [1, 2]
      [3, 1, 2, 0] = .ok [3, 1, 2, 0] ∧
    summarize (Text.mk 2 [1, 0, 1]) (BuildTypeMap (Text.mk 2 [1, 0, 1])) [3, 1, 2, 0]
      = .ok (⟨2, [1, 0]⟩, [1, 3]) ∧
    (Text.mk 2 [1, 0]).Len = 2 ∧ ¬ 2 ≤ 3 / 2 ∧ ¬ 2 * 2 ≤ 3 := by
  refine ⟨rfl, by rfl, by rfl, by rfl, by rfl, by rfl, rfl, by decide, by decide⟩

/-! # The summary text and its direct suffix array -/

/-- C33: for a text of length `n ≥ 2` (symbols below the alphabet size,
`n + 1` below `2 ^ 64`), the summary text `summarize` returns uses every name
below its alphabet size at least once and no other symbol; so its length is
its alphabet size exactly when no name occurs twice; and in that case
`buildSummarySuffixArray` does not call `build`, and the array it fills in
directly is `NaiveBuildSuffixArray` of the summary text, which is also what
`BuildSuffixArray`, the recursive branch, returns for it. -/
theorem summary_names_cover (text : Text) (hsym : ∀ x ∈ text.ba, x < text.AlphabetSize)
    (hn : 2 ≤ text.Len) (h64 : text.Len + 1 < 2 ^ 64) :
    ∃ sizes a0 a1 g st offs,
      BuildBucketSizes text = .ok sizes ∧
      guessLMSSort text (BuildTypeMap text) sizes = .ok a0 ∧
      induceSortL text (BuildTypeMap text) sizes a0 = .ok a1 ∧
      induceSortR text (BuildTypeMap text) sizes a1 = .ok g ∧
      summarize text (BuildTypeMap text) g = .ok (st, offs) ∧
      (∀ c, c < st.AlphabetSize → c ∈ st.ba) ∧
      (∀ x ∈ st.ba, x < st.AlphabetSize) ∧
      (st.Len = st.AlphabetSize ↔ st.ba.Nodup) ∧
      (st.Len = st.AlphabetSize →
        (∀ build, buildSummarySuffixArray build st = .ok (NaiveBuildSuffixArray st.ba)) ∧
        BuildSuffixArray st = .ok (NaiveBuildSuffixArray st.ba)) := by
  unfold Text.Len at hn h64
  have hsym' : ∀ i, i < text.ba.length → text.ba.getD i 0 < text.ab := by
    intro i hi
    exact hsym _ (getD_mem_of_lt text.ba i hi)
  have hn1 : 1 ≤ text.ba.length := by omega
  obtain ⟨sizes, hsz1, hsl, hsz⟩ := BuildBucketSizes_spec text hsym (by omega)
  obtain ⟨a0, sidx, hguess, hseeds⟩ := guessLMSSort_spec text h64 hsym' hn1 sizes hsl hsz
  obtain ⟨g, hg⟩ := exists_sortedPerm (lmsKey text.ba) text.ba.length
  obtain ⟨a1, hL1, hR1⟩ := passes_spec h64 hsym' hn1 (lmsKey_keyLaw text.ba) hseeds hg
    sizes hsl hsz
  obtain ⟨cn, last, names, hsum, hinv⟩ := summarize_spec text g hn1 h64 hg
  obtain ⟨hle, hsurj, _, _, hcn⟩ := hinv.final hg.1
  rw [BuildTypeMap_eq]
  have hcover : ∀ c, c < cn + 1 → c ∈ (lmsList text.ba).map (fun p => names.getD p 0) := by
    intro c hc
    obtain ⟨p, h1, h2, h3⟩ := hsurj c (by omega)
    rw [List.mem_map]
    exact ⟨p, (mem_lmsList text.ba p).mpr ⟨h1, h2⟩, h3⟩
  have hmem : ∀ x, x ∈ (lmsList text.ba).map (fun p => names.getD p 0) → x < cn + 1 := by
    intro x hx
    obtain ⟨p, hp, e⟩ := List.mem_map.mp hx
    rw [mem_lmsList] at hp
    rw [← e]
    have := hle p hp.1 hp.2
    omega
  have hsub : (List.range (cn + 1)).Subperm ((lmsList text.ba).map (fun p => names.getD p 0)) := by
    apply List.Nodup.subperm (List.nodup_range _)
    intro v hv
    exact hcover v (List.mem_range.mp hv)
  have hlenS := lmsList_length_lt text.ba hn
  refine ⟨sizes, a0, a1, g, _, _, hsz1, hguess, hL1, hR1, hsum, hcover, hmem, ?_, ?_⟩
  · show ((lmsList text.ba).map (fun p => names.getD p 0)).length = cn + 1 ↔ _
    constructor
    · intro hd
      have hp := hsub.perm_of_length_le (by rw [List.length_range, hd])
      exact (hp.nodup_iff).mp (List.nodup_range _)
    · intro hnd
      have h1 := hsub.length_le
      rw [List.length_range] at h1
      have h2 : ((lmsList text.ba).map (fun p => names.getD p 0)).Subperm (List.range (cn + 1)) := by
        apply List.Nodup.subperm hnd
        intro v hv
        exact List.mem_range.mpr (hmem v hv)
      have h3 := h2.length_le
      rw [List.length_range] at h3
      omega
  · intro hd
    have hd' : ((lmsList text.ba).map (fun p => names.getD p 0)).length = cn + 1 := hd
    have hp := hsub.perm_of_length_le (by rw [List.length_range, hd'])
    constructor
    · intro build
      unfold buildSummarySuffixArray Text.Len Text.AlphabetSize
      simp only []
      rw [if_pos hd', SetValueAt_of_lt _ _ _ (by simp [makeBigArray])]
      simp only []
      obtain ⟨ssa, h1, h2⟩ := direct_spec ((lmsList text.ba).map (fun p => names.getD p 0))
        (by rw [hd']; exact hp.symm)
      rw [h1, h2.eq_of_both (NaiveBuildSuffixArray_spec _)]
    · obtain ⟨sa, h1, h2⟩ := BuildSuffixArray_spec
        ⟨cn + 1, (lmsList text.ba).map (fun p => names.getD p 0)⟩ hmem (by
          unfold Text.Len
          show ((lmsList text.ba).map (fun p => names.getD p 0)).length + 1 < 2 ^ 64
          rw [List.length_map]
          omega)
      rw [h1, h2.eq_of_both (NaiveBuildSuffixArray_spec _)]

/-- Witness for `summary_names_cover`: the text `"banana"`. -/
theorem summary_names_cover_witness :
    ((∀ x ∈ (NewTextFromString [98, 97, 110, 97, 110, 97]).ba,
        x < (NewTextFromString [98, 97, 110, 97, 110, 97]).AlphabetSize) ∧
      2 ≤ (NewTextFromString [98, 97, 110, 97, 110, 97]).Len ∧
      (NewTextFromString [98, 97, 110, 97, 110, 97]).Len + 1 < 2 ^ 64) ∧
    ∃ sizes a0 a1 g st offs,
      BuildBucketSizes (NewTextFromString [98, 97, 110, 97, 110, 97]) = .ok sizes ∧
      guessLMSSort (NewTextFromString [98, 97, 110, 97, 110, 97])
        (BuildTypeMap (NewTextFromString [98, 97, 110, 97, 110, 97])) sizes = .ok a0 ∧
      induceSortL (NewTextFromString [98, 97, 110, 97, 110, 97])
        (BuildTypeMap (NewTextFromString [98, 97, 110, 97, 110, 97])) sizes a0 = .ok a1 ∧
      induceSortR (NewTextFromString [98, 97, 110, 97, 110, 97])
        (BuildTypeMap (NewTextFromString [98, 97, 110, 97, 110, 97])) sizes a1 = .ok g ∧
      summarize (NewTextFromString [98, 97, 110, 97, 110, 97])
        (BuildTypeMap (NewTextFromString [98, 97, 110, 97, 110, 97])) g = .ok (st, offs) ∧
      (∀ c, c < st.AlphabetSize → c ∈ st.ba) ∧
      (∀ x ∈ st.ba, x < st.AlphabetSize) ∧
      (st.Len = st.AlphabetSize ↔ st.ba.Nodup) ∧
      (st.Len = st.AlphabetSize →
        (∀ build, buildSummarySuffixArray build st = .ok (NaiveBuildSuffixArray st.ba)) ∧
        BuildSuffixArray st = .ok (NaiveBuildSuffixArray st.ba)) :=
  ⟨⟨by decide, by decide, by decide⟩,
    summary_names_cover (NewTextFromString [98, 97, 110, 97, 110, 97]) (by decide) (by decide)
      (by decide)⟩

/-! # The first round sorts the LMS substrings -/

/-- C34 (as amended): for a text of length `n ≥ 2` (symbols below the alphabet
size, `n + 1` below `2 ^ 64`), `guessLMSSort`, `induceSortL` and `induceSortR`
succeed one after the other and leave an array `g` that is a permutation of
`0 .. n`, without `placeholder`, in which the LMS positions stand in
non-decreasing order of their LMS substrings, where the substrings are
compared position by position by symbol and, at equal symbols, by type, an
L-type position being smaller than an S-type one: the key `lmsKey T p` of a
position lists the codes `2 * symbol + (0 for L, 1 for S)` from `p` up to and
including the next LMS position, the end of the text adding nothing (so that
it is smaller than every symbol). -/
theorem first_round_sorts_LMS_substrings (text : Text)
    (hsym : ∀ x ∈ text.ba, x < text.AlphabetSize) (hn : 2 ≤ text.Len)
    (h64 : text.Len + 1 < 2 ^ 64) :
    ∃ sizes a0 a1 g,
      BuildBucketSizes text = .ok sizes ∧
      guessLMSSort text (BuildTypeMap text) sizes = .ok a0 ∧
      induceSortL text (BuildTypeMap text) sizes a0 = .ok a1 ∧
      induceSortR text (BuildTypeMap text) sizes a1 = .ok g ∧
      g.Perm (List.range (text.Len + 1)) ∧
      (∀ x ∈ g, x ≠ placeholder) ∧
      (∀ i j, i < j → j ≤ text.Len →
        (BuildTypeMap text).IsLMS (g.getD i 0) = .ok true →
        (BuildTypeMap text).IsLMS (g.getD j 0) = .ok true →
        lexLt (lmsKey text.ba (g.getD j 0)) (lmsKey text.ba (g.getD i 0)) = false) ∧
      lmsKey text.ba text.Len = [] ∧
      (∀ p, p < text.Len → (BuildTypeMap text).IsLMS (p + 1) = .ok true →
        lmsKey text.ba p
          = code text.ba p :: (if p + 1 < text.Len then [code text.ba (p + 1)] else [])) ∧
      (∀ p, p < text.Len → (BuildTypeMap text).IsLMS (p + 1) = .ok false →
        lmsKey text.ba p = code text.ba p :: lmsKey text.ba (p + 1)) ∧
      (∀ p, p < text.Len → (BuildTypeMap text).TypeAt p = .ok LType →
        code text.ba p = 2 * text.ba.getD p 0) ∧
      (∀ p, p < text.Len → (BuildTypeMap text).TypeAt p = .ok SType →
        code text.ba p = 2 * text.ba.getD p 0 + 1) := by
  unfold Text.Len at hn h64 ⊢
  have hsym' : ∀ i, i < text.ba.length → text.ba.getD i 0 < text.ab := by
    intro i hi
    exact hsym _ (getD_mem_of_lt text.ba i hi)
  have hn1 : 1 ≤ text.ba.length := by omega
  obtain ⟨sizes, hsz1, hsl, hsz⟩ := BuildBucketSizes_spec text hsym (by omega)
  obtain ⟨a0, sidx, hguess, hseeds⟩ := guessLMSSort_spec text h64 hsym' hn1 sizes hsl hsz
  obtain ⟨g, hg⟩ := exists_sortedPerm (lmsKey text.ba) text.ba.length
  obtain ⟨a1, hL1, hR1⟩ := passes_spec h64 hsym' hn1 (lmsKey_keyLaw text.ba) hseeds hg
    sizes hsl hsz
  rw [BuildTypeMap_eq]
  refine ⟨sizes, a0, a1, g, hsz1, hguess, hL1, hR1, hg.1, ?_, ?_, lmsKey_length _, ?_, ?_,
    ?_, ?_⟩
  · intro x hx
    have := List.mem_range.mp ((hg.1.mem_iff).mp hx)
    unfold placeholder
    omega
  · intro i j hij hj _ _
    have h1 := hg.2 i j hij hj
    cases hc : lexLt (lmsKey text.ba (g.getD j 0)) (lmsKey text.ba (g.getD i 0)) with
    | false => rfl
    | true => exact absurd (Or.inl hc) (klt_asymm _ _ _ h1)
  · intro p hp h
    rw [IsLMS_types _ _ (by omega)] at h
    have h1 : isLMS text.ba (p + 1) = true := by simpa using h
    rw [lmsKey_cons _ _ hp, if_pos h1]
    rfl
  · intro p hp h
    rw [IsLMS_types _ _ (by omega)] at h
    have h1 : isLMS text.ba (p + 1) = false := by simpa using h
    rw [lmsKey_cons _ _ hp, h1]
    rfl
  · intro p hp h
    rw [TypeAt_types _ _ (by omega)] at h
    have h1 : isL text.ba p = true := by simpa [LType] using h
    unfold code
    rw [if_pos h1, Nat.add_zero]
  · intro p hp h
    rw [TypeAt_types _ _ (by omega)] at h
    have h1 : isL text.ba p = false := by simpa [SType] using h
    unfold code
    rw [h1]
    rfl

/-- Witness for `first_round_sorts_LMS_substrings`: the text `"banana"`. -/
theorem first_round_sorts_LMS_substrings_witness :
    ((∀ x ∈ (NewTextFromString [98, 97, 110, 97, 110, 97]).ba,
        x < (NewTextFromString [98, 97, 110, 97, 110, 97]).AlphabetSize) ∧
      2 ≤ (NewTextFromString [98, 97, 110, 97, 110, 97]).Len ∧
      (NewTextFromString [98, 97, 110, 97, 110, 97]).Len + 1 < 2 ^ 64) ∧
    ∃ sizes a0 a1 g,
      BuildBucketSizes (NewTextFromString [98, 97, 110, 97, 110, 97]) = .ok sizes ∧
      guessLMSSort (NewTextFromString [98, 97, 110, 97, 110, 97])
        (BuildTypeMap (NewTextFromString [98, 97, 110, 97, 110, 97])) sizes = .ok a0 ∧
      induceSortL (NewTextFromString [98, 97, 110, 97, 110, 97])
        (BuildTypeMap (NewTextFromString [98, 97, 110, 97, 110, 97])) sizes a0 = .ok a1 ∧
      induceSortR (NewTextFromString [98, 97, 110, 97, 110, 97])
        (BuildTypeMap (NewTextFromString [98, 97, 110, 97, 110, 97])) sizes a1 = .ok g ∧
      g.Perm (List.range ((NewTextFromString [98, 97, 110, 97, 110, 97]).Len + 1)) ∧
      (∀ x ∈ g, x ≠ placeholder) ∧
      (∀ i j, i < j → j ≤ (NewTextFromString [98, 97, 110, 97, 110, 97]).Len →
        (BuildTypeMap (NewTextFromString [98, 97, 110, 97, 110, 97])).IsLMS (g.getD i 0)
          = .ok true →
        (BuildTypeMap (NewTextFromString [98, 97, 110, 97, 110, 97])).IsLMS (g.getD j 0)
          = .ok true →
        lexLt (lmsKey (NewTextFromString [98, 97, 110, 97, 110, 97]).ba (g.getD j 0))
          (lmsKey (NewTextFromString [98, 97, 110, 97, 110, 97]).ba (g.getD i 0)) = false) := by
  obtain ⟨sizes, a0, a1, g, h1, h2, h3, h4, h5, h6, h7, _⟩ :=
    first_round_sorts_LMS_substrings (NewTextFromString [98, 97, 110, 97, 110, 97]) (by decide)
      (by decide) (by decide)
  exact ⟨⟨by decide, by decide, by decide⟩, sizes, a0, a1, g, h1, h2, h3, h4, h5, h6, h7⟩

/-- C34 (counterexample): the text `"cbcbacbcbc"` (symbols `2 1 2 1 0 2 1 2 1 2`
over an alphabet of 3) has the LMS positions 1, 4, 6, 8 and 10.  The LMS
substring at 6 is `T[6 .. 8] = "bcb"`, the one at 1 is `T[1 .. 4] = "bcba"`:
the first is a proper initial segment of the second, so it is the smaller one
in lexicographic order.  After `guessLMSSort`, `induceSortL` and
`induceSortR` position 1 stands at index 4 and position 6 at index 5: the
larger substring comes first. -/
theorem first_round_prefix_comes_later :
    BuildBucketSizes (Text.mk 3 [2, 1, 2, 1, 0, 2, 1, 2, 1, 2]) = .ok [1, 4, 5] ∧
    guessLMSSort (Text.mk 3 [2, 1, 2, 1, 0, 2, 1, 2, 1, 2])
      (BuildTypeMap (Text.mk 3 [2, 1, 2, 1, 0, 2, 1, 2, 1, 2])) [1, 4, 5]
      = .ok [10, 4, placeholder, 8, 6, 1, placeholder, placeholder, placeholder, placeholder,
          placeholder] ∧
    induceSortL (Text.mk 3 [2, 1, 2, 1, 0, 2, 1, 2, 1, 2])
      (BuildTypeMap (Text.mk 3 [2, 1, 2, 1, 0, 2, 1, 2, 1, 2])) [1, 4, 5]
      [10, 4, placeholder, 8, 6, 1, placeholder, placeholder, placeholder, placeholder,
        placeholder] = .ok [10, 4, 3, 8, 6, 1, 9, 2, 7, 5, 0] ∧
    induceSortR (Text.mk 3 [2, 1, 2, 1, 0, 2, 1, 2, 1, 2])
      (BuildTypeMap (Text.mk 3 [2, 1, 2, 1, 0, 2, 1, 2, 1, 2])) [1, 4, 5]
      [10, 4, 3, 8, 6, 1, 9, 2, 7, 5, 0] = .ok [10, 4, 3, 8, 1, 6, 9, 2, 7, 5, 0] ∧
    (List.range 11).map (fun i =>
        (BuildTypeMap (Text.mk 3 [2, 1, 2, 1, 0, 2, 1, 2, 1, 2])).IsLMS i)
      = [.ok false, .ok true, .ok false, .ok false, .ok true, .ok false, .ok true, .ok false,
          .ok true, .ok false, .ok true] ∧
    (([2, 1, 2, 1, 0, 2, 1, 2, 1, 2] : List Nat).drop 1).take 4 = [1, 2, 1, 0] ∧
    (([2, 1, 2, 1, 0, 2, 1, 2, 1, 2] : List Nat).drop 6).take 3 = [1, 2, 1] ∧
    ([10, 4, 3, 8, 1, 6, 9, 2, 7, 5, 0] : List Nat).getD 4 0 = 1 ∧
    ([10, 4, 3, 8, 1, 6, 9, 2, 7, 5, 0] : List Nat).getD 5 0 = 6 ∧
    lexLt [1, 2, 1] [1, 2, 1, 0] = true := by
  refine ⟨by rfl, by rfl, by rfl, by rfl, by rfl, by rfl, by rfl, by rfl, by rfl, by rfl⟩

/-! # The fill of the LCP-LR array stays in range -/

/-- The fill returns for every content of the LCP array: no read of the LCP
array and no write of the LCP-LR array is out of range. -/
theorem buildLCPLR_total (H : List Nat) (B : Nat) :
    ∀ (fuel k lo hi : Nat) (Lin : List Nat), lo < hi → hi < H.length → hi - lo ≤ fuel →
      (k + 2) * (hi - lo + 1) ≤ 2 * B → B ≤ Lin.length →
      ∃ v Lout, buildLCPLR fuel Lin H k lo hi = .ok (v, Lout) ∧ Lout.length = Lin.length := by
  intro fuel
  induction fuel with
  | zero => intro k lo hi Lin h1 _ h3; omega
  | succ fuel ih =>
    intro k lo hi Lin hlt hhi hfuel hB hBL
    have hk : k < Lin.length := by
      have h2 : (k + 2) * 2 ≤ (k + 2) * (hi - lo + 1) := Nat.mul_le_mul_left _ (by omega)
      omega
    have e1 := ValueAt_of_lt H (lo + 1) (by omega)
    by_cases hd3 : hi - lo > 3
    · have hBl : (2 * k + 1 + 2) * (lo + (hi - lo) / 2 - 1 - lo + 1) ≤ 2 * B := by
        have h2 : 2 * (lo + (hi - lo) / 2 - 1 - lo + 1) ≤ hi - lo + 1 := by omega
        nlinarith
      have hBr : (2 * k + 2 + 2) * (hi - (lo + (hi - lo) / 2 + 1) + 1) ≤ 2 * B := by
        have h2 : 2 * (hi - (lo + (hi - lo) / 2 + 1) + 1) ≤ hi - lo + 1 := by omega
        nlinarith
      obtain ⟨h0, L1, hrun1, hlen1⟩ :=
        ih (2 * k + 1) lo (lo + (hi - lo) / 2 - 1) Lin (by omega) (by omega) (by omega) hBl hBL
      obtain ⟨h3, L2, hrun2, hlen2⟩ :=
        ih (2 * k + 2) (lo + (hi - lo) / 2 + 1) hi L1 (by omega) (by omega) (by omega) hBr
          (by omega)
      have em := ValueAt_of_lt H (lo + (hi - lo) / 2) (by omega)
      have em1 := ValueAt_of_lt H (lo + (hi - lo) / 2 + 1) (by omega)
      rw [buildLCPLR, if_neg (by omega), if_pos hd3, hrun1]
      simp only [em, em1, hrun2, SetValueAt_of_lt L2 k _ (by omega)]
      exact ⟨_, _, rfl, by simp [hlen1, hlen2]⟩
    · by_cases hd2 : hi - lo = 3
      · have e2 := ValueAt_of_lt H (lo + 2) (by omega)
        have e3 := ValueAt_of_lt H (lo + 3) (by omega)
        rw [buildLCPLR, if_neg (by omega), if_neg hd3, if_pos hd2]
        simp only [e1, e2, e3, SetValueAt_of_lt Lin k _ hk]
        exact ⟨_, _, rfl, by simp⟩
      · by_cases hd1 : hi - lo = 2
        · have e2 := ValueAt_of_lt H (lo + 2) (by omega)
          rw [buildLCPLR, if_neg (by omega), if_neg hd3, if_neg hd2, if_pos hd1]
          simp only [e1, e2, SetValueAt_of_lt Lin k _ hk]
          exact ⟨_, _, rfl, by simp⟩
        · rw [buildLCPLR, if_neg (by omega), if_neg hd3, if_neg hd2, if_neg hd1]
          simp only [e1, SetValueAt_of_lt Lin k _ hk]
          exact ⟨_, _, rfl, by simp⟩

/-- C36: for an LCP array of length `N ≥ 1` (a `uint64` length),
`BuildLCPLRArray` ends in the panic `BUG: lo >= hi` of `buildLCPLR` if and
only if `N = 1`; for `N ≥ 2` it returns an array, every call
`buildLCPLR(k, lo, hi)` of the recursion has `lo < hi` (and `hi < N`), and at
a node with `hi - lo > 3` both children `(lo, mid - 1)` and `(mid + 1, hi)`
have `lo < hi` again. -/
theorem buildLCPLR_bug_iff (H : List Nat) (h1 : 1 ≤ H.length) (h64 : H.length < 2 ^ 64) :
    (BuildLCPLRArray H = .error .bug ↔ H.length = 1) ∧
    (2 ≤ H.length →
      (∃ L, BuildLCPLRArray H = .ok L) ∧
      ∀ k lo hi, Visits 0 0 (dec64 H.length) k lo hi →
        lo < hi ∧ hi < H.length ∧
        (hi - lo > 3 →
          lo < lo + (hi - lo) / 2 - 1 ∧ lo + (hi - lo) / 2 + 1 < hi)) := by
  have hd := dec64_of_pos H.length h1 (by omega)
  have hgood : 2 ≤ H.length → ∃ L, BuildLCPLRArray H = .ok L := by
    intro h2
    have hc := le_ceilPow2 H.length
    obtain ⟨v, L, hrun, _⟩ := buildLCPLR_total H H.length (64 + H.length) 0 0 (H.length - 1)
      (List.replicate (2 * ceilPow2 H.length + 1) placeholder) (by omega) (by omega) (by omega)
      (by omega) (by rw [List.length_replicate]; omega)
    refine ⟨L.take (actualLengthLoop L L.length), ?_⟩
    unfold BuildLCPLRArray
    rw [hd, hrun]
  refine ⟨⟨?_, ?_⟩, ?_⟩
  · intro hbug
    by_contra hne
    obtain ⟨L, hL⟩ := hgood (by omega)
    rw [hL] at hbug
    exact absurd hbug (by simp)
  · intro h
    unfold BuildLCPLRArray
    rw [h]
    rfl
  · intro h2
    refine ⟨hgood h2, ?_⟩
    intro k lo hi hv
    rw [hd] at hv
    obtain ⟨a, b, _⟩ := Visits_inv H.length H.length hv (by omega) (by omega) (by omega)
    exact ⟨a, b, fun _ => by omega⟩

/-- Witness for `buildLCPLR_bug_iff`: the LCP array of the empty text, one
cell. -/
theorem buildLCPLR_bug_iff_witness :
    (1 ≤ [0].length ∧ [0].length < 2 ^ 64) ∧ BuildLCPLRArray [0] = .error .bug :=
  ⟨⟨by decide, by decide⟩, (buildLCPLR_bug_iff [0] (by decide) (by decide)).1.mpr rfl⟩

/-! # The number of comparisons of a search -/

theorem compare_ne_unset (state : searchState) (w pos : Nat) :
    state.compare w ≠ .ok (.unset, pos) := by
  unfold searchState.compare
  split
  · simp
  · split
    · simp
    · intro h
      simp only [Except.ok.injEq, Prod.mk.injEq] at h
      have h1 := h.1
      generalize compareLoop state.text state.phrase _ _ _ = r at h1
      obtain ⟨c, i⟩ := r
      cases c <;> simp only [compareFinish] at h1
      all_goals (try split at h1) <;> simp at h1

/-- The counted first loop returns what `phase1` returns. -/
theorem phase1Counted_fst : ∀ (fuel : Nat) (state : searchState) (w p calls : Nat),
    (phase1Counted fuel state w p calls).1 = phase1 fuel state w p := by
  intro fuel
  induction fuel with
  | zero => intro state w p calls; rfl
  | succ fuel ih =>
    intro state w p calls
    rw [phase1Counted, phase1]
    split
    · cases ValueAt state.lcplr state.index with
      | error e => rfl
      | ok height =>
        simp only []
        cases ({ state with height := height } : searchState).compare
            (state.lo + (state.hi - state.lo) / 2) with
        | error e => rfl
        | ok r =>
          obtain ⟨c, pos1⟩ := r
          cases c <;> simp only [ih]
    · rfl

/-- The counted second loop returns what `phase2` returns. -/
theorem phase2Counted_fst : ∀ (fuel : Nat) (state : searchState) (w p calls : Nat),
    (phase2Counted fuel state w p calls).1 = phase2 fuel state w p := by
  intro fuel
  induction fuel with
  | zero => intro state w p calls; rfl
  | succ fuel ih =>
    intro state w p calls
    rw [phase2Counted, phase2]
    split
    · cases state.compare state.lo with
      | error e => rfl
      | ok r =>
        obtain ⟨c, pos1⟩ := r
        cases c <;> simp only [ih]
    · rfl

theorem log_two_half (e e' : Nat) (he : 4 ≤ e) (h : e' ≤ e / 2) :
    1 + (Nat.log 2 e' - 1) ≤ Nat.log 2 e - 1 := by
  have h1 : Nat.log 2 e' ≤ Nat.log 2 (e / 2) := Nat.log_mono_right h
  rw [Nat.log_div_base] at h1
  have h2 : 2 ≤ Nat.log 2 e :=
    (Nat.pow_le_iff_le_log (by norm_num) (by omega)).mp (by norm_num; omega)
  omega

/-- Every iteration of the first loop makes one call of `compare` and at least
halves the number of entries between `lo` and `hi`, and the loop runs only on
four entries or more. -/
theorem phase1Counted_calls : ∀ (fuel : Nat) (state : searchState) (w p calls : Nat),
    (phase1Counted fuel state w p calls).2
      ≤ calls + (Nat.log 2 (state.hi + 1 - state.lo) - 1) := by
  intro fuel
  induction fuel with
  | zero => intro state w p calls; exact Nat.le_add_right _ _
  | succ fuel ih =>
    intro state w p calls
    rw [phase1Counted]
    split
    · rename_i h3
      have h2 : 2 ≤ Nat.log 2 (state.hi + 1 - state.lo) :=
        (Nat.pow_le_iff_le_log (by norm_num) (by omega)).mp (by norm_num; omega)
      cases ValueAt state.lcplr state.index with
      | error e => exact Nat.le_add_right _ _
      | ok height =>
        simp only []
        cases hc : ({ state with height := height } : searchState).compare
            (state.lo + (state.hi - state.lo) / 2) with
        | error e =>
          show calls + 1 ≤ _
          omega
        | ok r =>
          obtain ⟨c, pos1⟩ := r
          cases c with
          | unset => exact absurd hc (compare_ne_unset _ _ _)
          | goLeft =>
            simp only []
            refine Nat.le_trans (ih _ _ _ _) ?_
            have := log_two_half (state.hi + 1 - state.lo)
              (state.lo + (state.hi - state.lo) / 2 - 1 + 1 - state.lo) (by omega) (by omega)
            show calls + 1 + (Nat.log 2 (state.lo + (state.hi - state.lo) / 2 - 1 + 1 - state.lo) - 1)
              ≤ _
            omega
          | goRight =>
            simp only []
            refine Nat.le_trans (ih _ _ _ _) ?_
            have := log_two_half (state.hi + 1 - state.lo)
              (state.hi + 1 - (state.lo + (state.hi - state.lo) / 2 + 1)) (by omega) (by omega)
            show calls + 1 + (Nat.log 2 (state.hi + 1 - (state.lo + (state.hi - state.lo) / 2 + 1)) - 1)
              ≤ _
            omega
          | stopHere =>
            show calls + 1 ≤ _
            omega
    · exact Nat.le_add_right _ _

/-- When the first loop ends without a hit, fewer than three entries lie
between `lo` and `hi`. -/
theorem phase1Counted_exit {text : Text} {sa : List Nat} :
    ∀ (fuel : Nat) (state : searchState) (w p calls : Nat) (s1 : searchState)
      (w1 p1 c1 : Nat), state.sa = sa → state.text = text → state.hi < sa.length →
      phase1Counted fuel state w p calls = (.ok (s1, w1, p1, false), c1) →
      s1.sa = sa ∧ s1.text = text ∧ s1.hi < sa.length ∧ s1.hi < s1.lo + 3 := by
  intro fuel
  induction fuel with
  | zero =>
    intro state w p calls s1 w1 p1 c1 _ _ _ h
    rw [phase1Counted] at h
    simp at h
  | succ fuel ih =>
    intro state w p calls s1 w1 p1 c1 hsa ht hhi h
    rw [phase1Counted] at h
    split at h
    · rename_i h3
      cases hv : ValueAt state.lcplr state.index with
      | error e =>
        rw [hv] at h
        simp at h
      | ok height =>
        rw [hv] at h
        simp only [] at h
        cases hc : ({ state with height := height } : searchState).compare
            (state.lo + (state.hi - state.lo) / 2) with
        | error e =>
          rw [hc] at h
          simp at h
        | ok r =>
          obtain ⟨c, pos1⟩ := r
          rw [hc] at h
          cases c with
          | unset => exact absurd hc (compare_ne_unset _ _ _)
          | goLeft =>
            simp only [] at h
            exact ih { state with height := height, index := 2 * state.index + 1,
                                  hi := state.lo + (state.hi - state.lo) / 2 - 1 }
              _ _ _ _ _ _ _ hsa ht
              (by show state.lo + (state.hi - state.lo) / 2 - 1 < _; omega) h
          | goRight =>
            simp only [] at h
            exact ih { state with height := height, index := 2 * state.index + 2,
                                  lo := state.lo + (state.hi - state.lo) / 2 + 1 }
              _ _ _ _ _ _ _ hsa ht hhi h
          | stopHere =>
            simp at h
    · rename_i h3
      simp only [Prod.mk.injEq, Except.ok.injEq, and_true] at h
      obtain ⟨⟨e1, _, _⟩, _⟩ := h
      subst e1
      exact ⟨hsa, ht, hhi, by omega⟩

/-- The second loop makes at most one call of `compare` for each entry
between `lo` and `hi`, when the suffix array starts with the end of the
text. -/
theorem phase2Counted_calls {text : Text} {sa : List Nat} (h0 : text.ba.length ≤ sa.getD 0 0)
    (h64 : sa.length < 2 ^ 64) :
    ∀ (fuel : Nat) (state : searchState) (w p calls : Nat), state.sa = sa → state.text = text →
      state.hi < sa.length →
      (phase2Counted fuel state w p calls).2 ≤ calls + (state.hi + 1 - state.lo) := by
  intro fuel
  induction fuel with
  | zero => intro state w p calls _ _ _; exact Nat.le_add_right _ _
  | succ fuel ih =>
    intro state w p calls hsa ht hhi
    rw [phase2Counted]
    split
    · rename_i hge
      obtain ⟨c, hc, hcu, hcl⟩ := compare_ok state state.lo (Nat.le_refl _) hge
        (by rw [hsa]; omega)
      rw [hc]
      cases c with
      | unset => exact absurd rfl hcu
      | goLeft =>
        simp only []
        have hlo : 1 ≤ state.lo := by
          by_contra hz
          have e : state.lo = 0 := by omega
          rw [e, hsa, ht] at hcl
          exact hcl h0 rfl
        have hd : dec64 state.lo = state.lo - 1 := dec64_of_pos state.lo hlo (by omega)
        refine Nat.le_trans (ih _ _ _ _ hsa ht (by show dec64 state.lo < _; rw [hd]; omega)) ?_
        show calls + 1 + (dec64 state.lo + 1 - state.lo) ≤ _
        rw [hd]
        omega
      | goRight =>
        simp only []
        refine Nat.le_trans (ih _ _ _ _ hsa ht hhi) ?_
        show calls + 1 + (state.hi + 1 - (state.lo + 1)) ≤ _
        omega
      | stopHere =>
        show calls + 1 ≤ _
        omega
    · exact Nat.le_add_right _ _

/-- C35: for a text with its sorted suffix array of `N` entries (`N ≥ 1`, a
`uint64` length), every LCP-LR array and every phrase, the two loops of
`Search` together call `compare` at most `floor(log2 N) + 3` times; the
counted loops return what `phase1` and `phase2` return. -/
theorem Search_compare_calls (text : Text) (sa lcplr phrase : List Nat)
    (hsa : IsSuffixArray text.ba sa) (h64 : text.Len + 1 < 2 ^ 64) :
    (∀ fuel state w p calls, (phase1Counted fuel state w p calls).1 = phase1 fuel state w p) ∧
    (∀ fuel state w p calls, (phase2Counted fuel state w p calls).1 = phase2 fuel state w p) ∧
    1 ≤ sa.length ∧
    searchCompareCalls text sa lcplr phrase ≤ Nat.log 2 sa.length + 3 := by
  unfold Text.Len at h64
  have hlen := hsa.length_eq
  refine ⟨phase1Counted_fst, phase2Counted_fst, by omega, ?_⟩
  have hd : dec64 sa.length = text.ba.length := by
    rw [dec64_of_pos sa.length (by omega) (by omega), hlen, Nat.add_sub_cancel]
  have hcalls := phase1Counted_calls (1 + sa.length)
    ⟨text, sa, lcplr, phrase, 0, 0, 0, dec64 sa.length⟩ 0 0 0
  have hexit := @phase1Counted_exit text sa (1 + sa.length)
    ⟨text, sa, lcplr, phrase, 0, 0, 0, dec64 sa.length⟩ 0 0 0
  have he : (searchState.mk text sa lcplr phrase 0 0 0 (dec64 sa.length)).hi + 1
      - (searchState.mk text sa lcplr phrase 0 0 0 (dec64 sa.length)).lo = sa.length := by
    show dec64 sa.length + 1 - 0 = _
    rw [hd]
    omega
  rw [he] at hcalls
  unfold searchCompareCalls
  generalize phase1Counted (1 + sa.length) ⟨text, sa, lcplr, phrase, 0, 0, 0, dec64 sa.length⟩
    0 0 0 = res at hcalls hexit
  obtain ⟨r, c1⟩ := res
  have hc1 : c1 ≤ Nat.log 2 sa.length - 1 := by simpa using hcalls
  cases r with
  | error e =>
    show c1 ≤ _
    omega
  | ok x =>
    obtain ⟨s1, w1, p1, f1⟩ := x
    cases f1 with
    | true =>
      show c1 ≤ _
      omega
    | false =>
      obtain ⟨a1, a2, a3, a4⟩ := hexit s1 w1 p1 c1 rfl rfl
        (by show dec64 sa.length < _; rw [hd]; omega) rfl
      have h2 := @phase2Counted_calls text sa (by rw [hsa.head]) (by omega) (2 + sa.length)
        s1 w1 p1 c1 a1 a2 a3
      show (phase2Counted (2 + sa.length) s1 w1 p1 c1).2 ≤ _
      omega

/-- Witness for `Search_compare_calls`: the text `"banana"` with its suffix
array and its LCP-LR array, searched for `"x"`. -/
theorem Search_compare_calls_witness :
    (IsSuffixArray (NewTextFromString [98, 97, 110, 97, 110, 97]).ba [6, 5, 3, 1, 0, 4, 2] ∧
      (NewTextFromString [98, 97, 110, 97, 110, 97]).Len + 1 < 2 ^ 64) ∧
    searchCompareCalls (NewTextFromString [98, 97, 110, 97, 110, 97]) [6, 5, 3, 1, 0, 4, 2]
      [0, 0, 0] [120] ≤ Nat.log 2 ([6, 5, 3, 1, 0, 4, 2] : List Nat).length + 3 :=
  ⟨⟨⟨by decide, by decide⟩, by decide⟩,
    (Search_compare_calls (NewTextFromString [98, 97, 110, 97, 110, 97]) [6, 5, 3, 1, 0, 4, 2]
      [0, 0, 0] [120] ⟨by decide, by decide⟩ (by decide)).2.2.2⟩

/-! # The carried length of the Kasai loop -/

/-- The states of `KasaiReach` are the states the loop of `BuildLCPArray`
goes through: the run from the start is the run from any of them. -/
theorem KasaiReach.run_eq {text : Text} {sa rankArray : List Nat} {indexI h : Nat}
    {lcp : List Nat} (hr : KasaiReach text sa rankArray indexI h lcp) :
    kasaiLoop text sa rankArray 0 (0, makeBigArray sa.length)
      = kasaiLoop text sa (rankArray.drop indexI) indexI (h, lcp) := by
  induction hr with
  | init => rw [List.drop_zero]
  | skip indexI h lcp rank _ hrank hle ih =>
    obtain ⟨hlt, he⟩ := List.getElem?_eq_some_iff.mp hrank
    rw [ih, List.drop_eq_getElem_cons hlt, he, kasaiLoop, if_pos hle]
  | step indexI h lcp rank indexJ lcp1 _ hrank hgt hval hset ih =>
    obtain ⟨hlt, he⟩ := List.getElem?_eq_some_iff.mp hrank
    rw [ih, List.drop_eq_getElem_cons hlt, he, kasaiLoop, if_neg hgt, hval]
    simp only []
    rw [hset]

theorem KasaiReach.carried_le {text : Text} {sa rankArray : List Nat}
    (hsa : IsSuffixArray text.ba sa)
    (hrank : ∀ p, p ≤ text.ba.length →
      rankArray.getD p 0 ≤ text.ba.length ∧ sa.getD (rankArray.getD p 0) 0 = p)
    {indexI h : Nat} {lcp : List Nat} (hr : KasaiReach text sa rankArray indexI h lcp) :
    indexI ≤ text.ba.length →
      (1 ≤ rankArray.getD indexI 0 →
        h ≤ naiveLCP (text.ba.drop indexI)
          (text.ba.drop (sa.getD (rankArray.getD indexI 0 - 1) 0))) ∧
      (rankArray.getD indexI 0 = 0 → h = 0) := by
  induction hr with
  | init =>
    intro _
    exact ⟨fun _ => Nat.zero_le _, fun _ => rfl⟩
  | skip indexI h lcp rank _ hrk hle ih =>
    intro hi
    have he : rankArray.getD indexI 0 = rank := getD_of_getElem? hrk
    obtain ⟨ih1, ih2⟩ := ih (by omega)
    have h0 : h = 0 := by
      by_cases hz : rank = 0
      · exact ih2 (by rw [he]; exact hz)
      · have := ih1 (by omega)
        rw [he, show rank - 1 = 0 by omega, hsa.head, List.drop_length, naiveLCP_nil_right] at this
        omega
    subst h0
    exact ⟨fun _ => Nat.zero_le _, fun _ => rfl⟩
  | step indexI h lcp rank indexJ lcp1 _ hrk hgt hval hset ih =>
    intro hi
    have he : rankArray.getD indexI 0 = rank := getD_of_getElem? hrk
    obtain ⟨ih1, _⟩ := ih (by omega)
    have hrl := (hrank indexI (by omega)).1
    have hj : indexJ = sa.getD (rank - 1) 0 := by
      have := ValueAt_of_lt sa (rank - 1) (by rw [hsa.length_eq]; omega)
      rw [this] at hval
      injection hval with e
      exact e.symm
    have hext := extendLoop_correct text indexI indexJ h (by
      have := ih1 (by omega)
      rw [he, ← hj] at this
      exact this)
    rw [hext, hj, ← he]
    constructor
    · intro h1
      exact kasai_next hsa hrank indexI (by omega) (by omega) h1
    · intro hz
      have hin : indexI + 1 = text.ba.length := by
        have := (hrank (indexI + 1) hi).2
        rw [hz, hsa.head] at this
        exact this.symm
      have := naiveLCP_le_left (text.ba.drop indexI)
        (text.ba.drop (sa.getD (rankArray.getD indexI 0 - 1) 0))
      rw [List.length_drop] at this
      omega

/-- C38: for a text `T` of length `n` with its sorted suffix array, the rank
array is built, and at every callback of the Kasai loop (every state
`(indexI, h, lcp)` of `KasaiReach` with `indexI ≤ n`): if the rank of `indexI`
is at most 1, the position is skipped and the carried `h` is 0; otherwise
`indexJ = SA[rank - 1]` is read without error, is at most `n`, and `h` is at
most `lengthMin = min(n - indexI, n - indexJ)`, so that the two text ranges
start no later than they end and end inside the text.  The first part says
that these states are the states of `kasaiLoop`. -/
theorem kasai_carried_length_bounded (text : Text) (sa : List Nat)
    (hsa : IsSuffixArray text.ba sa) :
    ∃ rankArray, rankLoop sa 0 (makeBigArray sa.length) = .ok rankArray ∧
      (∀ indexI h lcp, KasaiReach text sa rankArray indexI h lcp →
        kasaiLoop text sa rankArray 0 (0, makeBigArray sa.length)
          = kasaiLoop text sa (rankArray.drop indexI) indexI (h, lcp)) ∧
      ∀ indexI h lcp, KasaiReach text sa rankArray indexI h lcp → indexI ≤ text.Len →
        (rankArray.getD indexI 0 ≤ 1 → h = 0) ∧
        (2 ≤ rankArray.getD indexI 0 →
          ValueAt sa (rankArray.getD indexI 0 - 1)
            = .ok (sa.getD (rankArray.getD indexI 0 - 1) 0) ∧
          sa.getD (rankArray.getD indexI 0 - 1) 0 ≤ text.Len ∧
          h ≤ min (text.Len - indexI) (text.Len - sa.getD (rankArray.getD indexI 0 - 1) 0) ∧
          indexI + h ≤ indexI
            + min (text.Len - indexI) (text.Len - sa.getD (rankArray.getD indexI 0 - 1) 0) ∧
          indexI + min (text.Len - indexI) (text.Len - sa.getD (rankArray.getD indexI 0 - 1) 0)
            ≤ text.Len ∧
          sa.getD (rankArray.getD indexI 0 - 1) 0 + h ≤ sa.getD (rankArray.getD indexI 0 - 1) 0
            + min (text.Len - indexI) (text.Len - sa.getD (rankArray.getD indexI 0 - 1) 0) ∧
          sa.getD (rankArray.getD indexI 0 - 1) 0
            + min (text.Len - indexI) (text.Len - sa.getD (rankArray.getD indexI 0 - 1) 0)
            ≤ text.Len) := by
  obtain ⟨rankArray, hrun, _, _, hrank⟩ := rank_of_IsSuffixArray hsa
  unfold Text.Len
  refine ⟨rankArray, hrun, fun _ _ _ hr => hr.run_eq, ?_⟩
  intro indexI h lcp hr hi
  obtain ⟨h1, h2⟩ := hr.carried_le hsa hrank hi
  have hrl := (hrank indexI hi).1
  constructor
  · intro hle
    by_cases hz : rankArray.getD indexI 0 = 0
    · exact h2 hz
    · have := h1 (by omega)
      rw [show rankArray.getD indexI 0 - 1 = 0 by omega, hsa.head, List.drop_length,
        naiveLCP_nil_right] at this
      omega
  · intro hge
    have hb := h1 (by omega)
    have hl := naiveLCP_le_left (text.ba.drop indexI)
      (text.ba.drop (sa.getD (rankArray.getD indexI 0 - 1) 0))
    have hr2 := naiveLCP_le_right (text.ba.drop indexI)
      (text.ba.drop (sa.getD (rankArray.getD indexI 0 - 1) 0))
    rw [List.length_drop] at hl hr2
    have hjn := hsa.getD_le (rankArray.getD indexI 0 - 1) (by omega)
    refine ⟨ValueAt_of_lt sa _ (by rw [hsa.length_eq]; omega), hjn, ?_, ?_, ?_, ?_, ?_⟩ <;> omega

/-- Witness for `kasai_carried_length_bounded`: the text `"banana"` with its
suffix array. -/
theorem kasai_carried_length_bounded_witness :
    IsSuffixArray (NewTextFromString [98, 97, 110, 97, 110, 97]).ba [6, 5, 3, 1, 0, 4, 2] ∧
    ∃ rankArray, rankLoop [6, 5, 3, 1, 0, 4, 2] 0
        (makeBigArray ([6, 5, 3, 1, 0, 4, 2] : List Nat).length) = .ok rankArray ∧
      ∀ indexI h lcp,
        KasaiReach (NewTextFromString [98, 97, 110, 97, 110, 97]) [6, 5, 3, 1, 0, 4, 2]
          rankArray indexI h lcp →
        indexI ≤ (NewTextFromString [98, 97, 110, 97, 110, 97]).Len →
        (rankArray.getD indexI 0 ≤ 1 → h = 0) ∧
        (2 ≤ rankArray.getD indexI 0 →
          h ≤ min ((NewTextFromString [98, 97, 110, 97, 110, 97]).Len - indexI)
            ((NewTextFromString [98, 97, 110, 97, 110, 97]).Len
              - ([6, 5, 3, 1, 0, 4, 2] : List Nat).getD (rankArray.getD indexI 0 - 1) 0)) := by
  obtain ⟨rankArray, h1, _, h3⟩ := kasai_carried_length_bounded
    (NewTextFromString [98, 97, 110, 97, 110, 97]) [6, 5, 3, 1, 0, 4, 2] ⟨by decide, by decide⟩
  refine ⟨⟨by decide, by decide⟩, rankArray, h1, ?_⟩
  intro indexI h lcp hr hi
  obtain ⟨a, b⟩ := h3 indexI h lcp hr hi
  exact ⟨a, fun hge => (b hge).2.2.1⟩

/-! # `LMSSubstringsAreEqual` on arbitrary offsets -/

theorem lmsEqLoop_stop_true (text : Text) (i j fuel k : Nat) (hu : i + k ≤ text.ba.length)
    (hv : j + k ≤ text.ba.length) (hk : 0 < k) (hlu : isLMS text.ba (i + k) = true)
    (hlv : isLMS text.ba (j + k) = true) :
    lmsEqLoop (types text.ba) text i j (fuel + 1) k = .ok true := by
  rw [lmsEqLoop, IsLMS_types _ _ hu, IsLMS_types _ _ hv]
  simp only []
  rw [hlu, hlv]
  have hk0 : decide (k > 0) = true := by simp; omega
  rw [hk0]
  rfl

theorem lmsEqLoop_stop_diff (text : Text) (i j fuel k : Nat) (hu : i + k ≤ text.ba.length)
    (hv : j + k ≤ text.ba.length) (hne : isLMS text.ba (i + k) ≠ isLMS text.ba (j + k)) :
    lmsEqLoop (types text.ba) text i j (fuel + 1) k = .ok false := by
  rw [lmsEqLoop, IsLMS_types _ _ hu, IsLMS_types _ _ hv]
  simp only []
  cases hlu : isLMS text.ba (i + k) <;> cases hlv : isLMS text.ba (j + k)
  · rw [hlu, hlv] at hne
    exact absurd rfl hne
  · simp
  · simp
  · rw [hlu, hlv] at hne
    exact absurd rfl hne

theorem lmsEqLoop_continue (text : Text) (i j fuel k : Nat) (hu : i + k < text.ba.length)
    (hv : j + k < text.ba.length) (he : isLMS text.ba (i + k) = isLMS text.ba (j + k))
    (hk : k = 0 ∨ isLMS text.ba (i + k) = false) :
    lmsEqLoop (types text.ba) text i j (fuel + 1) k
      = if text.ba.getD (i + k) 0 != text.ba.getD (j + k) 0 then .ok false
        else lmsEqLoop (types text.ba) text i j fuel (k + 1) := by
  rw [lmsEqLoop, IsLMS_types _ _ (by omega), IsLMS_types _ _ (by omega)]
  simp only []
  rw [← he, SymbolAt_of_lt text _ hu, SymbolAt_of_lt text _ hv]
  simp only []
  have h1 : (decide (k > 0) && isLMS text.ba (i + k) && isLMS text.ba (i + k)) = false := by
    rcases hk with hk | hk
    · have : decide (k > 0) = false := by simp; omega
      rw [this]
      rfl
    · rw [hk]
      simp
  rw [h1]
  simp only [Bool.false_eq_true, if_false, bne_self_eq_false]

/-- The loop of `LMSSubstringsAreEqual` from the iteration `k` on: it returns
after `m` further iterations, at a `k + m` where both offsets are still at
most the length of the text, and on equal offsets the answer is `true`. -/
theorem lmsEqLoop_stops (text : Text) (i j : Nat) (hn : 1 ≤ text.ba.length) :
    ∀ (d k : Nat), text.ba.length < d + k → i + k ≤ text.ba.length →
      j + k ≤ text.ba.length → (k = 0 → i < text.ba.length ∧ j < text.ba.length) →
      ∃ m b, i + (k + m) ≤ text.ba.length ∧ j + (k + m) ≤ text.ba.length ∧
        (∀ f, lmsEqLoop (types text.ba) text i j ((f + m) + 1) k = .ok b) ∧
        lmsEqLoop (types text.ba) text i j m k = .error .fuel ∧
        (i = j → b = true) := by
  intro d
  induction d with
  | zero => intro k hd hu hv _; omega
  | succ d ih =>
    intro k hd hu hv h0
    by_cases hst : 0 < k ∧ isLMS text.ba (i + k) = true ∧ isLMS text.ba (j + k) = true
    · exact ⟨0, true, hu, hv, fun f => lmsEqLoop_stop_true text i j _ k hu hv hst.1 hst.2.1 hst.2.2,
        rfl, fun _ => rfl⟩
    · by_cases he : isLMS text.ba (i + k) = isLMS text.ba (j + k)
      · have hk : k = 0 ∨ isLMS text.ba (i + k) = false := by
          by_cases hk0 : k = 0
          · exact Or.inl hk0
          · right
            cases hlu : isLMS text.ba (i + k)
            · rfl
            · exfalso
              apply hst
              exact ⟨by omega, hlu, by rw [← he]; exact hlu⟩
        have hu' : i + k < text.ba.length := by
          rcases hk with hk | hk
          · rw [hk]
            exact (h0 hk).1
          · exact not_isLMS_lt _ _ hu hn hk
        have hv' : j + k < text.ba.length := by
          rcases hk with hk | hk
          · rw [hk]
            exact (h0 hk).2
          · exact not_isLMS_lt _ _ hv hn (by rw [← he]; exact hk)
        by_cases hs : text.ba.getD (i + k) 0 = text.ba.getD (j + k) 0
        · obtain ⟨m, b, h1, h2, h3, h4, h5⟩ := ih (k + 1) (by omega) (by omega) (by omega)
            (by omega)
          refine ⟨m + 1, b, by omega, by omega, ?_, ?_, h5⟩
          · intro f
            rw [lmsEqLoop_continue text i j _ k hu' hv' he hk,
              if_neg (by rw [bne_iff_ne]; exact not_not.mpr hs)]
            exact h3 f
          · rw [lmsEqLoop_continue text i j _ k hu' hv' he hk,
              if_neg (by rw [bne_iff_ne]; exact not_not.mpr hs)]
            exact h4
        · refine ⟨0, false, hu, hv, ?_, rfl, ?_⟩
          · intro f
            rw [lmsEqLoop_continue text i j _ k hu' hv' he hk,
              if_pos (by rw [bne_iff_ne]; exact hs)]
          · intro e
            exfalso
            apply hs
            rw [e]
      · refine ⟨0, false, hu, hv, fun f => lmsEqLoop_stop_diff text i j _ k hu hv he, rfl, ?_⟩
        intro e
        exfalso
        apply he
        rw [e]

/-- The loop of `LMSSubstringsAreEqual` does not depend on the order of the
two offsets. -/
theorem lmsEqLoop_swap (text : Text) (i j : Nat) (hn : 1 ≤ text.ba.length) :
    ∀ (fuel k : Nat), i + k ≤ text.ba.length → j + k ≤ text.ba.length →
      (k = 0 → i < text.ba.length ∧ j < text.ba.length) →
      lmsEqLoop (types text.ba) text i j fuel k = lmsEqLoop (types text.ba) text j i fuel k := by
  intro fuel
  induction fuel with
  | zero => intro k _ _ _; rfl
  | succ fuel ih =>
    intro k hu hv h0
    by_cases hst : 0 < k ∧ isLMS text.ba (i + k) = true ∧ isLMS text.ba (j + k) = true
    · rw [lmsEqLoop_stop_true text i j _ k hu hv hst.1 hst.2.1 hst.2.2,
        lmsEqLoop_stop_true text j i _ k hv hu hst.1 hst.2.2 hst.2.1]
    · by_cases he : isLMS text.ba (i + k) = isLMS text.ba (j + k)
      · have hk : k = 0 ∨ isLMS text.ba (i + k) = false := by
          by_cases hk0 : k = 0
          · exact Or.inl hk0
          · right
            cases hlu : isLMS text.ba (i + k)
            · rfl
            · exfalso
              apply hst
              exact ⟨by omega, hlu, by rw [← he]; exact hlu⟩
        have hk' : k = 0 ∨ isLMS text.ba (j + k) = false := by
          rcases hk with hk | hk
          · exact Or.inl hk
          · exact Or.inr (by rw [← he]; exact hk)
        have hu' : i + k < text.ba.length := by
          rcases hk with hk | hk
          · rw [hk]
            exact (h0 hk).1
          · exact not_isLMS_lt _ _ hu hn hk
        have hv' : j + k < text.ba.length := by
          rcases hk' with hk | hk
          · rw [hk]
            exact (h0 hk).2
          · exact not_isLMS_lt _ _ hv hn hk
        rw [lmsEqLoop_continue text i j _ k hu' hv' he hk,
          lmsEqLoop_continue text j i _ k hv' hu' he.symm hk']
        by_cases hs : text.ba.getD (i + k) 0 = text.ba.getD (j + k) 0
        · rw [if_neg (by rw [bne_iff_ne]; exact not_not.mpr hs),
            if_neg (by rw [bne_iff_ne]; exact not_not.mpr hs.symm)]
          exact ih (k + 1) (by omega) (by omega) (by omega)
        · rw [if_pos (by rw [bne_iff_ne]; exact hs),
            if_pos (by rw [bne_iff_ne]; exact fun e => hs e.symm)]
      · rw [lmsEqLoop_stop_diff text i j _ k hu hv he,
          lmsEqLoop_stop_diff text j i _ k hv hu (fun e => he e.symm)]

/-- C39: for a text `T` of length `n ≥ 1` with the type map of `BuildTypeMap`
and any offsets `i` and `j`, so for all `i, j ≤ n`, LMS or not,
`LMSSubstringsAreEqual(T, i, j)` returns a boolean
`b`, not an error (a read of a type bit or of a symbol beyond the text is an
error of `IsLMS` and `SymbolAt`, so none takes place).  When both offsets
are inside the text, the loop returns at a loop variable `k` with
`max(i, j) + k ≤ n`: `k + 1` iterations give `b` and `k` iterations are not
enough.  The answer for `(i, i)` is `true` and the answer for `(j, i)` is the
answer for `(i, j)`. -/
theorem LMSSubstringsAreEqual_total (text : Text) (i j : Nat) (hn : 1 ≤ text.Len) :
    ∃ b, TypeMap.LMSSubstringsAreEqual (BuildTypeMap text) text i j = .ok b ∧
      (i < text.Len → j < text.Len →
        ∃ k, max i j + k ≤ text.Len ∧
          lmsEqLoop (BuildTypeMap text) text i j (k + 1) 0 = .ok b ∧
          lmsEqLoop (BuildTypeMap text) text i j k 0 = .error .fuel) ∧
      TypeMap.LMSSubstringsAreEqual (BuildTypeMap text) text i i = .ok true ∧
      TypeMap.LMSSubstringsAreEqual (BuildTypeMap text) text j i = .ok b := by
  rw [BuildTypeMap_eq]
  unfold Text.Len at hn
  have hrefl : TypeMap.LMSSubstringsAreEqual (types text.ba) text i i = .ok true := by
    unfold TypeMap.LMSSubstringsAreEqual Text.Len
    simp only []
    by_cases hg : i ≥ text.ba.length ∨ i ≥ text.ba.length
    · rw [if_pos hg, beq_self_eq_true]
    · rw [if_neg hg]
      obtain ⟨m, b, h1, _, h3, _, h5⟩ := lmsEqLoop_stops text i i hn (text.ba.length + 1) 0
        (by omega) (by omega) (by omega) (fun _ => ⟨by omega, by omega⟩)
      have e : 2 + text.ba.length = (text.ba.length + 1 - m + m) + 1 := by omega
      rw [e, h3, h5 rfl]
  unfold TypeMap.LMSSubstringsAreEqual Text.Len
  simp only []
  by_cases hg : i ≥ text.ba.length ∨ j ≥ text.ba.length
  · rw [if_pos hg, if_pos (Or.symm hg)]
    refine ⟨i == j, rfl, fun h1 h2 => by omega, ?_, ?_⟩
    · unfold TypeMap.LMSSubstringsAreEqual Text.Len at hrefl
      exact hrefl
    · have hc : (j == i) = (i == j) := by
        by_cases hij : i = j
        · rw [hij]
        · rw [beq_eq_false_iff_ne.mpr hij, beq_eq_false_iff_ne.mpr (fun e => hij e.symm)]
      rw [hc]
  · rw [if_neg hg, if_neg (fun h => hg (Or.symm h))]
    obtain ⟨m, b, h1, h2, h3, h4, _⟩ := lmsEqLoop_stops text i j hn (text.ba.length + 1) 0
      (by omega) (by omega) (by omega) (fun _ => ⟨by omega, by omega⟩)
    have e : 2 + text.ba.length = (text.ba.length + 1 - m + m) + 1 := by omega
    refine ⟨b, by rw [e]; exact h3 _, ?_, ?_, ?_⟩
    · intro _ _
      refine ⟨m, ?_, ?_, h4⟩
      · rw [Nat.zero_add] at h1 h2
        exact Nat.add_le_of_le_sub (by omega) (by
          rw [Nat.le_sub_iff_add_le (by omega)]
          rcases Nat.le_total i j with hij | hij
          · rw [Nat.max_eq_right hij, Nat.add_comm]; omega
          · rw [Nat.max_eq_left hij, Nat.add_comm]; omega)
      · have := h3 0
        rw [Nat.zero_add] at this
        exact this
    · unfold TypeMap.LMSSubstringsAreEqual Text.Len at hrefl
      exact hrefl
    · rw [← lmsEqLoop_swap text i j hn _ 0 (by omega) (by omega) (fun _ => ⟨by omega, by omega⟩),
        e]
      exact h3 _

/-- Witness for `LMSSubstringsAreEqual_total`: the offsets 1 and 3 of the byte
text `"banana"`. -/
theorem LMSSubstringsAreEqual_total_witness :
    1 ≤ (NewTextFromString [98, 97, 110, 97, 110, 97]).Len ∧
    ∃ b, TypeMap.LMSSubstringsAreEqual (BuildTypeMap (NewTextFromString [98, 97, 110, 97, 110, 97]))
        (NewTextFromString [98, 97, 110, 97, 110, 97]) 1 3 = .ok b ∧
      TypeMap.LMSSubstringsAreEqual (BuildTypeMap (NewTextFromString [98, 97, 110, 97, 110, 97]))
        (NewTextFromString [98, 97, 110, 97, 110, 97]) 3 1 = .ok b := by
  obtain ⟨b, h1, _, _, h4⟩ := LMSSubstringsAreEqual_total
    (NewTextFromString [98, 97, 110, 97, 110, 97]) 1 3 (by decide)
  exact ⟨by decide, b, h1, h4⟩

/-! # What `LMSSubstringsAreEqual` compares -/

theorem nextLMSFrom_spec (T : List Nat) : ∀ (fuel q : Nat),
    q ≤ nextLMSFrom T fuel q ∧ nextLMSFrom T fuel q ≤ q + fuel ∧
    (∀ x, q ≤ x → x < nextLMSFrom T fuel q → isLMS T x = false) ∧
    (nextLMSFrom T fuel q < q + fuel → isLMS T (nextLMSFrom T fuel q) = true) := by
  intro fuel
  induction fuel with
  | zero =>
    intro q
    exact ⟨Nat.le_refl _, Nat.le_refl _, fun x h1 h2 => by simp only [nextLMSFrom] at h2; omega,
      fun h => by simp only [nextLMSFrom] at h; omega⟩
  | succ fuel ih =>
    intro q
    rw [nextLMSFrom]
    by_cases hq : isLMS T q = true
    · rw [if_pos hq]
      exact ⟨Nat.le_refl _, by omega, fun x h1 h2 => by omega, fun _ => hq⟩
    · rw [if_neg hq]
      obtain ⟨a, b, c, d⟩ := ih (q + 1)
      refine ⟨by omega, by omega, ?_, fun h => d (by omega)⟩
      intro x h1 h2
      by_cases hx : x = q
      · rw [hx]
        exact Bool.eq_false_iff.mpr hq
      · exact c x (by omega) h2

/-- The next LMS offset after an offset inside the text: it lies after it, at
most at the end of the text, it is an LMS offset and none lies between. -/
theorem nextLMS_spec (T : List Nat) (p : Nat) (hp : p < T.length) :
    p < nextLMS T p ∧ nextLMS T p ≤ T.length ∧ isLMS T (nextLMS T p) = true ∧
    ∀ x, p < x → x < nextLMS T p → isLMS T x = false := by
  obtain ⟨a, b, c, d⟩ := nextLMSFrom_spec T (T.length - (p + 1)) (p + 1)
  unfold nextLMS
  refine ⟨by omega, by omega, ?_, fun x h1 h2 => c x (by omega) h2⟩
  by_cases he : nextLMSFrom T (T.length - (p + 1)) (p + 1) < p + 1 + (T.length - (p + 1))
  · exact d he
  · have e : nextLMSFrom T (T.length - (p + 1)) (p + 1) = T.length := by omega
    rw [e]
    exact isLMS_length T (by omega)

theorem nextLMS_eq (T : List Nat) (p l : Nat) (hl : 1 ≤ l) (hn : p + l ≤ T.length)
    (hend : isLMS T (p + l) = true)
    (hmid : ∀ k, 1 ≤ k → k < l → isLMS T (p + k) = false) : nextLMS T p = p + l := by
  obtain ⟨a, b, c, d⟩ := nextLMS_spec T p (by omega)
  by_contra hne
  rcases Nat.lt_or_gt_of_ne hne with h | h
  · have := hmid (nextLMS T p - p) (by omega) (by omega)
    rw [show p + (nextLMS T p - p) = nextLMS T p by omega, c] at this
    exact absurd this (by decide)
  · have := d (p + l) (by omega) h
    rw [hend] at this
    exact absurd this (by decide)

theorem lmsBlock_length (T : List Nat) (p : Nat) (hp : p < T.length) :
    (lmsBlock T p).length = nextLMS T p - p := by
  obtain ⟨a, b, _, _⟩ := nextLMS_spec T p hp
  unfold lmsBlock
  rw [List.length_take, List.length_drop]
  omega

theorem lmsBlock_getD (T : List Nat) (p k : Nat) (hk : k < nextLMS T p - p) :
    (lmsBlock T p).getD k 0 = T.getD (p + k) 0 := by
  unfold lmsBlock
  rw [List.getD_eq_getElem?_getD, List.getElem?_take_of_lt hk, ← List.getD_eq_getElem?_getD,
    getD_drop_add]

theorem lmsBlock_end (T : List Nat) : lmsBlock T T.length = [] := by
  unfold lmsBlock
  rw [List.drop_length, List.take_nil]

/-- Two LMS substrings agree in the sense of `BlockEq` exactly when they are
the same sequence of symbols once the closing symbol is left out. -/
theorem BlockEq_iff_lmsBlock (T : List Nat) (u v : Nat) (hu : u < T.length) (hv : v < T.length) :
    BlockEq T u v ↔ lmsBlock T u = lmsBlock T v := by
  constructor
  · rintro ⟨l, h1, h2, h3, h4, h5, h6, h7⟩
    have eu := nextLMS_eq T u l h1 h2 h4 (fun k a b => (h6 k a b).1)
    have ev := nextLMS_eq T v l h1 h3 h5 (fun k a b => (h6 k a b).2)
    apply list_ext_getD _ _ l
    · rw [lmsBlock_length T u hu, eu]
      omega
    · rw [lmsBlock_length T v hv, ev]
      omega
    · intro x hx
      rw [lmsBlock_getD T u x (by rw [eu]; omega), lmsBlock_getD T v x (by rw [ev]; omega)]
      exact h7 x hx
  · intro he
    obtain ⟨a1, a2, a3, a4⟩ := nextLMS_spec T u hu
    obtain ⟨b1, b2, b3, b4⟩ := nextLMS_spec T v hv
    have hlen : nextLMS T u - u = nextLMS T v - v := by
      rw [← lmsBlock_length T u hu, ← lmsBlock_length T v hv, he]
    refine ⟨nextLMS T u - u, by omega, by omega, by omega, ?_, ?_, ?_, ?_⟩
    · rw [show u + (nextLMS T u - u) = nextLMS T u by omega]
      exact a3
    · rw [hlen, show v + (nextLMS T v - v) = nextLMS T v by omega]
      exact b3
    · intro k hk1 hk2
      exact ⟨a4 (u + k) (by omega) (by omega), b4 (v + k) (by omega) (by omega)⟩
    · intro k hk
      rw [← lmsBlock_getD T u k hk, ← lmsBlock_getD T v k (by omega), he]

/-- From an iteration `k ≥ 1` on, the loop of `LMSSubstringsAreEqual` answers
`true` when the two sides agree up to the next LMS offsets and these are
equally far. -/
theorem lmsEqLoop_of_block (text : Text) (i j l : Nat) (hi : i + l ≤ text.ba.length)
    (hj : j + l ≤ text.ba.length) (hei : isLMS text.ba (i + l) = true)
    (hej : isLMS text.ba (j + l) = true)
    (hmid : ∀ k, 1 ≤ k → k < l →
      isLMS text.ba (i + k) = false ∧ isLMS text.ba (j + k) = false)
    (hsym : ∀ k, k < l → text.ba.getD (i + k) 0 = text.ba.getD (j + k) 0) :
    ∀ (m k fuel : Nat), 1 ≤ k → k + m = l → m < fuel →
      lmsEqLoop (types text.ba) text i j fuel k = .ok true := by
  intro m
  induction m with
  | zero =>
    intro k fuel hk hkl hf
    obtain ⟨f, rfl⟩ : ∃ f, fuel = f + 1 := ⟨fuel - 1, by omega⟩
    have e : k = l := by omega
    subst e
    exact lmsEqLoop_stop_true text i j f k hi hj (by omega) hei hej
  | succ m ih =>
    intro k fuel hk hkl hf
    obtain ⟨f, rfl⟩ : ∃ f, fuel = f + 1 := ⟨fuel - 1, by omega⟩
    obtain ⟨m1, m2⟩ := hmid k hk (by omega)
    rw [lmsEqLoop_continue text i j f k (by omega) (by omega) (by rw [m1, m2]) (Or.inr m1),
      if_neg (by rw [bne_iff_ne]; exact not_not.mpr (hsym k (by omega)))]
    exact ih (k + 1) f (by omega) (by omega) (by omega)

/-- C16 (amended): for a text `T` of length `n` with the type map of
`BuildTypeMap` and LMS positions `i, j ≤ n`, `LMSSubstringsAreEqual(T, i, j)`
returns a boolean, and it returns `true` if and only if the two LMS substrings
without their closing symbol are the same sequence of symbols:
`T[i .. i') = T[j .. j')`, where `p'` is the next LMS position after `p` (the
substring at `n` is empty).  The symbols at `i'` and `j'` are not compared.
When `i = n` or `j = n` the answer is `i = j`. -/
theorem LMSSubstringsAreEqual_iff_blocks (text : Text) (i j : Nat) (hi : i ≤ text.Len)
    (hj : j ≤ text.Len) (hli : TypeMap.IsLMS (BuildTypeMap text) i = .ok true)
    (hlj : TypeMap.IsLMS (BuildTypeMap text) j = .ok true) :
    ∃ b, TypeMap.LMSSubstringsAreEqual (BuildTypeMap text) text i j = .ok b ∧
      (b = true ↔ lmsBlock text.ba i = lmsBlock text.ba j) ∧
      (i = text.Len ∨ j = text.Len → b = (i == j)) := by
  rw [BuildTypeMap_eq] at hli hlj ⊢
  unfold Text.Len at hi hj ⊢
  rw [IsLMS_types _ _ hi] at hli
  rw [IsLMS_types _ _ hj] at hlj
  have hli : isLMS text.ba i = true := by injection hli
  have hlj : isLMS text.ba j = true := by injection hlj
  by_cases hg : i ≥ text.ba.length ∨ j ≥ text.ba.length
  · refine ⟨i == j, ?_, ?_, fun _ => rfl⟩
    · unfold TypeMap.LMSSubstringsAreEqual Text.Len
      simp only []
      rw [if_pos hg]
    · by_cases hij : i = j
      · rw [hij, beq_self_eq_true]
        exact ⟨fun _ => rfl, fun _ => rfl⟩
      · rw [beq_eq_false_iff_ne.mpr hij]
        constructor
        · intro h
          exact absurd h (by decide)
        · intro he
          exfalso
          have hlen := congrArg List.length he
          rcases hg with hg | hg
          · have e : i = text.ba.length := by omega
            rw [e, lmsBlock_end, lmsBlock_length _ j (by omega)] at hlen
            have := (nextLMS_spec text.ba j (by omega)).1
            simp only [List.length_nil] at hlen
            omega
          · have e : j = text.ba.length := by omega
            rw [e, lmsBlock_end, lmsBlock_length _ i (by omega)] at hlen
            have := (nextLMS_spec text.ba i (by omega)).1
            simp only [List.length_nil] at hlen
            omega
  · have hi' : i < text.ba.length := by omega
    have hj' : j < text.ba.length := by omega
    obtain ⟨b, hb, h1, _⟩ := LMSSubstringsAreEqual_spec text i j hi' hj' hli hlj
    refine ⟨b, hb, ?_, fun h => by omega⟩
    rw [← BlockEq_iff_lmsBlock _ _ _ hi' hj']
    refine ⟨h1, ?_⟩
    rintro ⟨l, c1, c2, c3, c4, c5, c6, c7⟩
    have hrun : TypeMap.LMSSubstringsAreEqual (types text.ba) text i j = .ok true := by
      unfold TypeMap.LMSSubstringsAreEqual Text.Len
      simp only []
      rw [if_neg hg, show 2 + text.ba.length = (1 + text.ba.length) + 1 by omega,
        lmsEqLoop_continue text i j _ 0 hi' hj' (by rw [Nat.add_zero, Nat.add_zero, hli, hlj])
          (Or.inl rfl),
        if_neg (by rw [bne_iff_ne]; exact not_not.mpr (c7 0 (by omega)))]
      exact lmsEqLoop_of_block text i j l c2 c3 c4 c5 c6 c7 (l - 1) 1 _ (Nat.le_refl _)
        (by omega) (by omega)
    rw [hrun] at hb
    injection hb with e
    exact e.symm

/-- Witness for `LMSSubstringsAreEqual_iff_blocks`: the LMS positions 1 and 3
of the byte text `"babab"`, where the answer is `true`. -/
theorem LMSSubstringsAreEqual_iff_blocks_witness :
    ((1 : Nat) ≤ (NewTextFromString [98, 97, 98, 97, 98]).Len ∧
      (3 : Nat) ≤ (NewTextFromString [98, 97, 98, 97, 98]).Len ∧
      TypeMap.IsLMS (BuildTypeMap (NewTextFromString [98, 97, 98, 97, 98])) 1 = .ok true ∧
      TypeMap.IsLMS (BuildTypeMap (NewTextFromString [98, 97, 98, 97, 98])) 3 = .ok true) ∧
    ∃ b, TypeMap.LMSSubstringsAreEqual (BuildTypeMap (NewTextFromString [98, 97, 98, 97, 98]))
        (NewTextFromString [98, 97, 98, 97, 98]) 1 3 = .ok b ∧
      (b = true ↔ lmsBlock (NewTextFromString [98, 97, 98, 97, 98]).ba 1
        = lmsBlock (NewTextFromString [98, 97, 98, 97, 98]).ba 3) ∧
      (1 = (NewTextFromString [98, 97, 98, 97, 98]).Len ∨
        3 = (NewTextFromString [98, 97, 98, 97, 98]).Len → b = ((1 : Nat) == 3)) :=
  ⟨⟨by decide, by decide, rfl, rfl⟩,
    LMSSubstringsAreEqual_iff_blocks (NewTextFromString [98, 97, 98, 97, 98]) 1 3
      (by decide) (by decide) rfl rfl⟩

/-! # The LCP-LR array for any value of the rounding expression -/

/-- Where the rounding expression yields the exact rounding up and the product
`2*n+1` does not wrap, `BuildLCPLRArrayFrom` is `BuildLCPLRArray`. -/
theorem BuildLCPLRArrayFrom_ceilPow2 (lcp : List Nat)
    (h : 2 * ceilPow2 lcp.length + 1 < 2 ^ 64) :
    BuildLCPLRArrayFrom (ceilPow2 lcp.length) lcp = BuildLCPLRArray lcp := by
  unfold BuildLCPLRArrayFrom BuildLCPLRArray
  rw [Nat.mod_eq_of_lt h]

/-- The result of `BuildLCPLRArray` whatever value `n` the rounding expression
has produced, as long as the `(2n + 1) mod 2^64` cells are at least as many as
the entries of the LCP array: the fill succeeds, a cell differs from
`placeholder` exactly when a call of the fill has its index, and the result is
the filled array up to its last such cell. -/
theorem BuildLCPLRArrayFrom_spec (H : List Nat) (n : Nat) (hN : 2 ≤ H.length)
    (h64 : H.length < 2 ^ 64) (hcap : H.length ≤ (2 * n + 1) % 2 ^ 64)
    (hH : ∀ p, p < H.length → 1 ≤ p → H.getD p 0 < placeholder) :
    ∃ v full len,
      buildLCPLR (64 + H.length) (List.replicate ((2 * n + 1) % 2 ^ 64) placeholder)
        H 0 0 (dec64 H.length) = .ok (v, full) ∧
      full.length = (2 * n + 1) % 2 ^ 64 ∧
      (∀ x, x < full.length →
        (full.getD x 0 ≠ placeholder ↔ ∃ lo hi, Visits 0 0 (dec64 H.length) x lo hi)) ∧
      BuildLCPLRArrayFrom n H = .ok (full.take len) ∧
      (full.take len).length = len ∧ 1 ≤ len ∧ len ≤ (2 * n + 1) % 2 ^ 64 ∧
      (full.take len).getD (len - 1) 0 ≠ placeholder ∧
      (∃ lo hi, Visits 0 0 (dec64 H.length) (len - 1) lo hi) ∧
      ∀ x, len ≤ x → x < (2 * n + 1) % 2 ^ 64 → full.getD x 0 = placeholder := by
  have hH1 : ∀ p, 1 ≤ p → p < H.length → H.getD p 0 < placeholder := fun p a b => hH p b a
  have hB0 : (0 + 2) * (H.length - 1 - 0 + 1) ≤ 2 * H.length := by omega
  obtain ⟨v, L, hrun, hlen, _, _, _, hvis⟩ :=
    buildLCPLR_spec H H.length hH1 (64 + H.length) 0 0 (H.length - 1)
      (List.replicate ((2 * n + 1) % 2 ^ 64) placeholder) (by omega) (by omega) (by omega)
      hB0 (by rw [List.length_replicate]; exact hcap)
  have hframe := buildLCPLR_frame H _ _ _ _ _ _ _ hrun
  rw [List.length_replicate] at hlen
  have hiff : ∀ x, x < L.length →
      (L.getD x 0 ≠ placeholder ↔ ∃ lo hi, Visits 0 0 (H.length - 1) x lo hi) := by
    intro x hx
    constructor
    · intro hne
      by_contra hno
      have h1 := hframe x (fun lo1 hi1 hv => hno ⟨lo1, hi1, hv⟩)
      rw [List.getElem?_replicate, if_pos (by omega)] at h1
      exact hne (getD_of_getElem? h1)
    · rintro ⟨lo, hi, hv⟩
      obtain ⟨v1, h1, h2, _⟩ := hvis x lo hi hv
      rw [getD_of_getElem? h1]
      omega
  obtain ⟨hs1, hs2, hs3⟩ := actualLengthLoop_spec L L.length
  have h0 : 0 < actualLengthLoop L L.length :=
    lt_actualLengthLoop L L.length 0 (by omega)
      ((hiff 0 (by omega)).mpr ⟨0, H.length - 1, Visits.here _ _ _⟩)
  have hlast : (L.take (actualLengthLoop L L.length)).getD (actualLengthLoop L L.length - 1) 0
      = L.getD (actualLengthLoop L L.length - 1) 0 := by
    rw [List.getD_eq_getElem?_getD, List.getD_eq_getElem?_getD,
      List.getElem?_take_of_lt (by omega)]
  rw [dec64_of_pos H.length (by omega) (by omega)]
  refine ⟨v, L, actualLengthLoop L L.length, hrun, hlen, hiff, ?_, ?_, h0,
    by omega, ?_, ?_, ?_⟩
  · unfold BuildLCPLRArrayFrom
    rw [dec64_of_pos H.length (by omega) (by omega), hrun]
  · rw [List.length_take]
    omega
  · rw [hlast]
    exact hs2 h0
  · exact (hiff _ (by omega)).mp (hs2 h0)
  · intro x h1 h2
    exact hs3 x h1 (by omega)

/-- The reads and writes of the fill whatever value `n` the rounding expression
has produced, as long as the `(2n + 1) mod 2^64` cells are at least as many as
the entries of the LCP array: the fill returns; every call `(k, lo, hi)` has
`k + 2 ≤ N`, so its write is inside the array, and `lo < hi ≤ N - 1`; every
index `p` it reads has `lo < p ≤ hi` and lies in `[1, N-1]`. -/
theorem buildLCPLR_accesses (H : List Nat) (n : Nat) (hN : 2 ≤ H.length)
    (h64 : H.length < 2 ^ 64) (hcap : H.length ≤ (2 * n + 1) % 2 ^ 64) :
    ∃ v full,
      buildLCPLR (64 + H.length) (List.replicate ((2 * n + 1) % 2 ^ 64) placeholder)
        H 0 0 (dec64 H.length) = .ok (v, full) ∧
      full.length = (2 * n + 1) % 2 ^ 64 ∧
      ∀ k lo hi, Visits 0 0 (dec64 H.length) k lo hi →
        k + 2 ≤ H.length ∧ k < full.length ∧ lo < hi ∧ hi ≤ H.length - 1 ∧
        (∀ (L : List Nat) (x : Nat), L.length = full.length →
          SetValueAt L k x = .ok (L.set k x)) ∧
        (hi - lo > 3 → lo < lo + (hi - lo) / 2 ∧ lo + (hi - lo) / 2 + 1 ≤ hi) ∧
        ∀ p, lo < p → p ≤ hi →
          1 ≤ p ∧ p ≤ H.length - 1 ∧ ValueAt H p = .ok (H.getD p 0) := by
  have hd := dec64_of_pos H.length (by omega) (by omega)
  obtain ⟨v, L, hrun, hlen⟩ := buildLCPLR_total H H.length (64 + H.length) 0 0 (H.length - 1)
    (List.replicate ((2 * n + 1) % 2 ^ 64) placeholder) (by omega) (by omega) (by omega)
    (by omega) (by rw [List.length_replicate]; exact hcap)
  rw [List.length_replicate] at hlen
  rw [hd]
  refine ⟨v, L, hrun, hlen, ?_⟩
  intro k lo hi hv
  obtain ⟨a, b, c⟩ := Visits_inv H.length H.length hv (by omega) (by omega) (by omega)
  have hk : k + 2 ≤ H.length := by
    have h2 : (k + 2) * 2 ≤ (k + 2) * (hi - lo + 1) := Nat.mul_le_mul_left _ (by omega)
    omega
  refine ⟨hk, by omega, a, by omega, ?_, fun _ => by omega, ?_⟩
  · intro L1 x hL1
    exact SetValueAt_of_lt L1 k x (by omega)
  · intro p hp1 hp2
    exact ⟨by omega, by omega, ValueAt_of_lt H p (by omega)⟩

theorem length_cons_range (m : Nat) : (0 :: List.range m).length = m + 1 := by
  rw [List.length_cons, List.length_range]

theorem getD_zero_cons_range (m p : Nat) (h1 : 1 ≤ p) (hp : p ≤ m) :
    (0 :: List.range m).getD p 0 = p - 1 := by
  obtain ⟨j, rfl⟩ : ∃ j, p = j + 1 := ⟨p - 1, by omega⟩
  rw [List.getD_cons_succ, List.getD_eq_getElem _ 0 (by rw [List.length_range]; omega),
    List.getElem_range, Nat.add_sub_cancel]

/-- C12 (the code departs from it): the LCP array of the text that repeats one
symbol `2^49` times is `0, 0, 1, ..., 2^49 - 1`, of length `N = 2^49 + 1`.
There `math.Log2(float64(N))` is `49.0`, so the first statement of
`BuildLCPLRArray` gives `n = 2^49`, which is below `N`, where the smallest
power of two that is at least `N` is `m = 2^50`.  With that `n` the array has
`2^50 + 1` cells, not `2m + 1 = 2^51 + 1`.  The rest holds: the fill succeeds,
the result is the filled array up to its last cell other than `placeholder`,
and every cell from there on is `placeholder`. -/
theorem BuildLCPLRArray_allocates_half :
    (0 :: List.range (2 ^ 49)).length = 2 ^ 49 + 1 ∧
    2 ^ 49 < (0 :: List.range (2 ^ 49)).length ∧
    (0 :: List.range (2 ^ 49)).length ≤ 2 ^ 50 ∧
    (∀ e, (0 :: List.range (2 ^ 49)).length ≤ 2 ^ e → 50 ≤ e) ∧
    ∃ v full len,
      buildLCPLR (64 + (0 :: List.range (2 ^ 49)).length)
        (List.replicate ((2 * 2 ^ 49 + 1) % 2 ^ 64) placeholder)
        (0 :: List.range (2 ^ 49)) 0 0 (dec64 (0 :: List.range (2 ^ 49)).length)
        = .ok (v, full) ∧
      full.length = 2 ^ 50 + 1 ∧ full.length < 2 * 2 ^ 50 + 1 ∧
      BuildLCPLRArrayFrom (2 ^ 49) (0 :: List.range (2 ^ 49)) = .ok (full.take len) ∧
      1 ≤ len ∧ len ≤ 2 ^ 50 + 1 ∧
      (full.take len).getD (len - 1) 0 ≠ placeholder ∧
      ∀ x, len ≤ x → x < 2 ^ 50 + 1 → full.getD x 0 = placeholder := by
  have hl := length_cons_range (2 ^ 49)
  have hm : (2 * 2 ^ 49 + 1) % 2 ^ 64 = 2 ^ 50 + 1 := by norm_num
  refine ⟨hl, by rw [hl]; omega, by rw [hl]; norm_num, ?_, ?_⟩
  · intro e he
    rw [hl] at he
    by_contra hc
    have := Nat.pow_le_pow_right (by norm_num : 0 < 2) (show e ≤ 49 by omega)
    omega
  · obtain ⟨v, full, len, h1, h2, _, h4, _, h6, h7, h8, _, h10⟩ :=
      BuildLCPLRArrayFrom_spec (0 :: List.range (2 ^ 49)) (2 ^ 49) (by rw [hl]; omega)
        (by rw [hl]; norm_num) (by rw [hl, hm]; norm_num)
        (by
          intro p hp h1
          rw [hl] at hp
          rw [getD_zero_cons_range _ p h1 (by omega)]
          unfold placeholder
          have : (2 : Nat) ^ 49 < 2 ^ 64 - 1 := by norm_num
          omega)
    rw [hm] at h2 h7 h10
    exact ⟨v, full, len, h1, h2, by rw [h2]; norm_num, h4, h6, h7, h8, h10⟩

/-- The cells suffice for every power of two `n` the rounding expression can
yield: from the one just below `N` on, as long as `2n + 1` does not wrap. -/
theorem cells_of_rounding (N n : Nat) (hn : 2 ^ Nat.log 2 N ≤ n) (h63 : n < 2 ^ 63) :
    N ≤ (2 * n + 1) % 2 ^ 64 := by
  have h1 := Nat.lt_pow_succ_log_self (by norm_num : 1 < 2) N
  rw [Nat.pow_succ] at h1
  rw [Nat.mod_eq_of_lt (by omega)]
  omega

/-- C37: for an LCP array of length `N ≥ 2` (a `uint64` length, any
content) and the array that `BuildLCPLRArray` allocates, of
`(2n + 1) mod 2^64` cells for the value `n` of its rounding expression, with
at least `N` cells (so for `n = m`, the smallest power of two that is at least
`N`, and for the `n = m / 2` that the expression yields at `N = 2^49 + 1`):
the fill `buildLCPLR(0, 0, N-1)` returns without error; every call
`(k, lo, hi)` it makes has `k + 2 ≤ N`, so `k` is below the allocated length
and below `2 * 2^e + 1` for every power of two `2^e ≥ N`, its write
`lcplr.SetValueAt(k, _)` is inside the array, and `lo < hi ≤ N - 1`; the
heights it reads are at `mid` and `mid + 1` with `lo < mid` and
`mid + 1 ≤ hi` in a node with `hi - lo > 3` and at `lo + 1 .. hi` in the
others, so every read index `p` has `lo < p ≤ hi`, lies in `[1, N-1]` and
`lcp.ValueAt(p)` succeeds. -/
theorem buildLCPLR_in_range (H : List Nat) (n : Nat) (hN : 2 ≤ H.length)
    (h64 : H.length < 2 ^ 64) (hcap : H.length ≤ (2 * n + 1) % 2 ^ 64) :
    ∃ v full,
      buildLCPLR (64 + H.length) (List.replicate ((2 * n + 1) % 2 ^ 64) placeholder)
        H 0 0 (dec64 H.length) = .ok (v, full) ∧
      full.length = (2 * n + 1) % 2 ^ 64 ∧
      ∀ k lo hi, Visits 0 0 (dec64 H.length) k lo hi →
        k + 2 ≤ H.length ∧ k < full.length ∧
        (∀ e, H.length ≤ 2 ^ e → k < 2 * 2 ^ e + 1) ∧
        lo < hi ∧ hi ≤ H.length - 1 ∧
        (∀ (L : List Nat) (x : Nat), L.length = full.length →
          SetValueAt L k x = .ok (L.set k x)) ∧
        (hi - lo > 3 → lo < lo + (hi - lo) / 2 ∧ lo + (hi - lo) / 2 + 1 ≤ hi) ∧
        ∀ p, lo < p → p ≤ hi →
          1 ≤ p ∧ p ≤ H.length - 1 ∧ ValueAt H p = .ok (H.getD p 0) := by
  obtain ⟨v, full, h1, h2, h3⟩ := buildLCPLR_accesses H n hN h64 hcap
  refine ⟨v, full, h1, h2, ?_⟩
  intro k lo hi hv
  obtain ⟨a, b, c, d, e, f, g⟩ := h3 k lo hi hv
  exact ⟨a, b, fun e1 he1 => by omega, c, d, e, f, g⟩

/-- Witness for `buildLCPLR_in_range`: the LCP array of `"banana"`, seven
entries, with `n = 8`. -/
theorem buildLCPLR_in_range_witness :
    (2 ≤ [0, 0, 1, 3, 0, 0, 2].length ∧ [0, 0, 1, 3, 0, 0, 2].length < 2 ^ 64 ∧
      [0, 0, 1, 3, 0, 0, 2].length ≤ (2 * 8 + 1) % 2 ^ 64) ∧
    ∃ v full,
      buildLCPLR (64 + [0, 0, 1, 3, 0, 0, 2].length)
        (List.replicate ((2 * 8 + 1) % 2 ^ 64) placeholder)
        [0, 0, 1, 3, 0, 0, 2] 0 0 (dec64 [0, 0, 1, 3, 0, 0, 2].length) = .ok (v, full) ∧
      full.length = (2 * 8 + 1) % 2 ^ 64 ∧
      ∀ k lo hi, Visits 0 0 (dec64 [0, 0, 1, 3, 0, 0, 2].length) k lo hi →
        k + 2 ≤ [0, 0, 1, 3, 0, 0, 2].length ∧ k < full.length ∧
        (∀ e, [0, 0, 1, 3, 0, 0, 2].length ≤ 2 ^ e → k < 2 * 2 ^ e + 1) ∧
        lo < hi ∧ hi ≤ [0, 0, 1, 3, 0, 0, 2].length - 1 ∧
        (∀ (L : List Nat) (x : Nat), L.length = full.length →
          SetValueAt L k x = .ok (L.set k x)) ∧
        (hi - lo > 3 → lo < lo + (hi - lo) / 2 ∧ lo + (hi - lo) / 2 + 1 ≤ hi) ∧
        ∀ p, lo < p → p ≤ hi →
          1 ≤ p ∧ p ≤ [0, 0, 1, 3, 0, 0, 2].length - 1 ∧
          ValueAt [0, 0, 1, 3, 0, 0, 2] p = .ok (([0, 0, 1, 3, 0, 0, 2] : List Nat).getD p 0) :=
  ⟨⟨by decide, by decide, by decide⟩,
    buildLCPLR_in_range [0, 0, 1, 3, 0, 0, 2] 8 (by decide) (by decide) (by decide)⟩

/-- The fill at the length `N = 2^49 + 1`, where the first statement of
`BuildLCPLRArray` gives `n = 2^49` and the array has `2^50 + 1` cells instead
of `2m + 1 = 2^51 + 1`, `m = 2^50` being the smallest power of two that is at
least `N`: the fill returns, every call `(k, lo, hi)` has `k + 2 ≤ N`, so its
write is inside the `2^50 + 1` cells, and every index `p` of the LCP array it
reads lies in `[1, N-1]`. -/
theorem buildLCPLR_accesses_short_array :
    (0 :: List.range (2 ^ 49)).length = 2 ^ 49 + 1 ∧
    (∀ e, (0 :: List.range (2 ^ 49)).length ≤ 2 ^ e → 50 ≤ e) ∧
    ∃ v full,
      buildLCPLR (64 + (0 :: List.range (2 ^ 49)).length)
        (List.replicate ((2 * 2 ^ 49 + 1) % 2 ^ 64) placeholder)
        (0 :: List.range (2 ^ 49)) 0 0 (dec64 (0 :: List.range (2 ^ 49)).length)
        = .ok (v, full) ∧
      full.length = 2 ^ 50 + 1 ∧ full.length < 2 * 2 ^ 50 + 1 ∧
      ∀ k lo hi, Visits 0 0 (dec64 (0 :: List.range (2 ^ 49)).length) k lo hi →
        k + 2 ≤ 2 ^ 49 + 1 ∧ k < full.length ∧ lo < hi ∧ hi ≤ 2 ^ 49 ∧
        (∀ (L : List Nat) (x : Nat), L.length = full.length →
          SetValueAt L k x = .ok (L.set k x)) ∧
        ∀ p, lo < p → p ≤ hi →
          1 ≤ p ∧ p ≤ 2 ^ 49 ∧
          ValueAt (0 :: List.range (2 ^ 49)) p = .ok ((0 :: List.range (2 ^ 49)).getD p 0) := by
  have hl := length_cons_range (2 ^ 49)
  have hm : (2 * 2 ^ 49 + 1) % 2 ^ 64 = 2 ^ 50 + 1 := by norm_num
  refine ⟨hl, ?_, ?_⟩
  · intro e he
    rw [hl] at he
    by_contra hc
    have := Nat.pow_le_pow_right (by norm_num : 0 < 2) (show e ≤ 49 by omega)
    omega
  · obtain ⟨v, full, h1, h2, h3⟩ :=
      buildLCPLR_accesses (0 :: List.range (2 ^ 49)) (2 ^ 49) (by rw [hl]; omega)
        (by rw [hl]; norm_num) (by rw [hl, hm]; norm_num)
    rw [hm] at h2
    refine ⟨v, full, h1, h2, by rw [h2]; norm_num, ?_⟩
    intro k lo hi hv
    obtain ⟨a, b, c, d, e, _, g⟩ := h3 k lo hi hv
    rw [hl] at a d g
    refine ⟨a, b, c, by omega, e, ?_⟩
    intro p hp1 hp2
    obtain ⟨g1, g2, g3⟩ := g p hp1 hp2
    exact ⟨g1, by omega, g3⟩

end suffixarray
